import Mathlib

/-! Wire codec of `mpp_processor.pb.go`.

A shallow embedding of the generated marshal / unmarshal / size routines of
`KeyRange`, `Request` and `Response`, with theorems about them.

Modelling conventions.

* A Go `byte` is a `Fin 256`; a `[]byte` is a `List Byte`.  A nil slice and an
  empty slice are both `[]`: the routines only ever look at `len` of a slice or
  append to it, and `if m.XXX_unrecognized != nil` guards a `copy` that writes
  nothing for an empty slice.
* Go's `int` is the 64-bit two's-complement integer: a value of type `int` or
  `int64` is an `Int`, and every operation that can leave the range is wrapped
  by `wrapInt64`.  A `uint64` is a `Nat` kept below `2^64`.
* A function that returns `error`, or that can panic, returns `Except Error _`.
  The constructors `panicIndex`, `panicSlice` and `panicUnreachable` stand for
  Go runtime panics, not for returned errors.  `outOfFuel` is the only outcome
  with no counterpart in the source: loops are run on a fuel counter, and the
  counter running out is reported by `outOfFuel`.
* Messages of other packages (`kvrpcpb.Context`, `errorpb.Error`,
  `kvrpcpb.LockInfo`, `kvrpcpb.ExecDetails`, `sharedbytes.SharedBytes`) are
  parameters: a type together with a `Collaborator` record of its `Size`,
  `MarshalTo` and `Unmarshal`.  Where a theorem is about the bytes of
  `Response.Data`, the parameter is `sharedBytes`, a byte string.
* The decoders `KeyRange.Unmarshal`, `Request.Unmarshal` and `Response.Unmarshal`
  take the byte fields of their receiver as values.  The source writes a byte
  field into the array that its slice already points into, when the capacity
  allows.  For a receiver whose slices overlap neither one another nor the
  input, spare capacity included, this is the same thing, and a fresh message
  is such a receiver.
  `StoredKeyRange.Unmarshal` and `StoredRequest.Unmarshal` are the decoders
  with the slices kept within their arrays; `StoredKeyRange_Unmarshal_val` and
  `StoredRequest_Unmarshal_val` relate the two views.
-/

set_option maxRecDepth 8192

namespace MppProcessor

/-- A Go `byte`. -/
abbrev Byte := Fin 256

/-- Name of a generated message type, as printed in its error messages. -/
inductive MsgName
  | KeyRange | Request | Response
  deriving DecidableEq, Repr

/-- Name of a field, as printed in the "wrong wireType" error. -/
inductive FieldName
  | Start | End | Context | Tp | Data | Ranges
  | RegionError | Locked | OtherError | Range | ExecDetails
  deriving DecidableEq, Repr

/-- Outcomes other than a normal return with a nil error. -/
inductive Error
  /-- `ErrInvalidLengthMppProcessor`: "proto: negative length found during unmarshaling". -/
  | ErrInvalidLengthMppProcessor
  /-- `ErrIntOverflowMppProcessor`: "proto: integer overflow". -/
  | ErrIntOverflowMppProcessor
  /-- `io.ErrUnexpectedEOF`. -/
  | ErrUnexpectedEOF
  /-- "proto: X: wiretype end group for non-group". -/
  | wiretypeEndGroup (msg : MsgName)
  /-- "proto: X: illegal tag %d (wire type %d)", printed with `fieldNum` and `wire`. -/
  | illegalTag (msg : MsgName) (fieldNum : Int) (wire : Nat)
  /-- "proto: wrong wireType = %d for field F". -/
  | wrongWireType (wireType : Nat) (field : FieldName)
  /-- "proto: illegal wireType %d". -/
  | illegalWireType (wireType : Nat)
  /-- An error returned by a message of another package. -/
  | collaborator (code : Nat)
  /-- Runtime panic: index out of range. -/
  | panicIndex
  /-- Runtime panic: slice bounds out of range. -/
  | panicSlice
  /-- The statement `panic("unreachable")`. -/
  | panicUnreachable
  /-- The fuel of a loop of the model ran out. -/
  | outOfFuel
  deriving DecidableEq, Repr

deriving instance DecidableEq for Except

/-- Result of a call: a value, or an `Error`. -/
abbrev Res (α : Type) := Except Error α

/-- Conversion `uint8(v)`. -/
def u8 (v : Nat) : Byte := ⟨v % 256, Nat.mod_lt _ (by decide)⟩

/-- Reinterpretation of a 64-bit pattern as a signed `int` / `int64`. -/
def toInt64 (u : Nat) : Int :=
  if u % 2 ^ 64 < 2 ^ 63 then ((u % 2 ^ 64 : Nat) : Int) else ((u % 2 ^ 64 : Nat) : Int) - 2 ^ 64

/-- Conversion `uint64(x)` of a signed integer: its 64-bit pattern. -/
def toUInt64 (x : Int) : Nat := (x % 2 ^ 64).toNat

/-- Result of an `int` operation whose mathematical value is `x`. -/
def wrapInt64 (x : Int) : Int := toInt64 (toUInt64 x)

/-- Conversion `int32(u)` of a `uint64`: the low 32 bits, read as signed. -/
def toInt32 (u : Nat) : Int :=
  if u % 2 ^ 32 < 2 ^ 31 then ((u % 2 ^ 32 : Nat) : Int) else ((u % 2 ^ 32 : Nat) : Int) - 2 ^ 32

/-! ## Slices and buffers

A buffer's capacity is taken to be its length (`make([]byte, size)` gives such a
buffer, and so does a slice `dAtA[i:]` of one). -/

/-- The slice expression `dAtA[lo:hi]`: it panics unless `0 ≤ lo ≤ hi ≤ cap(dAtA)`. -/
def slice (dAtA : List Byte) (lo : Int) (hi : Int) : Res (List Byte) :=
  if 0 ≤ lo ∧ lo ≤ hi ∧ hi ≤ dAtA.length then .ok ((dAtA.drop lo.toNat).take (hi.toNat - lo.toNat))
  else .error .panicSlice

/-- The slice expression `dAtA[lo:]`: it panics unless `0 ≤ lo ≤ len(dAtA)`. -/
def sliceFrom (dAtA : List Byte) (lo : Int) : Res (List Byte) :=
  if 0 ≤ lo ∧ lo ≤ dAtA.length then .ok (dAtA.drop lo.toNat) else .error .panicSlice

/-- The assignment `dAtA[i] = b`: it panics when `i` is out of range. -/
def setByte (dAtA : List Byte) (i : Nat) (b : Byte) : Res (List Byte) :=
  if i < dAtA.length then .ok (dAtA.set i b) else .error .panicIndex

/-- The call `copy(dAtA[i:], src)`: the slice expression panics when `i > len(dAtA)`;
`copy` writes `min(len(dAtA) - i, len(src))` bytes and returns that count. -/
def copyAt (dAtA : List Byte) (i : Nat) (src : List Byte) : Res (List Byte × Nat) :=
  if i ≤ dAtA.length then
    .ok (dAtA.take i ++ src.take (dAtA.length - i) ++ dAtA.drop (i + min (dAtA.length - i) src.length),
         min (dAtA.length - i) src.length)
  else .error .panicSlice

/-! ## Varint primitives -/

/-- Loop of `encodeVarintMppProcessor`:
`for v >= 1<<7 { dAtA[offset] = uint8(v&0x7f | 0x80); v >>= 7; offset++ }`
followed by `dAtA[offset] = uint8(v); return offset + 1`. -/
def encodeVarintLoop : Nat → List Byte → Nat → Nat → Res (List Byte × Nat)
  | 0, _, _, _ => .error .outOfFuel
  | fuel + 1, dAtA, offset, v =>
    if v ≥ 1 <<< 7 then
      match setByte dAtA offset (u8 (v &&& 0x7f ||| 0x80)) with
      | .error e => .error e
      | .ok dAtA => encodeVarintLoop fuel dAtA (offset + 1) (v >>> 7)
    else
      match setByte dAtA offset (u8 v) with
      | .error e => .error e
      | .ok dAtA => .ok (dAtA, offset + 1)

/-- The function `encodeVarintMppProcessor(dAtA, offset, v)`; returns the buffer
after the writes and the new offset.  A `uint64` needs at most ten groups. -/
def encodeVarintMppProcessor (dAtA : List Byte) (offset : Nat) (v : Nat) : Res (List Byte × Nat) :=
  encodeVarintLoop 10 dAtA offset v

/-- Loop of `sovMppProcessor`: `for { n++; x >>= 7; if x == 0 { break } }`. -/
def sovLoop : Nat → Nat → Nat → Nat
  | 0, _, n => n
  | fuel + 1, x, n => if x >>> 7 = 0 then n + 1 else sovLoop fuel (x >>> 7) (n + 1)

/-- The function `sovMppProcessor(x)` for a `uint64` `x`. -/
def sovMppProcessor (x : Nat) : Nat := sovLoop 10 x 0

/-- The varint reading loop that the decoders inline:
```
for shift := uint(0); ; shift += 7 {
  if shift >= 64 { return ErrIntOverflowMppProcessor }
  if iNdEx >= l { return io.ErrUnexpectedEOF }
  b := dAtA[iNdEx]; iNdEx++
  wire |= (uint64(b) & 0x7F) << shift
  if b < 0x80 { break }
}
```
The first argument counts the iterations left before `shift` leaves `0, 7, .., 63`.
The accumulator is the 64-bit pattern, whatever the declared type (`uint64`,
`int`, `int64`) of the variable. Returns the pattern and the index after the varint. -/
def decodeVarintLoop (dAtA : List Byte) : Nat → Nat → Nat → Nat → Res (Nat × Nat)
  | 0, _, _, _ => .error .ErrIntOverflowMppProcessor
  | k + 1, shift, iNdEx, wire =>
    if shift ≥ 64 then .error .ErrIntOverflowMppProcessor
    else
      match dAtA[iNdEx]? with
      | none => .error .ErrUnexpectedEOF
      | some b =>
        let wire := wire ||| ((b.val &&& 0x7F) <<< shift) % 2 ^ 64
        if b.val < 0x80 then .ok (wire, iNdEx + 1)
        else decodeVarintLoop dAtA k (shift + 7) (iNdEx + 1) wire

/-- A varint read at `iNdEx`, starting from `shift = 0` and a zero accumulator. -/
def decodeVarint (dAtA : List Byte) (iNdEx : Nat) : Res (Nat × Nat) :=
  decodeVarintLoop dAtA 10 0 iNdEx 0

/-! ## Pieces shared by the three decoders -/

/-- A tag read at the head of a loop iteration: the `wire` varint, then
```
fieldNum := int32(wire >> 3)
wireType := int(wire & 0x7)
if wireType == 4 { return fmt.Errorf("proto: X: wiretype end group for non-group") }
if fieldNum <= 0 { return fmt.Errorf("proto: X: illegal tag %d (wire type %d)", fieldNum, wire) }
```
Returns `fieldNum`, `wireType` and the index after the tag. -/
def readTag (name : MsgName) (dAtA : List Byte) (iNdEx : Nat) : Res (Int × Nat × Nat) :=
  match decodeVarint dAtA iNdEx with
  | .error e => .error e
  | .ok (wire, iNdEx) =>
    let fieldNum := toInt32 (wire >>> 3)
    let wireType := wire &&& 0x7
    if wireType = 4 then .error (.wiretypeEndGroup name)
    else if fieldNum ≤ 0 then .error (.illegalTag name fieldNum wire)
    else .ok (fieldNum, wireType, iNdEx)

/-- The payload of a length-delimited field, read at `iNdEx` (just after the tag):
```
var byteLen int
for shift := uint(0); ; shift += 7 { .. byteLen |= (int(b) & 0x7F) << shift .. }
if byteLen < 0 { return ErrInvalidLengthMppProcessor }
postIndex := iNdEx + byteLen
if postIndex > l { return io.ErrUnexpectedEOF }
.. dAtA[iNdEx:postIndex] ..
iNdEx = postIndex
```
Returns the slice `dAtA[iNdEx:postIndex]` and `postIndex`. -/
def readLengthDelimited (dAtA : List Byte) (iNdEx : Nat) : Res (List Byte × Nat) :=
  match decodeVarint dAtA iNdEx with
  | .error e => .error e
  | .ok (raw, iNdEx) =>
    let byteLen := toInt64 raw
    if byteLen < 0 then .error .ErrInvalidLengthMppProcessor
    else
      let postIndex := wrapInt64 (iNdEx + byteLen)
      if postIndex > dAtA.length then .error .ErrUnexpectedEOF
      else
        match slice dAtA iNdEx postIndex with
        | .error e => .error e
        | .ok s => .ok (s, postIndex.toNat)

/-! ## `skipMppProcessor` -/

/-- The loop of `case 3` (start group) of `skipMppProcessor`:
```
for {
  var innerWire uint64
  var start int = iNdEx
  for shift := uint(0); ; shift += 7 { .. innerWire |= (uint64(b) & 0x7F) << shift .. }
  innerWireType := int(innerWire & 0x7)
  if innerWireType == 4 { break }
  next, err := skipMppProcessor(dAtA[start:])
  if err != nil { return 0, err }
  iNdEx = start + next
}
return iNdEx, nil
```
`skip` is the recursive call.  With a negative `iNdEx` the varint loop passes its
two guards (`shift >= 64`, `iNdEx >= l`) and `dAtA[iNdEx]` panics. -/
def skipGroupLoop (skip : List Byte → Res Int) (dAtA : List Byte) : Nat → Int → Res Int
  | 0, _ => .error .outOfFuel
  | fuel + 1, iNdEx =>
    let start := iNdEx
    if iNdEx < 0 then .error .panicIndex
    else
      match decodeVarint dAtA iNdEx.toNat with
      | .error e => .error e
      | .ok (innerWire, iNdEx) =>
        let innerWireType := innerWire &&& 0x7
        if innerWireType = 4 then .ok iNdEx
        else
          match sliceFrom dAtA start with
          | .error e => .error e
          | .ok rest =>
            match skip rest with
            | .error e => .error e
            | .ok next => skipGroupLoop skip dAtA fuel (wrapInt64 (start + next))

/-- The function `skipMppProcessor` on a fuel counter.  Its outer loop
`for iNdEx < l` returns in its first iteration, so it is an `if`; on an empty
input the function reaches `panic("unreachable")`.  In `case 0` the loop reads
one varint and keeps only the index.  In `case 2` the addition
`iNdEx += length` comes before the test `length < 0`. -/
def skipFuel : Nat → List Byte → Res Int
  | 0, _ => .error .outOfFuel
  | fuel + 1, dAtA =>
    if 0 < dAtA.length then
      match decodeVarint dAtA 0 with
      | .error e => .error e
      | .ok (wire, iNdEx) =>
        let wireType := wire &&& 0x7
        if wireType = 0 then
          match decodeVarint dAtA iNdEx with
          | .error e => .error e
          | .ok (_, iNdEx) => .ok iNdEx
        else if wireType = 1 then .ok (wrapInt64 (iNdEx + 8))
        else if wireType = 2 then
          match decodeVarint dAtA iNdEx with
          | .error e => .error e
          | .ok (raw, iNdEx) =>
            let length := toInt64 raw
            let iNdEx := wrapInt64 (iNdEx + length)
            if length < 0 then .error .ErrInvalidLengthMppProcessor
            else .ok iNdEx
        else if wireType = 3 then skipGroupLoop (skipFuel fuel) dAtA fuel iNdEx
        else if wireType = 4 then .ok iNdEx
        else if wireType = 5 then .ok (wrapInt64 (iNdEx + 4))
        else .error (.illegalWireType wireType)
    else .error .panicUnreachable

/-- The function `skipMppProcessor(dAtA)`.  Every recursive call is on a strictly
shorter slice and every turn of the group loop moves forward, so twice the
length is fuel enough. -/
def skipMppProcessor (dAtA : List Byte) : Res Int :=
  skipFuel (2 * dAtA.length + 1) dAtA

/-- The `default:` case of the three decoders:
```
iNdEx = preIndex
skippy, err := skipMppProcessor(dAtA[iNdEx:])
if err != nil { return err }
if skippy < 0 { return ErrInvalidLengthMppProcessor }
if (iNdEx + skippy) > l { return io.ErrUnexpectedEOF }
m.XXX_unrecognized = append(m.XXX_unrecognized, dAtA[iNdEx:iNdEx+skippy]...)
iNdEx += skippy
```
Returns the bytes appended to `XXX_unrecognized` and the new index. -/
def skipUnknown (dAtA : List Byte) (preIndex : Nat) : Res (List Byte × Nat) :=
  let iNdEx := preIndex
  match sliceFrom dAtA iNdEx with
  | .error e => .error e
  | .ok rest =>
    match skipMppProcessor rest with
    | .error e => .error e
    | .ok skippy =>
      if skippy < 0 then .error .ErrInvalidLengthMppProcessor
      else if wrapInt64 (iNdEx + skippy) > dAtA.length then .error .ErrUnexpectedEOF
      else
        match slice dAtA iNdEx (wrapInt64 (iNdEx + skippy)) with
        | .error e => .error e
        | .ok s => .ok (s, (wrapInt64 (iNdEx + skippy)).toNat)

/-- The loop shared by the three `Unmarshal` functions, `step` being its body:
```
for iNdEx < l { .. }
if iNdEx > l { return io.ErrUnexpectedEOF }
return nil
```
-/
def unmarshalLoop {M : Type} (step : M → Nat → Res (M × Nat)) (l : Nat) : Nat → M → Nat → Res M
  | 0, m, iNdEx =>
    if iNdEx < l then .error .outOfFuel
    else if iNdEx > l then .error .ErrUnexpectedEOF
    else .ok m
  | fuel + 1, m, iNdEx =>
    if iNdEx < l then
      match step m iNdEx with
      | .error e => .error e
      | .ok (m, iNdEx) => unmarshalLoop step l fuel m iNdEx
    else if iNdEx > l then .error .ErrUnexpectedEOF
    else .ok m

/-! ## Messages of other packages -/

/-- What the codec uses of a message type `T` of another package. -/
structure Collaborator (T : Type) where
  /-- The zero value `&T{}` that a decoder allocates. -/
  zero : T
  /-- The method `Size()`. -/
  Size : T → Nat
  /-- The method `MarshalTo(dAtA)`: the count it returns and the buffer after its writes. -/
  MarshalTo : T → List Byte → Res (Nat × List Byte)
  /-- The method `Unmarshal(dAtA)` on a receiver. -/
  Unmarshal : T → List Byte → Res T

/-- The call `msg.MarshalTo(dAtA[i:])` of a nested message whose `MarshalTo` is
`marshalTo`, followed by `i += n`: the writes land in the shared backing array. -/
def marshalNested (marshalTo : List Byte → Res (Nat × List Byte)) (dAtA : List Byte) (i : Nat) :
    Res (List Byte × Nat) :=
  match sliceFrom dAtA i with
  | .error e => .error e
  | .ok sub =>
    match marshalTo sub with
    | .error e => .error e
    | .ok (n, sub) => .ok (dAtA.take i ++ sub, i + n)

/-- A length-delimited field written at `i`: the tag byte, the varint of `size`,
then the payload through `write`:
```
dAtA[i] = tag
i++
i = encodeVarintMppProcessor(dAtA, i, uint64(size))
.. write ..
```
-/
def marshalField (tag : Byte) (size : Nat) (write : List Byte → Nat → Res (List Byte × Nat))
    (dAtA : List Byte) (i : Nat) : Res (List Byte × Nat) :=
  match setByte dAtA i tag with
  | .error e => .error e
  | .ok dAtA =>
    match encodeVarintMppProcessor dAtA (i + 1) (size % 2 ^ 64) with
    | .error e => .error e
    | .ok (dAtA, i) => write dAtA i

/-- The contribution `l = f.Size(); n += 1 + l + sovMppProcessor(uint64(l))` of a
nested message that is present. -/
def sizeNested {T : Type} (size : T → Nat) : Option T → Nat
  | some f =>
    let l := size f
    1 + l + sovMppProcessor (l % 2 ^ 64)
  | none => 0

/-- A nested message written when it is present:
`if f != nil { dAtA[i] = tag; i++; i = encodeVarintMppProcessor(dAtA, i, uint64(f.Size())); n, err := f.MarshalTo(dAtA[i:]); ..; i += n }`. -/
def marshalOptional {T : Type} (tag : Byte) (size : T → Nat)
    (marshalTo : T → List Byte → Res (Nat × List Byte)) :
    Option T → List Byte → Nat → Res (List Byte × Nat)
  | some f, dAtA, i => marshalField tag (size f) (marshalNested (marshalTo f)) dAtA i
  | none, dAtA, i => .ok (dAtA, i)

/-- A nested message field decoded in place:
`if f == nil { f = &T{} }; if err := f.Unmarshal(dAtA[iNdEx:postIndex]); err != nil { return err }`. -/
def unmarshalOptional {T : Type} (zero : T) (unmarshal : T → List Byte → Res T)
    (f : Option T) (s : List Byte) : Res (Option T) :=
  match unmarshal (f.getD zero) s with
  | .error e => .error e
  | .ok c => .ok (some c)

/-- The statements `dAtA = make([]byte, size)`, `n, err := m.MarshalTo(dAtA)`,
`return dAtA[:n], nil` of the three `Marshal` functions. -/
def marshalWith (size : Nat) (marshalTo : List Byte → Res (Nat × List Byte)) : Res (List Byte) :=
  match marshalTo (List.replicate size 0) with
  | .error e => .error e
  | .ok (n, dAtA) => slice dAtA 0 n

/-! ## `KeyRange` -/

/-- The message `KeyRange`. -/
structure KeyRange where
  /-- Field 1, `start`. -/
  Start : List Byte
  /-- Field 2, `end`. -/
  End : List Byte
  /-- Bytes of the fields that the schema does not know. -/
  XXX_unrecognized : List Byte
  deriving DecidableEq, Repr

namespace KeyRange

/-- The zero value `KeyRange{}`. -/
def zero : KeyRange := ⟨[], [], []⟩

/-- The method `(m *KeyRange) Size()`. -/
def Size (m : KeyRange) : Nat :=
  let n := 0
  let l := m.Start.length
  let n := if l > 0 then n + (1 + l + sovMppProcessor (l % 2 ^ 64)) else n
  let l := m.End.length
  let n := if l > 0 then n + (1 + l + sovMppProcessor (l % 2 ^ 64)) else n
  n + m.XXX_unrecognized.length

/-- A `[]byte` field written when it is not empty:
`if len(f) > 0 { dAtA[i] = tag; i++; i = encodeVarintMppProcessor(dAtA, i, uint64(len(f))); i += copy(dAtA[i:], f) }`. -/
def marshalBytes (tag : Byte) (f : List Byte) (dAtA : List Byte) (i : Nat) : Res (List Byte × Nat) :=
  if f.length > 0 then
    marshalField tag f.length
      (fun dAtA i => match copyAt dAtA i f with
        | .error e => .error e
        | .ok (dAtA, n) => .ok (dAtA, i + n)) dAtA i
  else .ok (dAtA, i)

/-- The method `(m *KeyRange) MarshalTo(dAtA)`: the count and the buffer after the writes. -/
def MarshalTo (m : KeyRange) (dAtA : List Byte) : Res (Nat × List Byte) :=
  match marshalBytes 0xa m.Start dAtA 0 with
  | .error e => .error e
  | .ok (dAtA, i) =>
    match marshalBytes 0x12 m.End dAtA i with
    | .error e => .error e
    | .ok (dAtA, i) =>
      match copyAt dAtA i m.XXX_unrecognized with
      | .error e => .error e
      | .ok (dAtA, n) => .ok (i + n, dAtA)

/-- The method `(m *KeyRange) Marshal()`. -/
def Marshal (m : KeyRange) : Res (List Byte) :=
  marshalWith m.Size m.MarshalTo

/-- One turn of the loop of `(m *KeyRange) Unmarshal`: the tag, then the `switch fieldNum`.
The byte fields are values: `m.Start = append(m.Start[:0], ..)` gives the field its new
value and leaves the other fields alone, which is what the source does when the slices of the
receiver do not overlap.  `StoredKeyRange.unmarshalField` is the same turn on slices within
arrays. -/
def unmarshalField (dAtA : List Byte) (m : KeyRange) (iNdEx : Nat) : Res (KeyRange × Nat) :=
  let preIndex := iNdEx
  match readTag .KeyRange dAtA iNdEx with
  | .error e => .error e
  | .ok (fieldNum, wireType, iNdEx) =>
    if fieldNum = 1 then
      if wireType ≠ 2 then .error (.wrongWireType wireType .Start)
      else
        match readLengthDelimited dAtA iNdEx with
        | .error e => .error e
        | .ok (s, postIndex) => .ok ({ m with Start := s }, postIndex)
    else if fieldNum = 2 then
      if wireType ≠ 2 then .error (.wrongWireType wireType .End)
      else
        match readLengthDelimited dAtA iNdEx with
        | .error e => .error e
        | .ok (s, postIndex) => .ok ({ m with End := s }, postIndex)
    else
      match skipUnknown dAtA preIndex with
      | .error e => .error e
      | .ok (s, iNdEx) => .ok ({ m with XXX_unrecognized := m.XXX_unrecognized ++ s }, iNdEx)

/-- The method `(m *KeyRange) Unmarshal(dAtA)` on the receiver `m`.  Every turn of
the loop moves `iNdEx` forward, so `len(dAtA)` turns are fuel enough. -/
def Unmarshal (m : KeyRange) (dAtA : List Byte) : Res KeyRange :=
  unmarshalLoop (unmarshalField dAtA) dAtA.length dAtA.length m 0

end KeyRange

/-! ## `Request` -/

/-- The message `Request`; `Ctx` stands for `kvrpcpb.Context`.  A nil pointer is
`none`.  The elements of `Ranges` are taken to be non-nil. -/
structure Request (Ctx : Type) where
  /-- Field 1, `context`. -/
  Context : Option Ctx
  /-- Field 2, `tp`, an `int64`. -/
  Tp : Int
  /-- Field 3, `data`. -/
  Data : List Byte
  /-- Field 4, `ranges`. -/
  Ranges : List KeyRange
  /-- Bytes of the fields that the schema does not know. -/
  XXX_unrecognized : List Byte
  deriving DecidableEq

namespace Request

variable {Ctx : Type}

/-- The zero value `Request{}`. -/
def zero : Request Ctx := ⟨none, 0, [], [], []⟩

/-- The loop `for _, e := range m.Ranges { l = e.Size(); n += 1 + l + sovMppProcessor(uint64(l)) }`. -/
def sizeRanges : List KeyRange → Nat → Nat
  | [], n => n
  | e :: es, n =>
    let l := e.Size
    sizeRanges es (n + (1 + l + sovMppProcessor (l % 2 ^ 64)))

/-- The method `(m *Request) Size()`. -/
def Size (ctx : Collaborator Ctx) (m : Request Ctx) : Nat :=
  let n := 0
  let n := n + sizeNested ctx.Size m.Context
  let n := if m.Tp ≠ 0 then n + (1 + sovMppProcessor (toUInt64 m.Tp)) else n
  let l := m.Data.length
  let n := if l > 0 then n + (1 + l + sovMppProcessor (l % 2 ^ 64)) else n
  let n := if m.Ranges.length > 0 then sizeRanges m.Ranges n else n
  n + m.XXX_unrecognized.length

/-- The loop of `MarshalTo` over `m.Ranges`:
```
for _, msg := range m.Ranges {
  dAtA[i] = 0x22
  i++
  i = encodeVarintMppProcessor(dAtA, i, uint64(msg.Size()))
  n, err := msg.MarshalTo(dAtA[i:])
  if err != nil { return 0, err }
  i += n
}
```
-/
def marshalRanges : List KeyRange → List Byte → Nat → Res (List Byte × Nat)
  | [], dAtA, i => .ok (dAtA, i)
  | msg :: rest, dAtA, i =>
    match marshalField 0x22 msg.Size (marshalNested msg.MarshalTo) dAtA i with
    | .error e => .error e
    | .ok (dAtA, i) => marshalRanges rest dAtA i

/-- The field `tp` written when it is not zero:
`if m.Tp != 0 { dAtA[i] = 0x10; i++; i = encodeVarintMppProcessor(dAtA, i, uint64(m.Tp)) }`. -/
def marshalTp (tp : Int) (dAtA : List Byte) (i : Nat) : Res (List Byte × Nat) :=
  if tp ≠ 0 then
    match setByte dAtA i 0x10 with
    | .error e => .error e
    | .ok dAtA => encodeVarintMppProcessor dAtA (i + 1) (toUInt64 tp)
  else .ok (dAtA, i)

/-- The method `(m *Request) MarshalTo(dAtA)`. -/
def MarshalTo (ctx : Collaborator Ctx) (m : Request Ctx) (dAtA : List Byte) : Res (Nat × List Byte) :=
  let i := 0
  match marshalOptional 0xa ctx.Size ctx.MarshalTo m.Context dAtA i with
  | .error e => .error e
  | .ok (dAtA, i) =>
    match marshalTp m.Tp dAtA i with
    | .error e => .error e
    | .ok (dAtA, i) =>
      match KeyRange.marshalBytes 0x1a m.Data dAtA i with
      | .error e => .error e
      | .ok (dAtA, i) =>
        match (if m.Ranges.length > 0 then marshalRanges m.Ranges dAtA i else Except.ok (dAtA, i)) with
        | .error e => .error e
        | .ok (dAtA, i) =>
          match copyAt dAtA i m.XXX_unrecognized with
          | .error e => .error e
          | .ok (dAtA, n) => .ok (i + n, dAtA)

/-- The method `(m *Request) Marshal()`. -/
def Marshal (ctx : Collaborator Ctx) (m : Request Ctx) : Res (List Byte) :=
  marshalWith (m.Size ctx) (m.MarshalTo ctx)

/-- One turn of the loop of `(m *Request) Unmarshal`.  In `case 2` the field is
zeroed and the varint is accumulated in `m.Tp`, an `int64`.  In `case 4` a
`&KeyRange{}` is appended to `m.Ranges` and decoded in place.  The byte fields are
values, as in `KeyRange.unmarshalField`; `StoredRequest.unmarshalField` is the same
turn on slices within arrays. -/
def unmarshalField (ctx : Collaborator Ctx) (dAtA : List Byte) (m : Request Ctx) (iNdEx : Nat) :
    Res (Request Ctx × Nat) :=
  let preIndex := iNdEx
  match readTag .Request dAtA iNdEx with
  | .error e => .error e
  | .ok (fieldNum, wireType, iNdEx) =>
    if fieldNum = 1 then
      if wireType ≠ 2 then .error (.wrongWireType wireType .Context)
      else
        match readLengthDelimited dAtA iNdEx with
        | .error e => .error e
        | .ok (s, postIndex) =>
          match ctx.Unmarshal (m.Context.getD ctx.zero) s with
          | .error e => .error e
          | .ok c => .ok ({ m with Context := some c }, postIndex)
    else if fieldNum = 2 then
      if wireType ≠ 0 then .error (.wrongWireType wireType .Tp)
      else
        match decodeVarint dAtA iNdEx with
        | .error e => .error e
        | .ok (raw, iNdEx) => .ok ({ m with Tp := toInt64 raw }, iNdEx)
    else if fieldNum = 3 then
      if wireType ≠ 2 then .error (.wrongWireType wireType .Data)
      else
        match readLengthDelimited dAtA iNdEx with
        | .error e => .error e
        | .ok (s, postIndex) => .ok ({ m with Data := s }, postIndex)
    else if fieldNum = 4 then
      if wireType ≠ 2 then .error (.wrongWireType wireType .Ranges)
      else
        match readLengthDelimited dAtA iNdEx with
        | .error e => .error e
        | .ok (s, postIndex) =>
          match KeyRange.Unmarshal KeyRange.zero s with
          | .error e => .error e
          | .ok r => .ok ({ m with Ranges := m.Ranges ++ [r] }, postIndex)
    else
      match skipUnknown dAtA preIndex with
      | .error e => .error e
      | .ok (s, iNdEx) => .ok ({ m with XXX_unrecognized := m.XXX_unrecognized ++ s }, iNdEx)

/-- The method `(m *Request) Unmarshal(dAtA)` on the receiver `m`. -/
def Unmarshal (ctx : Collaborator Ctx) (m : Request Ctx) (dAtA : List Byte) : Res (Request Ctx) :=
  unmarshalLoop (unmarshalField ctx dAtA) dAtA.length dAtA.length m 0

end Request

/-! ## `Response` -/

/-- The message `Response`; `D`, `E`, `L`, `X` stand for `sharedbytes.SharedBytes`,
`errorpb.Error`, `kvrpcpb.LockInfo` and `kvrpcpb.ExecDetails`.  `Data` is a value,
not a pointer.  A Go `string` is its sequence of bytes. -/
structure Response (D E L X : Type) where
  /-- Field 1, `data`. -/
  Data : D
  /-- Field 2, `region_error`. -/
  RegionError : Option E
  /-- Field 3, `locked`. -/
  Locked : Option L
  /-- Field 4, `other_error`. -/
  OtherError : List Byte
  /-- Field 5, `range`. -/
  Range : Option KeyRange
  /-- Field 6, `exec_details`. -/
  ExecDetails : Option X
  /-- Bytes of the fields that the schema does not know. -/
  XXX_unrecognized : List Byte
  deriving DecidableEq

/-- The collaborators of `Response`. -/
structure ResponseDeps (D E L X : Type) where
  /-- `sharedbytes.SharedBytes`. -/
  data : Collaborator D
  /-- `errorpb.Error`. -/
  regionError : Collaborator E
  /-- `kvrpcpb.LockInfo`. -/
  locked : Collaborator L
  /-- `kvrpcpb.ExecDetails`. -/
  execDetails : Collaborator X

namespace Response

variable {D E L X : Type}

/-- The zero value `Response{}`. -/
def zero (deps : ResponseDeps D E L X) : Response D E L X :=
  ⟨deps.data.zero, none, none, [], none, none, []⟩

/-- The method `(m *Response) Size()`. -/
def Size (deps : ResponseDeps D E L X) (m : Response D E L X) : Nat :=
  let n := 0
  let l := deps.data.Size m.Data
  let n := n + (1 + l + sovMppProcessor (l % 2 ^ 64))
  let n := n + sizeNested deps.regionError.Size m.RegionError
  let n := n + sizeNested deps.locked.Size m.Locked
  let l := m.OtherError.length
  let n := if l > 0 then n + (1 + l + sovMppProcessor (l % 2 ^ 64)) else n
  let n := n + sizeNested KeyRange.Size m.Range
  let n := n + sizeNested deps.execDetails.Size m.ExecDetails
  n + m.XXX_unrecognized.length

/-- The method `(m *Response) MarshalTo(dAtA)`.  Field 1 is written unconditionally. -/
def MarshalTo (deps : ResponseDeps D E L X) (m : Response D E L X) (dAtA : List Byte) :
    Res (Nat × List Byte) :=
  let i := 0
  match marshalField 0xa (deps.data.Size m.Data) (marshalNested (deps.data.MarshalTo m.Data)) dAtA i with
  | .error e => .error e
  | .ok (dAtA, i) =>
    match marshalOptional 0x12 deps.regionError.Size deps.regionError.MarshalTo m.RegionError dAtA i with
    | .error e => .error e
    | .ok (dAtA, i) =>
      match marshalOptional 0x1a deps.locked.Size deps.locked.MarshalTo m.Locked dAtA i with
      | .error e => .error e
      | .ok (dAtA, i) =>
        match KeyRange.marshalBytes 0x22 m.OtherError dAtA i with
        | .error e => .error e
        | .ok (dAtA, i) =>
          match marshalOptional 0x2a KeyRange.Size KeyRange.MarshalTo m.Range dAtA i with
          | .error e => .error e
          | .ok (dAtA, i) =>
            match marshalOptional 0x32 deps.execDetails.Size deps.execDetails.MarshalTo
                m.ExecDetails dAtA i with
            | .error e => .error e
            | .ok (dAtA, i) =>
              match copyAt dAtA i m.XXX_unrecognized with
              | .error e => .error e
              | .ok (dAtA, n) => .ok (i + n, dAtA)

/-- The method `(m *Response) Marshal()`. -/
def Marshal (deps : ResponseDeps D E L X) (m : Response D E L X) : Res (List Byte) :=
  marshalWith (m.Size deps) (m.MarshalTo deps)

/-- One turn of the loop of `(m *Response) Unmarshal`.  In `case 4` the length is
read as a `uint64` and converted by `int(stringLen)`: the same 64-bit pattern. -/
def unmarshalField (deps : ResponseDeps D E L X) (dAtA : List Byte) (m : Response D E L X)
    (iNdEx : Nat) : Res (Response D E L X × Nat) :=
  let preIndex := iNdEx
  match readTag .Response dAtA iNdEx with
  | .error e => .error e
  | .ok (fieldNum, wireType, iNdEx) =>
    if fieldNum = 1 then
      if wireType ≠ 2 then .error (.wrongWireType wireType .Data)
      else
        match readLengthDelimited dAtA iNdEx with
        | .error e => .error e
        | .ok (s, postIndex) =>
          match deps.data.Unmarshal m.Data s with
          | .error e => .error e
          | .ok d => .ok ({ m with Data := d }, postIndex)
    else if fieldNum = 2 then
      if wireType ≠ 2 then .error (.wrongWireType wireType .RegionError)
      else
        match readLengthDelimited dAtA iNdEx with
        | .error e => .error e
        | .ok (s, postIndex) =>
          match unmarshalOptional deps.regionError.zero deps.regionError.Unmarshal m.RegionError s with
          | .error e => .error e
          | .ok c => .ok ({ m with RegionError := c }, postIndex)
    else if fieldNum = 3 then
      if wireType ≠ 2 then .error (.wrongWireType wireType .Locked)
      else
        match readLengthDelimited dAtA iNdEx with
        | .error e => .error e
        | .ok (s, postIndex) =>
          match unmarshalOptional deps.locked.zero deps.locked.Unmarshal m.Locked s with
          | .error e => .error e
          | .ok c => .ok ({ m with Locked := c }, postIndex)
    else if fieldNum = 4 then
      if wireType ≠ 2 then .error (.wrongWireType wireType .OtherError)
      else
        match readLengthDelimited dAtA iNdEx with
        | .error e => .error e
        | .ok (s, postIndex) => .ok ({ m with OtherError := s }, postIndex)
    else if fieldNum = 5 then
      if wireType ≠ 2 then .error (.wrongWireType wireType .Range)
      else
        match readLengthDelimited dAtA iNdEx with
        | .error e => .error e
        | .ok (s, postIndex) =>
          match unmarshalOptional KeyRange.zero KeyRange.Unmarshal m.Range s with
          | .error e => .error e
          | .ok c => .ok ({ m with Range := c }, postIndex)
    else if fieldNum = 6 then
      if wireType ≠ 2 then .error (.wrongWireType wireType .ExecDetails)
      else
        match readLengthDelimited dAtA iNdEx with
        | .error e => .error e
        | .ok (s, postIndex) =>
          match unmarshalOptional deps.execDetails.zero deps.execDetails.Unmarshal m.ExecDetails s with
          | .error e => .error e
          | .ok c => .ok ({ m with ExecDetails := c }, postIndex)
    else
      match skipUnknown dAtA preIndex with
      | .error e => .error e
      | .ok (s, iNdEx) => .ok ({ m with XXX_unrecognized := m.XXX_unrecognized ++ s }, iNdEx)

/-- The method `(m *Response) Unmarshal(dAtA)` on the receiver `m`. -/
def Unmarshal (deps : ResponseDeps D E L X) (m : Response D E L X) (dAtA : List Byte) :
    Res (Response D E L X) :=
  unmarshalLoop (unmarshalField deps dAtA) dAtA.length dAtA.length m 0

end Response

/-! ## A collaborator with nothing in it

Used where a claim is about messages whose nested fields of other packages are
absent: the type has no inhabitant other than `()` and its methods do nothing. -/

/-- A message type with no fields. -/
def emptyCollaborator : Collaborator Unit where
  zero := ()
  Size := fun _ => 0
  MarshalTo := fun _ dAtA => .ok (0, dAtA)
  Unmarshal := fun _ _ => .ok ()

/-! ## A factored view of the decoders

The three loop bodies read a field in the same way and differ in what they do
with it.  `readField` is the reading, parametrised by the schema; `fieldStep` is
a loop body made of `readField` and a store function.  The theorems
`KeyRange_unmarshalField_eq`, `Request_unmarshalField_eq` and
`Response_unmarshalField_eq` show that the loop bodies above are of this form. -/

/-- The two wire types that the schema uses. -/
inductive WireKind
  | varint | bytes
  deriving DecidableEq, Repr

/-- The wire type number of a `WireKind`. -/
def WireKind.wireType : WireKind → Nat
  | .varint => 0
  | .bytes => 2

/-- What a loop body has read after the tag. -/
inductive Payload
  /-- The slice `dAtA[iNdEx:postIndex]` of a known length-delimited field. -/
  | bytes (s : List Byte)
  /-- The 64-bit pattern of a known varint field. -/
  | varint (raw : Nat)
  /-- The raw bytes, tag included, of a field that the schema does not know. -/
  | unknown (s : List Byte)
  deriving DecidableEq, Repr

/-- A schema: the name and the wire type of each known field number. -/
abbrev Schema := Int → Option (FieldName × WireKind)

/-- One field read at `iNdEx`: the tag, the wire type check of a known field, the payload. -/
def readField (name : MsgName) (schema : Schema) (dAtA : List Byte) (iNdEx : Nat) :
    Res (Int × Payload × Nat) :=
  let preIndex := iNdEx
  match readTag name dAtA iNdEx with
  | .error e => .error e
  | .ok (fieldNum, wireType, iNdEx) =>
    match schema fieldNum with
    | some (f, .bytes) =>
      if wireType ≠ 2 then .error (.wrongWireType wireType f)
      else
        match readLengthDelimited dAtA iNdEx with
        | .error e => .error e
        | .ok (s, postIndex) => .ok (fieldNum, .bytes s, postIndex)
    | some (f, .varint) =>
      if wireType ≠ 0 then .error (.wrongWireType wireType f)
      else
        match decodeVarint dAtA iNdEx with
        | .error e => .error e
        | .ok (raw, iNdEx) => .ok (fieldNum, .varint raw, iNdEx)
    | none =>
      match skipUnknown dAtA preIndex with
      | .error e => .error e
      | .ok (s, iNdEx) => .ok (fieldNum, .unknown s, iNdEx)

/-- A loop body: `readField`, then `store` on the receiver. -/
def fieldStep {M : Type} (name : MsgName) (schema : Schema) (store : M → Int → Payload → Res M)
    (dAtA : List Byte) (m : M) (iNdEx : Nat) : Res (M × Nat) :=
  match readField name schema dAtA iNdEx with
  | .error e => .error e
  | .ok (fieldNum, p, iNdEx) =>
    match store m fieldNum p with
    | .error e => .error e
    | .ok m => .ok (m, iNdEx)

/-- The decoder made of `fieldStep`. -/
def decodeWith {M : Type} (name : MsgName) (schema : Schema) (store : M → Int → Payload → Res M)
    (m : M) (dAtA : List Byte) : Res M :=
  unmarshalLoop (fieldStep name schema store dAtA) dAtA.length dAtA.length m 0

/-- The schema of `KeyRange`. -/
def KeyRange.schema : Schema := fun fieldNum =>
  if fieldNum = 1 then some (.Start, .bytes)
  else if fieldNum = 2 then some (.End, .bytes)
  else none

/-- What `(m *KeyRange) Unmarshal` does with a field it has read. -/
def KeyRange.store (m : KeyRange) (fieldNum : Int) : Payload → Res KeyRange
  | .bytes s => if fieldNum = 1 then .ok { m with Start := s } else .ok { m with End := s }
  | .varint _ => .ok m
  | .unknown s => .ok { m with XXX_unrecognized := m.XXX_unrecognized ++ s }

/-- The schema of `Request`. -/
def Request.schema : Schema := fun fieldNum =>
  if fieldNum = 1 then some (.Context, .bytes)
  else if fieldNum = 2 then some (.Tp, .varint)
  else if fieldNum = 3 then some (.Data, .bytes)
  else if fieldNum = 4 then some (.Ranges, .bytes)
  else none

/-- What `(m *Request) Unmarshal` does with a field it has read. -/
def Request.store {Ctx : Type} (ctx : Collaborator Ctx) (m : Request Ctx) (fieldNum : Int) :
    Payload → Res (Request Ctx)
  | .bytes s =>
    if fieldNum = 1 then
      match ctx.Unmarshal (m.Context.getD ctx.zero) s with
      | .error e => .error e
      | .ok c => .ok { m with Context := some c }
    else if fieldNum = 3 then .ok { m with Data := s }
    else
      match KeyRange.Unmarshal KeyRange.zero s with
      | .error e => .error e
      | .ok r => .ok { m with Ranges := m.Ranges ++ [r] }
  | .varint raw => .ok { m with Tp := toInt64 raw }
  | .unknown s => .ok { m with XXX_unrecognized := m.XXX_unrecognized ++ s }

/-- The schema of `Response`. -/
def Response.schema : Schema := fun fieldNum =>
  if fieldNum = 1 then some (.Data, .bytes)
  else if fieldNum = 2 then some (.RegionError, .bytes)
  else if fieldNum = 3 then some (.Locked, .bytes)
  else if fieldNum = 4 then some (.OtherError, .bytes)
  else if fieldNum = 5 then some (.Range, .bytes)
  else if fieldNum = 6 then some (.ExecDetails, .bytes)
  else none

/-- What `(m *Response) Unmarshal` does with a field it has read. -/
def Response.store {D E L X : Type} (deps : ResponseDeps D E L X) (m : Response D E L X)
    (fieldNum : Int) : Payload → Res (Response D E L X)
  | .bytes s =>
    if fieldNum = 1 then
      match deps.data.Unmarshal m.Data s with
      | .error e => .error e
      | .ok d => .ok { m with Data := d }
    else if fieldNum = 2 then
      match unmarshalOptional deps.regionError.zero deps.regionError.Unmarshal m.RegionError s with
      | .error e => .error e
      | .ok c => .ok { m with RegionError := c }
    else if fieldNum = 3 then
      match unmarshalOptional deps.locked.zero deps.locked.Unmarshal m.Locked s with
      | .error e => .error e
      | .ok c => .ok { m with Locked := c }
    else if fieldNum = 4 then .ok { m with OtherError := s }
    else if fieldNum = 5 then
      match unmarshalOptional KeyRange.zero KeyRange.Unmarshal m.Range s with
      | .error e => .error e
      | .ok c => .ok { m with Range := c }
    else
      match unmarshalOptional deps.execDetails.zero deps.execDetails.Unmarshal m.ExecDetails s with
      | .error e => .error e
      | .ok c => .ok { m with ExecDetails := c }
  | .varint _ => .ok m
  | .unknown s => .ok { m with XXX_unrecognized := m.XXX_unrecognized ++ s }

/-! ## The wire format in the words of the specification -/

/-- The varint of `v`: base-128 groups, least significant first, the
continuation bit `0x80` on every byte but the last.  The first argument bounds
the number of continuation bytes. -/
def varintGroups : Nat → Nat → List Byte
  | 0, v => [u8 v]
  | k + 1, v => if v < 128 then [u8 v] else u8 (v % 128 + 128) :: varintGroups k (v / 128)

/-- The varint of an unsigned 64-bit `v`. -/
def varint (v : Nat) : List Byte := varintGroups 9 v

/-- The value that a sequence of base-128 groups stands for. -/
def varintValue : List Byte → Nat
  | [] => 0
  | b :: rest => b.val % 128 + 128 * varintValue rest

/-- A length-delimited field on the wire: tag, varint of the length, content.
The length goes through the conversion `uint64(..)`. -/
def lengthDelimited (tag : Byte) (content : List Byte) : List Byte :=
  tag :: (varint (content.length % 2 ^ 64) ++ content)

/-- A bytes field on the wire; absent when empty. -/
def bytesField (tag : Byte) (f : List Byte) : List Byte :=
  if f.length > 0 then lengthDelimited tag f else []

/-- The known fields of a `KeyRange` on the wire. -/
def KeyRange.knownWire (m : KeyRange) : List Byte :=
  bytesField 0xa m.Start ++ bytesField 0x12 m.End

/-- The encoding of a `KeyRange`: its known fields, then the unknown-field tail. -/
def KeyRange.wire (m : KeyRange) : List Byte :=
  m.knownWire ++ m.XXX_unrecognized

/-- The field `tp` on the wire: tag `0x10` and the varint of `tp` read as unsigned;
absent when `tp` is 0. -/
def Request.tpField (tp : Int) : List Byte :=
  if tp ≠ 0 then 0x10 :: varint (toUInt64 tp) else []

/-- One element of `ranges` on the wire. -/
def Request.rangeField (r : KeyRange) : List Byte :=
  lengthDelimited 0x22 r.wire

/-- A field of a `Request` on the wire, other than `context`. -/
inductive Request.Field
  /-- Field 2 with the value `v`. -/
  | tp (v : Int)
  /-- Field 3 with the content `s`. -/
  | data (s : List Byte)
  /-- Field 4 with the element `r`. -/
  | range (r : KeyRange)
  deriving DecidableEq, Repr

/-- The bytes of a field: tag, then the varint value or the length and the content. -/
def Request.Field.wire : Request.Field → List Byte
  | .tp v => 0x10 :: varint (toUInt64 v)
  | .data s => lengthDelimited 0x1a s
  | .range r => lengthDelimited 0x22 r.wire

/-- The message after a field has been decoded into it: `tp` and `data` are
overwritten, a range is appended. -/
def Request.Field.apply {Ctx : Type} (m : Request Ctx) : Request.Field → Request Ctx
  | .tp v => { m with Tp := v }
  | .data s => { m with Data := s }
  | .range r => { m with Ranges := m.Ranges ++ [r] }

/-- A field that an encoder of this schema can emit: `tp` is an `int64`, a range
has no unknown-field tail. -/
def Request.Field.Valid : Request.Field → Prop
  | .tp v => -2 ^ 63 ≤ v ∧ v < 2 ^ 63
  | .data _ => True
  | .range r => r.XXX_unrecognized = []

/-- The fields of a `Request` without context, in the order of the encoding:
`tp` when it is not 0, `data` when it is not empty, then the ranges. -/
def Request.fields {Ctx : Type} (m : Request Ctx) : List Request.Field :=
  (if m.Tp ≠ 0 then [.tp m.Tp] else []) ++
  (if m.Data.length > 0 then [.data m.Data] else []) ++
  m.Ranges.map .range

/-- The encoding of a `Request` without context. -/
def Request.wire {Ctx : Type} (m : Request Ctx) : List Byte :=
  Request.tpField m.Tp ++ bytesField 0x1a m.Data ++ (m.Ranges.map Request.rangeField).flatten ++
    m.XXX_unrecognized


/-- A writer emits `bs`: on every buffer with room for `bs` at `i`, it overwrites
exactly the bytes `i .. i + len(bs)` with `bs` and returns the index after them. -/
def Emits (w : List Byte → Nat → Res (List Byte × Nat)) (bs : List Byte) : Prop :=
  ∀ (dAtA : List Byte) (i : Nat), i + bs.length ≤ dAtA.length →
    w dAtA i = .ok (dAtA.take i ++ bs ++ dAtA.drop (i + bs.length), i + bs.length)

/-- A `MarshalTo` emits `bs`: on every buffer with room for `bs`, it overwrites the
first `len(bs)` bytes with `bs` and returns `len(bs)`. -/
def EmitsTo (marshalTo : List Byte → Res (Nat × List Byte)) (bs : List Byte) : Prop :=
  ∀ (dAtA : List Byte), bs.length ≤ dAtA.length →
    marshalTo dAtA = .ok (bs.length, bs ++ dAtA.drop bs.length)

/-- A result whose index is moved forward by `n`. -/
def shiftIndex {α : Type} (n : Nat) : Res (α × Nat) → Res (α × Nat)
  | .error e => .error e
  | .ok (x, j) => .ok (x, n + j)

/-! ## The container of `Response.Data` -/

/-- Modelled from the spec: the type `sharedbytes.SharedBytes` of `Response.Data`, declared in
another package of the repository.  It is a byte string: `Size` is its length, `MarshalTo`
copies its bytes to the head of the buffer, `Unmarshal` keeps the bytes it is given. -/
def sharedBytes : Collaborator (List Byte) where
  zero := []
  Size := fun d => d.length
  MarshalTo := fun d dAtA =>
    match copyAt dAtA 0 d with
    | .error e => .error e
    | .ok (dAtA, n) => .ok (n, dAtA)
  Unmarshal := fun _ s => .ok s

/-- The collaborators of a `Response` whose data is a `sharedBytes`. -/
def Response.bytesDeps {E L X : Type} (regionError : Collaborator E) (locked : Collaborator L)
    (execDetails : Collaborator X) : ResponseDeps (List Byte) E L X :=
  ⟨sharedBytes, regionError, locked, execDetails⟩

/-- The field `range` of a `Response` on the wire; absent when the pointer is nil. -/
def Response.rangeField : Option KeyRange → List Byte
  | some r => lengthDelimited 0x2a r.wire
  | none => []

/-- The encoding of a `Response` whose data is a byte string and whose `region_error`,
`locked` and `exec_details` are absent: `data` always, `other_error` when it is not empty,
`range` when it is present, then the unknown-field tail. -/
def Response.wire {E L X : Type} (m : Response (List Byte) E L X) : List Byte :=
  lengthDelimited 0x0a m.Data ++ bytesField 0x22 m.OtherError ++ Response.rangeField m.Range ++
    m.XXX_unrecognized

/-- Two writers run one after the other, the second from where the first stopped. -/
def thenWrite (w1 w2 : List Byte → Nat → Res (List Byte × Nat)) :
    List Byte → Nat → Res (List Byte × Nat) :=
  fun dAtA i =>
    match w1 dAtA i with
    | .error e => .error e
    | .ok (dAtA, i) => w2 dAtA i

/-- The statement `i += copy(dAtA[i:], src)` as a writer. -/
def copyWrite (src : List Byte) : List Byte → Nat → Res (List Byte × Nat) :=
  fun dAtA i =>
    match copyAt dAtA i src with
    | .error e => .error e
    | .ok (dAtA, n) => .ok (dAtA, i + n)

/-- A writer keeps the bytes before its index and does not move backwards. -/
def KeepsPrefix (w : List Byte → Nat → Res (List Byte × Nat)) : Prop :=
  ∀ (dAtA : List Byte) (i : Nat) (out : List Byte) (j : Nat), w dAtA i = .ok (out, j) →
    i ≤ j ∧ out.take i = dAtA.take i

/-! ## The fields of an input, as a decode loop reads them -/

/-- The fields that the decode loop reads from `iNdEx` on, in order: the number of each
field and what was read after its tag.  The list stops where the loop would stop. -/
def readFields (name : MsgName) (schema : Schema) (dAtA : List Byte) :
    Nat → Nat → List (Int × Payload)
  | 0, _ => []
  | fuel + 1, iNdEx =>
    if iNdEx < dAtA.length then
      match readField name schema dAtA iNdEx with
      | .error _ => []
      | .ok (fieldNum, p, iNdEx) => (fieldNum, p) :: readFields name schema dAtA fuel iNdEx
    else []

/-- The fields of an input, in their order of occurrence. -/
def fieldsOf (name : MsgName) (schema : Schema) (dAtA : List Byte) : List (Int × Payload) :=
  readFields name schema dAtA dAtA.length 0

/-- The store function of a decoder applied to a list of fields, in order. -/
def storeAll {M : Type} (store : M → Int → Payload → Res M) : M → List (Int × Payload) → Res M
  | m, [] => .ok m
  | m, (fieldNum, p) :: rest =>
    match store m fieldNum p with
    | .error e => .error e
    | .ok m => storeAll store m rest

/-- The contents of the occurrences of the length-delimited field `n`, in order. -/
def bytesOf (n : Int) : List (Int × Payload) → List (List Byte)
  | [] => []
  | (k, .bytes s) :: rest => if k = n then s :: bytesOf n rest else bytesOf n rest
  | (_, .varint _) :: rest => bytesOf n rest
  | (_, .unknown _) :: rest => bytesOf n rest

/-- The values of the occurrences of the varint field `n`, in order. -/
def varintsOf (n : Int) : List (Int × Payload) → List Nat
  | [] => []
  | (k, .varint raw) :: rest => if k = n then raw :: varintsOf n rest else varintsOf n rest
  | (_, .bytes _) :: rest => varintsOf n rest
  | (_, .unknown _) :: rest => varintsOf n rest

/-- The raw bytes of the unknown fields, in order. -/
def unknownOf : List (Int × Payload) → List Byte
  | [] => []
  | (_, .unknown s) :: rest => s ++ unknownOf rest
  | (_, .bytes _) :: rest => unknownOf rest
  | (_, .varint _) :: rest => unknownOf rest

/-- A field as `readField` returns it: the kind of the payload is the one that the schema
gives to the field number. -/
def Fits (schema : Schema) (x : Int × Payload) : Prop :=
  match x.2 with
  | .bytes _ => ∃ f, schema x.1 = some (f, .bytes)
  | .varint _ => ∃ f, schema x.1 = some (f, .varint)
  | .unknown _ => schema x.1 = none

/-- The element that a field adds to `ranges`, when it is a range. -/
def Request.Field.asRange : Request.Field → Option KeyRange
  | .range r => some r
  | .tp _ => none
  | .data _ => none

/-! ## Slices within arrays

The decoders above take the byte fields of a receiver as values.  The source assigns a byte
field by `m.X = append(m.X[:0], ..)` and extends the tail by
`m.XXX_unrecognized = append(m.XXX_unrecognized, ..)`: both write into the array that the
slice already points into when its capacity allows.  For a receiver whose slices overlap
neither one another nor the input, spare capacity included, the two views agree
(`StoredKeyRange_Unmarshal_val`, `StoredRequest_Unmarshal_val`); they differ when two slices
of the receiver, or a slice of the receiver and the input, overlap.  The definitions of this
section are the decoders of `KeyRange` and `Request` with the slices kept within their
arrays. -/

/-- A Go `[]byte`: the array it points into (`none` for the nil slice), the offset of its
first element in that array, its length and its capacity. -/
structure GoSlice where
  /-- The number of the array, `none` for a nil slice. -/
  arr : Option Nat
  /-- The offset of the first element in the array. -/
  off : Nat
  /-- The value of `len(s)`. -/
  len : Nat
  /-- The value of `cap(s)`. -/
  cap : Nat
  deriving DecidableEq, Repr

/-- The nil slice. -/
def GoSlice.nil : GoSlice := ⟨none, 0, 0, 0⟩

/-- The slice expression `s[lo:hi]`, for `lo ≤ hi ≤ cap(s)`. -/
def GoSlice.sub (s : GoSlice) (lo hi : Nat) : GoSlice :=
  ⟨s.arr, s.off + lo, hi - lo, s.cap - lo⟩

/-- The arrays allocated so far, by number. -/
abbrev Mem := List (List Byte)

/-- The array that a slice points into; a nil slice has none, which reads as no bytes. -/
def Mem.array (mem : Mem) : Option Nat → List Byte
  | none => []
  | some a => mem.getD a []

/-- The bytes `s[0], .., s[len(s)-1]`. -/
def Mem.read (mem : Mem) (s : GoSlice) : List Byte :=
  ((Mem.array mem s.arr).drop s.off).take s.len

/-- The bytes `data` written into an array from index `i` on. -/
def Mem.write (mem : Mem) (arr : Option Nat) (i : Nat) (data : List Byte) : Mem :=
  match arr with
  | none => mem
  | some a => mem.set a ((mem.getD a []).take i ++ data ++ (mem.getD a []).drop (i + data.length))

/-- The call `append(s, data...)`.  When `len(s) + len(data) ≤ cap(s)` the bytes are written
after the elements of `s`, in its array.  Otherwise the runtime allocates an array, copies
`s` and `data` into it and returns a slice of it; the spare capacity it gives the new array
is not fixed by the language and is the parameter `spare` (of the old capacity and the
needed length); the spare bytes are zero. -/
def Mem.append (spare : Nat → Nat → Nat) (mem : Mem) (s : GoSlice) (data : List Byte) :
    Mem × GoSlice :=
  if s.len + data.length ≤ s.cap then
    (Mem.write mem s.arr (s.off + s.len) data, { s with len := s.len + data.length })
  else
    (mem ++ [Mem.read mem s ++ data ++
        List.replicate (spare s.cap (s.len + data.length)) (0 : Byte)],
      ⟨some mem.length, 0, s.len + data.length,
        s.len + data.length + spare s.cap (s.len + data.length)⟩)

/-- The assignment of a byte field:
```
m.X = append(m.X[:0], dAtA[iNdEx:postIndex]...)
if m.X == nil { m.X = []byte{} }
```
The slice `[]byte{}` is a slice, not nil, of an array of no bytes. -/
def Mem.assign (spare : Nat → Nat → Nat) (mem : Mem) (s : GoSlice) (data : List Byte) :
    Mem × GoSlice :=
  match Mem.append spare mem { s with len := 0 } data with
  | (mem, s) => if s.arr = none then (mem ++ [[]], ⟨some mem.length, 0, 0, 0⟩) else (mem, s)

/-- The message `KeyRange` with its byte fields as slices within arrays. -/
structure StoredKeyRange where
  /-- Field 1, `start`. -/
  Start : GoSlice
  /-- Field 2, `end`. -/
  End : GoSlice
  /-- Bytes of the fields that the schema does not know. -/
  XXX_unrecognized : GoSlice
  deriving DecidableEq, Repr

namespace StoredKeyRange

/-- The zero value `KeyRange{}`: three nil slices. -/
def zero : StoredKeyRange := ⟨GoSlice.nil, GoSlice.nil, GoSlice.nil⟩

/-- The fields of the message, read from the arrays. -/
def val (mem : Mem) (m : StoredKeyRange) : KeyRange :=
  ⟨Mem.read mem m.Start, Mem.read mem m.End, Mem.read mem m.XXX_unrecognized⟩

/-- One turn of the loop of `(m *KeyRange) Unmarshal`, as `KeyRange.unmarshalField`, with the
writes of `case 1`, `case 2` and `default` made in the arrays.  The input is read from the
arrays as they are at this turn. -/
def unmarshalField (spare : Nat → Nat → Nat) (dAtA : GoSlice) (st : Mem × StoredKeyRange)
    (iNdEx : Nat) : Res ((Mem × StoredKeyRange) × Nat) :=
  let mem := st.1
  let m := st.2
  let preIndex := iNdEx
  match readTag .KeyRange (Mem.read mem dAtA) iNdEx with
  | .error e => .error e
  | .ok (fieldNum, wireType, iNdEx) =>
    if fieldNum = 1 then
      if wireType ≠ 2 then .error (.wrongWireType wireType .Start)
      else
        match readLengthDelimited (Mem.read mem dAtA) iNdEx with
        | .error e => .error e
        | .ok (s, postIndex) =>
          match Mem.assign spare mem m.Start s with
          | (mem, start) => .ok ((mem, { m with Start := start }), postIndex)
    else if fieldNum = 2 then
      if wireType ≠ 2 then .error (.wrongWireType wireType .End)
      else
        match readLengthDelimited (Mem.read mem dAtA) iNdEx with
        | .error e => .error e
        | .ok (s, postIndex) =>
          match Mem.assign spare mem m.End s with
          | (mem, end_) => .ok ((mem, { m with End := end_ }), postIndex)
    else
      match skipUnknown (Mem.read mem dAtA) preIndex with
      | .error e => .error e
      | .ok (s, iNdEx) =>
        match Mem.append spare mem m.XXX_unrecognized s with
        | (mem, tail) => .ok ((mem, { m with XXX_unrecognized := tail }), iNdEx)

/-- The method `(m *KeyRange) Unmarshal(dAtA)` on the receiver `st.2` in the arrays `st.1`:
the arrays and the receiver after the call.  `l := len(dAtA)` is read once. -/
def Unmarshal (spare : Nat → Nat → Nat) (dAtA : GoSlice) (st : Mem × StoredKeyRange) :
    Res (Mem × StoredKeyRange) :=
  unmarshalLoop (unmarshalField spare dAtA) dAtA.len dAtA.len st 0

end StoredKeyRange

/-- The message `Request` with its byte fields as slices within arrays.  `Context` is a
value, as in `Request`: what `kvrpcpb.Context` keeps in arrays belongs to its package. -/
structure StoredRequest (Ctx : Type) where
  /-- Field 1, `context`. -/
  Context : Option Ctx
  /-- Field 2, `tp`, an `int64`. -/
  Tp : Int
  /-- Field 3, `data`. -/
  Data : GoSlice
  /-- Field 4, `ranges`: the messages that the pointers of the slice point to. -/
  Ranges : List StoredKeyRange
  /-- Bytes of the fields that the schema does not know. -/
  XXX_unrecognized : GoSlice
  deriving DecidableEq

namespace StoredRequest

variable {Ctx : Type}

/-- The zero value `Request{}`. -/
def zero : StoredRequest Ctx := ⟨none, 0, GoSlice.nil, [], GoSlice.nil⟩

/-- The fields of the message, read from the arrays. -/
def val (mem : Mem) (m : StoredRequest Ctx) : Request Ctx :=
  ⟨m.Context, m.Tp, Mem.read mem m.Data, m.Ranges.map (StoredKeyRange.val mem),
    Mem.read mem m.XXX_unrecognized⟩

/-- One turn of the loop of `(m *Request) Unmarshal`, as `Request.unmarshalField`, with the
writes of `case 3` and `default` made in the arrays, and the element of `case 4` decoded
from the slice `dAtA[iNdEx:postIndex]` of the input (the payload `s` has
`postIndex - iNdEx` bytes). -/
def unmarshalField (ctx : Collaborator Ctx) (spare : Nat → Nat → Nat) (dAtA : GoSlice)
    (st : Mem × StoredRequest Ctx) (iNdEx : Nat) : Res ((Mem × StoredRequest Ctx) × Nat) :=
  let mem := st.1
  let m := st.2
  let preIndex := iNdEx
  match readTag .Request (Mem.read mem dAtA) iNdEx with
  | .error e => .error e
  | .ok (fieldNum, wireType, iNdEx) =>
    if fieldNum = 1 then
      if wireType ≠ 2 then .error (.wrongWireType wireType .Context)
      else
        match readLengthDelimited (Mem.read mem dAtA) iNdEx with
        | .error e => .error e
        | .ok (s, postIndex) =>
          match ctx.Unmarshal (m.Context.getD ctx.zero) s with
          | .error e => .error e
          | .ok c => .ok ((mem, { m with Context := some c }), postIndex)
    else if fieldNum = 2 then
      if wireType ≠ 0 then .error (.wrongWireType wireType .Tp)
      else
        match decodeVarint (Mem.read mem dAtA) iNdEx with
        | .error e => .error e
        | .ok (raw, iNdEx) => .ok ((mem, { m with Tp := toInt64 raw }), iNdEx)
    else if fieldNum = 3 then
      if wireType ≠ 2 then .error (.wrongWireType wireType .Data)
      else
        match readLengthDelimited (Mem.read mem dAtA) iNdEx with
        | .error e => .error e
        | .ok (s, postIndex) =>
          match Mem.assign spare mem m.Data s with
          | (mem, data) => .ok ((mem, { m with Data := data }), postIndex)
    else if fieldNum = 4 then
      if wireType ≠ 2 then .error (.wrongWireType wireType .Ranges)
      else
        match readLengthDelimited (Mem.read mem dAtA) iNdEx with
        | .error e => .error e
        | .ok (s, postIndex) =>
          match StoredKeyRange.Unmarshal spare (dAtA.sub (postIndex - s.length) postIndex)
              (mem, StoredKeyRange.zero) with
          | .error e => .error e
          | .ok (mem, r) => .ok ((mem, { m with Ranges := m.Ranges ++ [r] }), postIndex)
    else
      match skipUnknown (Mem.read mem dAtA) preIndex with
      | .error e => .error e
      | .ok (s, iNdEx) =>
        match Mem.append spare mem m.XXX_unrecognized s with
        | (mem, tail) => .ok ((mem, { m with XXX_unrecognized := tail }), iNdEx)

/-- The method `(m *Request) Unmarshal(dAtA)` on the receiver `st.2` in the arrays `st.1`. -/
def Unmarshal (ctx : Collaborator Ctx) (spare : Nat → Nat → Nat) (dAtA : GoSlice)
    (st : Mem × StoredRequest Ctx) : Res (Mem × StoredRequest Ctx) :=
  unmarshalLoop (unmarshalField ctx spare dAtA) dAtA.len dAtA.len st 0

end StoredRequest

/-- A slice of the arrays `mem`: its length is within its capacity, and its capacity within
its array. -/
def GoSlice.Valid (mem : Mem) (s : GoSlice) : Prop :=
  s.len ≤ s.cap ∧ s.off + s.cap ≤ (Mem.array mem s.arr).length

/-- Two slices that no write through one of them can make visible in the other: one of them
has no capacity, or they point into different arrays, or the room of one of them in the array
(its elements and its spare capacity) ends where the room of the other begins, or before. -/
def GoSlice.Apart (s t : GoSlice) : Prop :=
  s.cap = 0 ∨ t.cap = 0 ∨ s.arr ≠ t.arr ∨ s.off + s.cap ≤ t.off ∨ t.off + t.cap ≤ s.off

instance (mem : Mem) (s : GoSlice) : Decidable (s.Valid mem) := by
  unfold GoSlice.Valid; infer_instance

instance (s t : GoSlice) : Decidable (s.Apart t) := by
  unfold GoSlice.Apart; infer_instance

/-- The three byte fields of a `KeyRange`. -/
def StoredKeyRange.slices (m : StoredKeyRange) : List GoSlice :=
  [m.Start, m.End, m.XXX_unrecognized]

/-- A `KeyRange` receiver and an input that do not overlap: the byte fields and the input are
slices of the arrays, the byte fields are apart from one another and from the input. -/
def StoredKeyRange.Owned (mem : Mem) (m : StoredKeyRange) (dAtA : GoSlice) : Prop :=
  (m.Start.Valid mem ∧ m.End.Valid mem ∧ m.XXX_unrecognized.Valid mem ∧ dAtA.Valid mem) ∧
  (m.Start.Apart m.End ∧ m.Start.Apart m.XXX_unrecognized ∧ m.End.Apart m.XXX_unrecognized) ∧
  (m.Start.Apart dAtA ∧ m.End.Apart dAtA ∧ m.XXX_unrecognized.Apart dAtA)

instance (mem : Mem) (m : StoredKeyRange) (dAtA : GoSlice) : Decidable (m.Owned mem dAtA) := by
  unfold StoredKeyRange.Owned; infer_instance

/-- A `Request` receiver and an input that do not overlap: `data` and the tail are apart from
one another, from the input and from the byte fields of the elements of `ranges`. -/
def StoredRequest.Owned {Ctx : Type} (mem : Mem) (m : StoredRequest Ctx) (dAtA : GoSlice) :
    Prop :=
  (m.Data.Valid mem ∧ m.XXX_unrecognized.Valid mem ∧ dAtA.Valid mem) ∧
  (m.Data.Apart m.XXX_unrecognized ∧ m.Data.Apart dAtA ∧ m.XXX_unrecognized.Apart dAtA) ∧
  ∀ r ∈ m.Ranges, ∀ t ∈ r.slices,
    t.Valid mem ∧ m.Data.Apart t ∧ m.XXX_unrecognized.Apart t

instance {Ctx : Type} (mem : Mem) (m : StoredRequest Ctx) (dAtA : GoSlice) :
    Decidable (m.Owned mem dAtA) := by
  unfold StoredRequest.Owned; infer_instance

/-- What a write through the slice `s` leaves: the slice `r.2` that the write returns is a
slice of the arrays `r.1` and reads as `content`; a slice apart from `s` is still a slice of
the arrays, reads as before, and is apart from `r.2`. -/
def Mem.Stores (mem : Mem) (s : GoSlice) (content : List Byte) (r : Mem × GoSlice) : Prop :=
  r.2.Valid r.1 ∧ Mem.read r.1 r.2 = content ∧
  ∀ t : GoSlice, t.Valid mem → s.Apart t →
    t.Valid r.1 ∧ Mem.read r.1 t = Mem.read mem t ∧ r.2.Apart t

/-- What a call that writes through the slices `own0` only leaves: a slice of the arrays
`mem0` apart from them is, with the arrays `mem` and the slices `own` of after the call,
still a slice of the arrays, reads as before and is apart from the slices `own`. -/
def Mem.Frame (mem0 : Mem) (own0 : List GoSlice) (mem : Mem) (own : List GoSlice) : Prop :=
  ∀ t : GoSlice, t.Valid mem0 → (∀ s ∈ own0, s.Apart t) →
    t.Valid mem ∧ Mem.read mem t = Mem.read mem0 t ∧ ∀ s ∈ own, s.Apart t

/-- A `KeyRange` whose byte fields are slices of the arrays, apart from one another. -/
def StoredKeyRange.Kept (mem : Mem) (m : StoredKeyRange) : Prop :=
  (m.Start.Valid mem ∧ m.End.Valid mem ∧ m.XXX_unrecognized.Valid mem) ∧
  (m.Start.Apart m.End ∧ m.Start.Apart m.XXX_unrecognized ∧ m.End.Apart m.XXX_unrecognized)

/-- The byte fields of a `Request` itself. -/
def StoredRequest.slices {Ctx : Type} (m : StoredRequest Ctx) : List GoSlice :=
  [m.Data, m.XXX_unrecognized]

/-- A `Request` whose `data` and tail are slices of the arrays, apart from one another and
from the byte fields of the elements of `ranges`, which are slices of the arrays too. -/
def StoredRequest.Kept {Ctx : Type} (mem : Mem) (m : StoredRequest Ctx) : Prop :=
  (m.Data.Valid mem ∧ m.XXX_unrecognized.Valid mem) ∧ m.Data.Apart m.XXX_unrecognized ∧
  ∀ r ∈ m.Ranges, ∀ t ∈ r.slices,
    t.Valid mem ∧ m.Data.Apart t ∧ m.XXX_unrecognized.Apart t

/-! ## Integer conversions -/

theorem u8_val (v : Nat) : (u8 v).val = v % 256 := rfl

theorem u8_of_lt {v : Nat} (h : v < 256) : (u8 v).val = v := by
  simp [u8_val, Nat.mod_eq_of_lt h]

theorem toInt64_of_lt {u : Nat} (h : u < 2 ^ 63) : toInt64 u = (u : Int) := by
  have h1 : u % 2 ^ 64 = u := Nat.mod_eq_of_lt (by omega)
  unfold toInt64
  rw [h1, if_pos h]

theorem toInt64_neg {u : Nat} (h1 : 2 ^ 63 ≤ u) (h2 : u < 2 ^ 64) : toInt64 u = (u : Int) - 2 ^ 64 := by
  have h3 : u % 2 ^ 64 = u := Nat.mod_eq_of_lt h2
  have h4 : ¬ u < 2 ^ 63 := by omega
  unfold toInt64
  rw [h3, if_neg h4]

theorem toInt64_nonneg_iff {u : Nat} (h2 : u < 2 ^ 64) : 0 ≤ toInt64 u ↔ u < 2 ^ 63 := by
  constructor
  · intro h
    by_contra hc
    rw [toInt64_neg (by omega) h2] at h
    omega
  · intro h
    rw [toInt64_of_lt h]
    omega

theorem toUInt64_natCast {n : Nat} (h : n < 2 ^ 64) : toUInt64 (n : Int) = n := by
  unfold toUInt64
  have : ((n : Int) % 2 ^ 64) = (n : Int) := Int.emod_eq_of_lt (by omega) (by omega)
  rw [this]
  simp

theorem toUInt64_lt (x : Int) : toUInt64 x < 2 ^ 64 := by
  unfold toUInt64
  have h1 : 0 ≤ x % 2 ^ 64 := Int.emod_nonneg _ (by norm_num)
  have h2 : x % 2 ^ 64 < 2 ^ 64 := Int.emod_lt_of_pos _ (by norm_num)
  omega

theorem wrapInt64_of_range {x : Int} (h0 : 0 ≤ x) (h1 : x < 2 ^ 63) : wrapInt64 x = x := by
  unfold wrapInt64
  obtain ⟨n, rfl⟩ := Int.eq_ofNat_of_zero_le h0
  rw [toUInt64_natCast (by omega), toInt64_of_lt (by omega)]

theorem wrapInt64_neg_of_range {x : Int} (h0 : 2 ^ 63 ≤ x) (h1 : x < 2 ^ 64) : wrapInt64 x < 0 := by
  unfold wrapInt64
  obtain ⟨n, rfl⟩ := Int.eq_ofNat_of_zero_le (by omega : 0 ≤ x)
  rw [toUInt64_natCast (by omega), toInt64_neg (by omega) (by omega)]
  omega

theorem toInt64_toUInt64 {x : Int} (h0 : -2 ^ 63 ≤ x) (h1 : x < 2 ^ 63) : toInt64 (toUInt64 x) = x := by
  by_cases hx : 0 ≤ x
  · exact wrapInt64_of_range hx h1
  · have hlt := toUInt64_lt x
    have hval : ((toUInt64 x : Nat) : Int) = x + 2 ^ 64 := by
      unfold toUInt64
      have h2 : x % 2 ^ 64 = x + 2 ^ 64 := by
        have := Int.emod_emod_of_dvd x (dvd_refl (2 ^ 64 : Int))
        have h3 : (x + 2 ^ 64) % 2 ^ 64 = x + 2 ^ 64 := Int.emod_eq_of_lt (by omega) (by omega)
        rw [← h3]
        simp
      rw [h2]
      omega
    rw [toInt64_neg (by omega) hlt, hval]
    omega


/-! ## Varints: size and encoding -/

theorem and_or_group (v : Nat) : v &&& 0x7f ||| 0x80 = v % 128 + 128 := by
  have h1 : v &&& 0x7f = v % 128 := Nat.and_pow_two_sub_one_eq_mod v 7
  rw [h1]
  have h2 : v % 128 < 2 ^ 7 := Nat.mod_lt _ (by decide)
  have h3 := Nat.mul_add_lt_is_or h2 1
  rw [Nat.or_comm]
  simpa [Nat.add_comm] using h3.symm

theorem shiftRight_seven (v : Nat) : v >>> 7 = v / 128 := by
  rw [Nat.shiftRight_eq_div_pow]

theorem sovLoop_eq (k : Nat) : ∀ (x n : Nat), x < 128 ^ (k + 1) →
    sovLoop (k + 1) x n = n + (varintGroups k x).length := by
  induction k with
  | zero =>
    intro x n hx
    have h0 : x / 128 = 0 := Nat.div_eq_of_lt (by simpa using hx)
    simp [sovLoop, varintGroups, shiftRight_seven, h0]
  | succ k ih =>
    intro x n hx
    rw [sovLoop, varintGroups, shiftRight_seven]
    by_cases h : x < 128
    · have h0 : x / 128 = 0 := Nat.div_eq_of_lt h
      simp [h0, h]
    · have h0 : x / 128 ≠ 0 := by
        intro hc
        have := (Nat.div_eq_zero_iff (by decide : 0 < 128)).1 hc
        omega
      have h1 : x / 128 < 128 ^ (k + 1) := by
        apply Nat.div_lt_of_lt_mul
        rw [pow_succ] at hx
        omega
      simp [h0, h, ih _ _ h1]
      omega

theorem sovMppProcessor_eq {x : Nat} (h : x < 2 ^ 64) :
    sovMppProcessor x = (varint x).length := by
  unfold sovMppProcessor varint
  rw [sovLoop_eq 9 x 0 (lt_of_lt_of_le h (by norm_num))]
  simp

theorem varintGroups_length_pos (k v : Nat) : 0 < (varintGroups k v).length := by
  cases k <;> simp [varintGroups]
  split <;> simp

theorem varintGroups_length_le (k : Nat) : ∀ v, (varintGroups k v).length ≤ k + 1 := by
  induction k with
  | zero => intro v; simp [varintGroups]
  | succ k ih =>
    intro v
    rw [varintGroups]
    split
    · simp
    · simp only [List.length_cons]
      have := ih (v / 128)
      omega

theorem varint_length_le (v : Nat) : (varint v).length ≤ 10 :=
  varintGroups_length_le 9 v

theorem varint_length_pos (v : Nat) : 0 < (varint v).length :=
  varintGroups_length_pos 9 v

theorem setByte_eq {dAtA : List Byte} {i : Nat} (b : Byte) (h : i < dAtA.length) :
    setByte dAtA i b = .ok (dAtA.take i ++ b :: dAtA.drop (i + 1)) := by
  simp [setByte, h, List.set_eq_take_append_cons_drop]

theorem encodeVarintLoop_eq (k : Nat) : ∀ (dAtA : List Byte) (offset v : Nat),
    v < 128 ^ (k + 1) → offset + (varintGroups k v).length ≤ dAtA.length →
    encodeVarintLoop (k + 1) dAtA offset v =
      .ok (dAtA.take offset ++ varintGroups k v ++ dAtA.drop (offset + (varintGroups k v).length),
           offset + (varintGroups k v).length) := by
  induction k with
  | zero =>
    intro dAtA offset v hv hlen
    have hv' : ¬ v ≥ 128 := by simpa using hv
    simp only [varintGroups, List.length_singleton] at hlen ⊢
    rw [encodeVarintLoop]
    simp only [show (1 <<< 7 : Nat) = 128 from rfl, hv', if_false]
    rw [setByte_eq _ (by omega)]
    simp
  | succ k ih =>
    intro dAtA offset v hv hlen
    rw [encodeVarintLoop]
    simp only [show (1 <<< 7 : Nat) = 128 from rfl]
    by_cases h : v < 128
    · have hv' : ¬ v ≥ 128 := by omega
      simp only [varintGroups, h, if_true, List.length_singleton] at hlen ⊢
      simp only [hv', if_false]
      rw [setByte_eq _ (by omega)]
      simp
    · have hv' : v ≥ 128 := by omega
      simp only [varintGroups, h, if_false, List.length_cons] at hlen ⊢
      simp only [hv', if_true]
      rw [setByte_eq _ (by omega)]
      simp only [and_or_group, shiftRight_seven]
      have h1 : v / 128 < 128 ^ (k + 1) := by
        apply Nat.div_lt_of_lt_mul
        rw [pow_succ] at hv
        omega
      rw [ih _ _ _ h1 (by simp; omega)]
      have e1 : List.take (offset + 1) (List.take offset dAtA ++ u8 (v % 128 + 128) :: List.drop (offset + 1) dAtA)
          = List.take offset dAtA ++ [u8 (v % 128 + 128)] := by
        rw [List.take_append_eq_append_take]
        simp [List.length_take, Nat.min_eq_left (by omega : offset ≤ dAtA.length)]
      have e2 : ∀ n, List.drop (offset + 1 + n) (List.take offset dAtA ++ u8 (v % 128 + 128) :: List.drop (offset + 1) dAtA)
          = List.drop (offset + (n + 1)) dAtA := by
        intro n
        rw [List.drop_append_eq_append_drop]
        simp [List.length_take, Nat.min_eq_left (by omega : offset ≤ dAtA.length)]
        have : offset + 1 + n - offset = n + 1 := by omega
        rw [List.drop_of_length_le (by simp; omega), this]
        simp
        congr 1
        omega
      rw [e1, e2]
      simp [Nat.add_assoc]
      omega

theorem encodeVarintMppProcessor_eq {dAtA : List Byte} {offset v : Nat} (hv : v < 2 ^ 64)
    (hlen : offset + (varint v).length ≤ dAtA.length) :
    encodeVarintMppProcessor dAtA offset v =
      .ok (dAtA.take offset ++ varint v ++ dAtA.drop (offset + (varint v).length),
           offset + (varint v).length) :=
  encodeVarintLoop_eq 9 dAtA offset v (lt_of_lt_of_le hv (by norm_num)) hlen


/-! ## Writers -/

theorem splice_splice (d : List Byte) (i : Nat) (b1 b2 : List Byte)
    (h : i + b1.length + b2.length ≤ d.length) :
    List.take (i + b1.length) (d.take i ++ b1 ++ d.drop (i + b1.length)) ++ b2 ++
      List.drop (i + b1.length + b2.length) (d.take i ++ b1 ++ d.drop (i + b1.length))
    = d.take i ++ (b1 ++ b2) ++ d.drop (i + (b1 ++ b2).length) := by
  have hl : (d.take i ++ b1).length = i + b1.length := by
    simp [List.length_take, Nat.min_eq_left (by omega : i ≤ d.length)]
  have e1 : List.take (i + b1.length) (d.take i ++ b1 ++ d.drop (i + b1.length)) = d.take i ++ b1 := by
    rw [← hl, List.take_left]
  have e2 : List.drop (i + b1.length + b2.length) (d.take i ++ b1 ++ d.drop (i + b1.length))
      = d.drop (i + b1.length + b2.length) := by
    rw [← hl, List.drop_append, List.drop_drop, hl]
  rw [e1, e2]
  simp [Nat.add_assoc]

theorem splice_length (d : List Byte) (i : Nat) (bs : List Byte) (h : i + bs.length ≤ d.length) :
    (d.take i ++ bs ++ d.drop (i + bs.length)).length = d.length := by
  simp [List.length_take, Nat.min_eq_left (by omega : i ≤ d.length)]
  omega

theorem Emits_seq {w1 w2 : List Byte → Nat → Res (List Byte × Nat)} {b1 b2 : List Byte}
    (h1 : Emits w1 b1) (h2 : Emits w2 b2) :
    Emits (fun dAtA i => match w1 dAtA i with
      | .error e => .error e
      | .ok (dAtA, i) => w2 dAtA i) (b1 ++ b2) := by
  intro dAtA i hlen
  simp only [List.length_append] at hlen
  simp only [h1 dAtA i (by omega)]
  rw [h2 _ _ (by rw [splice_length _ _ _ (by omega)]; omega)]
  rw [splice_splice _ _ _ _ (by omega)]
  simp [Nat.add_assoc]

theorem Emits_nil : Emits (fun dAtA i => .ok (dAtA, i)) [] := by
  intro dAtA i _
  simp

theorem emits_setByte (b : Byte) :
    Emits (fun dAtA i => match setByte dAtA i b with
      | .error e => .error e
      | .ok dAtA => .ok (dAtA, i + 1)) [b] := by
  intro dAtA i hlen
  simp only [List.length_singleton] at hlen
  simp [setByte_eq b (by omega : i < dAtA.length)]

theorem emits_encodeVarint {v : Nat} (hv : v < 2 ^ 64) :
    Emits (fun dAtA i => encodeVarintMppProcessor dAtA i v) (varint v) := by
  intro dAtA i hlen
  exact encodeVarintMppProcessor_eq hv hlen

theorem copyAt_eq {dAtA : List Byte} {i : Nat} {src : List Byte}
    (h : i + src.length ≤ dAtA.length) :
    copyAt dAtA i src = .ok (dAtA.take i ++ src ++ dAtA.drop (i + src.length), src.length) := by
  have h1 : i ≤ dAtA.length := by omega
  have h2 : min (dAtA.length - i) src.length = src.length := Nat.min_eq_right (by omega)
  simp [copyAt, h1, h2, List.take_of_length_le (by omega : src.length ≤ dAtA.length - i)]

theorem emits_copy (src : List Byte) :
    Emits (fun dAtA i => match copyAt dAtA i src with
      | .error e => .error e
      | .ok (dAtA, n) => .ok (dAtA, i + n)) src := by
  intro dAtA i hlen
  simp [copyAt_eq hlen]

theorem emits_marshalNested {marshalTo : List Byte → Res (Nat × List Byte)} {bs : List Byte}
    (h : EmitsTo marshalTo bs) : Emits (marshalNested marshalTo) bs := by
  intro dAtA i hlen
  have h1 : sliceFrom dAtA i = .ok (dAtA.drop i) := by
    simp [sliceFrom]
    omega
  simp only [marshalNested, h1]
  rw [h _ (by simp; omega)]
  simp [List.append_assoc, Nat.add_comm]

theorem emits_marshalField (tag : Byte) (size : Nat)
    {write : List Byte → Nat → Res (List Byte × Nat)} {content : List Byte}
    (h : Emits write content) :
    Emits (marshalField tag size write) (tag :: (varint (size % 2 ^ 64) ++ content)) := by
  have hv : size % 2 ^ 64 < 2 ^ 64 := Nat.mod_lt _ (by norm_num)
  have := Emits_seq (emits_setByte tag) (Emits_seq (emits_encodeVarint hv) h)
  intro dAtA i hlen
  have h3 := this dAtA i (by simpa using hlen)
  simp only [List.singleton_append] at h3
  rw [← h3]
  unfold marshalField
  cases setByte dAtA i tag <;> rfl

theorem emits_marshalBytes (tag : Byte) (f : List Byte) :
    Emits (KeyRange.marshalBytes tag f) (bytesField tag f) := by
  unfold KeyRange.marshalBytes bytesField lengthDelimited
  split
  · exact emits_marshalField tag f.length (emits_copy f)
  · exact Emits_nil


/-! ## `Marshal` produces the wire format -/

theorem emitsTo_of_emits {w : List Byte → Nat → Res (List Byte × Nat)}
    {marshalTo : List Byte → Res (Nat × List Byte)} {bs : List Byte} (h : Emits w bs)
    (hw : ∀ dAtA, marshalTo dAtA = match w dAtA 0 with
      | .error e => .error e
      | .ok (dAtA, i) => .ok (i, dAtA)) : EmitsTo marshalTo bs := by
  intro dAtA hlen
  rw [hw, h dAtA 0 (by omega)]
  simp

theorem marshalWith_eq {size : Nat} {marshalTo : List Byte → Res (Nat × List Byte)}
    {bs : List Byte} (h : EmitsTo marshalTo bs) (hsize : size = bs.length) :
    marshalWith size marshalTo = .ok bs := by
  unfold marshalWith
  rw [h _ (by simp [hsize])]
  simp [slice, hsize]

theorem bytesField_length (tag : Byte) (f : List Byte) :
    (bytesField tag f).length =
      if f.length > 0 then 1 + f.length + sovMppProcessor (f.length % 2 ^ 64) else 0 := by
  unfold bytesField lengthDelimited
  split
  · rw [sovMppProcessor_eq (Nat.mod_lt _ (by norm_num))]
    simp
    omega
  · rfl

theorem lengthDelimited_length (tag : Byte) (f : List Byte) :
    (lengthDelimited tag f).length = 1 + f.length + sovMppProcessor (f.length % 2 ^ 64) := by
  unfold lengthDelimited
  rw [sovMppProcessor_eq (Nat.mod_lt _ (by norm_num))]
  simp
  omega

theorem KeyRange_wire_length (m : KeyRange) : m.wire.length = m.Size := by
  unfold KeyRange.wire KeyRange.knownWire KeyRange.Size
  simp only [List.length_append, bytesField_length]
  split <;> split <;> simp

theorem KeyRange_MarshalTo_emits (m : KeyRange) : EmitsTo m.MarshalTo m.wire := by
  have h := Emits_seq (emits_marshalBytes 0xa m.Start)
    (Emits_seq (emits_marshalBytes 0x12 m.End) (emits_copy m.XXX_unrecognized))
  have hw : KeyRange.wire m = bytesField 0xa m.Start ++ (bytesField 0x12 m.End ++ m.XXX_unrecognized) := by
    simp [KeyRange.wire, KeyRange.knownWire]
  rw [hw]
  refine emitsTo_of_emits h ?_
  intro dAtA
  unfold KeyRange.MarshalTo
  cases h1 : KeyRange.marshalBytes 0xa m.Start dAtA 0 with
  | error e => simp
  | ok r1 =>
    obtain ⟨d1, i1⟩ := r1
    simp only
    cases h2 : KeyRange.marshalBytes 0x12 m.End d1 i1 with
    | error e => simp
    | ok r2 =>
      obtain ⟨d2, i2⟩ := r2
      simp only
      cases h3 : copyAt d2 i2 m.XXX_unrecognized with
      | error e => simp
      | ok r3 =>
        obtain ⟨d3, n⟩ := r3
        simp

theorem KeyRange_Marshal_eq (m : KeyRange) : m.Marshal = .ok m.wire :=
  marshalWith_eq (KeyRange_MarshalTo_emits m) (KeyRange_wire_length m).symm


theorem emits_marshalTp (tp : Int) : Emits (Request.marshalTp tp) (Request.tpField tp) := by
  unfold Request.marshalTp Request.tpField
  split
  · have := Emits_seq (emits_setByte 0x10) (emits_encodeVarint (toUInt64_lt tp))
    intro dAtA i hlen
    have h3 := this dAtA i (by simpa using hlen)
    simp only [List.singleton_append] at h3
    rw [← h3]
    cases hs : setByte dAtA i 0x10 <;> simp [hs]
  · exact Emits_nil

theorem Request_rangeField_length (r : KeyRange) :
    (Request.rangeField r).length = 1 + r.Size + sovMppProcessor (r.Size % 2 ^ 64) := by
  unfold Request.rangeField
  rw [lengthDelimited_length, KeyRange_wire_length]

theorem emits_marshalRanges (rs : List KeyRange) :
    Emits (Request.marshalRanges rs) (rs.map Request.rangeField).flatten := by
  induction rs with
  | nil => exact Emits_nil
  | cons r rs ih =>
    have h1 : Emits (marshalField 0x22 r.Size (marshalNested r.MarshalTo)) (Request.rangeField r) := by
      have := emits_marshalField 0x22 r.Size (emits_marshalNested (KeyRange_MarshalTo_emits r))
      unfold Request.rangeField lengthDelimited
      rw [KeyRange_wire_length]
      exact this
    have h := Emits_seq h1 ih
    intro dAtA i hlen
    simp only [List.map_cons, List.flatten_cons] at hlen ⊢
    rw [← h dAtA i hlen]
    rw [Request.marshalRanges]

theorem Request_sizeRanges_eq (rs : List KeyRange) : ∀ n,
    Request.sizeRanges rs n = n + (rs.map Request.rangeField).flatten.length := by
  induction rs with
  | nil => intro n; simp [Request.sizeRanges]
  | cons r rs ih =>
    intro n
    simp only [Request.sizeRanges, ih, List.map_cons, List.flatten_cons, List.length_append,
      Request_rangeField_length]
    omega

theorem Request_tpField_length (tp : Int) :
    (Request.tpField tp).length = if tp ≠ 0 then 1 + sovMppProcessor (toUInt64 tp) else 0 := by
  unfold Request.tpField
  split
  · rw [sovMppProcessor_eq (toUInt64_lt tp)]
    simp
    omega
  · rfl

theorem Request_wire_length {Ctx : Type} (ctx : Collaborator Ctx) (m : Request Ctx)
    (h : m.Context = none) : m.wire.length = m.Size ctx := by
  unfold Request.wire Request.Size
  simp only [List.length_append, bytesField_length, Request_tpField_length, h, sizeNested]
  by_cases hr : m.Ranges.length > 0
  · simp only [hr, if_true, Request_sizeRanges_eq]
    split <;> split <;> simp
  · have : m.Ranges = [] := by
      cases hm : m.Ranges with
      | nil => rfl
      | cons a b => simp [hm] at hr
    simp only [this]
    split <;> split <;> simp

theorem Request_MarshalTo_emits {Ctx : Type} (ctx : Collaborator Ctx) (m : Request Ctx)
    (h : m.Context = none) : EmitsTo (m.MarshalTo ctx) m.wire := by
  have hr : Emits (fun dAtA i => if m.Ranges.length > 0 then Request.marshalRanges m.Ranges dAtA i
      else Except.ok (dAtA, i)) (m.Ranges.map Request.rangeField).flatten := by
    by_cases hr : m.Ranges.length > 0
    · simp only [hr, if_true]
      exact emits_marshalRanges m.Ranges
    · have : m.Ranges = [] := by
        cases hm : m.Ranges with
        | nil => rfl
        | cons a b => simp [hm] at hr
      simp only [this]
      exact Emits_nil
  have hE := Emits_seq (emits_marshalTp m.Tp)
    (Emits_seq (emits_marshalBytes 0x1a m.Data) (Emits_seq hr (emits_copy m.XXX_unrecognized)))
  have hw : m.wire = Request.tpField m.Tp ++ (bytesField 0x1a m.Data ++
      ((m.Ranges.map Request.rangeField).flatten ++ m.XXX_unrecognized)) := by
    simp [Request.wire]
  rw [hw]
  refine emitsTo_of_emits hE ?_
  intro dAtA
  unfold Request.MarshalTo
  simp only [h, marshalOptional]
  cases h1 : Request.marshalTp m.Tp dAtA 0 with
  | error e => simp
  | ok r1 =>
    obtain ⟨d1, i1⟩ := r1
    simp only
    cases h2 : KeyRange.marshalBytes 0x1a m.Data d1 i1 with
    | error e => simp
    | ok r2 =>
      obtain ⟨d2, i2⟩ := r2
      simp only
      cases h3 : (if m.Ranges.length > 0 then Request.marshalRanges m.Ranges d2 i2
          else Except.ok (d2, i2)) with
      | error e => simp
      | ok r3 =>
        obtain ⟨d3, i3⟩ := r3
        simp only
        cases h4 : copyAt d3 i3 m.XXX_unrecognized with
        | error e => simp
        | ok r4 =>
          obtain ⟨d4, n⟩ := r4
          simp

theorem Request_Marshal_eq {Ctx : Type} (ctx : Collaborator Ctx) (m : Request Ctx)
    (h : m.Context = none) : m.Marshal ctx = .ok m.wire :=
  marshalWith_eq (Request_MarshalTo_emits ctx m h) (Request_wire_length ctx m h).symm


/-! ## The varint reading loop -/

@[simp] theorem shiftIndex_error {α : Type} (n : Nat) (e : Error) :
    shiftIndex n (Except.error e : Res (α × Nat)) = .error e := rfl

@[simp] theorem shiftIndex_ok {α : Type} (n : Nat) (x : α) (j : Nat) :
    shiftIndex n (Except.ok (x, j) : Res (α × Nat)) = .ok (x, n + j) := rfl

theorem decodeVarintLoop_shift (a b : List Byte) (k : Nat) : ∀ (shift i wire : Nat),
    decodeVarintLoop (a ++ b) k shift (a.length + i) wire =
      shiftIndex a.length (decodeVarintLoop b k shift i wire) := by
  induction k with
  | zero => intro shift i wire; simp [decodeVarintLoop]
  | succ k ih =>
    intro shift i wire
    rw [decodeVarintLoop, decodeVarintLoop]
    by_cases hs : shift ≥ 64
    · simp [hs]
    · simp only [hs, if_false]
      rw [List.getElem?_append_right (by omega)]
      simp only [Nat.add_sub_cancel_left]
      cases hb : b[i]? with
      | none => simp
      | some c =>
        simp only
        by_cases hc : c.val < 0x80
        · simp [hc, Nat.add_assoc]
        · simp only [hc, if_false]
          rw [← ih]
          simp [Nat.add_assoc]

theorem decodeVarint_shift (a b : List Byte) (i : Nat) :
    decodeVarint (a ++ b) (a.length + i) = shiftIndex a.length (decodeVarint b i) :=
  decodeVarintLoop_shift a b 10 0 i 0

theorem decodeVarintLoop_local (a b : List Byte) (k : Nat) : ∀ (shift i wire : Nat) (r : Nat × Nat),
    decodeVarintLoop a k shift i wire = .ok r →
    decodeVarintLoop (a ++ b) k shift i wire = .ok r := by
  induction k with
  | zero => intro shift i wire r h; simp [decodeVarintLoop] at h
  | succ k ih =>
    intro shift i wire r h
    rw [decodeVarintLoop] at h ⊢
    by_cases hs : shift ≥ 64
    · simp [hs] at h
    · simp only [hs, if_false] at h ⊢
      cases hb : a[i]? with
      | none => simp [hb] at h
      | some c =>
        have hi : i < a.length := by
          by_contra hc
          rw [List.getElem?_eq_none (by omega)] at hb
          exact absurd hb (by simp)
        rw [List.getElem?_append_left hi, hb]
        simp only [hb] at h ⊢
        by_cases hc : c.val < 0x80
        · simpa [hc] using h
        · simp only [hc, if_false] at h ⊢
          exact ih _ _ _ _ h

theorem decodeVarint_local {a : List Byte} (b : List Byte) {i : Nat} {r : Nat × Nat}
    (h : decodeVarint a i = .ok r) : decodeVarint (a ++ b) i = .ok r :=
  decodeVarintLoop_local a b 10 0 i 0 r h

theorem decodeVarintLoop_bounds (d : List Byte) (k : Nat) : ∀ (shift i wire v j : Nat),
    decodeVarintLoop d k shift i wire = .ok (v, j) → i < j ∧ j ≤ d.length ∧ j ≤ i + k := by
  induction k with
  | zero => intro shift i wire v j h; simp [decodeVarintLoop] at h
  | succ k ih =>
    intro shift i wire v j h
    rw [decodeVarintLoop] at h
    by_cases hs : shift ≥ 64
    · simp [hs] at h
    · simp only [hs, if_false] at h
      cases hb : d[i]? with
      | none => simp [hb] at h
      | some c =>
        have hi : i < d.length := by
          by_contra hc
          rw [List.getElem?_eq_none (by omega)] at hb
          exact absurd hb (by simp)
        simp only [hb] at h
        by_cases hc : c.val < 0x80
        · simp only [hc, if_true, Except.ok.injEq, Prod.mk.injEq] at h
          omega
        · simp only [hc, if_false] at h
          have := ih _ _ _ _ _ h
          omega

theorem decodeVarint_bounds {d : List Byte} {i v j : Nat} (h : decodeVarint d i = .ok (v, j)) :
    i < j ∧ j ≤ d.length ∧ j ≤ i + 10 :=
  decodeVarintLoop_bounds d 10 0 i 0 v j h


theorem and_group (b : Nat) : b &&& 0x7F = b % 128 :=
  Nat.and_pow_two_sub_one_eq_mod b 7

theorem or_shift_eq {acc s : Nat} (g : Nat) (hacc : acc < 2 ^ s) (hs : s ≤ 63) :
    acc ||| (g <<< s) % 2 ^ 64 = (acc + g * 2 ^ s) % 2 ^ 64 := by
  have hp : (2 : Nat) ^ 64 = 2 ^ s * 2 ^ (64 - s) := by
    rw [← pow_add]
    congr 1
    omega
  have hM : 0 < 2 ^ (64 - s) := Nat.pow_pos (by decide)
  have hS : 0 < 2 ^ s := Nat.pow_pos (by decide)
  have e1 : (g <<< s) % 2 ^ 64 = 2 ^ s * (g % 2 ^ (64 - s)) := by
    rw [Nat.shiftLeft_eq, Nat.mul_comm g, hp, Nat.mul_mod_mul_left]
  rw [e1, Nat.or_comm, ← Nat.mul_add_lt_is_or hacc]
  have hlt : 2 ^ s * (g % 2 ^ (64 - s)) + acc < 2 ^ 64 := by
    have h1 : g % 2 ^ (64 - s) + 1 ≤ 2 ^ (64 - s) := Nat.mod_lt _ hM
    have h2 : 2 ^ s * (g % 2 ^ (64 - s) + 1) ≤ 2 ^ s * 2 ^ (64 - s) := Nat.mul_le_mul_left _ h1
    rw [← hp, Nat.mul_add, Nat.mul_one] at h2
    omega
  have e2 : acc + g * 2 ^ s = (2 ^ s * (g % 2 ^ (64 - s)) + acc) + 2 ^ 64 * (g / 2 ^ (64 - s)) := by
    have h3 := Nat.div_add_mod g (2 ^ (64 - s))
    calc acc + g * 2 ^ s = acc + (2 ^ (64 - s) * (g / 2 ^ (64 - s)) + g % 2 ^ (64 - s)) * 2 ^ s := by
          rw [h3]
      _ = (2 ^ s * (g % 2 ^ (64 - s)) + acc) + (2 ^ s * 2 ^ (64 - s)) * (g / 2 ^ (64 - s)) := by ring
      _ = _ := by rw [← hp]
  rw [e2, Nat.add_mul_mod_self_left, Nat.mod_eq_of_lt hlt]

theorem decodeVarintLoop_value (post : List Byte) (last : Byte) (hl : last.val < 128) :
    ∀ (conts : List Byte) (k shift acc : Nat), conts.length < k → shift + 7 * conts.length ≤ 63 →
    (∀ c ∈ conts, 128 ≤ c.val) → acc < 2 ^ shift →
    decodeVarintLoop (conts ++ last :: post) k shift 0 acc =
      .ok ((acc + varintValue (conts ++ [last]) * 2 ^ shift) % 2 ^ 64, conts.length + 1) := by
  intro conts
  induction conts with
  | nil =>
    intro k shift acc hk hs _ hacc
    obtain ⟨k, rfl⟩ : ∃ k', k = k' + 1 := ⟨k - 1, by simp at hk; omega⟩
    have hs' : ¬ shift ≥ 64 := by simp at hs; omega
    rw [decodeVarintLoop]
    simp only [hs', if_false, List.nil_append, List.getElem?_cons_zero, and_group]
    have hl' : last.val < 0x80 := hl
    simp only [hl', if_true, List.length_nil, varintValue]
    rw [or_shift_eq _ hacc (by simp at hs; omega)]
    simp
  | cons c conts ih =>
    intro k shift acc hk hs hc hacc
    obtain ⟨k, rfl⟩ : ∃ k', k = k' + 1 := ⟨k - 1, by simp at hk; omega⟩
    simp only [List.length_cons] at hk hs
    have hs' : ¬ shift ≥ 64 := by omega
    have hc0 : 128 ≤ c.val := hc c (by simp)
    have hc1 : ¬ c.val < 0x80 := by omega
    rw [decodeVarintLoop]
    simp only [hs', if_false, List.cons_append, List.getElem?_cons_zero, and_group, hc1]
    rw [or_shift_eq _ hacc (by omega)]
    have hg : c.val % 128 < 128 := Nat.mod_lt _ (by decide)
    have hpow : (2 : Nat) ^ (shift + 7) = 2 ^ shift * 128 := by rw [pow_add]; rfl
    have hlt : acc + c.val % 128 * 2 ^ shift < 2 ^ (shift + 7) := by
      rw [hpow]
      have : c.val % 128 * 2 ^ shift ≤ 127 * 2 ^ shift := Nat.mul_le_mul_right _ (by omega)
      omega
    have hle : (2 : Nat) ^ (shift + 7) ≤ 2 ^ 64 := Nat.pow_le_pow_right (by decide) (by omega)
    rw [Nat.mod_eq_of_lt (by omega)]
    have h1 := decodeVarintLoop_shift [c] (conts ++ last :: post) k (shift + 7) 0
      (acc + c.val % 128 * 2 ^ shift)
    simp only [List.singleton_append, List.length_singleton, Nat.add_zero] at h1
    rw [show (0 + 1 : Nat) = 1 from rfl, h1]
    rw [ih k (shift + 7) _ (by omega) (by omega) (fun x hx => hc x (by simp [hx])) hlt]
    simp only [shiftIndex_ok, List.length_cons, varintValue, List.cons_append]
    congr 2
    · congr 1
      rw [hpow]
      ring
    · omega

theorem decodeVarint_value (conts : List Byte) (last : Byte) (post : List Byte)
    (hc : ∀ c ∈ conts, 128 ≤ c.val) (hl : last.val < 128) (hlen : conts.length ≤ 9) :
    decodeVarint (conts ++ last :: post) 0 =
      .ok (varintValue (conts ++ [last]) % 2 ^ 64, conts.length + 1) := by
  have := decodeVarintLoop_value post last hl conts 10 0 0 (by omega) (by omega) hc (by simp)
  simpa [decodeVarint] using this

theorem decodeVarintLoop_overflow (rest : List Byte) : ∀ (conts : List Byte) (k shift acc : Nat),
    conts.length = k → (∀ c ∈ conts, 128 ≤ c.val) →
    decodeVarintLoop (conts ++ rest) k shift 0 acc = .error .ErrIntOverflowMppProcessor := by
  intro conts
  induction conts with
  | nil =>
    intro k shift acc hk _
    simp at hk
    subst hk
    simp [decodeVarintLoop]
  | cons c conts ih =>
    intro k shift acc hk hc
    obtain ⟨k, rfl⟩ : ∃ k', k = k' + 1 := ⟨k - 1, by simp at hk; omega⟩
    simp only [List.length_cons, Nat.add_right_cancel_iff] at hk
    rw [decodeVarintLoop]
    by_cases hs : shift ≥ 64
    · simp [hs]
    · have hc0 : 128 ≤ c.val := hc c (by simp)
      have hc1 : ¬ c.val < 0x80 := by omega
      simp only [hs, if_false, List.cons_append, List.getElem?_cons_zero, hc1]
      have h1 := decodeVarintLoop_shift [c] (conts ++ rest) k (shift + 7) 0
        (acc ||| ((c.val &&& 0x7F) <<< shift) % 2 ^ 64)
      simp only [List.singleton_append, List.length_singleton, Nat.add_zero] at h1
      rw [show (0 + 1 : Nat) = 1 from rfl, h1, ih k _ _ hk (fun x hx => hc x (by simp [hx]))]
      rfl

theorem decodeVarint_overflow (conts rest : List Byte) (hlen : conts.length = 10)
    (hc : ∀ c ∈ conts, 128 ≤ c.val) :
    decodeVarint (conts ++ rest) 0 = .error .ErrIntOverflowMppProcessor :=
  decodeVarintLoop_overflow rest conts 10 0 0 hlen hc

theorem decodeVarintLoop_eof : ∀ (conts : List Byte) (k shift acc : Nat),
    conts.length < k → shift + 7 * conts.length ≤ 63 → (∀ c ∈ conts, 128 ≤ c.val) →
    decodeVarintLoop conts k shift 0 acc = .error .ErrUnexpectedEOF := by
  intro conts
  induction conts with
  | nil =>
    intro k shift acc hk hs _
    obtain ⟨k, rfl⟩ : ∃ k', k = k' + 1 := ⟨k - 1, by simp at hk; omega⟩
    have hs' : ¬ shift ≥ 64 := by simp at hs; omega
    simp [decodeVarintLoop, hs']
  | cons c conts ih =>
    intro k shift acc hk hs hc
    obtain ⟨k, rfl⟩ : ∃ k', k = k' + 1 := ⟨k - 1, by simp at hk; omega⟩
    simp only [List.length_cons] at hk hs
    have hs' : ¬ shift ≥ 64 := by omega
    have hc0 : 128 ≤ c.val := hc c (by simp)
    have hc1 : ¬ c.val < 0x80 := by omega
    rw [decodeVarintLoop]
    simp only [hs', if_false, List.getElem?_cons_zero, hc1]
    have h1 := decodeVarintLoop_shift [c] conts k (shift + 7) 0
      (acc ||| ((c.val &&& 0x7F) <<< shift) % 2 ^ 64)
    simp only [List.singleton_append, List.length_singleton, Nat.add_zero] at h1
    rw [show (0 + 1 : Nat) = 1 from rfl, h1,
      ih k _ _ (by omega) (by omega) (fun x hx => hc x (by simp [hx]))]
    rfl

theorem decodeVarint_eof (conts : List Byte) (hlen : conts.length ≤ 9)
    (hc : ∀ c ∈ conts, 128 ≤ c.val) : decodeVarint conts 0 = .error .ErrUnexpectedEOF :=
  decodeVarintLoop_eof conts 10 0 0 (by omega) (by omega) hc


theorem wrapInt64_spec (x : Int) :
    (∃ q : Int, wrapInt64 x = x - q * 2 ^ 64) ∧ -2 ^ 63 ≤ wrapInt64 x ∧ wrapInt64 x < 2 ^ 63 := by
  unfold wrapInt64 toInt64
  have hlt := toUInt64_lt x
  have hmod : toUInt64 x % 2 ^ 64 = toUInt64 x := Nat.mod_eq_of_lt hlt
  have hval : ((toUInt64 x : Nat) : Int) = x - (x / 2 ^ 64) * 2 ^ 64 := by
    unfold toUInt64
    have h1 : 0 ≤ x % 2 ^ 64 := Int.emod_nonneg _ (by norm_num)
    rw [Int.toNat_of_nonneg h1, Int.emod_def]
    ring
  rw [hmod]
  split
  · refine ⟨⟨x / 2 ^ 64, hval⟩, by omega, by omega⟩
  · refine ⟨⟨x / 2 ^ 64 + 1, by rw [hval]; ring⟩, by omega, by omega⟩

theorem wrapInt64_add_ge {a : Nat} {b : Int} (hb0 : 0 ≤ b) (hb : b < 2 ^ 63)
    (h : (a : Int) ≤ wrapInt64 (a + b)) : wrapInt64 (a + b) = a + b ∧ (a : Int) + b < 2 ^ 63 := by
  obtain ⟨⟨q, hq⟩, h1, h2⟩ := wrapInt64_spec (a + b)
  have hq0 : q = 0 := by omega
  subst hq0
  omega

theorem varintGroups_spec (k : Nat) : ∀ v, v < 128 ^ (k + 1) →
    ∃ (conts : List Byte) (last : Byte), varintGroups k v = conts ++ [last] ∧
      (∀ c ∈ conts, 128 ≤ c.val) ∧ last.val < 128 ∧ varintValue (conts ++ [last]) = v ∧
      conts.length ≤ k := by
  induction k with
  | zero =>
    intro v hv
    have hv' : v < 128 := by simpa using hv
    refine ⟨[], u8 v, by simp [varintGroups], by simp, ?_, ?_, by simp⟩
    · rw [u8_of_lt (by omega)]; exact hv'
    · simp [varintValue, u8_of_lt (by omega : v < 256), Nat.mod_eq_of_lt hv']
  | succ k ih =>
    intro v hv
    rw [varintGroups]
    by_cases h : v < 128
    · refine ⟨[], u8 v, by simp [h], by simp, ?_, ?_, by simp⟩
      · rw [u8_of_lt (by omega)]; exact h
      · simp [varintValue, u8_of_lt (by omega : v < 256), Nat.mod_eq_of_lt h]
    · have h1 : v / 128 < 128 ^ (k + 1) := by
        apply Nat.div_lt_of_lt_mul
        rw [pow_succ] at hv
        omega
      obtain ⟨conts, last, he, hc, hl, hval, hlen⟩ := ih (v / 128) h1
      have hm : v % 128 < 128 := Nat.mod_lt _ (by decide)
      have hu : (u8 (v % 128 + 128)).val = v % 128 + 128 := u8_of_lt (by omega)
      refine ⟨u8 (v % 128 + 128) :: conts, last, by simp [h, he], ?_, hl, ?_, by simp; omega⟩
      · intro c hcm
        rcases List.mem_cons.1 hcm with rfl | hcm
        · omega
        · exact hc c hcm
      · show (u8 (v % 128 + 128)).val % 128 + 128 * varintValue (conts ++ [last]) = v
        rw [hu, hval]
        have := Nat.div_add_mod v 128
        omega

theorem varint_spec {v : Nat} (hv : v < 2 ^ 64) :
    ∃ (conts : List Byte) (last : Byte), varint v = conts ++ [last] ∧
      (∀ c ∈ conts, 128 ≤ c.val) ∧ last.val < 128 ∧ varintValue (conts ++ [last]) = v ∧
      conts.length ≤ 9 :=
  varintGroups_spec 9 v (lt_of_lt_of_le hv (by norm_num))

theorem decodeVarint_varint {v : Nat} (hv : v < 2 ^ 64) (post : List Byte) :
    decodeVarint (varint v ++ post) 0 = .ok (v, (varint v).length) := by
  obtain ⟨conts, last, he, hc, hl, hval, hlen⟩ := varint_spec hv
  rw [he, List.append_assoc, List.singleton_append, decodeVarint_value conts last post hc hl hlen,
    hval, Nat.mod_eq_of_lt hv]
  simp


/-! ## Reading a tag, a length-delimited payload, an unknown field -/

theorem decodeVarintLoop_lt (d : List Byte) (k : Nat) : ∀ (shift i wire v j : Nat),
    wire < 2 ^ 64 → decodeVarintLoop d k shift i wire = .ok (v, j) → v < 2 ^ 64 := by
  induction k with
  | zero => intro shift i wire v j _ h; simp [decodeVarintLoop] at h
  | succ k ih =>
    intro shift i wire v j hw h
    rw [decodeVarintLoop] at h
    by_cases hs : shift ≥ 64
    · simp [hs] at h
    · simp only [hs, if_false] at h
      cases hb : d[i]? with
      | none => simp [hb] at h
      | some c =>
        simp only [hb] at h
        have hlt : wire ||| ((c.val &&& 0x7F) <<< shift) % 2 ^ 64 < 2 ^ 64 :=
          Nat.or_lt_two_pow hw (Nat.mod_lt _ (by norm_num))
        by_cases hc : c.val < 0x80
        · simp only [hc, if_true, Except.ok.injEq, Prod.mk.injEq] at h
          omega
        · simp only [hc, if_false] at h
          exact ih _ _ _ _ _ hlt h

theorem decodeVarint_lt {d : List Byte} {i v j : Nat} (h : decodeVarint d i = .ok (v, j)) :
    v < 2 ^ 64 :=
  decodeVarintLoop_lt d 10 0 i 0 v j (by norm_num) h

theorem readTag_shift (name : MsgName) (a b : List Byte) (i : Nat) :
    readTag name (a ++ b) (a.length + i) =
      match readTag name b i with
      | .error e => .error e
      | .ok (f, w, j) => .ok (f, w, a.length + j) := by
  unfold readTag
  rw [decodeVarint_shift]
  cases h : decodeVarint b i with
  | error e => simp
  | ok r =>
    obtain ⟨wire, j⟩ := r
    simp only [shiftIndex_ok]
    split <;> [skip; split] <;> simp_all

theorem readTag_local (name : MsgName) {a : List Byte} (b : List Byte) {i : Nat}
    {r : Int × Nat × Nat} (h : readTag name a i = .ok r) : readTag name (a ++ b) i = .ok r := by
  unfold readTag at h ⊢
  cases hd : decodeVarint a i with
  | error e => simp [hd] at h
  | ok p =>
    rw [decodeVarint_local b hd]
    rw [hd] at h
    exact h

theorem readTag_bounds {name : MsgName} {d : List Byte} {i : Nat} {f : Int} {w j : Nat}
    (h : readTag name d i = .ok (f, w, j)) : i < j ∧ j ≤ d.length := by
  unfold readTag at h
  cases hd : decodeVarint d i with
  | error e => simp [hd] at h
  | ok p =>
    obtain ⟨wire, j'⟩ := p
    have hb := decodeVarint_bounds hd
    simp only [hd] at h
    split at h
    · simp at h
    · split at h
      · simp at h
      · simp only [Except.ok.injEq, Prod.mk.injEq] at h
        omega

theorem slice_eq {d : List Byte} {lo hi : Nat} (h1 : lo ≤ hi) (h2 : hi ≤ d.length) :
    slice d lo hi = .ok ((d.drop lo).take (hi - lo)) := by
  unfold slice
  have : (0 : Int) ≤ lo ∧ (lo : Int) ≤ hi ∧ (hi : Int) ≤ d.length := by omega
  simp [this]

theorem slice_inv {d : List Byte} {lo : Nat} {hi : Int} {s : List Byte}
    (h : slice d lo hi = .ok s) :
    (lo : Int) ≤ hi ∧ hi ≤ d.length ∧ s = (d.drop lo).take (hi.toNat - lo) := by
  unfold slice at h
  split at h
  · rename_i hc
    simp only [Except.ok.injEq, Int.toNat_ofNat] at h
    exact ⟨hc.2.1, hc.2.2, h.symm⟩
  · simp at h

theorem readLengthDelimited_err {d : List Byte} {i : Nat} {e : Error}
    (h : decodeVarint d i = .error e) : readLengthDelimited d i = .error e := by
  simp [readLengthDelimited, h]

theorem readLengthDelimited_invalid {d : List Byte} {i raw j : Nat}
    (h : decodeVarint d i = .ok (raw, j)) (hneg : toInt64 raw < 0) :
    readLengthDelimited d i = .error .ErrInvalidLengthMppProcessor := by
  simp [readLengthDelimited, h, hneg]

theorem readLengthDelimited_eof {d : List Byte} {i raw j : Nat}
    (h : decodeVarint d i = .ok (raw, j)) (hraw : raw < 2 ^ 63) (hlen : d.length < j + raw)
    (hwrap : j + raw < 2 ^ 63) : readLengthDelimited d i = .error .ErrUnexpectedEOF := by
  have h1 : toInt64 raw = raw := toInt64_of_lt hraw
  have h2 : wrapInt64 ((j : Int) + (raw : Int)) = (j : Int) + raw :=
    wrapInt64_of_range (by omega) (by omega)
  have h3 : ¬ ((raw : Int) < 0) := by omega
  have h4 : (j : Int) + (raw : Int) > d.length := by omega
  simp [readLengthDelimited, h, h1, h2, h3, h4]

theorem readLengthDelimited_ok {d : List Byte} {i raw j : Nat}
    (h : decodeVarint d i = .ok (raw, j)) (hraw : raw < 2 ^ 63) (hlen : j + raw ≤ d.length)
    (hwrap : j + raw < 2 ^ 63) :
    readLengthDelimited d i = .ok ((d.drop j).take raw, j + raw) := by
  have h1 : toInt64 raw = raw := toInt64_of_lt hraw
  have h2 : wrapInt64 ((j : Int) + (raw : Int)) = ((j + raw : Nat) : Int) := by
    rw [wrapInt64_of_range (by omega) (by omega)]
    simp
  have h3 : ¬ ((raw : Int) < 0) := by omega
  have h4 : ¬ (((j + raw : Nat) : Int) > d.length) := by omega
  simp only [readLengthDelimited, h, h1, h2, h3, h4, if_false]
  rw [slice_eq (by omega) hlen]
  simp
  omega

theorem readLengthDelimited_inv {d : List Byte} {i j : Nat} {s : List Byte}
    (h : readLengthDelimited d i = .ok (s, j)) :
    ∃ raw i', decodeVarint d i = .ok (raw, i') ∧ raw < 2 ^ 63 ∧ j = i' + raw ∧ j ≤ d.length ∧
      j < 2 ^ 63 ∧ s = (d.drop i').take raw := by
  unfold readLengthDelimited at h
  cases hd : decodeVarint d i with
  | error e => simp [hd] at h
  | ok p =>
    obtain ⟨raw, i'⟩ := p
    have hlt := decodeVarint_lt hd
    simp only [hd] at h
    split at h
    · simp at h
    · rename_i hneg
      have hraw : raw < 2 ^ 63 := (toInt64_nonneg_iff hlt).1 (by omega)
      rw [toInt64_of_lt hraw] at h
      split at h
      · simp at h
      · cases hs : slice d i' (wrapInt64 ((i' : Int) + (raw : Int))) with
        | error e => simp [hs] at h
        | ok s' =>
          simp only [hs, Except.ok.injEq, Prod.mk.injEq] at h
          obtain ⟨hlo, hhi, hs'⟩ := slice_inv hs
          obtain ⟨hw, hw2⟩ := wrapInt64_add_ge (a := i') (b := (raw : Int)) (by omega) (by omega) hlo
          rw [hw] at hhi hs' h
          have e1 : ((i' : Int) + (raw : Int)).toNat = i' + raw := by omega
          rw [e1] at hs' h
          refine ⟨raw, i', rfl, hraw, h.2.symm, by omega, by omega, ?_⟩
          rw [← h.1, hs']
          congr 1
          omega


/-! ## `skipMppProcessor`: a result does not depend on what follows the field -/

theorem sliceFrom_eq {d : List Byte} {lo : Nat} (h : lo ≤ d.length) :
    sliceFrom d lo = .ok (d.drop lo) := by
  unfold sliceFrom
  have : (0 : Int) ≤ lo ∧ (lo : Int) ≤ d.length := by omega
  simp [this]

theorem sliceFrom_inv {d : List Byte} {lo : Int} {s : List Byte} (h : sliceFrom d lo = .ok s) :
    0 ≤ lo ∧ lo ≤ d.length ∧ s = d.drop lo.toNat := by
  unfold sliceFrom at h
  split at h
  · rename_i hc
    simp only [Except.ok.injEq] at h
    exact ⟨hc.1, hc.2, h.symm⟩
  · simp at h

theorem skipGroupLoop_local {sk sk' : List Byte → Res Int} {u : List Byte} (x : List Byte)
    (H : ∀ rest n, sk rest = .ok n → sk' (rest ++ x) = .ok n) :
    ∀ (g : Nat) (i n : Int), skipGroupLoop sk u g i = .ok n →
      ∀ g', g ≤ g' → skipGroupLoop sk' (u ++ x) g' i = .ok n := by
  intro g
  induction g with
  | zero => intro i n h; simp [skipGroupLoop] at h
  | succ g ih =>
    intro i n h g' hg
    obtain ⟨g', rfl⟩ : ∃ k, g' = k + 1 := ⟨g' - 1, by omega⟩
    rw [skipGroupLoop] at h ⊢
    by_cases hi : i < 0
    · simp [hi] at h
    · simp only [hi, if_false] at h ⊢
      cases hd : decodeVarint u i.toNat with
      | error e => simp [hd] at h
      | ok p =>
        obtain ⟨iw, i'⟩ := p
        rw [decodeVarint_local x hd]
        simp only [hd] at h ⊢
        by_cases h4 : iw &&& 0x7 = 4
        · simpa [h4] using h
        · simp only [h4, if_false] at h ⊢
          cases hsl : sliceFrom u i with
          | error e => simp [hsl] at h
          | ok rest =>
            obtain ⟨h0, hle, hrest⟩ := sliceFrom_inv hsl
            have hle' : i.toNat ≤ u.length := by omega
            have hsl' : sliceFrom (u ++ x) i = .ok (rest ++ x) := by
              have : i = ((i.toNat : Nat) : Int) := by omega
              rw [this, sliceFrom_eq (by simp; omega), hrest, List.drop_append_of_le_length hle']
            simp only [hsl, hsl'] at h ⊢
            cases hsk : sk rest with
            | error e => simp [hsk] at h
            | ok next =>
              simp only [hsk, H rest next hsk] at h ⊢
              exact ih _ _ h g' (by omega)

theorem skipFuel_local (x : List Byte) : ∀ (f : Nat) (u : List Byte) (n : Int),
    skipFuel f u = .ok n → ∀ f', f ≤ f' → skipFuel f' (u ++ x) = .ok n := by
  intro f
  induction f with
  | zero => intro u n h; simp [skipFuel] at h
  | succ f ih =>
    intro u n h f' hf
    obtain ⟨f', rfl⟩ : ∃ k, f' = k + 1 := ⟨f' - 1, by omega⟩
    rw [skipFuel] at h ⊢
    by_cases hl : 0 < u.length
    · have hl' : 0 < (u ++ x).length := by simp; omega
      simp only [hl, hl', if_true] at h ⊢
      cases hd : decodeVarint u 0 with
      | error e => simp [hd] at h
      | ok p =>
        obtain ⟨wire, i⟩ := p
        rw [decodeVarint_local x hd]
        simp only [hd] at h ⊢
        by_cases h0 : wire &&& 0x7 = 0
        · simp only [h0, if_true] at h ⊢
          cases hd2 : decodeVarint u i with
          | error e => simp [hd2] at h
          | ok p2 =>
            rw [decodeVarint_local x hd2]
            simpa [hd2] using h
        · simp only [h0, if_false] at h ⊢
          by_cases h1 : wire &&& 0x7 = 1
          · simpa [h1] using h
          · simp only [h1, if_false] at h ⊢
            by_cases h2 : wire &&& 0x7 = 2
            · simp only [h2, if_true] at h ⊢
              cases hd2 : decodeVarint u i with
              | error e => simp [hd2] at h
              | ok p2 =>
                rw [decodeVarint_local x hd2]
                simpa [hd2] using h
            · simp only [h2, if_false] at h ⊢
              by_cases h3 : wire &&& 0x7 = 3
              · simp only [h3, if_true] at h ⊢
                exact skipGroupLoop_local x (fun rest n hr => ih rest n hr f' (by omega)) f _ _ h f'
                  (by omega)
              · simpa [h3] using h
    · simp [hl] at h

theorem skipMppProcessor_local {u : List Byte} {n : Int} (x : List Byte)
    (h : skipMppProcessor u = .ok n) : skipMppProcessor (u ++ x) = .ok n :=
  skipFuel_local x _ u n h _ (by simp)

theorem skipGroupLoop_range {sk : List Byte → Res Int} {d : List Byte} :
    ∀ (g : Nat) (i n : Int), skipGroupLoop sk d g i = .ok n → n ≤ d.length := by
  intro g
  induction g with
  | zero => intro i n h; simp [skipGroupLoop] at h
  | succ g ih =>
    intro i n h
    rw [skipGroupLoop] at h
    by_cases hi : i < 0
    · simp [hi] at h
    · simp only [hi, if_false] at h
      cases hd : decodeVarint d i.toNat with
      | error e => simp [hd] at h
      | ok p =>
        obtain ⟨iw, i'⟩ := p
        have hb := decodeVarint_bounds hd
        simp only [hd] at h
        by_cases h4 : iw &&& 0x7 = 4
        · simp only [h4, if_true, Except.ok.injEq] at h
          omega
        · simp only [h4, if_false] at h
          cases hsl : sliceFrom d i with
          | error e => simp [hsl] at h
          | ok rest =>
            simp only [hsl] at h
            cases hsk : sk rest with
            | error e => simp [hsk] at h
            | ok next =>
              simp only [hsk] at h
              exact ih _ _ h

theorem skipFuel_range {f : Nat} {d : List Byte} {n : Int} (h : skipFuel f d = .ok n) :
    n < 2 ^ 63 ∨ n ≤ d.length := by
  cases f with
  | zero => simp [skipFuel] at h
  | succ f =>
    rw [skipFuel] at h
    by_cases hl : 0 < d.length
    · simp only [hl, if_true] at h
      cases hd : decodeVarint d 0 with
      | error e => simp [hd] at h
      | ok p =>
        obtain ⟨wire, i⟩ := p
        have hb := decodeVarint_bounds hd
        simp only [hd] at h
        by_cases h0 : wire &&& 0x7 = 0
        · simp only [h0, if_true] at h
          cases hd2 : decodeVarint d i with
          | error e => simp [hd2] at h
          | ok p2 =>
            obtain ⟨v2, i2⟩ := p2
            have hb2 := decodeVarint_bounds hd2
            simp only [hd2, Except.ok.injEq] at h
            right; omega
        · simp only [h0, if_false] at h
          by_cases h1 : wire &&& 0x7 = 1
          · simp only [h1, if_true, Except.ok.injEq] at h
            left; rw [← h]; exact (wrapInt64_spec _).2.2
          · simp only [h1, if_false] at h
            by_cases h2 : wire &&& 0x7 = 2
            · simp only [h2, if_true] at h
              cases hd2 : decodeVarint d i with
              | error e => simp [hd2] at h
              | ok p2 =>
                obtain ⟨v2, i2⟩ := p2
                simp only [hd2] at h
                split at h
                · simp at h
                · simp only [Except.ok.injEq] at h
                  left; rw [← h]; exact (wrapInt64_spec _).2.2
            · simp only [h2, if_false] at h
              by_cases h3 : wire &&& 0x7 = 3
              · simp only [h3, if_true] at h
                right; exact skipGroupLoop_range _ _ _ h
              · simp only [h3, if_false] at h
                by_cases h4 : wire &&& 0x7 = 4
                · simp only [h4, if_true, Except.ok.injEq] at h
                  right; omega
                · simp only [h4, if_false] at h
                  by_cases h5 : wire &&& 0x7 = 5
                  · simp only [h5, if_true, Except.ok.injEq] at h
                    left; rw [← h]; exact (wrapInt64_spec _).2.2
                  · simp [h5] at h
    · simp [hl] at h


theorem skipUnknown_ok {d : List Byte} {i k : Nat} (hi : i ≤ d.length)
    (h : skipMppProcessor (d.drop i) = .ok (k : Int)) (hlen : i + k ≤ d.length)
    (hwrap : i + k < 2 ^ 63) : skipUnknown d i = .ok ((d.drop i).take k, i + k) := by
  have h2 : wrapInt64 ((i : Int) + (k : Int)) = ((i + k : Nat) : Int) := by
    rw [wrapInt64_of_range (by omega) (by omega)]
    simp
  have h3 : ¬ ((k : Int) < 0) := by omega
  have h4 : ¬ (((i + k : Nat) : Int) > d.length) := by omega
  simp only [skipUnknown, sliceFrom_eq hi, h, h2, h3, h4, if_false]
  rw [slice_eq (by omega) hlen]
  simp
  omega

theorem skipUnknown_inv {d : List Byte} {i j : Nat} {s : List Byte}
    (h : skipUnknown d i = .ok (s, j)) (hd : d.length < 2 ^ 63) :
    i ≤ d.length ∧ ∃ k : Nat, skipMppProcessor (d.drop i) = .ok (k : Int) ∧ j = i + k ∧
      j ≤ d.length ∧ s = (d.drop i).take k := by
  unfold skipUnknown at h
  cases hsl : sliceFrom d i with
  | error e => simp [hsl] at h
  | ok rest =>
    obtain ⟨-, hle, hrest⟩ := sliceFrom_inv hsl
    simp only [Int.toNat_ofNat] at hrest
    subst hrest
    simp only [hsl] at h
    cases hsk : skipMppProcessor (List.drop i d) with
    | error e => simp [hsk] at h
    | ok skippy =>
      simp only [hsk] at h
      split at h
      · simp at h
      · rename_i hneg
        split at h
        · simp at h
        · cases hs : slice d i (wrapInt64 ((i : Int) + skippy)) with
          | error e => simp [hs] at h
          | ok s' =>
            simp only [hs, Except.ok.injEq, Prod.mk.injEq] at h
            obtain ⟨hlo, hhi, hs'⟩ := slice_inv hs
            have hr : skippy < 2 ^ 63 := by
              rcases skipFuel_range hsk with h1 | h1
              · exact h1
              · simp only [List.length_drop] at h1
                omega
            obtain ⟨hw, hw2⟩ := wrapInt64_add_ge (a := i) (b := skippy) (by omega) hr hlo
            rw [hw] at hhi hs' h
            obtain ⟨k, rfl⟩ := Int.eq_ofNat_of_zero_le (by omega : 0 ≤ skippy)
            have e1 : ((i : Int) + ((k : Nat) : Int)).toNat = i + k := by omega
            rw [e1] at hs' h
            refine ⟨by omega, k, rfl, h.2.symm, by omega, ?_⟩
            rw [← h.1, hs']
            congr 1
            omega

theorem skipUnknown_local {a : List Byte} (b : List Byte) {i j : Nat} {s : List Byte}
    (h : skipUnknown a i = .ok (s, j)) (hlen : (a ++ b).length < 2 ^ 63) :
    skipUnknown (a ++ b) i = .ok (s, j) := by
  simp only [List.length_append] at hlen
  obtain ⟨hi, k, hsk, rfl, hj, rfl⟩ := skipUnknown_inv h (by omega)
  have h1 : List.drop i (a ++ b) = List.drop i a ++ b := List.drop_append_of_le_length hi
  have h2 := skipMppProcessor_local b hsk
  rw [← h1] at h2
  rw [skipUnknown_ok (by simp; omega) h2 (by simp; omega) (by omega), h1]
  have : k ≤ (List.drop i a).length := by simp; omega
  rw [List.take_append_of_le_length this]

theorem skipUnknown_shift (a : List Byte) {b : List Byte} {i j : Nat} {s : List Byte}
    (h : skipUnknown b i = .ok (s, j)) (hlen : (a ++ b).length < 2 ^ 63) :
    skipUnknown (a ++ b) (a.length + i) = .ok (s, a.length + j) := by
  simp only [List.length_append] at hlen
  obtain ⟨hi, k, hsk, rfl, hj, rfl⟩ := skipUnknown_inv h (by omega)
  have h1 : List.drop (a.length + i) (a ++ b) = List.drop i b := List.drop_append i
  rw [← h1] at hsk
  rw [skipUnknown_ok (by simp; omega) hsk (by simp; omega) (by omega), h1, Nat.add_assoc]

theorem readLengthDelimited_local {a : List Byte} (b : List Byte) {i j : Nat} {s : List Byte}
    (h : readLengthDelimited a i = .ok (s, j)) : readLengthDelimited (a ++ b) i = .ok (s, j) := by
  obtain ⟨raw, i', hd, hraw, rfl, hj, hw, rfl⟩ := readLengthDelimited_inv h
  rw [readLengthDelimited_ok (decodeVarint_local b hd) hraw (by simp; omega) hw]
  have hb := decodeVarint_bounds hd
  rw [List.drop_append_of_le_length (by omega)]
  have : raw ≤ (List.drop i' a).length := by simp; omega
  rw [List.take_append_of_le_length this]

theorem readLengthDelimited_shift (a : List Byte) {b : List Byte} {i j : Nat} {s : List Byte}
    (h : readLengthDelimited b i = .ok (s, j)) (hlen : (a ++ b).length < 2 ^ 63) :
    readLengthDelimited (a ++ b) (a.length + i) = .ok (s, a.length + j) := by
  simp only [List.length_append] at hlen
  obtain ⟨raw, i', hd, hraw, rfl, hj, hw, rfl⟩ := readLengthDelimited_inv h
  have hd' : decodeVarint (a ++ b) (a.length + i) = .ok (raw, a.length + i') := by
    rw [decodeVarint_shift, hd]; rfl
  rw [readLengthDelimited_ok hd' hraw (by simp; omega) (by omega), List.drop_append, Nat.add_assoc]

theorem readField_local (name : MsgName) (schema : Schema) {a : List Byte} (b : List Byte)
    {i : Nat} {r : Int × Payload × Nat} (h : readField name schema a i = .ok r)
    (hlen : (a ++ b).length < 2 ^ 63) : readField name schema (a ++ b) i = .ok r := by
  unfold readField at h ⊢
  cases ht : readTag name a i with
  | error e => simp [ht] at h
  | ok t =>
    obtain ⟨f, w, i'⟩ := t
    rw [readTag_local name b ht]
    simp only [ht] at h ⊢
    split at h
    · split at h
      · simp at h
      · rename_i hw
        simp only [hw, if_false]
        cases hr : readLengthDelimited a i' with
        | error e => simp [hr] at h
        | ok p =>
          obtain ⟨s, j⟩ := p
          rw [readLengthDelimited_local b hr]
          simpa [hr] using h
    · split at h
      · simp at h
      · rename_i hw
        simp only [hw, if_false]
        cases hr : decodeVarint a i' with
        | error e => simp [hr] at h
        | ok p =>
          rw [decodeVarint_local b hr]
          simpa [hr] using h
    · cases hr : skipUnknown a i with
      | error e => simp [hr] at h
      | ok p =>
        obtain ⟨s, j⟩ := p
        rw [skipUnknown_local b hr hlen]
        simpa [hr] using h

theorem readField_shift (name : MsgName) (schema : Schema) (a : List Byte) {b : List Byte}
    {i j : Nat} {n : Int} {p : Payload} (h : readField name schema b i = .ok (n, p, j))
    (hlen : (a ++ b).length < 2 ^ 63) :
    readField name schema (a ++ b) (a.length + i) = .ok (n, p, a.length + j) := by
  unfold readField at h ⊢
  rw [readTag_shift]
  cases ht : readTag name b i with
  | error e => simp [ht] at h
  | ok t =>
    obtain ⟨f, w, i'⟩ := t
    simp only [ht] at h ⊢
    split at h
    · split at h
      · simp at h
      · rename_i hw
        simp only [hw, if_false]
        cases hr : readLengthDelimited b i' with
        | error e => simp [hr] at h
        | ok q =>
          obtain ⟨s, j'⟩ := q
          rw [readLengthDelimited_shift a hr hlen]
          simp only [hr, Except.ok.injEq, Prod.mk.injEq] at h ⊢
          obtain ⟨h1, h2, h3⟩ := h
          exact ⟨h1, h2, by omega⟩
    · split at h
      · simp at h
      · rename_i hw
        simp only [hw, if_false]
        cases hr : decodeVarint b i' with
        | error e => simp [hr] at h
        | ok q =>
          obtain ⟨v, j'⟩ := q
          rw [decodeVarint_shift, hr]
          simp only [hr, Except.ok.injEq, Prod.mk.injEq, shiftIndex_ok] at h ⊢
          obtain ⟨h1, h2, h3⟩ := h
          exact ⟨h1, h2, by omega⟩
    · cases hr : skipUnknown b i with
      | error e => simp [hr] at h
      | ok q =>
        obtain ⟨s, j'⟩ := q
        rw [skipUnknown_shift a hr hlen]
        simp only [hr, Except.ok.injEq, Prod.mk.injEq] at h ⊢
        obtain ⟨h1, h2, h3⟩ := h
        exact ⟨h1, h2, by omega⟩


/-! ## The decoding loop and concatenation -/

section Loop

variable {M : Type}

theorem fieldStep_local (name : MsgName) (schema : Schema) (store : M → Int → Payload → Res M)
    {a : List Byte} (b : List Byte) {m : M} {i : Nat} {r : M × Nat}
    (h : fieldStep name schema store a m i = .ok r) (hlen : (a ++ b).length < 2 ^ 63) :
    fieldStep name schema store (a ++ b) m i = .ok r := by
  unfold fieldStep at h ⊢
  cases hr : readField name schema a i with
  | error e => simp [hr] at h
  | ok t =>
    rw [readField_local name schema b hr hlen]
    rw [hr] at h
    exact h

theorem fieldStep_shift (name : MsgName) (schema : Schema) (store : M → Int → Payload → Res M)
    (a : List Byte) {b : List Byte} {m m' : M} {i j : Nat}
    (h : fieldStep name schema store b m i = .ok (m', j)) (hlen : (a ++ b).length < 2 ^ 63) :
    fieldStep name schema store (a ++ b) m (a.length + i) = .ok (m', a.length + j) := by
  unfold fieldStep at h ⊢
  cases hr : readField name schema b i with
  | error e => simp [hr] at h
  | ok t =>
    obtain ⟨n, p, j'⟩ := t
    rw [readField_shift name schema a hr hlen]
    simp only [hr] at h ⊢
    cases hs : store m n p with
    | error e => simp [hs] at h
    | ok m2 =>
      simp only [hs, Except.ok.injEq, Prod.mk.injEq] at h ⊢
      exact ⟨h.1, by omega⟩

theorem unmarshalLoop_prefix (stepA stepAB : M → Nat → Res (M × Nat)) (la l : Nat)
    (hL : ∀ m i r, stepA m i = .ok r → stepAB m i = .ok r) (hl : la ≤ l) :
    ∀ (fa : Nat) (m : M) (i : Nat) (m1 : M), unmarshalLoop stepA la fa m i = .ok m1 →
      ∀ f, fa + (l - la) ≤ f →
        ∃ f', l - la ≤ f' ∧ unmarshalLoop stepAB l f m i = unmarshalLoop stepAB l f' m1 la := by
  intro fa
  induction fa with
  | zero =>
    intro m i m1 h f hf
    rw [unmarshalLoop] at h
    split at h
    · simp at h
    · split at h
      · simp at h
      · simp only [Except.ok.injEq] at h
        subst h
        have : i = la := by omega
        subst this
        exact ⟨f, by omega, rfl⟩
  | succ fa ih =>
    intro m i m1 h f hf
    rw [unmarshalLoop] at h
    split at h
    · rename_i hi
      cases hs : stepA m i with
      | error e => simp [hs] at h
      | ok r =>
        obtain ⟨m', j⟩ := r
        simp only [hs] at h
        obtain ⟨f0, rfl⟩ : ∃ k, f = k + 1 := ⟨f - 1, by omega⟩
        obtain ⟨f', hf', he⟩ := ih m' j m1 h f0 (by omega)
        refine ⟨f', hf', ?_⟩
        rw [unmarshalLoop]
        simp only [show i < l from by omega, if_true, hL m i _ hs]
        exact he
    · split at h
      · simp at h
      · simp only [Except.ok.injEq] at h
        subst h
        have : i = la := by omega
        subst this
        exact ⟨f, by omega, rfl⟩

theorem unmarshalLoop_shift (stepB stepAB : M → Nat → Res (M × Nat)) (n lb : Nat)
    (hS : ∀ m i m' j, stepB m i = .ok (m', j) → stepAB m (n + i) = .ok (m', n + j)) :
    ∀ (fb : Nat) (m : M) (i : Nat) (m2 : M), unmarshalLoop stepB lb fb m i = .ok m2 →
      ∀ f, fb ≤ f → unmarshalLoop stepAB (n + lb) f m (n + i) = .ok m2 := by
  intro fb
  induction fb with
  | zero =>
    intro m i m2 h f _
    rw [unmarshalLoop] at h
    split at h
    · simp at h
    · split at h
      · simp at h
      · have : i = lb := by omega
        subst this
        cases f <;> simpa [unmarshalLoop] using h
  | succ fb ih =>
    intro m i m2 h f hf
    obtain ⟨f0, rfl⟩ : ∃ k, f = k + 1 := ⟨f - 1, by omega⟩
    rw [unmarshalLoop] at h ⊢
    split at h
    · rename_i hi
      cases hs : stepB m i with
      | error e => simp [hs] at h
      | ok r =>
        obtain ⟨m', j⟩ := r
        simp only [hs] at h
        simp only [show n + i < n + lb from by omega, if_true, hS m i m' j hs]
        exact ih m' j m2 h f0 (by omega)
    · split at h
      · simp at h
      · have : i = lb := by omega
        subst this
        simpa using h

variable (name : MsgName) (schema : Schema) (store : M → Int → Payload → Res M)

theorem decodeWith_nil (m : M) : decodeWith name schema store m [] = .ok m := by
  simp [decodeWith, unmarshalLoop]

theorem decodeWith_prefix {m0 m1 : M} {a b : List Byte}
    (ha : decodeWith name schema store m0 a = .ok m1) (hlen : (a ++ b).length < 2 ^ 63) :
    ∃ f, b.length ≤ f ∧ decodeWith name schema store m0 (a ++ b) =
      unmarshalLoop (fieldStep name schema store (a ++ b)) (a ++ b).length f m1 a.length := by
  unfold decodeWith at ha ⊢
  have := unmarshalLoop_prefix (fieldStep name schema store a)
    (fieldStep name schema store (a ++ b)) a.length (a ++ b).length
    (fun m i r h => fieldStep_local name schema store b h hlen) (by simp)
    a.length m0 0 m1 ha (a ++ b).length (by simp)
  simpa using this

theorem decodeWith_append {m0 m1 m2 : M} {a b : List Byte}
    (ha : decodeWith name schema store m0 a = .ok m1)
    (hb : decodeWith name schema store m1 b = .ok m2) (hlen : (a ++ b).length < 2 ^ 63) :
    decodeWith name schema store m0 (a ++ b) = .ok m2 := by
  obtain ⟨f, hf, he⟩ := decodeWith_prefix name schema store ha hlen
  rw [he]
  unfold decodeWith at hb
  have := unmarshalLoop_shift (fieldStep name schema store b)
    (fieldStep name schema store (a ++ b)) a.length b.length
    (fun m i m' j h => fieldStep_shift name schema store a h hlen) b.length m1 0 m2 hb f hf
  simpa using this

theorem decodeWith_prefix_error {m0 m1 : M} {a b : List Byte} {e : Error}
    (ha : decodeWith name schema store m0 a = .ok m1) (hlen : (a ++ b).length < 2 ^ 63)
    (hb : b ≠ []) (he : fieldStep name schema store (a ++ b) m1 a.length = .error e) :
    decodeWith name schema store m0 (a ++ b) = .error e := by
  obtain ⟨f, hf, h⟩ := decodeWith_prefix name schema store ha hlen
  rw [h]
  have hb' : 0 < b.length := List.length_pos.2 hb
  obtain ⟨f0, rfl⟩ : ∃ k, f = k + 1 := ⟨f - 1, by omega⟩
  rw [unmarshalLoop]
  simp [hb', he]

theorem unmarshalLoop_end (step : M → Nat → Res (M × Nat)) (l f : Nat) (m : M) :
    unmarshalLoop step l f m l = .ok m := by
  cases f <;> simp [unmarshalLoop]

theorem unmarshalLoop_step {step : M → Nat → Res (M × Nat)} {l f i j : Nat} {m m' : M}
    (hi : i < l) (h : step m i = .ok (m', j)) :
    unmarshalLoop step l (f + 1) m i = unmarshalLoop step l f m' j := by
  rw [unmarshalLoop]
  simp [hi, h]

theorem decodeWith_single {m m' : M} {d : List Byte} (hd : d ≠ [])
    (h : fieldStep name schema store d m 0 = .ok (m', d.length)) :
    decodeWith name schema store m d = .ok m' := by
  have hd' : 0 < d.length := List.length_pos.2 hd
  unfold decodeWith
  obtain ⟨f0, hf⟩ : ∃ k, d.length = k + 1 := ⟨d.length - 1, by omega⟩
  have : unmarshalLoop (fieldStep name schema store d) d.length (f0 + 1) m 0 = .ok m' := by
    rw [unmarshalLoop_step hd' h, unmarshalLoop_end]
  rw [← hf] at this
  exact this

end Loop

/-! ## The three loop bodies are of the factored form -/

theorem KeyRange_unmarshalField_eq (dAtA : List Byte) :
    KeyRange.unmarshalField dAtA = fieldStep .KeyRange KeyRange.schema KeyRange.store dAtA := by
  funext m i
  unfold KeyRange.unmarshalField fieldStep readField
  cases ht : readTag .KeyRange dAtA i with
  | error e => rfl
  | ok t =>
    obtain ⟨f, w, i'⟩ := t
    simp only [KeyRange.schema]
    by_cases h1 : f = 1
    · subst h1
      simp only [if_true]
      by_cases hw : w = 2
      · simp only [hw, ne_eq, not_true_eq_false, if_false]
        cases readLengthDelimited dAtA i' <;> rfl
      · simp [hw]
    · by_cases h2 : f = 2
      · subst h2
        simp only [show ¬ ((2 : Int) = 1) from by decide, if_false, if_true]
        by_cases hw : w = 2
        · simp only [hw, ne_eq, not_true_eq_false, if_false]
          cases readLengthDelimited dAtA i' <;> rfl
        · simp [hw]
      · simp only [h1, h2, if_false]
        cases skipUnknown dAtA i <;> rfl

theorem KeyRange_Unmarshal_eq (m : KeyRange) (dAtA : List Byte) :
    KeyRange.Unmarshal m dAtA = decodeWith .KeyRange KeyRange.schema KeyRange.store m dAtA := by
  unfold KeyRange.Unmarshal decodeWith
  rw [KeyRange_unmarshalField_eq]


theorem Request_unmarshalField_eq {Ctx : Type} (ctx : Collaborator Ctx) (dAtA : List Byte) :
    Request.unmarshalField ctx dAtA =
      fieldStep .Request Request.schema (Request.store ctx) dAtA := by
  funext m i
  unfold Request.unmarshalField fieldStep readField
  cases ht : readTag .Request dAtA i with
  | error e => rfl
  | ok t =>
    obtain ⟨f, w, i'⟩ := t
    simp only [Request.schema]
    by_cases h1 : f = 1
    · subst h1
      simp only [if_true]
      by_cases hw : w = 2
      · simp only [hw, ne_eq, not_true_eq_false, if_false]
        cases readLengthDelimited dAtA i' with
        | error e => rfl
        | ok p => (simp [Request.store]; split <;> simp_all)
      · simp [hw]
    · by_cases h2 : f = 2
      · subst h2
        simp only [show ¬ ((2 : Int) = 1) from by decide, if_false, if_true]
        by_cases hw : w = 0
        · simp only [hw, ne_eq, not_true_eq_false, if_false]
          cases decodeVarint dAtA i' <;> rfl
        · simp [hw]
      · by_cases h3 : f = 3
        · subst h3
          simp only [show ¬ ((3 : Int) = 1) from by decide, show ¬ ((3 : Int) = 2) from by decide,
            if_false, if_true]
          by_cases hw : w = 2
          · simp only [hw, ne_eq, not_true_eq_false, if_false]
            cases readLengthDelimited dAtA i' with
            | error e => rfl
            | ok p => simp [Request.store]
          · simp [hw]
        · by_cases h4 : f = 4
          · subst h4
            simp only [show ¬ ((4 : Int) = 1) from by decide, show ¬ ((4 : Int) = 2) from by decide,
              show ¬ ((4 : Int) = 3) from by decide, if_false, if_true]
            by_cases hw : w = 2
            · simp only [hw, ne_eq, not_true_eq_false, if_false]
              cases readLengthDelimited dAtA i' with
              | error e => rfl
              | ok p => (simp [Request.store]; split <;> simp_all)
            · simp [hw]
          · simp only [h1, h2, h3, h4, if_false]
            cases skipUnknown dAtA i <;> rfl

theorem Request_Unmarshal_eq {Ctx : Type} (ctx : Collaborator Ctx) (m : Request Ctx)
    (dAtA : List Byte) :
    Request.Unmarshal ctx m dAtA =
      decodeWith .Request Request.schema (Request.store ctx) m dAtA := by
  unfold Request.Unmarshal decodeWith
  rw [Request_unmarshalField_eq]

theorem Response_unmarshalField_eq {D E L X : Type} (deps : ResponseDeps D E L X)
    (dAtA : List Byte) :
    Response.unmarshalField deps dAtA =
      fieldStep .Response Response.schema (Response.store deps) dAtA := by
  funext m i
  unfold Response.unmarshalField fieldStep readField
  cases ht : readTag .Response dAtA i with
  | error e => rfl
  | ok t =>
    obtain ⟨f, w, i'⟩ := t
    simp only [Response.schema]
    by_cases h1 : f = 1
    · subst h1
      simp only [if_true]
      by_cases hw : w = 2
      · simp only [hw, ne_eq, not_true_eq_false, if_false]
        cases readLengthDelimited dAtA i' with
        | error e => rfl
        | ok p => (simp [Response.store]; split <;> simp_all)
      · simp [hw]
    · by_cases h2 : f = 2
      · subst h2
        simp only [show ¬ ((2 : Int) = 1) from by decide, if_false, if_true]
        by_cases hw : w = 2
        · simp only [hw, ne_eq, not_true_eq_false, if_false]
          cases readLengthDelimited dAtA i' with
          | error e => rfl
          | ok p => (simp [Response.store]; split <;> simp_all)
        · simp [hw]
      · by_cases h3 : f = 3
        · subst h3
          simp only [show ¬ ((3 : Int) = 1) from by decide, show ¬ ((3 : Int) = 2) from by decide,
            if_false, if_true]
          by_cases hw : w = 2
          · simp only [hw, ne_eq, not_true_eq_false, if_false]
            cases readLengthDelimited dAtA i' with
            | error e => rfl
            | ok p => (simp [Response.store]; split <;> simp_all)
          · simp [hw]
        · by_cases h4 : f = 4
          · subst h4
            simp only [show ¬ ((4 : Int) = 1) from by decide, show ¬ ((4 : Int) = 2) from by decide,
              show ¬ ((4 : Int) = 3) from by decide, if_false, if_true]
            by_cases hw : w = 2
            · simp only [hw, ne_eq, not_true_eq_false, if_false]
              cases readLengthDelimited dAtA i' with
              | error e => rfl
              | ok p => simp [Response.store]
            · simp [hw]
          · by_cases h5 : f = 5
            · subst h5
              simp only [show ¬ ((5 : Int) = 1) from by decide,
                show ¬ ((5 : Int) = 2) from by decide, show ¬ ((5 : Int) = 3) from by decide,
                show ¬ ((5 : Int) = 4) from by decide, if_false, if_true]
              by_cases hw : w = 2
              · simp only [hw, ne_eq, not_true_eq_false, if_false]
                cases readLengthDelimited dAtA i' with
                | error e => rfl
                | ok p => (simp [Response.store]; split <;> simp_all)
              · simp [hw]
            · by_cases h6 : f = 6
              · subst h6
                simp only [show ¬ ((6 : Int) = 1) from by decide,
                  show ¬ ((6 : Int) = 2) from by decide, show ¬ ((6 : Int) = 3) from by decide,
                  show ¬ ((6 : Int) = 4) from by decide, show ¬ ((6 : Int) = 5) from by decide,
                  if_false, if_true]
                by_cases hw : w = 2
                · simp only [hw, ne_eq, not_true_eq_false, if_false]
                  cases readLengthDelimited dAtA i' with
                  | error e => rfl
                  | ok p => (simp [Response.store]; split <;> simp_all)
                · simp [hw]
              · simp only [h1, h2, h3, h4, h5, h6, if_false]
                cases skipUnknown dAtA i <;> rfl

theorem Response_Unmarshal_eq {D E L X : Type} (deps : ResponseDeps D E L X)
    (m : Response D E L X) (dAtA : List Byte) :
    Response.Unmarshal deps m dAtA =
      decodeWith .Response Response.schema (Response.store deps) m dAtA := by
  unfold Response.Unmarshal decodeWith
  rw [Response_unmarshalField_eq]


/-! ## Decoding one field of the wire format -/

theorem decodeVarint_cons (b : Byte) (rest : List Byte) (i : Nat) :
    decodeVarint (b :: rest) (i + 1) = shiftIndex 1 (decodeVarint rest i) := by
  have := decodeVarint_shift [b] rest i
  simpa [Nat.add_comm] using this

theorem decodeVarint_single {b : Byte} (rest : List Byte) (hb : b.val < 128) :
    decodeVarint (b :: rest) 0 = .ok (b.val, 1) := by
  have := decodeVarint_value [] b rest (by simp) hb (by simp)
  have h1 : b.val % 128 = b.val := Nat.mod_eq_of_lt hb
  have h2 : b.val % 2 ^ 64 = b.val := Nat.mod_eq_of_lt (by omega)
  simp only [List.nil_append, varintValue, List.length_nil, h1, Nat.mul_zero, Nat.add_zero, h2,
    Nat.zero_add] at this
  exact this

theorem readTag_single (name : MsgName) {tag : Byte} (rest : List Byte) (htag : tag.val < 128)
    (hwt : tag.val &&& 0x7 ≠ 4) (hpos : 0 < toInt32 (tag.val >>> 3)) :
    readTag name (tag :: rest) 0 = .ok (toInt32 (tag.val >>> 3), tag.val &&& 0x7, 1) := by
  unfold readTag
  rw [decodeVarint_single rest htag]
  have : ¬ toInt32 (tag.val >>> 3) ≤ 0 := by omega
  simp [hwt, this]

theorem lengthDelimited_append (tag : Byte) (content post : List Byte) :
    lengthDelimited tag content ++ post =
      tag :: (varint (content.length % 2 ^ 64) ++ (content ++ post)) := by
  simp [lengthDelimited]

theorem readLengthDelimited_wire (tag : Byte) (content post : List Byte)
    (hlen : (lengthDelimited tag content).length < 2 ^ 63) :
    readLengthDelimited (lengthDelimited tag content ++ post) 1 =
      .ok (content, (lengthDelimited tag content).length) := by
  have hl : (lengthDelimited tag content).length =
      1 + (varint (content.length % 2 ^ 64)).length + content.length := by
    simp [lengthDelimited]; omega
  have hc : content.length % 2 ^ 64 = content.length := Nat.mod_eq_of_lt (by omega)
  have hd : decodeVarint (lengthDelimited tag content ++ post) 1 =
      .ok (content.length, 1 + (varint content.length).length) := by
    rw [lengthDelimited_append, hc, show (1 : Nat) = 0 + 1 from rfl, decodeVarint_cons,
      decodeVarint_varint (by omega)]
    rfl
  rw [hc] at hl
  rw [readLengthDelimited_ok hd (by omega) (by simp; omega) (by omega), hl]
  congr 2
  rw [lengthDelimited_append, hc]
  have : 1 + (varint content.length).length = (tag :: varint content.length).length := by
    simp; omega
  rw [this, ← List.cons_append, List.drop_left, List.take_left]

theorem readField_lengthDelimited (name : MsgName) (schema : Schema) (tag : Byte) (f : FieldName)
    (content post : List Byte) (htag : tag.val < 128) (hwt : tag.val &&& 0x7 = 2)
    (hpos : 0 < toInt32 (tag.val >>> 3))
    (hs : schema (toInt32 (tag.val >>> 3)) = some (f, .bytes))
    (hlen : (lengthDelimited tag content).length < 2 ^ 63) :
    readField name schema (lengthDelimited tag content ++ post) 0 =
      .ok (toInt32 (tag.val >>> 3), .bytes content, (lengthDelimited tag content).length) := by
  unfold readField
  have ht : readTag name (lengthDelimited tag content ++ post) 0 =
      .ok (toInt32 (tag.val >>> 3), tag.val &&& 0x7, 1) := by
    rw [lengthDelimited_append]
    exact readTag_single name _ htag (by omega) hpos
  simp only [ht, hs, hwt, ne_eq, not_true_eq_false, if_false,
    readLengthDelimited_wire tag content post hlen]

theorem readField_varintField (name : MsgName) (schema : Schema) (tag : Byte) (f : FieldName)
    {v : Nat} (post : List Byte) (hv : v < 2 ^ 64) (htag : tag.val < 128)
    (hwt : tag.val &&& 0x7 = 0) (hpos : 0 < toInt32 (tag.val >>> 3))
    (hs : schema (toInt32 (tag.val >>> 3)) = some (f, .varint)) :
    readField name schema (tag :: varint v ++ post) 0 =
      .ok (toInt32 (tag.val >>> 3), .varint v, 1 + (varint v).length) := by
  unfold readField
  have ht : readTag name (tag :: varint v ++ post) 0 =
      .ok (toInt32 (tag.val >>> 3), tag.val &&& 0x7, 1) :=
    readTag_single name _ htag (by omega) hpos
  have hd : decodeVarint (tag :: varint v ++ post) 1 = .ok (v, 1 + (varint v).length) := by
    rw [List.cons_append, show (1 : Nat) = 0 + 1 from rfl, decodeVarint_cons,
      decodeVarint_varint hv]
    rfl
  simp only [ht, hs, hwt, ne_eq, not_true_eq_false, if_false, hd]

/-! ## `KeyRange`: decoding its own encoding -/

theorem KeyRange_decode_start (m : KeyRange) (s : List Byte)
    (hlen : (bytesField 0xa s).length < 2 ^ 63) :
    decodeWith .KeyRange KeyRange.schema KeyRange.store m (bytesField 0xa s) =
      .ok (if s.length > 0 then { m with Start := s } else m) := by
  unfold bytesField at hlen ⊢
  split
  · simp only [*, if_true] at hlen
    apply decodeWith_single _ _ _ (by simp [lengthDelimited])
    unfold fieldStep
    have := readField_lengthDelimited .KeyRange KeyRange.schema 0xa .Start s []
      (by decide) (by decide) (by decide) (by decide) hlen
    rw [List.append_nil] at this
    rw [this]
    rfl
  · exact decodeWith_nil _ _ _ _

theorem KeyRange_decode_end (m : KeyRange) (s : List Byte)
    (hlen : (bytesField 0x12 s).length < 2 ^ 63) :
    decodeWith .KeyRange KeyRange.schema KeyRange.store m (bytesField 0x12 s) =
      .ok (if s.length > 0 then { m with End := s } else m) := by
  unfold bytesField at hlen ⊢
  split
  · simp only [*, if_true] at hlen
    apply decodeWith_single _ _ _ (by simp [lengthDelimited])
    unfold fieldStep
    have := readField_lengthDelimited .KeyRange KeyRange.schema 0x12 .End s []
      (by decide) (by decide) (by decide) (by decide) hlen
    rw [List.append_nil] at this
    rw [this]
    rfl
  · exact decodeWith_nil _ _ _ _

theorem KeyRange_decode_known (start end_ : List Byte)
    (hlen : (KeyRange.knownWire ⟨start, end_, []⟩).length < 2 ^ 63) :
    KeyRange.Unmarshal KeyRange.zero (KeyRange.knownWire ⟨start, end_, []⟩) =
      .ok ⟨start, end_, []⟩ := by
  rw [KeyRange_Unmarshal_eq]
  unfold KeyRange.knownWire at hlen ⊢
  simp only [List.length_append] at hlen
  have h1 := KeyRange_decode_start KeyRange.zero start (by omega)
  have h2 := KeyRange_decode_end (if start.length > 0 then { KeyRange.zero with Start := start }
    else KeyRange.zero) end_ (by omega)
  rw [decodeWith_append _ _ _ h1 h2 (by simp; omega)]
  congr 1
  cases start <;> cases end_ <;> simp [KeyRange.zero]


/-! ## `Request`: decoding its own encoding -/

section RequestDecode

variable {Ctx : Type} (ctx : Collaborator Ctx)

theorem Request_decode_tp (m : Request Ctx) (tp : Int) (h0 : -2 ^ 63 ≤ tp) (h1 : tp < 2 ^ 63) :
    decodeWith .Request Request.schema (Request.store ctx) m (Request.tpField tp) =
      .ok (if tp ≠ 0 then { m with Tp := tp } else m) := by
  unfold Request.tpField
  split
  · apply decodeWith_single _ _ _ (by simp)
    unfold fieldStep
    have := readField_varintField .Request Request.schema 0x10 .Tp []
      (toUInt64_lt tp) (by decide) (by decide) (by decide) (by decide)
    rw [List.append_nil] at this
    rw [this]
    simp only [Request.store, toInt64_toUInt64 h0 h1, List.length_cons]
    congr 2
    omega
  · exact decodeWith_nil _ _ _ _

theorem Request_decode_data (m : Request Ctx) (s : List Byte)
    (hlen : (bytesField 0x1a s).length < 2 ^ 63) :
    decodeWith .Request Request.schema (Request.store ctx) m (bytesField 0x1a s) =
      .ok (if s.length > 0 then { m with Data := s } else m) := by
  unfold bytesField at hlen ⊢
  split
  · simp only [*, if_true] at hlen
    apply decodeWith_single _ _ _ (by simp [lengthDelimited])
    unfold fieldStep
    have := readField_lengthDelimited .Request Request.schema 0x1a .Data s []
      (by decide) (by decide) (by decide) (by decide) hlen
    rw [List.append_nil] at this
    rw [this]
    rfl
  · exact decodeWith_nil _ _ _ _

theorem KeyRange_decode_wire (r : KeyRange) (ht : r.XXX_unrecognized = [])
    (hlen : r.wire.length < 2 ^ 63) : KeyRange.Unmarshal KeyRange.zero r.wire = .ok r := by
  obtain ⟨s, e, t⟩ := r
  simp only at ht
  subst ht
  have hw : KeyRange.wire ⟨s, e, []⟩ = KeyRange.knownWire ⟨s, e, []⟩ := by simp [KeyRange.wire]
  rw [hw] at hlen ⊢
  exact KeyRange_decode_known s e hlen

theorem Request_decode_range (m : Request Ctx) (r : KeyRange) (ht : r.XXX_unrecognized = [])
    (hlen : (Request.rangeField r).length < 2 ^ 63) :
    decodeWith .Request Request.schema (Request.store ctx) m (Request.rangeField r) =
      .ok { m with Ranges := m.Ranges ++ [r] } := by
  unfold Request.rangeField at hlen ⊢
  apply decodeWith_single _ _ _ (by simp [lengthDelimited])
  unfold fieldStep
  have := readField_lengthDelimited .Request Request.schema 0x22 .Ranges r.wire []
    (by decide) (by decide) (by decide) (by decide) hlen
  rw [List.append_nil] at this
  rw [this]
  have h4 : toInt32 ((0x22 : Byte).val >>> 3) = 4 := by decide
  have hr : KeyRange.Unmarshal KeyRange.zero r.wire = .ok r :=
    KeyRange_decode_wire r ht (by simp [lengthDelimited] at hlen; omega)
  simp [Request.store, h4, hr]

theorem Request_decode_ranges : ∀ (rs : List KeyRange) (m : Request Ctx),
    (∀ r ∈ rs, r.XXX_unrecognized = []) → (rs.map Request.rangeField).flatten.length < 2 ^ 63 →
    decodeWith .Request Request.schema (Request.store ctx) m (rs.map Request.rangeField).flatten =
      .ok { m with Ranges := m.Ranges ++ rs } := by
  intro rs
  induction rs with
  | nil => intro m _ _; simpa using decodeWith_nil _ _ _ m
  | cons r rs ih =>
    intro m ht hlen
    simp only [List.map_cons, List.flatten_cons, List.length_append] at hlen ⊢
    have h1 := Request_decode_range ctx m r (ht r (by simp)) (by omega)
    have h2 := ih { m with Ranges := m.Ranges ++ [r] } (fun x hx => ht x (by simp [hx])) (by omega)
    rw [decodeWith_append _ _ _ h1 h2 (by rw [List.length_append]; omega)]
    simp

theorem Request_decode_wire (tp : Int) (data : List Byte) (ranges : List KeyRange)
    (h0 : -2 ^ 63 ≤ tp) (h1 : tp < 2 ^ 63) (ht : ∀ r ∈ ranges, r.XXX_unrecognized = [])
    (hlen : (Request.wire (⟨none, tp, data, ranges, []⟩ : Request Ctx)).length < 2 ^ 63) :
    Request.Unmarshal ctx Request.zero (Request.wire (⟨none, tp, data, ranges, []⟩ : Request Ctx)) =
      .ok ⟨none, tp, data, ranges, []⟩ := by
  rw [Request_Unmarshal_eq]
  unfold Request.wire at hlen ⊢
  simp only [List.append_nil, List.length_append] at hlen ⊢
  have e1 : decodeWith .Request Request.schema (Request.store ctx) Request.zero
      (Request.tpField tp) = .ok ⟨none, tp, [], [], []⟩ := by
    rw [Request_decode_tp ctx Request.zero tp h0 h1]
    by_cases htp : tp = 0 <;> simp [Request.zero, htp]
  have e2 : decodeWith .Request Request.schema (Request.store ctx) ⟨none, tp, [], [], []⟩
      (bytesField 0x1a data) = .ok ⟨none, tp, data, [], []⟩ := by
    rw [Request_decode_data ctx _ data (by omega)]
    cases data <;> simp
  have e12 := decodeWith_append _ _ _ e1 e2 (by rw [List.length_append]; omega)
  have e3 := Request_decode_ranges ctx ranges ⟨none, tp, data, [], []⟩ ht (by omega)
  rw [decodeWith_append _ _ _ e12 e3 (by simp only [List.length_append]; omega)]
  simp

end RequestDecode


/-! ## Every turn of the loop moves forward -/

theorem skipGroupLoop_pos {sk : List Byte → Res Int} {d : List Byte} :
    ∀ (g : Nat) (i n : Int), skipGroupLoop sk d g i = .ok n → 1 ≤ n := by
  intro g
  induction g with
  | zero => intro i n h; simp [skipGroupLoop] at h
  | succ g ih =>
    intro i n h
    rw [skipGroupLoop] at h
    by_cases hi : i < 0
    · simp [hi] at h
    · simp only [hi, if_false] at h
      cases hd : decodeVarint d i.toNat with
      | error e => simp [hd] at h
      | ok p =>
        obtain ⟨iw, i'⟩ := p
        have hb := decodeVarint_bounds hd
        simp only [hd] at h
        by_cases h4 : iw &&& 0x7 = 4
        · simp only [h4, if_true, Except.ok.injEq] at h
          omega
        · simp only [h4, if_false] at h
          cases hsl : sliceFrom d i with
          | error e => simp [hsl] at h
          | ok rest =>
            simp only [hsl] at h
            cases hsk : sk rest with
            | error e => simp [hsk] at h
            | ok next =>
              simp only [hsk] at h
              exact ih _ _ h

theorem wrapInt64_small_ne_zero {x : Int} (h0 : 1 ≤ x) (h1 : x < 2 ^ 64) : wrapInt64 x ≠ 0 := by
  by_cases h : x < 2 ^ 63
  · rw [wrapInt64_of_range (by omega) h]; omega
  · have := wrapInt64_neg_of_range (by omega : (2 : Int) ^ 63 ≤ x) h1
    omega

theorem skipFuel_ne_zero {f : Nat} {d : List Byte} {n : Int} (h : skipFuel f d = .ok n) :
    n ≠ 0 := by
  cases f with
  | zero => simp [skipFuel] at h
  | succ f =>
    rw [skipFuel] at h
    by_cases hl : 0 < d.length
    · simp only [hl, if_true] at h
      cases hd : decodeVarint d 0 with
      | error e => simp [hd] at h
      | ok p =>
        obtain ⟨wire, i⟩ := p
        have hb := decodeVarint_bounds hd
        simp only [hd] at h
        by_cases h0 : wire &&& 0x7 = 0
        · simp only [h0, if_true] at h
          cases hd2 : decodeVarint d i with
          | error e => simp [hd2] at h
          | ok p2 =>
            obtain ⟨v2, i2⟩ := p2
            have hb2 := decodeVarint_bounds hd2
            simp only [hd2, Except.ok.injEq] at h
            omega
        · simp only [h0, if_false] at h
          by_cases h1 : wire &&& 0x7 = 1
          · simp only [h1, if_true, Except.ok.injEq] at h
            rw [← h]; exact wrapInt64_small_ne_zero (by omega) (by omega)
          · simp only [h1, if_false] at h
            by_cases h2 : wire &&& 0x7 = 2
            · simp only [h2, if_true] at h
              cases hd2 : decodeVarint d i with
              | error e => simp [hd2] at h
              | ok p2 =>
                obtain ⟨v2, i2⟩ := p2
                have hb2 := decodeVarint_bounds hd2
                have hlt := decodeVarint_lt hd2
                simp only [hd2] at h
                split at h
                · simp at h
                · rename_i hneg
                  have hraw : v2 < 2 ^ 63 := (toInt64_nonneg_iff hlt).1 (by omega)
                  rw [toInt64_of_lt hraw] at h
                  simp only [Except.ok.injEq] at h
                  rw [← h]; exact wrapInt64_small_ne_zero (by omega) (by omega)
            · simp only [h2, if_false] at h
              by_cases h3 : wire &&& 0x7 = 3
              · simp only [h3, if_true] at h
                have := skipGroupLoop_pos _ _ _ h
                omega
              · simp only [h3, if_false] at h
                by_cases h4 : wire &&& 0x7 = 4
                · simp only [h4, if_true, Except.ok.injEq] at h
                  omega
                · simp only [h4, if_false] at h
                  by_cases h5 : wire &&& 0x7 = 5
                  · simp only [h5, if_true, Except.ok.injEq] at h
                    rw [← h]; exact wrapInt64_small_ne_zero (by omega) (by omega)
                  · simp [h5] at h
    · simp [hl] at h

theorem readField_bounds {name : MsgName} {schema : Schema} {d : List Byte} {i j : Nat}
    {n : Int} {p : Payload} (h : readField name schema d i = .ok (n, p, j))
    (hd : d.length < 2 ^ 63) : i < j ∧ j ≤ d.length := by
  unfold readField at h
  cases ht : readTag name d i with
  | error e => simp [ht] at h
  | ok t =>
    obtain ⟨f, w, i'⟩ := t
    have hb := readTag_bounds ht
    simp only [ht] at h
    split at h
    · split at h
      · simp at h
      · cases hr : readLengthDelimited d i' with
        | error e => simp [hr] at h
        | ok q =>
          obtain ⟨s, j'⟩ := q
          obtain ⟨raw, i2, hd2, hraw, rfl, hj, hw, rfl⟩ := readLengthDelimited_inv hr
          have hb2 := decodeVarint_bounds hd2
          simp only [hr, Except.ok.injEq, Prod.mk.injEq] at h
          omega
    · split at h
      · simp at h
      · cases hr : decodeVarint d i' with
        | error e => simp [hr] at h
        | ok q =>
          obtain ⟨v, j'⟩ := q
          have hb2 := decodeVarint_bounds hr
          simp only [hr, Except.ok.injEq, Prod.mk.injEq] at h
          omega
    · cases hr : skipUnknown d i with
      | error e => simp [hr] at h
      | ok q =>
        obtain ⟨s, j'⟩ := q
        obtain ⟨hi, k, hsk, rfl, hj, rfl⟩ := skipUnknown_inv hr hd
        have := skipFuel_ne_zero hsk
        simp only [hr, Except.ok.injEq, Prod.mk.injEq] at h
        omega

theorem fieldStep_bounds {M : Type} {name : MsgName} {schema : Schema}
    {store : M → Int → Payload → Res M} {d : List Byte} {m m' : M} {i j : Nat}
    (h : fieldStep name schema store d m i = .ok (m', j)) (hd : d.length < 2 ^ 63) :
    i < j ∧ j ≤ d.length := by
  unfold fieldStep at h
  cases hr : readField name schema d i with
  | error e => simp [hr] at h
  | ok t =>
    obtain ⟨n, p, j'⟩ := t
    have hb := readField_bounds hr hd
    simp only [hr] at h
    cases hs : store m n p with
    | error e => simp [hs] at h
    | ok m2 =>
      simp only [hs, Except.ok.injEq, Prod.mk.injEq] at h
      omega

theorem unmarshalLoop_fuel {M : Type} {step : M → Nat → Res (M × Nat)} {l : Nat}
    (hP : ∀ m i m' j, step m i = .ok (m', j) → i < j) :
    ∀ (f f' : Nat) (m : M) (i : Nat), l - i ≤ f → l - i ≤ f' →
      unmarshalLoop step l f m i = unmarshalLoop step l f' m i := by
  intro f
  induction f with
  | zero =>
    intro f' m i hf hf'
    have hi : ¬ i < l := by omega
    cases f' <;> simp [unmarshalLoop, hi]
  | succ f ih =>
    intro f' m i hf hf'
    by_cases hi : i < l
    · obtain ⟨f0, rfl⟩ : ∃ k, f' = k + 1 := ⟨f' - 1, by omega⟩
      rw [unmarshalLoop, unmarshalLoop]
      simp only [hi, if_true]
      cases hs : step m i with
      | error e => rfl
      | ok r =>
        obtain ⟨m', j⟩ := r
        have := hP m i m' j hs
        exact ih f0 m' j (by omega) (by omega)
    · cases f' <;> simp [unmarshalLoop, hi]


/-! ## Splitting an accepted input -/

theorem shiftIndex_eq_ok {α : Type} {n : Nat} {r : Res (α × Nat)} {x : α} {j' : Nat}
    (h : shiftIndex n r = .ok (x, j')) : ∃ j, r = .ok (x, j) ∧ j' = n + j := by
  cases r with
  | error e => simp at h
  | ok p =>
    obtain ⟨y, j⟩ := p
    simp only [shiftIndex_ok, Except.ok.injEq, Prod.mk.injEq] at h
    exact ⟨j, by rw [h.1], h.2.symm⟩

theorem readLengthDelimited_unshift (a : List Byte) {b : List Byte} {i j' : Nat} {s : List Byte}
    (h : readLengthDelimited (a ++ b) (a.length + i) = .ok (s, j')) :
    ∃ j, j' = a.length + j ∧ readLengthDelimited b i = .ok (s, j) := by
  obtain ⟨raw, i2, hd, hraw, rfl, hj, hw, rfl⟩ := readLengthDelimited_inv h
  rw [decodeVarint_shift] at hd
  obtain ⟨i', hd', rfl⟩ := shiftIndex_eq_ok hd
  simp only [List.length_append] at hj
  refine ⟨i' + raw, by omega, ?_⟩
  rw [readLengthDelimited_ok hd' hraw (by omega) (by omega), List.drop_append]

theorem skipUnknown_unshift (a : List Byte) {b : List Byte} {i j' : Nat} {s : List Byte}
    (h : skipUnknown (a ++ b) (a.length + i) = .ok (s, j')) (hlen : (a ++ b).length < 2 ^ 63) :
    ∃ j, j' = a.length + j ∧ skipUnknown b i = .ok (s, j) := by
  obtain ⟨hi, k, hsk, rfl, hj, rfl⟩ := skipUnknown_inv h hlen
  simp only [List.length_append] at hj hi hlen
  rw [List.drop_append] at hsk ⊢
  refine ⟨i + k, by omega, ?_⟩
  rw [skipUnknown_ok (by omega) hsk (by omega) (by omega)]

theorem readField_unshift (name : MsgName) (schema : Schema) (a : List Byte) {b : List Byte}
    {i j' : Nat} {n : Int} {p : Payload}
    (h : readField name schema (a ++ b) (a.length + i) = .ok (n, p, j'))
    (hlen : (a ++ b).length < 2 ^ 63) :
    ∃ j, j' = a.length + j ∧ readField name schema b i = .ok (n, p, j) := by
  unfold readField at h ⊢
  rw [readTag_shift] at h
  cases ht : readTag name b i with
  | error e => simp [ht] at h
  | ok t =>
    obtain ⟨f, w, i'⟩ := t
    simp only [ht] at h ⊢
    split at h
    · split at h
      · simp at h
      · rename_i hw
        simp only [hw, if_false]
        cases hr : readLengthDelimited (a ++ b) (a.length + i') with
        | error e => simp [hr] at h
        | ok q =>
          obtain ⟨s, j2⟩ := q
          obtain ⟨j, rfl, hrb⟩ := readLengthDelimited_unshift a hr
          simp only [hr, Except.ok.injEq, Prod.mk.injEq] at h
          obtain ⟨h1, h2, h3⟩ := h
          exact ⟨j, h3.symm, by rw [hrb, h1, ← h2]⟩
    · split at h
      · simp at h
      · rename_i hw
        simp only [hw, if_false]
        rw [decodeVarint_shift] at h
        cases hr : decodeVarint b i' with
        | error e => simp [hr] at h
        | ok q =>
          obtain ⟨v, j⟩ := q
          simp only [hr, shiftIndex_ok, Except.ok.injEq, Prod.mk.injEq] at h ⊢
          obtain ⟨h1, h2, h3⟩ := h
          exact ⟨j, h3.symm, h1, h2, rfl⟩
    · cases hr : skipUnknown (a ++ b) (a.length + i) with
      | error e => simp [hr] at h
      | ok q =>
        obtain ⟨s, j2⟩ := q
        obtain ⟨j, rfl, hrb⟩ := skipUnknown_unshift a hr hlen
        simp only [hr, Except.ok.injEq, Prod.mk.injEq] at h
        obtain ⟨h1, h2, h3⟩ := h
        exact ⟨j, h3.symm, by rw [hrb, h1, ← h2]⟩

section Loop

variable {M : Type} (name : MsgName) (schema : Schema) (store : M → Int → Payload → Res M)

theorem fieldStep_unshift (a : List Byte) {b : List Byte} {m m' : M} {i j' : Nat}
    (h : fieldStep name schema store (a ++ b) m (a.length + i) = .ok (m', j'))
    (hlen : (a ++ b).length < 2 ^ 63) :
    ∃ j, j' = a.length + j ∧ fieldStep name schema store b m i = .ok (m', j) := by
  unfold fieldStep at h ⊢
  cases hr : readField name schema (a ++ b) (a.length + i) with
  | error e => simp [hr] at h
  | ok t =>
    obtain ⟨n, p, j2⟩ := t
    obtain ⟨j, rfl, hrb⟩ := readField_unshift name schema a hr hlen
    simp only [hr, hrb] at h ⊢
    cases hs : store m n p with
    | error e => simp [hs] at h
    | ok m2 =>
      simp only [hs, Except.ok.injEq, Prod.mk.injEq] at h ⊢
      exact ⟨j, h.2.symm, h.1, rfl⟩

theorem unmarshalLoop_unshift (stepB stepAB : M → Nat → Res (M × Nat)) (n lb : Nat)
    (hU : ∀ m i m' j', stepAB m (n + i) = .ok (m', j') →
      ∃ j, j' = n + j ∧ stepB m i = .ok (m', j)) :
    ∀ (f : Nat) (m : M) (i : Nat) (m2 : M),
      unmarshalLoop stepAB (n + lb) f m (n + i) = .ok m2 →
      unmarshalLoop stepB lb f m i = .ok m2 := by
  intro f
  induction f with
  | zero =>
    intro m i m2 h
    rw [unmarshalLoop] at h ⊢
    split at h
    · simp at h
    · split at h
      · simp at h
      · have : i = lb := by omega
        subst this
        simpa using h
  | succ f ih =>
    intro m i m2 h
    rw [unmarshalLoop] at h ⊢
    split at h
    · rename_i hi
      cases hs : stepAB m (n + i) with
      | error e => simp [hs] at h
      | ok r =>
        obtain ⟨m', j'⟩ := r
        obtain ⟨j, rfl, hb⟩ := hU m i m' j' hs
        simp only [hs] at h
        simp only [show i < lb from by omega, if_true, hb]
        exact ih m' j m2 h
    · split at h
      · simp at h
      · have : i = lb := by omega
        subst this
        simpa using h

theorem decodeWith_fuel (m : M) (d : List Byte) (hd : d.length < 2 ^ 63) (f : Nat)
    (hf : d.length ≤ f) :
    unmarshalLoop (fieldStep name schema store d) d.length f m 0 =
      decodeWith name schema store m d :=
  unmarshalLoop_fuel (fun _ _ _ _ h => (fieldStep_bounds h hd).1) f d.length m 0 (by omega)
    (by omega)

theorem decodeWith_append_iff {m0 m1 : M} {a b : List Byte} (m2 : M)
    (ha : decodeWith name schema store m0 a = .ok m1) (hlen : (a ++ b).length < 2 ^ 63) :
    decodeWith name schema store m0 (a ++ b) = .ok m2 ↔
      decodeWith name schema store m1 b = .ok m2 := by
  constructor
  · intro h
    obtain ⟨f, hf, he⟩ := decodeWith_prefix name schema store ha hlen
    rw [he] at h
    have h1 := unmarshalLoop_unshift (fieldStep name schema store b)
      (fieldStep name schema store (a ++ b)) a.length b.length
      (fun m i m' j' hs => fieldStep_unshift name schema store a hs hlen) f m1 0 m2
      (by simpa using h)
    rw [decodeWith_fuel name schema store m1 b (by simp at hlen; omega) f hf] at h1
    exact h1
  · intro h
    exact decodeWith_append name schema store ha h hlen

end Loop


/-! ## Unknown fields of a `KeyRange` -/

theorem toInt32_of_lt {u : Nat} (h : u < 2 ^ 31) : toInt32 u = (u : Int) := by
  have h1 : u % 2 ^ 32 = u := Nat.mod_eq_of_lt (by omega)
  unfold toInt32
  rw [h1, if_pos h]

theorem readField_unknown (name : MsgName) (schema : Schema) {u : List Byte} {wire k : Nat}
    (htag : decodeVarint u 0 = .ok (wire, k)) (hpos : 0 < toInt32 (wire >>> 3))
    (hs : schema (toInt32 (wire >>> 3)) = none) (hwt : wire &&& 0x7 ≠ 4)
    (hskip : skipMppProcessor u = .ok (u.length : Int)) (hlen : u.length < 2 ^ 63) :
    readField name schema u 0 = .ok (toInt32 (wire >>> 3), .unknown u, u.length) := by
  unfold readField readTag
  have hp : ¬ toInt32 (wire >>> 3) ≤ 0 := by omega
  simp only [htag, hwt, hp, if_false, hs]
  have := skipUnknown_ok (d := u) (i := 0) (k := u.length) (by omega) (by simpa using hskip)
    (by omega) (by omega)
  rw [this]
  simp

theorem KeyRange_decode_unknown (m : KeyRange) {u : List Byte} {wire k : Nat}
    (htag : decodeVarint u 0 = .ok (wire, k)) (h3 : 3 ≤ wire >>> 3) (h29 : wire >>> 3 < 2 ^ 29)
    (hwt : wire &&& 0x7 ≠ 4) (hskip : skipMppProcessor u = .ok (u.length : Int))
    (hlen : u.length < 2 ^ 63) :
    decodeWith .KeyRange KeyRange.schema KeyRange.store m u =
      .ok { m with XXX_unrecognized := m.XXX_unrecognized ++ u } := by
  have hu : u ≠ [] := by
    intro hc
    subst hc
    simp [decodeVarint, decodeVarintLoop] at htag
  have hn : toInt32 (wire >>> 3) = ((wire >>> 3 : Nat) : Int) := toInt32_of_lt (by omega)
  have hs : KeyRange.schema (toInt32 (wire >>> 3)) = none := by
    rw [hn]
    unfold KeyRange.schema
    have e1 : ¬ (((wire >>> 3 : Nat) : Int) = 1) := by omega
    have e2 : ¬ (((wire >>> 3 : Nat) : Int) = 2) := by omega
    simp only [e1, e2, if_false]
  apply decodeWith_single _ _ _ hu
  unfold fieldStep
  rw [readField_unknown .KeyRange KeyRange.schema htag (by rw [hn]; omega) hs hwt hskip hlen]
  rfl

theorem KeyRange_step_tail {d : List Byte} {m m' : KeyRange} {i j : Nat}
    (h : fieldStep .KeyRange KeyRange.schema KeyRange.store d m i = .ok (m', j)) (n : KeyRange) :
    ∃ n', fieldStep .KeyRange KeyRange.schema KeyRange.store d n i = .ok (n', j) ∧
      ∀ t, m.XXX_unrecognized = t ++ n.XXX_unrecognized →
        m'.XXX_unrecognized = t ++ n'.XXX_unrecognized := by
  unfold fieldStep at h ⊢
  cases hr : readField .KeyRange KeyRange.schema d i with
  | error e => simp [hr] at h
  | ok r =>
    obtain ⟨num, p, j'⟩ := r
    simp only [hr] at h ⊢
    cases p with
    | bytes s =>
      by_cases h1 : num = 1
      · simp only [KeyRange.store, h1, if_true, Except.ok.injEq, Prod.mk.injEq] at h ⊢
        obtain ⟨rfl, rfl⟩ := h
        exact ⟨{ n with Start := s }, ⟨rfl, rfl⟩, fun t ht => ht⟩
      · simp only [KeyRange.store, h1, if_false, Except.ok.injEq, Prod.mk.injEq] at h ⊢
        obtain ⟨rfl, rfl⟩ := h
        exact ⟨{ n with End := s }, ⟨rfl, rfl⟩, fun t ht => ht⟩
    | varint v =>
      simp only [KeyRange.store, Except.ok.injEq, Prod.mk.injEq] at h ⊢
      obtain ⟨rfl, rfl⟩ := h
      exact ⟨n, ⟨rfl, rfl⟩, fun t ht => ht⟩
    | unknown s =>
      simp only [KeyRange.store, Except.ok.injEq, Prod.mk.injEq] at h ⊢
      obtain ⟨rfl, rfl⟩ := h
      exact ⟨{ n with XXX_unrecognized := n.XXX_unrecognized ++ s }, ⟨rfl, rfl⟩,
        fun t ht => by simp [ht]⟩

theorem KeyRange_loop_tail (d : List Byte) (l : Nat) : ∀ (f : Nat) (m n : KeyRange) (i : Nat)
    (m' : KeyRange),
    unmarshalLoop (fieldStep .KeyRange KeyRange.schema KeyRange.store d) l f m i = .ok m' →
    ∃ n', unmarshalLoop (fieldStep .KeyRange KeyRange.schema KeyRange.store d) l f n i = .ok n' ∧
      ∀ t, m.XXX_unrecognized = t ++ n.XXX_unrecognized →
        m'.XXX_unrecognized = t ++ n'.XXX_unrecognized := by
  intro f
  induction f with
  | zero =>
    intro m n i m' h
    rw [unmarshalLoop] at h ⊢
    split at h
    · simp at h
    · split at h
      · simp at h
      · simp only [Except.ok.injEq] at h
        subst h
        rename_i h1 h2
        simp only [h1, h2, if_false]
        exact ⟨n, rfl, fun t ht => ht⟩
  | succ f ih =>
    intro m n i m' h
    rw [unmarshalLoop] at h ⊢
    split at h
    · rename_i hi
      simp only [hi, if_true]
      cases hs : fieldStep .KeyRange KeyRange.schema KeyRange.store d m i with
      | error e => simp [hs] at h
      | ok r =>
        obtain ⟨m1, j⟩ := r
        simp only [hs] at h
        obtain ⟨n1, hn1, hrel1⟩ := KeyRange_step_tail hs n
        obtain ⟨n', hn', hrel⟩ := ih m1 n1 j m' h
        simp only [hn1]
        exact ⟨n', hn', fun t ht => hrel t (hrel1 t ht)⟩
    · rename_i h1
      split at h
      · simp at h
      · rename_i h2
        simp only [Except.ok.injEq] at h
        subst h
        simp only [h1, h2, if_false]
        exact ⟨n, rfl, fun t ht => ht⟩

theorem KeyRange_decode_tail {m1 m : KeyRange} {d : List Byte}
    (h : decodeWith .KeyRange KeyRange.schema KeyRange.store m1 d = .ok m) :
    ∃ m2, decodeWith .KeyRange KeyRange.schema KeyRange.store KeyRange.zero d = .ok m2 ∧
      m.XXX_unrecognized = m1.XXX_unrecognized ++ m2.XXX_unrecognized := by
  obtain ⟨n', hn', hrel⟩ := KeyRange_loop_tail d d.length d.length m1 KeyRange.zero 0 m h
  exact ⟨n', hn', hrel m1.XXX_unrecognized (by simp [KeyRange.zero])⟩


/-! ## `Request`: a sequence of fields, whole or cut -/

section RequestFields

variable {Ctx : Type} (ctx : Collaborator Ctx)

theorem lengthDelimited_ne_nil (tag : Byte) (s : List Byte) : lengthDelimited tag s ≠ [] := by
  simp [lengthDelimited]

theorem Request_Field_wire_ne_nil (c : Request.Field) : c.wire ≠ [] := by
  cases c <;> simp [Request.Field.wire, lengthDelimited]

theorem Request_decode_field (m : Request Ctx) (c : Request.Field) (hv : c.Valid)
    (hlen : c.wire.length < 2 ^ 63) :
    decodeWith .Request Request.schema (Request.store ctx) m c.wire = .ok (Request.Field.apply m c) := by
  cases c with
  | tp v =>
    obtain ⟨h0, h1⟩ := hv
    apply decodeWith_single _ _ _ (by simp [Request.Field.wire])
    unfold fieldStep
    have := readField_varintField .Request Request.schema 0x10 .Tp []
      (toUInt64_lt v) (by decide) (by decide) (by decide) (by decide)
    rw [List.append_nil] at this
    simp only [Request.Field.wire]
    rw [this]
    simp only [Request.store, toInt64_toUInt64 h0 h1, List.length_cons, Request.Field.apply]
    congr 2
    omega
  | data s =>
    simp only [Request.Field.wire] at hlen ⊢
    apply decodeWith_single _ _ _ (lengthDelimited_ne_nil _ _)
    unfold fieldStep
    have := readField_lengthDelimited .Request Request.schema 0x1a .Data s []
      (by decide) (by decide) (by decide) (by decide) hlen
    rw [List.append_nil] at this
    rw [this]
    rfl
  | range r =>
    have ht : r.XXX_unrecognized = [] := hv
    simp only [Request.Field.wire] at hlen ⊢
    apply decodeWith_single _ _ _ (lengthDelimited_ne_nil _ _)
    unfold fieldStep
    have := readField_lengthDelimited .Request Request.schema 0x22 .Ranges r.wire []
      (by decide) (by decide) (by decide) (by decide) hlen
    rw [List.append_nil] at this
    rw [this]
    have h4 : toInt32 ((0x22 : Byte).val >>> 3) = 4 := by decide
    have hr : KeyRange.Unmarshal KeyRange.zero r.wire = .ok r :=
      KeyRange_decode_wire r ht (by simp [lengthDelimited] at hlen; omega)
    simp [Request.store, h4, hr, Request.Field.apply]

theorem Request_decode_fields : ∀ (cs : List Request.Field) (m : Request Ctx),
    (∀ c ∈ cs, c.Valid) → (cs.map Request.Field.wire).flatten.length < 2 ^ 63 →
    decodeWith .Request Request.schema (Request.store ctx) m (cs.map Request.Field.wire).flatten =
      .ok (cs.foldl Request.Field.apply m) := by
  intro cs
  induction cs with
  | nil => intro m _ _; simpa using decodeWith_nil _ _ _ m
  | cons c cs ih =>
    intro m hv hlen
    simp only [List.map_cons, List.flatten_cons, List.length_append] at hlen ⊢
    have h1 := Request_decode_field ctx m c (hv c (by simp)) (by omega)
    have h2 := ih (Request.Field.apply m c) (fun x hx => hv x (by simp [hx])) (by omega)
    rw [decodeWith_append _ _ _ h1 h2 (by rw [List.length_append]; omega)]
    rfl

theorem Request_wire_eq_fields (m : Request Ctx) :
    m.wire = (m.fields.map Request.Field.wire).flatten ++ m.XXX_unrecognized := by
  unfold Request.wire Request.fields Request.tpField bytesField
  simp only [List.map_append, List.flatten_append, List.map_map]
  congr 1
  congr 1
  · congr 1
    · split <;> simp [Request.Field.wire]
    · split <;> simp [Request.Field.wire]

theorem Request_fields_valid (m : Request Ctx) (h0 : -2 ^ 63 ≤ m.Tp) (h1 : m.Tp < 2 ^ 63)
    (ht : ∀ r ∈ m.Ranges, r.XXX_unrecognized = []) : ∀ c ∈ m.fields, c.Valid := by
  intro c hc
  unfold Request.fields at hc
  simp only [List.mem_append, List.mem_map] at hc
  rcases hc with (hc | hc) | ⟨r, hr, rfl⟩
  · split at hc
    · simp only [List.mem_singleton] at hc
      subst hc
      exact ⟨h0, h1⟩
    · simp at hc
  · split at hc
    · simp only [List.mem_singleton] at hc
      subst hc
      trivial
    · simp at hc
  · exact ht r hr

end RequestFields

/-! ## A field cut short -/

theorem decodeVarint_varint_cut {v : Nat} (hv : v < 2 ^ 64) {j : Nat} (hj : j < (varint v).length) :
    decodeVarint ((varint v).take j) 0 = .error .ErrUnexpectedEOF := by
  obtain ⟨conts, last, he, hc, hl, hval, hlen⟩ := varint_spec hv
  rw [he] at hj ⊢
  simp only [List.length_append, List.length_singleton] at hj
  rw [List.take_append_of_le_length (by omega)]
  apply decodeVarint_eof
  · simp; omega
  · intro c hcm
    exact hc c (List.mem_of_mem_take hcm)

theorem decodeVarint_after_tag (a : List Byte) (tag : Byte) (q : List Byte) :
    decodeVarint (a ++ tag :: q) (a.length + 1) = shiftIndex (a.length + 1) (decodeVarint q 0) := by
  have := decodeVarint_shift (a ++ [tag]) q 0
  simpa using this

theorem readTag_after (name : MsgName) (a : List Byte) {tag : Byte} (q : List Byte)
    (htag : tag.val < 128) (hwt : tag.val &&& 0x7 ≠ 4) (hpos : 0 < toInt32 (tag.val >>> 3)) :
    readTag name (a ++ tag :: q) a.length =
      .ok (toInt32 (tag.val >>> 3), tag.val &&& 0x7, a.length + 1) := by
  have := readTag_shift name a (tag :: q) 0
  rw [Nat.add_zero] at this
  rw [this, readTag_single name q htag hwt hpos]

theorem readField_cut_varint (name : MsgName) (schema : Schema) (a : List Byte) {tag : Byte}
    {f : FieldName} {v n : Nat} (hv : v < 2 ^ 64) (htag : tag.val < 128)
    (hwt : tag.val &&& 0x7 = 0) (hpos : 0 < toInt32 (tag.val >>> 3))
    (hs : schema (toInt32 (tag.val >>> 3)) = some (f, .varint))
    (hn0 : 0 < n) (hn : n < (tag :: varint v).length) :
    readField name schema (a ++ (tag :: varint v).take n) a.length = .error .ErrUnexpectedEOF := by
  obtain ⟨j, rfl⟩ : ∃ j, n = j + 1 := ⟨n - 1, by omega⟩
  simp only [List.length_cons] at hn
  rw [List.take_succ_cons]
  unfold readField
  rw [readTag_after name a _ htag (by omega) hpos]
  simp only [hs, hwt, ne_eq, not_true_eq_false, if_false]
  rw [decodeVarint_after_tag, decodeVarint_varint_cut hv (by omega)]
  rfl

theorem readField_cut_bytes (name : MsgName) (schema : Schema) (a : List Byte) {tag : Byte}
    {f : FieldName} (content : List Byte) {n : Nat} (htag : tag.val < 128)
    (hwt : tag.val &&& 0x7 = 2) (hpos : 0 < toInt32 (tag.val >>> 3))
    (hs : schema (toInt32 (tag.val >>> 3)) = some (f, .bytes))
    (hn0 : 0 < n) (hn : n < (lengthDelimited tag content).length)
    (hlen : a.length + (lengthDelimited tag content).length < 2 ^ 63) :
    readField name schema (a ++ (lengthDelimited tag content).take n) a.length =
      .error .ErrUnexpectedEOF := by
  obtain ⟨j, rfl⟩ : ∃ j, n = j + 1 := ⟨n - 1, by omega⟩
  have hl : (lengthDelimited tag content).length =
      1 + (varint (content.length % 2 ^ 64)).length + content.length := by
    simp [lengthDelimited]; omega
  have hc : content.length % 2 ^ 64 = content.length := Nat.mod_eq_of_lt (by omega)
  rw [hc] at hl
  unfold lengthDelimited
  rw [hc, List.take_succ_cons]
  unfold readField
  rw [readTag_after name a _ htag (by omega) hpos]
  simp only [hs, hwt, ne_eq, not_true_eq_false, if_false]
  by_cases hj : j < (varint content.length).length
  · rw [List.take_append_of_le_length (by omega)]
    have hd := decodeVarint_after_tag a tag ((varint content.length).take j)
    rw [decodeVarint_varint_cut (by omega) hj] at hd
    rw [readLengthDelimited_err hd]
  · rw [List.take_append_eq_append_take, List.take_of_length_le (by omega)]
    have hd := decodeVarint_after_tag a tag
      (varint content.length ++ List.take (j - (varint content.length).length) content)
    rw [decodeVarint_varint (by omega)] at hd
    simp only [shiftIndex_ok] at hd
    rw [readLengthDelimited_eof hd (by omega) (by simp [List.length_take]; omega) (by omega)]

theorem fieldStep_error {M : Type} {name : MsgName} {schema : Schema}
    {store : M → Int → Payload → Res M} {d : List Byte} {i : Nat} {e : Error} (m : M)
    (h : readField name schema d i = .error e) : fieldStep name schema store d m i = .error e := by
  simp [fieldStep, h]

theorem Request_readField_cut (a : List Byte) (c : Request.Field) {n : Nat} (hn0 : 0 < n)
    (hn : n < c.wire.length) (hlen : a.length + c.wire.length < 2 ^ 63) :
    readField .Request Request.schema (a ++ c.wire.take n) a.length = .error .ErrUnexpectedEOF := by
  cases c with
  | tp v =>
    exact readField_cut_varint .Request Request.schema a (f := .Tp) (toUInt64_lt v) (by decide)
      (by decide) (by decide) (by decide) hn0 hn
  | data s =>
    exact readField_cut_bytes .Request Request.schema a (f := .Data) s (by decide) (by decide)
      (by decide) (by decide) hn0 hn hlen
  | range r =>
    exact readField_cut_bytes .Request Request.schema a (f := .Ranges) r.wire (by decide)
      (by decide) (by decide) (by decide) hn0 hn hlen

theorem flatten_take_split {α β : Type} (w : β → List α) : ∀ (cs : List β) (k : Nat),
    k < (cs.map w).flatten.length →
    ∃ (pre : List β) (c : β) (post : List β) (n : Nat), cs = pre ++ c :: post ∧
      n < (w c).length ∧ (cs.map w).flatten.take k = (pre.map w).flatten ++ (w c).take n := by
  intro cs
  induction cs with
  | nil => intro k hk; simp at hk
  | cons c cs ih =>
    intro k hk
    simp only [List.map_cons, List.flatten_cons, List.length_append] at hk ⊢
    by_cases h : k < (w c).length
    · refine ⟨[], c, cs, k, rfl, h, ?_⟩
      rw [List.take_append_of_le_length (by omega)]
      simp
    · obtain ⟨pre, c', post, n, he, hn, ht⟩ := ih (k - (w c).length) (by omega)
      refine ⟨c :: pre, c', post, n, by rw [he]; rfl, hn, ?_⟩
      rw [List.take_append_eq_append_take, List.take_of_length_le (by omega), ht]
      simp


/-! ## Errors raised while a field is read -/

theorem Byte_tag_cases {tags : List Byte} {schema : Schema} {kind : WireKind}
    (h : ∀ tag ∈ tags, tag.val < 128 ∧ tag.val &&& 0x7 = kind.wireType ∧
      0 < toInt32 (tag.val >>> 3) ∧
      (schema (toInt32 (tag.val >>> 3))).map Prod.snd = some kind)
    {tag : Byte} (ht : tag ∈ tags) :
    tag.val < 128 ∧ tag.val &&& 0x7 = kind.wireType ∧ 0 < toInt32 (tag.val >>> 3) ∧
      ∃ f, schema (toInt32 (tag.val >>> 3)) = some (f, kind) := by
  obtain ⟨h1, h2, h3, h4⟩ := h tag ht
  refine ⟨h1, h2, h3, ?_⟩
  cases hs : schema (toInt32 (tag.val >>> 3)) with
  | none => simp [hs] at h4
  | some p =>
    obtain ⟨f, k⟩ := p
    simp only [hs, Option.map_some', Option.some.injEq] at h4
    exact ⟨f, by rw [h4]⟩

section Loop

variable {M : Type} (name : MsgName) (schema : Schema) (store : M → Int → Payload → Res M)

theorem decodeWith_tag_overflow {m0 m1 : M} {pre conts : List Byte} (rest : List Byte)
    (hpre : decodeWith name schema store m0 pre = .ok m1) (hlen10 : conts.length = 10)
    (hc : ∀ c ∈ conts, 128 ≤ c.val) (hlen : (pre ++ (conts ++ rest)).length < 2 ^ 63) :
    decodeWith name schema store m0 (pre ++ (conts ++ rest)) =
      .error .ErrIntOverflowMppProcessor := by
  have hb : conts ++ rest ≠ [] := by
    intro h
    have := congrArg List.length h
    simp only [List.length_append, List.length_nil] at this
    omega
  apply decodeWith_prefix_error _ _ _ hpre hlen hb
  apply fieldStep_error
  unfold readField readTag
  have := decodeVarint_shift pre (conts ++ rest) 0
  rw [Nat.add_zero] at this
  rw [this, decodeVarint_overflow conts rest hlen10 hc]
  rfl

theorem readField_after_tag_overflow (pre : List Byte) {tag : Byte} {f : FieldName}
    {kind : WireKind} {conts : List Byte} (rest : List Byte) (htag : tag.val < 128)
    (hwt : tag.val &&& 0x7 = kind.wireType) (hpos : 0 < toInt32 (tag.val >>> 3))
    (hs : schema (toInt32 (tag.val >>> 3)) = some (f, kind)) (hlen10 : conts.length = 10)
    (hc : ∀ c ∈ conts, 128 ≤ c.val) :
    readField name schema (pre ++ tag :: (conts ++ rest)) pre.length =
      .error .ErrIntOverflowMppProcessor := by
  have hd := decodeVarint_after_tag pre tag (conts ++ rest)
  rw [decodeVarint_overflow conts rest hlen10 hc] at hd
  unfold readField
  cases kind with
  | varint =>
    rw [readTag_after name pre _ htag (by rw [hwt]; decide) hpos]
    simp only [hs, hwt, WireKind.wireType, ne_eq, not_true_eq_false, if_false, hd]
    rfl
  | bytes =>
    rw [readTag_after name pre _ htag (by rw [hwt]; decide) hpos]
    simp only [hs, hwt, WireKind.wireType, ne_eq, not_true_eq_false, if_false,
      readLengthDelimited_err hd]

theorem decodeWith_after_tag_overflow {m0 m1 : M} {pre conts : List Byte} {tag : Byte}
    {f : FieldName} {kind : WireKind} (rest : List Byte)
    (hpre : decodeWith name schema store m0 pre = .ok m1) (htag : tag.val < 128)
    (hwt : tag.val &&& 0x7 = kind.wireType) (hpos : 0 < toInt32 (tag.val >>> 3))
    (hs : schema (toInt32 (tag.val >>> 3)) = some (f, kind)) (hlen10 : conts.length = 10)
    (hc : ∀ c ∈ conts, 128 ≤ c.val) (hlen : (pre ++ tag :: (conts ++ rest)).length < 2 ^ 63) :
    decodeWith name schema store m0 (pre ++ tag :: (conts ++ rest)) =
      .error .ErrIntOverflowMppProcessor := by
  apply decodeWith_prefix_error _ _ _ hpre hlen (by simp)
  exact fieldStep_error _
    (readField_after_tag_overflow name schema pre rest htag hwt hpos hs hlen10 hc)

theorem readField_length_prefix (pre : List Byte) {tag : Byte} {f : FieldName}
    {lenBytes : List Byte} (rest : List Byte) {raw : Nat} (htag : tag.val < 128)
    (hwt : tag.val &&& 0x7 = 2) (hpos : 0 < toInt32 (tag.val >>> 3))
    (hs : schema (toInt32 (tag.val >>> 3)) = some (f, .bytes))
    (hd : decodeVarint (lenBytes ++ rest) 0 = .ok (raw, lenBytes.length)) :
    (toInt64 raw < 0 → readField name schema (pre ++ tag :: (lenBytes ++ rest)) pre.length =
        .error .ErrInvalidLengthMppProcessor) ∧
    (0 ≤ toInt64 raw → rest.length < raw → pre.length + 1 + lenBytes.length + raw < 2 ^ 63 →
      readField name schema (pre ++ tag :: (lenBytes ++ rest)) pre.length =
        .error .ErrUnexpectedEOF) := by
  have hd' := decodeVarint_after_tag pre tag (lenBytes ++ rest)
  rw [hd] at hd'
  simp only [shiftIndex_ok] at hd'
  have hlt := decodeVarint_lt hd
  constructor
  · intro hneg
    unfold readField
    rw [readTag_after name pre _ htag (by omega) hpos]
    simp only [hs, hwt, ne_eq, not_true_eq_false, if_false,
      readLengthDelimited_invalid hd' hneg]
  · intro hnn hrest hwrap
    have hraw : raw < 2 ^ 63 := (toInt64_nonneg_iff hlt).1 hnn
    unfold readField
    rw [readTag_after name pre _ htag (by omega) hpos]
    simp only [hs, hwt, ne_eq, not_true_eq_false, if_false]
    rw [readLengthDelimited_eof hd' hraw (by simp; omega) (by omega)]

theorem decodeWith_length_prefix {m0 m1 : M} {pre lenBytes : List Byte} {tag : Byte}
    {f : FieldName} (rest : List Byte) {raw : Nat}
    (hpre : decodeWith name schema store m0 pre = .ok m1) (htag : tag.val < 128)
    (hwt : tag.val &&& 0x7 = 2) (hpos : 0 < toInt32 (tag.val >>> 3))
    (hs : schema (toInt32 (tag.val >>> 3)) = some (f, .bytes))
    (hd : decodeVarint (lenBytes ++ rest) 0 = .ok (raw, lenBytes.length))
    (hlen : (pre ++ tag :: (lenBytes ++ rest)).length < 2 ^ 63) :
    (toInt64 raw < 0 → decodeWith name schema store m0 (pre ++ tag :: (lenBytes ++ rest)) =
        .error .ErrInvalidLengthMppProcessor) ∧
    (0 ≤ toInt64 raw → rest.length < raw → pre.length + 1 + lenBytes.length + raw < 2 ^ 63 →
      decodeWith name schema store m0 (pre ++ tag :: (lenBytes ++ rest)) =
        .error .ErrUnexpectedEOF) := by
  obtain ⟨h1, h2⟩ := readField_length_prefix name schema pre rest htag hwt hpos hs hd
  constructor
  · intro hneg
    exact decodeWith_prefix_error _ _ _ hpre hlen (by simp) (fieldStep_error _ (h1 hneg))
  · intro hnn hrest hwrap
    exact decodeWith_prefix_error _ _ _ hpre hlen (by simp)
      (fieldStep_error _ (h2 hnn hrest hwrap))

end Loop

theorem KeyRange_bytes_tags : ∀ tag ∈ ([0x0a, 0x12] : List Byte),
    tag.val < 128 ∧ tag.val &&& 0x7 = WireKind.bytes.wireType ∧ 0 < toInt32 (tag.val >>> 3) ∧
      (KeyRange.schema (toInt32 (tag.val >>> 3))).map Prod.snd = some .bytes := by
  intro tag ht
  simp only [List.mem_cons, List.mem_singleton, List.not_mem_nil, or_false] at ht
  rcases ht with rfl | rfl <;> decide

theorem Request_bytes_tags : ∀ tag ∈ ([0x0a, 0x1a, 0x22] : List Byte),
    tag.val < 128 ∧ tag.val &&& 0x7 = WireKind.bytes.wireType ∧ 0 < toInt32 (tag.val >>> 3) ∧
      (Request.schema (toInt32 (tag.val >>> 3))).map Prod.snd = some .bytes := by
  intro tag ht
  simp only [List.mem_cons, List.mem_singleton, List.not_mem_nil, or_false] at ht
  rcases ht with rfl | rfl | rfl <;> decide

theorem Request_varint_tags : ∀ tag ∈ ([0x10] : List Byte),
    tag.val < 128 ∧ tag.val &&& 0x7 = WireKind.varint.wireType ∧ 0 < toInt32 (tag.val >>> 3) ∧
      (Request.schema (toInt32 (tag.val >>> 3))).map Prod.snd = some .varint := by
  intro tag ht
  simp only [List.mem_cons, List.mem_singleton, List.not_mem_nil, or_false] at ht
  subst ht
  decide

theorem Response_bytes_tags : ∀ tag ∈ ([0x0a, 0x12, 0x1a, 0x22, 0x2a, 0x32] : List Byte),
    tag.val < 128 ∧ tag.val &&& 0x7 = WireKind.bytes.wireType ∧ 0 < toInt32 (tag.val >>> 3) ∧
      (Response.schema (toInt32 (tag.val >>> 3))).map Prod.snd = some .bytes := by
  intro tag ht
  simp only [List.mem_cons, List.mem_singleton, List.not_mem_nil, or_false] at ht
  rcases ht with rfl | rfl | rfl | rfl | rfl | rfl <;> decide


theorem decodeVarintLoop_overflow_iff (d : List Byte) : ∀ (k shift i acc : Nat),
    shift + 7 * k = 70 →
    (decodeVarintLoop d k shift i acc = .error .ErrIntOverflowMppProcessor ↔
      ∀ j, j < k → ∃ b, d[i + j]? = some b ∧ 128 ≤ b.val) := by
  intro k
  induction k with
  | zero => intro shift i acc _; simp [decodeVarintLoop]
  | succ k ih =>
    intro shift i acc hs
    have hs' : ¬ shift ≥ 64 := by omega
    rw [decodeVarintLoop]
    simp only [hs', if_false]
    cases hb : d[i]? with
    | none =>
      constructor
      · intro h
        simp at h
      · intro h
        obtain ⟨b, hb', -⟩ := h 0 (by omega)
        simp [hb] at hb'
    | some b =>
      simp only
      by_cases hc : b.val < 0x80
      · simp only [hc, if_true]
        constructor
        · intro h
          simp at h
        · intro h
          obtain ⟨b', hb', hge⟩ := h 0 (by omega)
          simp only [Nat.add_zero, hb, Option.some.injEq] at hb'
          subst hb'
          omega
      · simp only [hc, if_false]
        rw [ih (shift + 7) (i + 1) _ (by omega)]
        constructor
        · intro h j hj
          cases j with
          | zero => exact ⟨b, by simpa using hb, by omega⟩
          | succ j =>
            have := h j (by omega)
            rwa [show i + 1 + j = i + (j + 1) from by omega] at this
        · intro h j hj
          have := h (j + 1) (by omega)
          rwa [show i + (j + 1) = i + 1 + j from by omega] at this

theorem decodeVarint_overflow_iff (d : List Byte) (i : Nat) :
    decodeVarint d i = .error .ErrIntOverflowMppProcessor ↔
      ∀ j, j < 10 → ∃ b, d[i + j]? = some b ∧ 128 ≤ b.val :=
  decodeVarintLoop_overflow_iff d 10 0 i 0 (by norm_num)

theorem Request_decode_tp_bytes {Ctx : Type} (ctx : Collaborator Ctx) (m : Request Ctx)
    (conts : List Byte) (last : Byte) (hlen : conts.length ≤ 9) (hc : ∀ c ∈ conts, 128 ≤ c.val)
    (hl : last.val < 128) :
    decodeWith .Request Request.schema (Request.store ctx) m (0x10 :: (conts ++ [last])) =
      .ok { m with Tp := toInt64 (varintValue (conts ++ [last]) % 2 ^ 64) } := by
  apply decodeWith_single _ _ _ (by simp)
  unfold fieldStep readField
  rw [readTag_single .Request _ (by decide) (by decide) (by decide)]
  have hs : Request.schema (toInt32 ((0x10 : Byte).val >>> 3)) = some (.Tp, .varint) := by decide
  have hw : (0x10 : Byte).val &&& 0x7 = 0 := by decide
  have hd : decodeVarint (0x10 :: (conts ++ [last])) 1 =
      .ok (varintValue (conts ++ [last]) % 2 ^ 64, 1 + (conts.length + 1)) := by
    rw [show (1 : Nat) = 0 + 1 from rfl, decodeVarint_cons]
    have := decodeVarint_value conts last [] hc hl hlen
    rw [this]
    rfl
  simp only [hs, hw, ne_eq, not_true_eq_false, if_false, hd, Request.store]
  congr 2
  simp
  omega


/-! ## The claims -/


/-- C1. Round trip of `KeyRange`: for all byte strings `start` and `end` and an empty
unknown-field tail, with an encoding that fits a Go slice (`Size < 2^63`), `Marshal`
succeeds and `Unmarshal` of its result into a fresh `KeyRange` succeeds and gives back
`start`, `end` and the empty tail. -/
theorem KeyRange_roundtrip (start end_ : List Byte)
    (hsize : KeyRange.Size ⟨start, end_, []⟩ < 2 ^ 63) :
    ∃ bs, KeyRange.Marshal ⟨start, end_, []⟩ = .ok bs ∧
      KeyRange.Unmarshal KeyRange.zero bs = .ok ⟨start, end_, []⟩ := by
  refine ⟨_, KeyRange_Marshal_eq _, ?_⟩
  exact KeyRange_decode_wire _ rfl (by rw [KeyRange_wire_length]; exact hsize)

/-- Witness of C1: the round trip of `start = [1]`, `end = [2, 3]`. -/
theorem KeyRange_roundtrip_witness :
    KeyRange.Size ⟨[1], [2, 3], []⟩ < 2 ^ 63 ∧
    ∃ bs, KeyRange.Marshal ⟨[1], [2, 3], []⟩ = .ok bs ∧
      KeyRange.Unmarshal KeyRange.zero bs = .ok ⟨[1], [2, 3], []⟩ :=
  ⟨by decide, KeyRange_roundtrip [1] [2, 3] (by decide)⟩

/-- C2. Round trip of `Request`: with an absent context, any `tp` in the `int64` range,
any `data`, any list `ranges` of `KeyRange` values with empty tails and an empty tail,
with an encoding that fits a Go slice, `Unmarshal` of `Marshal(m)` into a fresh `Request`
succeeds and gives back the same `tp`, `data`, absent context and the same `ranges`, element
by element and in the same order. -/
theorem Request_roundtrip {Ctx : Type} (ctx : Collaborator Ctx) (tp : Int) (data : List Byte)
    (ranges : List KeyRange) (h0 : -2 ^ 63 ≤ tp) (h1 : tp < 2 ^ 63)
    (ht : ∀ r ∈ ranges, r.XXX_unrecognized = [])
    (hsize : Request.Size ctx ⟨none, tp, data, ranges, []⟩ < 2 ^ 63) :
    ∃ bs, Request.Marshal ctx ⟨none, tp, data, ranges, []⟩ = .ok bs ∧
      Request.Unmarshal ctx Request.zero bs = .ok ⟨none, tp, data, ranges, []⟩ := by
  refine ⟨_, Request_Marshal_eq ctx _ rfl, ?_⟩
  exact Request_decode_wire ctx tp data ranges h0 h1 ht
    (by rw [Request_wire_length ctx _ rfl]; exact hsize)

/-- Witness of C2: `tp = -1`, `data = [7]` and three ranges `A`, `B`, `C`, the second
one with empty `start` and `end`. -/
theorem Request_roundtrip_witness :
    ((-2 : Int) ^ 63 ≤ -1 ∧ (-1 : Int) < 2 ^ 63 ∧
      (∀ r ∈ [(⟨[1], [2], []⟩ : KeyRange), ⟨[], [], []⟩, ⟨[3], [], []⟩], r.XXX_unrecognized = []) ∧
      Request.Size emptyCollaborator
        ⟨none, -1, [7], [⟨[1], [2], []⟩, ⟨[], [], []⟩, ⟨[3], [], []⟩], []⟩ < 2 ^ 63) ∧
    ∃ bs, Request.Marshal emptyCollaborator
        ⟨none, -1, [7], [⟨[1], [2], []⟩, ⟨[], [], []⟩, ⟨[3], [], []⟩], []⟩ = .ok bs ∧
      Request.Unmarshal emptyCollaborator Request.zero bs =
        .ok ⟨none, -1, [7], [⟨[1], [2], []⟩, ⟨[], [], []⟩, ⟨[3], [], []⟩], []⟩ :=
  ⟨⟨by decide, by decide, by decide, by decide⟩,
    Request_roundtrip emptyCollaborator (-1) [7] [⟨[1], [2], []⟩, ⟨[], [], []⟩, ⟨[3], [], []⟩]
      (by decide) (by decide) (by decide) (by decide)⟩

/-- C3. Size exactness: for every `KeyRange` and every `Request` without context,
`MarshalTo` on the buffer of exactly `Size(m)` bytes that `Marshal` allocates returns
normally (no write or slice outside the buffer) with the count `Size(m)`, and `Marshal`
returns no error and a byte sequence of length exactly `Size(m)`. -/
theorem Marshal_size_exact :
    (∀ m : KeyRange, ∃ bs, m.MarshalTo (List.replicate m.Size 0) = .ok (m.Size, bs) ∧
      m.Marshal = .ok bs ∧ bs.length = m.Size) ∧
    (∀ (Ctx : Type) (ctx : Collaborator Ctx) (tp : Int) (data : List Byte)
      (ranges : List KeyRange) (tail : List Byte),
      ∃ bs, Request.MarshalTo ctx ⟨none, tp, data, ranges, tail⟩
          (List.replicate (Request.Size ctx ⟨none, tp, data, ranges, tail⟩) 0) =
            .ok (Request.Size ctx ⟨none, tp, data, ranges, tail⟩, bs) ∧
        Request.Marshal ctx ⟨none, tp, data, ranges, tail⟩ = .ok bs ∧
        bs.length = Request.Size ctx ⟨none, tp, data, ranges, tail⟩) := by
  constructor
  · intro m
    refine ⟨m.wire, ?_, KeyRange_Marshal_eq m, KeyRange_wire_length m⟩
    have := KeyRange_MarshalTo_emits m (List.replicate m.Size 0) (by simp [KeyRange_wire_length m])
    rw [this, KeyRange_wire_length m]
    simp
  · intro Ctx ctx tp data ranges tail
    have hl := Request_wire_length ctx ⟨none, tp, data, ranges, tail⟩ rfl
    refine ⟨_, ?_, Request_Marshal_eq ctx _ rfl, hl⟩
    have := Request_MarshalTo_emits ctx ⟨none, tp, data, ranges, tail⟩ rfl
      (List.replicate (Request.Size ctx ⟨none, tp, data, ranges, tail⟩) 0) (by simp [hl])
    rw [this, hl]
    simp

/-- C4. The `KeyRange` with `start = [0x01]`, `end = [0x02, 0x03]` and no tail encodes to
exactly the seven bytes `0a 01 01 12 02 02 03`, and its `Size` is 7. -/
theorem KeyRange_Marshal_example :
    KeyRange.Marshal ⟨[0x01], [0x02, 0x03], []⟩ =
      .ok [0x0a, 0x01, 0x01, 0x12, 0x02, 0x02, 0x03] ∧
    KeyRange.Size ⟨[0x01], [0x02, 0x03], []⟩ = 7 := by
  decide

/-- C5. Layout of an encoded `Request` without context: `Marshal` returns `Request.wire`,
that is the field `tp` (tag `0x10`, varint of `uint64(tp)`) when `tp` is not 0, the field
`data` (tag `0x1a`, varint of the length, the bytes) when it is not empty, one field (tag
`0x22`, varint of `Size(r)`, `KeyRange.Marshal(r)`) per element `r` of `ranges` in list
order, and the unknown-field tail last; a `Request` with every field at its default
encodes to the empty byte sequence. -/
theorem Request_Marshal_layout {Ctx : Type} (ctx : Collaborator Ctx) (tp : Int)
    (data : List Byte) (ranges : List KeyRange) (tail : List Byte) :
    Request.Marshal ctx ⟨none, tp, data, ranges, tail⟩ =
      .ok ((if tp ≠ 0 then 0x10 :: varint (toUInt64 tp) else []) ++
        (if data.length > 0 then 0x1a :: (varint (data.length % 2 ^ 64) ++ data) else []) ++
        (ranges.map fun r => 0x22 :: (varint (r.Size % 2 ^ 64) ++ r.wire)).flatten ++ tail) ∧
    (∀ r : KeyRange, KeyRange.Marshal r = .ok r.wire) ∧
    Request.Marshal ctx ⟨none, 0, [], [], []⟩ = .ok [] := by
  refine ⟨?_, fun r => KeyRange_Marshal_eq r, ?_⟩
  · rw [Request_Marshal_eq ctx _ rfl]
    congr 1
    simp only [Request.wire, Request.tpField, bytesField, lengthDelimited]
    congr 3
    apply List.map_congr_left
    intro r _
    simp [Request.rangeField, lengthDelimited, KeyRange_wire_length]
  · rw [Request_Marshal_eq ctx _ rfl]
    simp [Request.wire, Request.tpField, bytesField]

/-- C6. Unknown fields survive a decode and re-encode of `KeyRange`.  Let `b = pre ++ u ++
post` be accepted into a fresh `KeyRange`, where `pre` is itself accepted (so `u` starts at a
field boundary) and `u` is one whole field as `skipMppProcessor` delimits it, with a field
number in `3 .. 2^29 - 1` and a wire type other than 4.  Then `post` is accepted too,
and `Marshal` of the decoded message is the encoding of the known fields `start` and `end`,
followed by the unknown bytes collected from `pre`, then the bytes of `u` unchanged, then the
unknown bytes collected from `post`. -/
theorem KeyRange_unknown_preserved (pre u post : List Byte) (m1 m : KeyRange) (wire k : Nat)
    (hlen : (pre ++ (u ++ post)).length < 2 ^ 63)
    (hpre : KeyRange.Unmarshal KeyRange.zero pre = .ok m1)
    (htag : decodeVarint u 0 = .ok (wire, k))
    (h3 : 3 ≤ wire >>> 3) (h29 : wire >>> 3 < 2 ^ 29) (hwt : wire &&& 0x7 ≠ 4)
    (hskip : skipMppProcessor u = .ok (u.length : Int))
    (hacc : KeyRange.Unmarshal KeyRange.zero (pre ++ (u ++ post)) = .ok m) :
    ∃ m2, KeyRange.Unmarshal KeyRange.zero post = .ok m2 ∧
      m.XXX_unrecognized = m1.XXX_unrecognized ++ u ++ m2.XXX_unrecognized ∧
      KeyRange.Marshal m = .ok (bytesField 0xa m.Start ++ bytesField 0x12 m.End ++
        (m1.XXX_unrecognized ++ u ++ m2.XXX_unrecognized)) := by
  simp only [KeyRange_Unmarshal_eq] at hpre hacc ⊢
  simp only [List.length_append] at hlen
  have h1 := (decodeWith_append_iff _ _ _ m hpre (by simp; omega)).1 hacc
  have hu := KeyRange_decode_unknown m1 htag h3 h29 hwt hskip (by omega)
  have h2 := (decodeWith_append_iff _ _ _ m hu (by simp; omega)).1 h1
  obtain ⟨m2, hm2, ht⟩ := KeyRange_decode_tail h2
  refine ⟨m2, hm2, ht, ?_⟩
  rw [KeyRange_Marshal_eq, ← ht]
  rfl

/-- Witness of C6: field 99 of wire type 0 and value 5, the bytes `98 06 05`, between the
fields `start = "A"` and `end = "B"`. -/
theorem KeyRange_unknown_preserved_witness :
    (KeyRange.Unmarshal KeyRange.zero [0x0a, 0x01, 0x41] = .ok ⟨[0x41], [], []⟩ ∧
      decodeVarint [0x98, 0x06, 0x05] 0 = .ok (792, 2) ∧
      3 ≤ 792 >>> 3 ∧ 792 >>> 3 < 2 ^ 29 ∧ 792 &&& 0x7 ≠ 4 ∧
      skipMppProcessor [0x98, 0x06, 0x05] = .ok 3 ∧
      KeyRange.Unmarshal KeyRange.zero
        ([0x0a, 0x01, 0x41] ++ ([0x98, 0x06, 0x05] ++ [0x12, 0x01, 0x42])) =
          .ok ⟨[0x41], [0x42], [0x98, 0x06, 0x05]⟩) ∧
    ∃ m2, KeyRange.Unmarshal KeyRange.zero [0x12, 0x01, 0x42] = .ok m2 ∧
      (⟨[0x41], [0x42], [0x98, 0x06, 0x05]⟩ : KeyRange).XXX_unrecognized =
        (⟨[0x41], [], []⟩ : KeyRange).XXX_unrecognized ++ [0x98, 0x06, 0x05] ++
          m2.XXX_unrecognized ∧
      KeyRange.Marshal ⟨[0x41], [0x42], [0x98, 0x06, 0x05]⟩ =
        .ok (bytesField 0xa [0x41] ++ bytesField 0x12 [0x42] ++
          ((⟨[0x41], [], []⟩ : KeyRange).XXX_unrecognized ++ [0x98, 0x06, 0x05] ++
            m2.XXX_unrecognized)) :=
  ⟨⟨by decide, by decide, by decide, by decide, by decide, by decide, by decide⟩,
    KeyRange_unknown_preserved [0x0a, 0x01, 0x41] [0x98, 0x06, 0x05] [0x12, 0x01, 0x42]
      ⟨[0x41], [], []⟩ ⟨[0x41], [0x42], [0x98, 0x06, 0x05]⟩ 792 2
      (by decide) (by decide) (by decide) (by decide) (by decide) (by decide) (by decide)
      (by decide)⟩

/-- Counterexample to C7 as stated: the `Request` with `tp = 1` and `data = [1]` encodes to
`10 01 1a 01 01`; its proper prefix `10 01` is accepted and gives a message with `tp = 1` and
no data, instead of failing with `io.ErrUnexpectedEOF`. -/
theorem Request_truncation_counterexample :
    Request.Marshal emptyCollaborator ⟨none, 1, [1], [], []⟩ =
      .ok [0x10, 0x01, 0x1a, 0x01, 0x01] ∧
    Request.Unmarshal emptyCollaborator Request.zero
      (([0x10, 0x01, 0x1a, 0x01, 0x01] : List Byte).take 2) = .ok ⟨none, 1, [], [], []⟩ := by
  decide

/-- C7, amended. Let `m` be a `Request` without context and without unknown-field tails,
with `tp` in the `int64` range and an encoding that fits a Go slice.  Every proper prefix of
`Marshal(m)` is made of some whole fields `pre` of `m` followed by the first `n` bytes of the
next field `c`, with `n` less than the length of `c`.  When `n = 0` (the cut is on a boundary
between fields) `Unmarshal` into a fresh `Request` succeeds and gives the message made of the
fields `pre`; when `n > 0` (the cut is inside a field) it fails with `io.ErrUnexpectedEOF`. -/
theorem Request_truncation {Ctx : Type} (ctx : Collaborator Ctx) (tp : Int) (data : List Byte)
    (ranges : List KeyRange) (h0 : -2 ^ 63 ≤ tp) (h1 : tp < 2 ^ 63)
    (ht : ∀ r ∈ ranges, r.XXX_unrecognized = [])
    (hsize : Request.Size ctx ⟨none, tp, data, ranges, []⟩ < 2 ^ 63) :
    ∃ bs, Request.Marshal ctx ⟨none, tp, data, ranges, []⟩ = .ok bs ∧
      ∀ k, k < bs.length →
        ∃ (pre : List Request.Field) (c : Request.Field) (post : List Request.Field) (n : Nat),
          Request.fields (⟨none, tp, data, ranges, []⟩ : Request Ctx) = pre ++ c :: post ∧
          n < c.wire.length ∧
          bs.take k = (pre.map Request.Field.wire).flatten ++ c.wire.take n ∧
          (n = 0 → Request.Unmarshal ctx Request.zero (bs.take k) =
            .ok (pre.foldl Request.Field.apply Request.zero)) ∧
          (0 < n → Request.Unmarshal ctx Request.zero (bs.take k) = .error .ErrUnexpectedEOF) := by
  refine ⟨_, Request_Marshal_eq ctx _ rfl, ?_⟩
  intro k hk
  have hlen := Request_wire_length ctx (⟨none, tp, data, ranges, []⟩ : Request Ctx) rfl
  have hw := Request_wire_eq_fields (⟨none, tp, data, ranges, []⟩ : Request Ctx)
  simp only [List.append_nil] at hw
  rw [hw] at hk hlen ⊢
  obtain ⟨pre, c, post, n, he, hn, htake⟩ := flatten_take_split Request.Field.wire _ k hk
  have hvalid := Request_fields_valid (⟨none, tp, data, ranges, []⟩ : Request Ctx) h0 h1 ht
  have htot : (pre.map Request.Field.wire).flatten.length + c.wire.length ≤
      ((Request.fields (⟨none, tp, data, ranges, []⟩ : Request Ctx)).map
        Request.Field.wire).flatten.length := by
    rw [he]
    simp only [List.map_append, List.map_cons, List.flatten_append, List.flatten_cons,
      List.length_append]
    omega
  have hpre := Request_decode_fields ctx pre Request.zero
    (fun x hx => hvalid x (by rw [he]; simp [hx])) (by omega)
  refine ⟨pre, c, post, n, he, hn, htake, ?_, ?_⟩
  · intro h
    subst h
    rw [htake, Request_Unmarshal_eq]
    simpa using hpre
  · intro h
    rw [htake, Request_Unmarshal_eq]
    have hb : c.wire.take n ≠ [] := by
      intro hc
      have := congrArg List.length hc
      simp only [List.length_take, List.length_nil] at this
      omega
    apply decodeWith_prefix_error _ _ _ hpre _ hb
    · exact fieldStep_error _ (Request_readField_cut _ c h hn (by omega))
    · simp only [List.length_append, List.length_take]
      omega

/-- Witness of C7: the `Request` with `tp = 1` and `data = [1]`. -/
theorem Request_truncation_witness :
    ((-2 : Int) ^ 63 ≤ 1 ∧ (1 : Int) < 2 ^ 63 ∧
      (∀ r ∈ ([] : List KeyRange), r.XXX_unrecognized = []) ∧
      Request.Size emptyCollaborator ⟨none, 1, [1], [], []⟩ < 2 ^ 63) ∧
    ∃ bs, Request.Marshal emptyCollaborator ⟨none, 1, [1], [], []⟩ = .ok bs ∧
      ∀ k, k < bs.length →
        ∃ (pre : List Request.Field) (c : Request.Field) (post : List Request.Field) (n : Nat),
          Request.fields (⟨none, 1, [1], [], []⟩ : Request Unit) = pre ++ c :: post ∧
          n < c.wire.length ∧
          bs.take k = (pre.map Request.Field.wire).flatten ++ c.wire.take n ∧
          (n = 0 → Request.Unmarshal emptyCollaborator Request.zero (bs.take k) =
            .ok (pre.foldl Request.Field.apply Request.zero)) ∧
          (0 < n → Request.Unmarshal emptyCollaborator Request.zero (bs.take k) =
            .error .ErrUnexpectedEOF) :=
  ⟨⟨by decide, by decide, by decide, by decide⟩,
    Request_truncation emptyCollaborator 1 [1] [] (by decide) (by decide) (by decide)
      (by decide)⟩

/-- Counterexample to C8 as stated: field 1 of a `KeyRange` with the length prefix 5 and no
byte after it.  The length reaches beyond the end of the buffer and `Unmarshal` fails with
`io.ErrUnexpectedEOF`, not with `ErrInvalidLengthMppProcessor`. -/
theorem length_prefix_counterexample :
    KeyRange.Unmarshal KeyRange.zero [0x0a, 0x05] = .error .ErrUnexpectedEOF ∧
    KeyRange.Unmarshal KeyRange.zero [0x0a, 0x05] ≠ .error .ErrInvalidLengthMppProcessor := by
  decide

/-- C8, amended. Let the input be an accepted sequence `pre` followed by the tag of a
length-delimited field of the schema (`KeyRange` 1, 2; `Request` 1, 3, 4; `Response` 1 to 6),
a length prefix `lenBytes` with the 64-bit pattern `raw`, and `rest`.  When the length is
negative as an `int`, `Unmarshal` fails with `ErrInvalidLengthMppProcessor`.  When it is not
negative, reaches beyond the end of the buffer and index plus length stays below `2^63`,
`Unmarshal` fails with `io.ErrUnexpectedEOF`. -/
theorem length_prefix_errors :
    (∀ (m0 m1 : KeyRange) (pre lenBytes rest : List Byte) (raw : Nat) (tag : Byte),
      tag ∈ ([0x0a, 0x12] : List Byte) → KeyRange.Unmarshal m0 pre = .ok m1 →
      decodeVarint (lenBytes ++ rest) 0 = .ok (raw, lenBytes.length) →
      (pre ++ tag :: (lenBytes ++ rest)).length < 2 ^ 63 →
      (toInt64 raw < 0 → KeyRange.Unmarshal m0 (pre ++ tag :: (lenBytes ++ rest)) =
          .error .ErrInvalidLengthMppProcessor) ∧
      (0 ≤ toInt64 raw → rest.length < raw → pre.length + 1 + lenBytes.length + raw < 2 ^ 63 →
        KeyRange.Unmarshal m0 (pre ++ tag :: (lenBytes ++ rest)) = .error .ErrUnexpectedEOF)) ∧
    (∀ (Ctx : Type) (ctx : Collaborator Ctx) (m0 m1 : Request Ctx)
      (pre lenBytes rest : List Byte) (raw : Nat) (tag : Byte),
      tag ∈ ([0x0a, 0x1a, 0x22] : List Byte) → Request.Unmarshal ctx m0 pre = .ok m1 →
      decodeVarint (lenBytes ++ rest) 0 = .ok (raw, lenBytes.length) →
      (pre ++ tag :: (lenBytes ++ rest)).length < 2 ^ 63 →
      (toInt64 raw < 0 → Request.Unmarshal ctx m0 (pre ++ tag :: (lenBytes ++ rest)) =
          .error .ErrInvalidLengthMppProcessor) ∧
      (0 ≤ toInt64 raw → rest.length < raw → pre.length + 1 + lenBytes.length + raw < 2 ^ 63 →
        Request.Unmarshal ctx m0 (pre ++ tag :: (lenBytes ++ rest)) =
          .error .ErrUnexpectedEOF)) ∧
    (∀ (D E L X : Type) (deps : ResponseDeps D E L X) (m0 m1 : Response D E L X)
      (pre lenBytes rest : List Byte) (raw : Nat) (tag : Byte),
      tag ∈ ([0x0a, 0x12, 0x1a, 0x22, 0x2a, 0x32] : List Byte) →
      Response.Unmarshal deps m0 pre = .ok m1 →
      decodeVarint (lenBytes ++ rest) 0 = .ok (raw, lenBytes.length) →
      (pre ++ tag :: (lenBytes ++ rest)).length < 2 ^ 63 →
      (toInt64 raw < 0 → Response.Unmarshal deps m0 (pre ++ tag :: (lenBytes ++ rest)) =
          .error .ErrInvalidLengthMppProcessor) ∧
      (0 ≤ toInt64 raw → rest.length < raw → pre.length + 1 + lenBytes.length + raw < 2 ^ 63 →
        Response.Unmarshal deps m0 (pre ++ tag :: (lenBytes ++ rest)) =
          .error .ErrUnexpectedEOF)) := by
  refine ⟨?_, ?_, ?_⟩
  · intro m0 m1 pre lenBytes rest raw tag htag hpre hd hlen
    obtain ⟨h1, h2, h3, f, h4⟩ := Byte_tag_cases KeyRange_bytes_tags htag
    simp only [KeyRange_Unmarshal_eq] at hpre ⊢
    exact decodeWith_length_prefix _ _ _ rest hpre h1 h2 h3 h4 hd hlen
  · intro Ctx ctx m0 m1 pre lenBytes rest raw tag htag hpre hd hlen
    obtain ⟨h1, h2, h3, f, h4⟩ := Byte_tag_cases Request_bytes_tags htag
    simp only [Request_Unmarshal_eq] at hpre ⊢
    exact decodeWith_length_prefix _ _ _ rest hpre h1 h2 h3 h4 hd hlen
  · intro D E L X deps m0 m1 pre lenBytes rest raw tag htag hpre hd hlen
    obtain ⟨h1, h2, h3, f, h4⟩ := Byte_tag_cases Response_bytes_tags htag
    simp only [Response_Unmarshal_eq] at hpre ⊢
    exact decodeWith_length_prefix _ _ _ rest hpre h1 h2 h3 h4 hd hlen

/-- Witness of C8: field 1 of a `KeyRange` with a ten-byte length prefix of pattern
`2^64 - 1` (the length -1), and with the length prefix 5 and no byte after it. -/
theorem length_prefix_errors_witness :
    KeyRange.Unmarshal KeyRange.zero
        ([] ++ 0x0a :: ([0xff, 0xff, 0xff, 0xff, 0xff, 0xff, 0xff, 0xff, 0xff, 0x01] ++ [])) =
      .error .ErrInvalidLengthMppProcessor ∧
    KeyRange.Unmarshal KeyRange.zero ([] ++ 0x0a :: ([0x05] ++ [])) = .error .ErrUnexpectedEOF :=
  ⟨(length_prefix_errors.1 KeyRange.zero KeyRange.zero []
      [0xff, 0xff, 0xff, 0xff, 0xff, 0xff, 0xff, 0xff, 0xff, 0x01] [] (2 ^ 64 - 1) 0x0a
      (by decide) (by decide) (by decide) (by decide)).1 (by decide),
   (length_prefix_errors.1 KeyRange.zero KeyRange.zero [] [0x05] [] 5 0x0a
      (by decide) (by decide) (by decide) (by decide)).2 (by decide) (by decide) (by decide)⟩

/-- Counterexample to C9 as stated: in field `tp` of a `Request`, the ten-byte varint
`ff ff ff ff ff ff ff ff ff 7f` has a tenth group `0x7f` greater than 1 and stands for a
value of 70 bits; `Unmarshal` accepts it and stores `tp = -1`. -/
theorem varint_range_counterexample :
    2 ^ 64 ≤ varintValue [0xff, 0xff, 0xff, 0xff, 0xff, 0xff, 0xff, 0xff, 0xff, 0x7f] ∧
    Request.Unmarshal emptyCollaborator Request.zero
        [0x10, 0xff, 0xff, 0xff, 0xff, 0xff, 0xff, 0xff, 0xff, 0xff, 0x7f] =
      .ok ⟨none, -1, [], [], []⟩ := by
  decide

/-- C9, amended. The varint reading loop that the decoders inline (for tags, length
prefixes, `tp` and the values of unknown varint fields) reports `ErrIntOverflowMppProcessor`
exactly when the continuation bit is set on each of the ten bytes from its start; the range
of the value is not checked.  After an accepted sequence `pre`, a varint of at most ten bytes
in field `tp` of a `Request` is accepted whatever its tenth group, and `tp` becomes its value
modulo `2^64`, read as a signed 64-bit integer. -/
theorem varint_overflow_only_by_length {Ctx : Type} (ctx : Collaborator Ctx) :
    (∀ (d : List Byte) (i : Nat), decodeVarint d i = .error .ErrIntOverflowMppProcessor ↔
      ∀ j, j < 10 → ∃ b, d[i + j]? = some b ∧ 128 ≤ b.val) ∧
    (∀ (m0 m1 : Request Ctx) (pre conts : List Byte) (last : Byte),
      Request.Unmarshal ctx m0 pre = .ok m1 → conts.length ≤ 9 → (∀ c ∈ conts, 128 ≤ c.val) →
      last.val < 128 → (pre ++ 0x10 :: (conts ++ [last])).length < 2 ^ 63 →
      Request.Unmarshal ctx m0 (pre ++ 0x10 :: (conts ++ [last])) =
        .ok { m1 with Tp := toInt64 (varintValue (conts ++ [last]) % 2 ^ 64) }) := by
  refine ⟨decodeVarint_overflow_iff, ?_⟩
  intro m0 m1 pre conts last hpre hlen9 hc hl hlen
  simp only [Request_Unmarshal_eq] at hpre ⊢
  exact decodeWith_append _ _ _ hpre (Request_decode_tp_bytes ctx m1 conts last hlen9 hc hl) hlen

/-- Witness of C9: the ten-byte varint `ff ff ff ff ff ff ff ff ff 7f` in field `tp`. -/
theorem varint_overflow_only_by_length_witness :
    Request.Unmarshal emptyCollaborator Request.zero
        ([] ++ 0x10 :: ([0xff, 0xff, 0xff, 0xff, 0xff, 0xff, 0xff, 0xff, 0xff] ++ [0x7f])) =
      .ok { (Request.zero : Request Unit) with
        Tp := toInt64 (varintValue
          ([0xff, 0xff, 0xff, 0xff, 0xff, 0xff, 0xff, 0xff, 0xff] ++ [0x7f]) % 2 ^ 64) } :=
  (varint_overflow_only_by_length emptyCollaborator).2 Request.zero Request.zero []
    [0xff, 0xff, 0xff, 0xff, 0xff, 0xff, 0xff, 0xff, 0xff] 0x7f
    (by decide) (by decide) (by decide) (by decide) (by decide)

/-- C10. Let the input be an accepted sequence `pre` followed, at the place of a tag, of
the length prefix of a length-delimited field of the schema, or of the value of field `tp` of
a `Request`, by ten bytes that all have the continuation bit `0x80` set.  Then `Unmarshal`
fails with `ErrIntOverflowMppProcessor`, whatever `rest` follows the ten bytes and also when
`rest` is empty. -/
theorem varint_overflow :
    (∀ (m0 m1 : KeyRange) (pre conts rest : List Byte),
      KeyRange.Unmarshal m0 pre = .ok m1 → conts.length = 10 → (∀ c ∈ conts, 128 ≤ c.val) →
      pre.length + 1 + conts.length + rest.length < 2 ^ 63 →
      KeyRange.Unmarshal m0 (pre ++ (conts ++ rest)) = .error .ErrIntOverflowMppProcessor ∧
      ∀ tag ∈ ([0x0a, 0x12] : List Byte),
        KeyRange.Unmarshal m0 (pre ++ tag :: (conts ++ rest)) =
          .error .ErrIntOverflowMppProcessor) ∧
    (∀ (Ctx : Type) (ctx : Collaborator Ctx) (m0 m1 : Request Ctx) (pre conts rest : List Byte),
      Request.Unmarshal ctx m0 pre = .ok m1 → conts.length = 10 → (∀ c ∈ conts, 128 ≤ c.val) →
      pre.length + 1 + conts.length + rest.length < 2 ^ 63 →
      Request.Unmarshal ctx m0 (pre ++ (conts ++ rest)) = .error .ErrIntOverflowMppProcessor ∧
      ∀ tag ∈ ([0x0a, 0x10, 0x1a, 0x22] : List Byte),
        Request.Unmarshal ctx m0 (pre ++ tag :: (conts ++ rest)) =
          .error .ErrIntOverflowMppProcessor) ∧
    (∀ (D E L X : Type) (deps : ResponseDeps D E L X) (m0 m1 : Response D E L X)
      (pre conts rest : List Byte),
      Response.Unmarshal deps m0 pre = .ok m1 → conts.length = 10 →
      (∀ c ∈ conts, 128 ≤ c.val) → pre.length + 1 + conts.length + rest.length < 2 ^ 63 →
      Response.Unmarshal deps m0 (pre ++ (conts ++ rest)) = .error .ErrIntOverflowMppProcessor ∧
      ∀ tag ∈ ([0x0a, 0x12, 0x1a, 0x22, 0x2a, 0x32] : List Byte),
        Response.Unmarshal deps m0 (pre ++ tag :: (conts ++ rest)) =
          .error .ErrIntOverflowMppProcessor) := by
  refine ⟨?_, ?_, ?_⟩
  · intro m0 m1 pre conts rest hpre h10 hc hlen
    simp only [KeyRange_Unmarshal_eq] at hpre ⊢
    refine ⟨decodeWith_tag_overflow _ _ _ rest hpre h10 hc (by simp; omega), ?_⟩
    intro tag htag
    obtain ⟨h1, h2, h3, f, h4⟩ := Byte_tag_cases KeyRange_bytes_tags htag
    exact decodeWith_after_tag_overflow _ _ _ rest hpre h1 h2 h3 h4 h10 hc (by simp; omega)
  · intro Ctx ctx m0 m1 pre conts rest hpre h10 hc hlen
    simp only [Request_Unmarshal_eq] at hpre ⊢
    refine ⟨decodeWith_tag_overflow _ _ _ rest hpre h10 hc (by simp; omega), ?_⟩
    intro tag htag
    by_cases ht : tag = 0x10
    · obtain ⟨h1, h2, h3, f, h4⟩ :=
        Byte_tag_cases Request_varint_tags (List.mem_singleton.2 ht)
      exact decodeWith_after_tag_overflow _ _ _ rest hpre h1 h2 h3 h4 h10 hc (by simp; omega)
    · have htag' : tag ∈ ([0x0a, 0x1a, 0x22] : List Byte) := by
        simp only [List.mem_cons, List.mem_singleton, List.not_mem_nil, or_false] at htag ⊢
        tauto
      obtain ⟨h1, h2, h3, f, h4⟩ := Byte_tag_cases Request_bytes_tags htag'
      exact decodeWith_after_tag_overflow _ _ _ rest hpre h1 h2 h3 h4 h10 hc (by simp; omega)
  · intro D E L X deps m0 m1 pre conts rest hpre h10 hc hlen
    simp only [Response_Unmarshal_eq] at hpre ⊢
    refine ⟨decodeWith_tag_overflow _ _ _ rest hpre h10 hc (by simp; omega), ?_⟩
    intro tag htag
    obtain ⟨h1, h2, h3, f, h4⟩ := Byte_tag_cases Response_bytes_tags htag
    exact decodeWith_after_tag_overflow _ _ _ rest hpre h1 h2 h3 h4 h10 hc (by simp; omega)

/-- Witness of C10: ten bytes `ff` at the place of a tag of a `KeyRange`, with nothing
after them, and at the place of the value of `tp` of a `Request`, followed by `01`. -/
theorem varint_overflow_witness :
    KeyRange.Unmarshal KeyRange.zero
        ([] ++ ([0xff, 0xff, 0xff, 0xff, 0xff, 0xff, 0xff, 0xff, 0xff, 0xff] ++ [])) =
      .error .ErrIntOverflowMppProcessor ∧
    Request.Unmarshal emptyCollaborator Request.zero
        ([] ++ 0x10 :: ([0xff, 0xff, 0xff, 0xff, 0xff, 0xff, 0xff, 0xff, 0xff, 0xff] ++ [0x01])) =
      .error .ErrIntOverflowMppProcessor :=
  ⟨(varint_overflow.1 KeyRange.zero KeyRange.zero []
      [0xff, 0xff, 0xff, 0xff, 0xff, 0xff, 0xff, 0xff, 0xff, 0xff] []
      (by decide) (by decide) (by decide) (by decide)).1,
   (varint_overflow.2.1 Unit emptyCollaborator Request.zero Request.zero []
      [0xff, 0xff, 0xff, 0xff, 0xff, 0xff, 0xff, 0xff, 0xff, 0xff] [0x01]
      (by decide) (by decide) (by decide) (by decide)).2 0x10 (by decide)⟩

/-! ## The bytes of a varint -/

theorem shiftRight_groups (v j : Nat) : v >>> (7 * j) = v / 128 ^ j := by
  rw [Nat.shiftRight_eq_div_pow, pow_mul]
  norm_num

theorem varintGroups_cont (k : Nat) : ∀ (v j : Nat), j + 1 < (varintGroups k v).length →
    (varintGroups k v)[j]? = some (u8 (v / 128 ^ j % 128 + 128)) := by
  induction k with
  | zero => intro v j h; simp [varintGroups] at h
  | succ k ih =>
    intro v j h
    unfold varintGroups at h ⊢
    by_cases hv : v < 128
    · simp [hv] at h
    · simp only [hv, if_false] at h ⊢
      cases j with
      | zero => simp
      | succ j =>
        simp only [List.length_cons] at h
        rw [List.getElem?_cons_succ, ih (v / 128) j (by omega), Nat.div_div_eq_div_mul, pow_succ,
          Nat.mul_comm]

theorem varintGroups_last (k : Nat) : ∀ (v : Nat), v < 128 ^ (k + 1) →
    (varintGroups k v)[(varintGroups k v).length - 1]? =
      some (u8 (v / 128 ^ ((varintGroups k v).length - 1))) ∧
    v / 128 ^ ((varintGroups k v).length - 1) < 128 := by
  induction k with
  | zero => intro v h; simpa [varintGroups] using h
  | succ k ih =>
    intro v h
    unfold varintGroups
    by_cases hv : v < 128
    · simp [hv]
    · simp only [hv, if_false, List.length_cons, Nat.add_sub_cancel]
      have hq : v / 128 < 128 ^ (k + 1) := by
        rw [Nat.div_lt_iff_lt_mul (by norm_num)]
        rw [pow_succ] at h
        exact h
      obtain ⟨h1, h2⟩ := ih (v / 128) hq
      have hpos := varintGroups_length_pos k (v / 128)
      obtain ⟨n, hn⟩ : ∃ n, (varintGroups k (v / 128)).length = n + 1 := ⟨_, (Nat.sub_add_cancel hpos).symm⟩
      rw [hn] at h1 h2 ⊢
      simp only [Nat.add_sub_cancel] at h1 h2
      rw [List.getElem?_cons_succ, h1, Nat.div_div_eq_div_mul, pow_succ, Nat.mul_comm] 
      rw [Nat.div_div_eq_div_mul, Nat.mul_comm] at h2
      exact ⟨rfl, h2⟩

theorem varintGroups_least (k : Nat) : ∀ (v : Nat), v < 128 ^ (k + 1) →
    v < 128 ^ (varintGroups k v).length ∧
    ∀ n, 1 ≤ n → v < 128 ^ n → (varintGroups k v).length ≤ n := by
  induction k with
  | zero =>
    intro v h
    simp only [varintGroups, List.length_singleton]
    exact ⟨h, fun n hn _ => hn⟩
  | succ k ih =>
    intro v h
    unfold varintGroups
    by_cases hv : v < 128
    · simp only [hv, if_true, List.length_singleton]
      exact ⟨by simpa using hv, fun n hn _ => hn⟩
    · simp only [hv, if_false, List.length_cons]
      have hq : v / 128 < 128 ^ (k + 1) := by
        rw [Nat.div_lt_iff_lt_mul (by norm_num)]
        rw [pow_succ] at h
        exact h
      obtain ⟨h1, h2⟩ := ih (v / 128) hq
      constructor
      · rw [pow_succ, ← Nat.div_lt_iff_lt_mul (by norm_num)]
        exact h1
      · intro n hn hlt
        cases n with
        | zero => omega
        | succ n =>
          cases n with
          | zero => simp at hlt; omega
          | succ n =>
            have := h2 (n + 1) (by omega) (by
              rw [Nat.div_lt_iff_lt_mul (by norm_num), ← pow_succ]; exact hlt)
            omega


theorem splice_get_inside (d : List Byte) (i : Nat) (bs : List Byte) (j : Nat)
    (hi : i ≤ d.length) (hj : j < bs.length) :
    (d.take i ++ bs ++ d.drop (i + bs.length))[i + j]? = bs[j]? := by
  have h1 : (d.take i).length = i := by simp [hi]
  rw [List.append_assoc, List.getElem?_append_right (by omega), h1, Nat.add_sub_cancel_left,
    List.getElem?_append_left hj]

theorem splice_get_outside (d : List Byte) (i : Nat) (bs : List Byte) (j : Nat)
    (hi : i + bs.length ≤ d.length) (hj : j < i ∨ i + bs.length ≤ j) :
    (d.take i ++ bs ++ d.drop (i + bs.length))[j]? = d[j]? := by
  have h1 : (d.take i).length = i := by simp; omega
  rcases hj with hj | hj
  · rw [List.append_assoc, List.getElem?_append_left (by omega), List.getElem?_take_of_lt hj]
  · rw [List.getElem?_append_right (by simp; omega), List.getElem?_drop]
    congr 1
    simp
    omega

/-! ## The claims on the varint primitives -/

/-- C18: for an unsigned 64-bit `v` and a buffer with room for `n = sovMppProcessor(v)` bytes at
`offset`, `encodeVarintMppProcessor` returns `offset + n` and keeps the length of the buffer; the
byte at `offset + j` is `((v >> 7j) & 0x7f) | 0x80` for `j < n - 1`, the byte at `offset + n - 1`
is `v >> 7(n-1)`, which is below `0x80`, and every byte outside `[offset, offset + n)` is as
before. -/
theorem encodeVarint_writes_groups (dAtA : List Byte) (offset v : Nat) (hv : v < 2 ^ 64)
    (hlen : offset + sovMppProcessor v ≤ dAtA.length) :
    ∃ out, encodeVarintMppProcessor dAtA offset v = .ok (out, offset + sovMppProcessor v) ∧
      out.length = dAtA.length ∧
      (∀ j, j + 1 < sovMppProcessor v →
        out[offset + j]? = some (u8 ((v >>> (7 * j)) &&& 0x7f ||| 0x80))) ∧
      out[offset + (sovMppProcessor v - 1)]? = some (u8 (v >>> (7 * (sovMppProcessor v - 1)))) ∧
      v >>> (7 * (sovMppProcessor v - 1)) < 0x80 ∧
      (∀ i, i < offset ∨ offset + sovMppProcessor v ≤ i → out[i]? = dAtA[i]?) := by
  rw [sovMppProcessor_eq hv] at hlen ⊢
  have hv' : v < 128 ^ (9 + 1) := by norm_num; omega
  have hpos := varint_length_pos v
  refine ⟨_, encodeVarintMppProcessor_eq hv hlen, splice_length _ _ _ hlen, ?_, ?_, ?_, ?_⟩
  · intro j hj
    rw [splice_get_inside _ _ _ _ (by omega) (by omega), and_or_group, shiftRight_groups]
    exact varintGroups_cont 9 v j hj
  · rw [splice_get_inside _ _ _ _ (by omega) (by omega), shiftRight_groups]
    exact (varintGroups_last 9 v hv').1
  · rw [shiftRight_groups]
    exact (varintGroups_last 9 v hv').2
  · intro i hi
    exact splice_get_outside _ _ _ _ hlen hi

theorem encodeVarint_writes_groups_witness :
    (300 < 2 ^ 64 ∧ 1 + sovMppProcessor 300 ≤ ([9, 9, 9, 9] : List Byte).length) ∧
    ∃ out, encodeVarintMppProcessor [9, 9, 9, 9] 1 300 = .ok (out, 1 + sovMppProcessor 300) ∧
      out.length = ([9, 9, 9, 9] : List Byte).length ∧
      (∀ j, j + 1 < sovMppProcessor 300 →
        out[1 + j]? = some (u8 ((300 >>> (7 * j)) &&& 0x7f ||| 0x80))) ∧
      out[1 + (sovMppProcessor 300 - 1)]? = some (u8 (300 >>> (7 * (sovMppProcessor 300 - 1)))) ∧
      300 >>> (7 * (sovMppProcessor 300 - 1)) < 0x80 ∧
      (∀ i, i < 1 ∨ 1 + sovMppProcessor 300 ≤ i → out[i]? = ([9, 9, 9, 9] : List Byte)[i]?) :=
  ⟨by decide, encodeVarint_writes_groups [9, 9, 9, 9] 1 300 (by decide) (by decide)⟩

/-- C19: for an unsigned 64-bit `x`, `sovMppProcessor(x)` lies between 1 and 10 and is the least
`n ≥ 1` with `x < 2^(7n)`; it is 10 from `2^63` on, it is 1 for `x = 0`, and for `x > 0` it is one
more than the index of the highest set bit divided by 7. -/
theorem sov_least_groups (x : Nat) (hx : x < 2 ^ 64) :
    1 ≤ sovMppProcessor x ∧ sovMppProcessor x ≤ 10 ∧
    x < 2 ^ (7 * sovMppProcessor x) ∧
    (∀ n, 1 ≤ n → x < 2 ^ (7 * n) → sovMppProcessor x ≤ n) ∧
    (2 ^ 63 ≤ x → sovMppProcessor x = 10) ∧
    (0 < x → sovMppProcessor x = Nat.log 2 x / 7 + 1) ∧
    sovMppProcessor 0 = 1 := by
  have hv' : x < 128 ^ (9 + 1) := by norm_num; omega
  have h128 : ∀ n, (2 : Nat) ^ (7 * n) = 128 ^ n := fun n => by rw [pow_mul]; norm_num
  obtain ⟨h1, h2⟩ := varintGroups_least 9 x hv'
  have hpos := varint_length_pos x
  have hle := varint_length_le x
  rw [sovMppProcessor_eq hx]
  change x < 128 ^ (varint x).length at h1
  change ∀ n, 1 ≤ n → x < 128 ^ n → (varint x).length ≤ n at h2
  have hmin : ∀ n, 1 ≤ n → x < 2 ^ (7 * n) → (varint x).length ≤ n := by
    intro n hn hlt
    rw [h128] at hlt
    exact h2 n hn hlt
  refine ⟨hpos, hle, by rw [h128]; exact h1, hmin, ?_, ?_, by decide⟩
  · intro h63
    by_contra hne
    have h9 : (varint x).length ≤ 9 := by omega
    have : x < 128 ^ 9 := lt_of_lt_of_le h1 (Nat.pow_le_pow_right (by norm_num) h9)
    norm_num at this
    omega
  · intro h0
    have hlog : Nat.log 2 x < 7 * (varint x).length := by
      apply Nat.log_lt_of_lt_pow (by omega)
      rw [h128]
      exact h1
    have hlow : 7 * ((varint x).length - 1) ≤ Nat.log 2 x := by
      by_contra hcon
      have hlt : Nat.log 2 x < 7 * ((varint x).length - 1) := by omega
      have hx2 : x < 2 ^ (7 * ((varint x).length - 1)) := Nat.lt_pow_of_log_lt (by norm_num) hlt
      have hge : 1 ≤ (varint x).length - 1 := by
        by_contra h
        have : (varint x).length - 1 = 0 := by omega
        rw [this] at hlt
        omega
      have := hmin _ hge hx2
      omega
    omega

theorem sov_least_groups_witness :
    (300 : Nat) < 2 ^ 64 ∧
    (1 ≤ sovMppProcessor 300 ∧ sovMppProcessor 300 ≤ 10 ∧
    300 < 2 ^ (7 * sovMppProcessor 300) ∧
    (∀ n, 1 ≤ n → 300 < 2 ^ (7 * n) → sovMppProcessor 300 ≤ n) ∧
    (2 ^ 63 ≤ 300 → sovMppProcessor 300 = 10) ∧
    (0 < 300 → sovMppProcessor 300 = Nat.log 2 300 / 7 + 1) ∧
    sovMppProcessor 0 = 1) :=
  ⟨by decide, sov_least_groups 300 (by decide)⟩

/-! ## Errors raised at a tag -/

theorem readTag_at (name : MsgName) (pre : List Byte) {t : List Byte} {wire k : Nat}
    (hd : decodeVarint t 0 = .ok (wire, k)) :
    readTag name (pre ++ t) pre.length =
      if wire &&& 0x7 = 4 then .error (.wiretypeEndGroup name)
      else if toInt32 (wire >>> 3) ≤ 0 then
        .error (.illegalTag name (toInt32 (wire >>> 3)) wire)
      else .ok (toInt32 (wire >>> 3), wire &&& 0x7, pre.length + k) := by
  have h := readTag_shift name pre t 0
  rw [Nat.add_zero] at h
  rw [h]
  unfold readTag
  rw [hd]
  simp only
  by_cases h4 : wire &&& 0x7 = 4
  · simp [h4]
  · by_cases h0 : toInt32 (wire >>> 3) ≤ 0
    · simp [h4, h0]
    · simp [h4, h0]

theorem readField_tag_error {name : MsgName} {schema : Schema} {d : List Byte} {i : Nat}
    {e : Error} (h : readTag name d i = .error e) : readField name schema d i = .error e := by
  simp [readField, h]

theorem readField_wrong_wire (name : MsgName) (schema : Schema) (pre : List Byte)
    {t : List Byte} {wire k : Nat} {f : FieldName} {kind : WireKind}
    (hd : decodeVarint t 0 = .ok (wire, k)) (hwt : wire &&& 0x7 ≠ 4)
    (hpos : 0 < toInt32 (wire >>> 3)) (hs : schema (toInt32 (wire >>> 3)) = some (f, kind))
    (hw : wire &&& 0x7 ≠ kind.wireType) :
    readField name schema (pre ++ t) pre.length = .error (.wrongWireType (wire &&& 0x7) f) := by
  have ht := readTag_at name pre hd
  rw [if_neg hwt, if_neg (by omega)] at ht
  unfold readField
  simp only [ht, hs]
  cases kind with
  | varint =>
    have : wire &&& 0x7 ≠ 0 := hw
    simp [this]
  | bytes =>
    have : wire &&& 0x7 ≠ 2 := hw
    simp [this]

section Loop

variable {M : Type} (name : MsgName) (schema : Schema) (store : M → Int → Payload → Res M)

theorem decodeWith_tag_error {m0 m1 : M} {pre t : List Byte} {wire k : Nat} {e : Error}
    (hpre : decodeWith name schema store m0 pre = .ok m1)
    (hd : decodeVarint t 0 = .ok (wire, k)) (hlen : (pre ++ t).length < 2 ^ 63)
    (he : readField name schema (pre ++ t) pre.length = .error e) :
    decodeWith name schema store m0 (pre ++ t) = .error e := by
  have hb := decodeVarint_bounds hd
  have hne : t ≠ [] := by
    intro h
    rw [h] at hb
    simp at hb
    omega
  exact decodeWith_prefix_error name schema store hpre hlen hne (fieldStep_error m1 he)

theorem decodeWith_end_group {m0 m1 : M} {pre t : List Byte} {wire k : Nat}
    (hpre : decodeWith name schema store m0 pre = .ok m1)
    (hd : decodeVarint t 0 = .ok (wire, k)) (hlen : (pre ++ t).length < 2 ^ 63)
    (hwt : wire &&& 0x7 = 4) :
    decodeWith name schema store m0 (pre ++ t) = .error (.wiretypeEndGroup name) := by
  apply decodeWith_tag_error name schema store hpre hd hlen
  apply readField_tag_error
  rw [readTag_at name pre hd, if_pos hwt]

theorem decodeWith_illegal_tag {m0 m1 : M} {pre t : List Byte} {wire k : Nat}
    (hpre : decodeWith name schema store m0 pre = .ok m1)
    (hd : decodeVarint t 0 = .ok (wire, k)) (hlen : (pre ++ t).length < 2 ^ 63)
    (hwt : wire &&& 0x7 ≠ 4) (hnum : toInt32 (wire >>> 3) ≤ 0) :
    decodeWith name schema store m0 (pre ++ t) =
      .error (.illegalTag name (toInt32 (wire >>> 3)) wire) := by
  apply decodeWith_tag_error name schema store hpre hd hlen
  apply readField_tag_error
  rw [readTag_at name pre hd, if_neg hwt, if_pos hnum]

theorem decodeWith_wrong_wire (kind : WireKind) {m0 m1 : M} {pre t : List Byte} {wire k : Nat}
    {f : FieldName} (hpre : decodeWith name schema store m0 pre = .ok m1)
    (hd : decodeVarint t 0 = .ok (wire, k)) (hlen : (pre ++ t).length < 2 ^ 63)
    (hwt : wire &&& 0x7 ≠ 4) (hpos : 0 < toInt32 (wire >>> 3))
    (hs : schema (toInt32 (wire >>> 3)) = some (f, kind)) (hw : wire &&& 0x7 ≠ kind.wireType) :
    decodeWith name schema store m0 (pre ++ t) = .error (.wrongWireType (wire &&& 0x7) f) :=
  decodeWith_tag_error name schema store hpre hd hlen
    (readField_wrong_wire name schema pre hd hwt hpos hs hw)

end Loop

theorem toInt32_small {wire : Nat} (h : wire < 8) : toInt32 (wire >>> 3) = 0 := by
  have : wire >>> 3 = 0 := by
    rw [Nat.shiftRight_eq_div_pow]
    exact Nat.div_eq_of_lt h
  rw [this]
  rfl

/-! ## The claims on tags -/

/-- C15: in `KeyRange.Unmarshal`, `Request.Unmarshal` and `Response.Unmarshal`, when the fields
before it are accepted, a tag whose low three bits are 4 makes the call fail with "wiretype end
group for non-group", whatever the field number of the tag and whatever follows it. -/
theorem end_group_rejected :
    (∀ (m0 m1 : KeyRange) (pre t : List Byte) (wire k : Nat),
      KeyRange.Unmarshal m0 pre = .ok m1 → decodeVarint t 0 = .ok (wire, k) →
      (pre ++ t).length < 2 ^ 63 → wire &&& 0x7 = 4 →
      KeyRange.Unmarshal m0 (pre ++ t) = .error (.wiretypeEndGroup .KeyRange)) ∧
    (∀ (Ctx : Type) (ctx : Collaborator Ctx) (m0 m1 : Request Ctx) (pre t : List Byte)
      (wire k : Nat),
      Request.Unmarshal ctx m0 pre = .ok m1 → decodeVarint t 0 = .ok (wire, k) →
      (pre ++ t).length < 2 ^ 63 → wire &&& 0x7 = 4 →
      Request.Unmarshal ctx m0 (pre ++ t) = .error (.wiretypeEndGroup .Request)) ∧
    (∀ (D E L X : Type) (deps : ResponseDeps D E L X) (m0 m1 : Response D E L X)
      (pre t : List Byte) (wire k : Nat),
      Response.Unmarshal deps m0 pre = .ok m1 → decodeVarint t 0 = .ok (wire, k) →
      (pre ++ t).length < 2 ^ 63 → wire &&& 0x7 = 4 →
      Response.Unmarshal deps m0 (pre ++ t) = .error (.wiretypeEndGroup .Response)) := by
  refine ⟨?_, ?_, ?_⟩
  · intro m0 m1 pre t wire k hpre hd hlen hwt
    rw [KeyRange_Unmarshal_eq] at hpre ⊢
    exact decodeWith_end_group _ _ _ hpre hd hlen hwt
  · intro Ctx ctx m0 m1 pre t wire k hpre hd hlen hwt
    rw [Request_Unmarshal_eq] at hpre ⊢
    exact decodeWith_end_group _ _ _ hpre hd hlen hwt
  · intro D E L X deps m0 m1 pre t wire k hpre hd hlen hwt
    rw [Response_Unmarshal_eq] at hpre ⊢
    exact decodeWith_end_group _ _ _ hpre hd hlen hwt

theorem end_group_rejected_witness :
    KeyRange.Unmarshal KeyRange.zero ([0x0a, 0x01, 0x41] ++ [0x0c, 0x00]) =
        .error (.wiretypeEndGroup .KeyRange) ∧
    Request.Unmarshal emptyCollaborator Request.zero ([0x10, 0x07] ++ [0x94, 0x01]) =
        .error (.wiretypeEndGroup .Request) ∧
    Response.Unmarshal (⟨emptyCollaborator, emptyCollaborator, emptyCollaborator,
        emptyCollaborator⟩ : ResponseDeps Unit Unit Unit Unit)
        ⟨(), none, none, [], none, none, []⟩ ([] ++ [0x04]) =
        .error (.wiretypeEndGroup .Response) :=
  ⟨end_group_rejected.1 KeyRange.zero ⟨[0x41], [], []⟩ [0x0a, 0x01, 0x41] [0x0c, 0x00] 12 1
      (by decide) (by decide) (by decide) (by decide),
    end_group_rejected.2.1 Unit emptyCollaborator Request.zero ⟨none, 7, [], [], []⟩
      [0x10, 0x07] [0x94, 0x01] 148 2 (by decide) (by decide) (by decide) (by decide),
    end_group_rejected.2.2 Unit Unit Unit Unit _ ⟨(), none, none, [], none, none, []⟩
      ⟨(), none, none, [], none, none, []⟩ [] [0x04] 4 1 (by decide) (by decide) (by decide)
      (by decide)⟩

/-- C16, counterexample: the one-byte input `0x04` is a tag varint below 8, with field number 0
and wire type 4; `KeyRange.Unmarshal` fails with "wiretype end group for non-group", not with
"illegal tag". -/
theorem illegal_tag_counterexample :
    decodeVarint [0x04] 0 = .ok (4, 1) ∧ toInt32 (4 >>> 3) ≤ 0 ∧
    KeyRange.Unmarshal KeyRange.zero [0x04] = .error (.wiretypeEndGroup .KeyRange) ∧
    KeyRange.Unmarshal KeyRange.zero [0x04] ≠ .error (.illegalTag .KeyRange 0 4) := by
  decide

/-- C16, amended: in `KeyRange.Unmarshal`, `Request.Unmarshal` and `Response.Unmarshal`, when the
fields before it are accepted, a tag whose wire type is not 4 and whose field number
`int32(wire >> 3)` is zero or negative makes the call fail with "illegal tag", printed with that
field number and the tag; a tag varint below 8 has field number 0. -/
theorem illegal_tag_rejected :
    (∀ (m0 m1 : KeyRange) (pre t : List Byte) (wire k : Nat),
      KeyRange.Unmarshal m0 pre = .ok m1 → decodeVarint t 0 = .ok (wire, k) →
      (pre ++ t).length < 2 ^ 63 → wire &&& 0x7 ≠ 4 → toInt32 (wire >>> 3) ≤ 0 →
      KeyRange.Unmarshal m0 (pre ++ t) =
        .error (.illegalTag .KeyRange (toInt32 (wire >>> 3)) wire)) ∧
    (∀ (Ctx : Type) (ctx : Collaborator Ctx) (m0 m1 : Request Ctx) (pre t : List Byte)
      (wire k : Nat),
      Request.Unmarshal ctx m0 pre = .ok m1 → decodeVarint t 0 = .ok (wire, k) →
      (pre ++ t).length < 2 ^ 63 → wire &&& 0x7 ≠ 4 → toInt32 (wire >>> 3) ≤ 0 →
      Request.Unmarshal ctx m0 (pre ++ t) =
        .error (.illegalTag .Request (toInt32 (wire >>> 3)) wire)) ∧
    (∀ (D E L X : Type) (deps : ResponseDeps D E L X) (m0 m1 : Response D E L X)
      (pre t : List Byte) (wire k : Nat),
      Response.Unmarshal deps m0 pre = .ok m1 → decodeVarint t 0 = .ok (wire, k) →
      (pre ++ t).length < 2 ^ 63 → wire &&& 0x7 ≠ 4 → toInt32 (wire >>> 3) ≤ 0 →
      Response.Unmarshal deps m0 (pre ++ t) =
        .error (.illegalTag .Response (toInt32 (wire >>> 3)) wire)) ∧
    (∀ wire : Nat, wire < 8 → toInt32 (wire >>> 3) = 0) := by
  refine ⟨?_, ?_, ?_, fun wire h => toInt32_small h⟩
  · intro m0 m1 pre t wire k hpre hd hlen hwt hnum
    rw [KeyRange_Unmarshal_eq] at hpre ⊢
    exact decodeWith_illegal_tag _ _ _ hpre hd hlen hwt hnum
  · intro Ctx ctx m0 m1 pre t wire k hpre hd hlen hwt hnum
    rw [Request_Unmarshal_eq] at hpre ⊢
    exact decodeWith_illegal_tag _ _ _ hpre hd hlen hwt hnum
  · intro D E L X deps m0 m1 pre t wire k hpre hd hlen hwt hnum
    rw [Response_Unmarshal_eq] at hpre ⊢
    exact decodeWith_illegal_tag _ _ _ hpre hd hlen hwt hnum

theorem illegal_tag_rejected_witness :
    KeyRange.Unmarshal KeyRange.zero ([0x0a, 0x01, 0x41] ++ [0x02, 0x00]) =
        .error (.illegalTag .KeyRange (toInt32 (2 >>> 3)) 2) ∧
    Request.Unmarshal emptyCollaborator Request.zero
        ([0x10, 0x07] ++ [0x80, 0x80, 0x80, 0x80, 0x40, 0x00]) =
        .error (.illegalTag .Request (toInt32 (17179869184 >>> 3)) 17179869184) ∧
    Response.Unmarshal (⟨emptyCollaborator, emptyCollaborator, emptyCollaborator,
        emptyCollaborator⟩ : ResponseDeps Unit Unit Unit Unit)
        ⟨(), none, none, [], none, none, []⟩ ([] ++ [0x07]) =
        .error (.illegalTag .Response (toInt32 (7 >>> 3)) 7) ∧
    toInt32 (17179869184 >>> 3) = -2147483648 :=
  ⟨illegal_tag_rejected.1 KeyRange.zero ⟨[0x41], [], []⟩ [0x0a, 0x01, 0x41] [0x02, 0x00] 2 1
      (by decide) (by decide) (by decide) (by decide) (by decide),
    illegal_tag_rejected.2.1 Unit emptyCollaborator Request.zero ⟨none, 7, [], [], []⟩
      [0x10, 0x07] [0x80, 0x80, 0x80, 0x80, 0x40, 0x00] 17179869184 5 (by decide) (by decide)
      (by decide) (by decide) (by decide),
    illegal_tag_rejected.2.2.1 Unit Unit Unit Unit _ ⟨(), none, none, [], none, none, []⟩
      ⟨(), none, none, [], none, none, []⟩ [] [0x07] 7 1 (by decide) (by decide) (by decide)
      (by decide) (by decide),
    by decide⟩

/-- C17: in `KeyRange.Unmarshal` (fields 1 and 2), `Request.Unmarshal` (fields 1 to 4) and
`Response.Unmarshal` (fields 1 to 6), when the fields before it are accepted, a tag with the
number of a field of the schema and a wire type that is neither the one of the schema (0 for
`Request.tp`, 2 for the others) nor 4 makes the call fail with "wrong wireType", printed with
the wire type of the tag and the name of the field: the call returns this error instead of a
message, so the field is neither kept as unknown nor stored. -/
theorem wrong_wire_type_rejected :
    (∀ (m0 m1 : KeyRange) (pre t : List Byte) (wire k : Nat) (f : FieldName),
      KeyRange.Unmarshal m0 pre = .ok m1 → decodeVarint t 0 = .ok (wire, k) →
      (pre ++ t).length < 2 ^ 63 →
      (toInt32 (wire >>> 3), f) ∈ [((1 : Int), FieldName.Start), (2, FieldName.End)] →
      wire &&& 0x7 ≠ 2 → wire &&& 0x7 ≠ 4 →
      KeyRange.Unmarshal m0 (pre ++ t) = .error (.wrongWireType (wire &&& 0x7) f)) ∧
    (∀ (Ctx : Type) (ctx : Collaborator Ctx) (m0 m1 : Request Ctx) (pre t : List Byte)
      (wire k : Nat) (f : FieldName) (expected : Nat),
      Request.Unmarshal ctx m0 pre = .ok m1 → decodeVarint t 0 = .ok (wire, k) →
      (pre ++ t).length < 2 ^ 63 →
      (toInt32 (wire >>> 3), f, expected) ∈
        [((1 : Int), FieldName.Context, 2), (2, FieldName.Tp, 0), (3, FieldName.Data, 2),
          (4, FieldName.Ranges, 2)] →
      wire &&& 0x7 ≠ expected → wire &&& 0x7 ≠ 4 →
      Request.Unmarshal ctx m0 (pre ++ t) = .error (.wrongWireType (wire &&& 0x7) f)) ∧
    (∀ (D E L X : Type) (deps : ResponseDeps D E L X) (m0 m1 : Response D E L X)
      (pre t : List Byte) (wire k : Nat) (f : FieldName),
      Response.Unmarshal deps m0 pre = .ok m1 → decodeVarint t 0 = .ok (wire, k) →
      (pre ++ t).length < 2 ^ 63 →
      (toInt32 (wire >>> 3), f) ∈
        [((1 : Int), FieldName.Data), (2, FieldName.RegionError), (3, FieldName.Locked),
          (4, FieldName.OtherError), (5, FieldName.Range), (6, FieldName.ExecDetails)] →
      wire &&& 0x7 ≠ 2 → wire &&& 0x7 ≠ 4 →
      Response.Unmarshal deps m0 (pre ++ t) = .error (.wrongWireType (wire &&& 0x7) f)) := by
  refine ⟨?_, ?_, ?_⟩
  · intro m0 m1 pre t wire k f hpre hd hlen hmem hw h4
    rw [KeyRange_Unmarshal_eq] at hpre ⊢
    simp only [List.mem_cons, Prod.mk.injEq, List.mem_singleton, List.not_mem_nil, or_false]
      at hmem
    rcases hmem with ⟨hn, rfl⟩ | ⟨hn, rfl⟩ <;>
      exact decodeWith_wrong_wire _ _ _ .bytes hpre hd hlen h4 (by omega)
        (by rw [hn]; rfl) hw
  · intro Ctx ctx m0 m1 pre t wire k f expected hpre hd hlen hmem hw h4
    rw [Request_Unmarshal_eq] at hpre ⊢
    simp only [List.mem_cons, Prod.mk.injEq, List.mem_singleton, List.not_mem_nil, or_false]
      at hmem
    rcases hmem with ⟨hn, rfl, rfl⟩ | ⟨hn, rfl, rfl⟩ | ⟨hn, rfl, rfl⟩ | ⟨hn, rfl, rfl⟩
    · exact decodeWith_wrong_wire _ _ _ .bytes hpre hd hlen h4 (by omega)
        (by rw [hn]; rfl) hw
    · exact decodeWith_wrong_wire _ _ _ .varint hpre hd hlen h4 (by omega)
        (by rw [hn]; rfl) hw
    · exact decodeWith_wrong_wire _ _ _ .bytes hpre hd hlen h4 (by omega)
        (by rw [hn]; rfl) hw
    · exact decodeWith_wrong_wire _ _ _ .bytes hpre hd hlen h4 (by omega)
        (by rw [hn]; rfl) hw
  · intro D E L X deps m0 m1 pre t wire k f hpre hd hlen hmem hw h4
    rw [Response_Unmarshal_eq] at hpre ⊢
    simp only [List.mem_cons, Prod.mk.injEq, List.mem_singleton, List.not_mem_nil, or_false]
      at hmem
    rcases hmem with ⟨hn, rfl⟩ | ⟨hn, rfl⟩ | ⟨hn, rfl⟩ | ⟨hn, rfl⟩ | ⟨hn, rfl⟩ | ⟨hn, rfl⟩ <;>
      exact decodeWith_wrong_wire _ _ _ .bytes hpre hd hlen h4 (by omega)
        (by rw [hn]; rfl) hw

theorem wrong_wire_type_rejected_witness :
    KeyRange.Unmarshal KeyRange.zero ([0x0a, 0x01, 0x41] ++ [0x08, 0x01]) =
        .error (.wrongWireType (8 &&& 0x7) .Start) ∧
    Request.Unmarshal emptyCollaborator Request.zero ([0x10, 0x07] ++ [0x12, 0x00]) =
        .error (.wrongWireType (18 &&& 0x7) .Tp) ∧
    Response.Unmarshal (⟨emptyCollaborator, emptyCollaborator, emptyCollaborator,
        emptyCollaborator⟩ : ResponseDeps Unit Unit Unit Unit)
        ⟨(), none, none, [], none, none, []⟩ ([] ++ [0x2d, 0x00, 0x00, 0x00, 0x00]) =
        .error (.wrongWireType (45 &&& 0x7) .Range) :=
  ⟨wrong_wire_type_rejected.1 KeyRange.zero ⟨[0x41], [], []⟩ [0x0a, 0x01, 0x41] [0x08, 0x01] 8 1
      .Start (by decide) (by decide) (by decide) (by decide) (by decide) (by decide),
    wrong_wire_type_rejected.2.1 Unit emptyCollaborator Request.zero ⟨none, 7, [], [], []⟩
      [0x10, 0x07] [0x12, 0x00] 18 1 .Tp 0 (by decide) (by decide) (by decide) (by decide)
      (by decide) (by decide),
    wrong_wire_type_rejected.2.2 Unit Unit Unit Unit _ ⟨(), none, none, [], none, none, []⟩
      ⟨(), none, none, [], none, none, []⟩ [] [0x2d, 0x00, 0x00, 0x00, 0x00] 45 1 .Range
      (by decide) (by decide) (by decide) (by decide) (by decide) (by decide)⟩

/-! ## The encoder of `Response` -/

theorem Emits_thenWrite {w1 w2 : List Byte → Nat → Res (List Byte × Nat)} {b1 b2 : List Byte}
    (h1 : Emits w1 b1) (h2 : Emits w2 b2) : Emits (thenWrite w1 w2) (b1 ++ b2) :=
  Emits_seq h1 h2

theorem Emits_copyWrite (src : List Byte) : Emits (copyWrite src) src :=
  emits_copy src

theorem Response_MarshalTo_eq {D E L X : Type} (deps : ResponseDeps D E L X)
    (m : Response D E L X) (dAtA : List Byte) :
    Response.MarshalTo deps m dAtA =
      match thenWrite
        (marshalField 0xa (deps.data.Size m.Data) (marshalNested (deps.data.MarshalTo m.Data)))
        (thenWrite
          (marshalOptional 0x12 deps.regionError.Size deps.regionError.MarshalTo m.RegionError)
          (thenWrite (marshalOptional 0x1a deps.locked.Size deps.locked.MarshalTo m.Locked)
            (thenWrite (KeyRange.marshalBytes 0x22 m.OtherError)
              (thenWrite (marshalOptional 0x2a KeyRange.Size KeyRange.MarshalTo m.Range)
                (thenWrite
                  (marshalOptional 0x32 deps.execDetails.Size deps.execDetails.MarshalTo
                    m.ExecDetails)
                  (copyWrite m.XXX_unrecognized)))))) dAtA 0 with
      | .error e => .error e
      | .ok (dAtA, i) => .ok (i, dAtA) := by
  unfold Response.MarshalTo
  simp only [thenWrite, copyWrite]
  cases marshalField 0xa (deps.data.Size m.Data) (marshalNested (deps.data.MarshalTo m.Data))
      dAtA 0 with
  | error e => rfl
  | ok r1 =>
    obtain ⟨d1, i1⟩ := r1
    simp only
    cases marshalOptional 0x12 deps.regionError.Size deps.regionError.MarshalTo m.RegionError
        d1 i1 with
    | error e => rfl
    | ok r2 =>
      obtain ⟨d2, i2⟩ := r2
      simp only
      cases marshalOptional 0x1a deps.locked.Size deps.locked.MarshalTo m.Locked d2 i2 with
      | error e => rfl
      | ok r3 =>
        obtain ⟨d3, i3⟩ := r3
        simp only
        cases KeyRange.marshalBytes 0x22 m.OtherError d3 i3 with
        | error e => rfl
        | ok r4 =>
          obtain ⟨d4, i4⟩ := r4
          simp only
          cases marshalOptional 0x2a KeyRange.Size KeyRange.MarshalTo m.Range d4 i4 with
          | error e => rfl
          | ok r5 =>
            obtain ⟨d5, i5⟩ := r5
            simp only
            cases marshalOptional 0x32 deps.execDetails.Size deps.execDetails.MarshalTo
                m.ExecDetails d5 i5 with
            | error e => rfl
            | ok r6 =>
              obtain ⟨d6, i6⟩ := r6
              simp only
              cases copyAt d6 i6 m.XXX_unrecognized with
              | error e => rfl
              | ok r7 => rfl

theorem emits_marshalOptional_none {T : Type} (tag : Byte) (size : T → Nat)
    (marshalTo : T → List Byte → Res (Nat × List Byte)) :
    Emits (marshalOptional tag size marshalTo none) [] :=
  Emits_nil

theorem emits_marshalOptional_some {T : Type} (tag : Byte) (size : T → Nat)
    (marshalTo : T → List Byte → Res (Nat × List Byte)) (f : T) {bs : List Byte}
    (h : EmitsTo (marshalTo f) bs) :
    Emits (marshalOptional tag size marshalTo (some f))
      (tag :: (varint (size f % 2 ^ 64) ++ bs)) :=
  emits_marshalField tag (size f) (emits_marshalNested h)

theorem sharedBytes_emits (d : List Byte) : EmitsTo (sharedBytes.MarshalTo d) d := by
  intro dAtA hlen
  simp only [sharedBytes]
  rw [copyAt_eq (by omega)]
  simp

theorem emits_rangeField (r : Option KeyRange) :
    Emits (marshalOptional 0x2a KeyRange.Size KeyRange.MarshalTo r) (Response.rangeField r) := by
  cases r with
  | none => exact Emits_nil
  | some r =>
    have := emits_marshalOptional_some 0x2a KeyRange.Size KeyRange.MarshalTo r
      (KeyRange_MarshalTo_emits r)
    rw [← KeyRange_wire_length] at this
    exact this

theorem Response_rangeField_length (r : Option KeyRange) :
    (Response.rangeField r).length = sizeNested KeyRange.Size r := by
  cases r with
  | none => rfl
  | some r =>
    simp only [Response.rangeField, sizeNested, lengthDelimited_length, KeyRange_wire_length]

section ResponseEncode

variable {E L X : Type} (re : Collaborator E) (lk : Collaborator L) (ed : Collaborator X)

theorem Response_wire_length (m : Response (List Byte) E L X) (h2 : m.RegionError = none)
    (h3 : m.Locked = none) (h6 : m.ExecDetails = none) :
    m.wire.length = m.Size (Response.bytesDeps re lk ed) := by
  unfold Response.wire Response.Size
  simp only [List.length_append, bytesField_length, lengthDelimited_length,
    Response_rangeField_length, h2, h3, h6, sizeNested, Response.bytesDeps, sharedBytes]
  split <;> simp

theorem Response_MarshalTo_emits (m : Response (List Byte) E L X) (h2 : m.RegionError = none)
    (h3 : m.Locked = none) (h6 : m.ExecDetails = none) :
    EmitsTo (m.MarshalTo (Response.bytesDeps re lk ed)) m.wire := by
  have hdata : Emits (marshalField 0xa (sharedBytes.Size m.Data)
      (marshalNested (sharedBytes.MarshalTo m.Data))) (lengthDelimited 0x0a m.Data) :=
    emits_marshalField 0xa m.Data.length (emits_marshalNested (sharedBytes_emits m.Data))
  have hE := Emits_thenWrite hdata
    (Emits_thenWrite (emits_marshalOptional_none 0x12 re.Size re.MarshalTo)
      (Emits_thenWrite (emits_marshalOptional_none 0x1a lk.Size lk.MarshalTo)
        (Emits_thenWrite (emits_marshalBytes 0x22 m.OtherError)
          (Emits_thenWrite (emits_rangeField m.Range)
            (Emits_thenWrite (emits_marshalOptional_none 0x32 ed.Size ed.MarshalTo)
              (Emits_copyWrite m.XXX_unrecognized))))))
  have hw : m.wire = lengthDelimited 0x0a m.Data ++ ([] ++ ([] ++ (bytesField 0x22 m.OtherError ++
      (Response.rangeField m.Range ++ ([] ++ m.XXX_unrecognized))))) := by
    simp [Response.wire]
  rw [hw]
  refine emitsTo_of_emits hE ?_
  intro dAtA
  rw [Response_MarshalTo_eq]
  simp only [h2, h3, h6, Response.bytesDeps]

theorem Response_Marshal_eq (m : Response (List Byte) E L X) (h2 : m.RegionError = none)
    (h3 : m.Locked = none) (h6 : m.ExecDetails = none) :
    m.Marshal (Response.bytesDeps re lk ed) = .ok m.wire :=
  marshalWith_eq (Response_MarshalTo_emits re lk ed m h2 h3 h6)
    (Response_wire_length re lk ed m h2 h3 h6).symm

end ResponseEncode

/-! ## Writers keep what is before them -/

theorem setByte_inv {d : List Byte} {i : Nat} {b : Byte} {out : List Byte}
    (h : setByte d i b = .ok out) : i < d.length ∧ out = d.set i b := by
  unfold setByte at h
  split at h
  · simp only [Except.ok.injEq] at h
    exact ⟨by assumption, h.symm⟩
  · simp at h

theorem encodeVarintLoop_room (k : Nat) : ∀ (d : List Byte) (off v : Nat) (r : List Byte × Nat),
    v < 128 ^ (k + 1) → encodeVarintLoop (k + 1) d off v = .ok r →
    off + (varintGroups k v).length ≤ d.length := by
  induction k with
  | zero =>
    intro d off v r hv h
    have hv' : ¬ v ≥ 128 := by simpa using hv
    rw [encodeVarintLoop] at h
    simp only [show (1 <<< 7 : Nat) = 128 from rfl, hv', if_false] at h
    cases hs : setByte d off (u8 v) with
    | error e => simp [hs] at h
    | ok d1 =>
      have := (setByte_inv hs).1
      simp only [varintGroups, List.length_singleton]
      omega
  | succ k ih =>
    intro d off v r hv h
    rw [encodeVarintLoop] at h
    simp only [show (1 <<< 7 : Nat) = 128 from rfl] at h
    by_cases hlt : v < 128
    · have hv' : ¬ v ≥ 128 := by omega
      simp only [hv', if_false] at h
      cases hs : setByte d off (u8 v) with
      | error e => simp [hs] at h
      | ok d1 =>
        have := (setByte_inv hs).1
        simp only [varintGroups, hlt, if_true, List.length_singleton]
        omega
    · have hv' : v ≥ 128 := by omega
      simp only [hv', if_true] at h
      cases hs : setByte d off (u8 (v &&& 0x7f ||| 0x80)) with
      | error e => simp [hs] at h
      | ok d1 =>
        obtain ⟨h1, h2⟩ := setByte_inv hs
        simp only [hs, shiftRight_seven] at h
        have hq : v / 128 < 128 ^ (k + 1) := by
          apply Nat.div_lt_of_lt_mul
          rw [pow_succ] at hv
          omega
        have := ih d1 (off + 1) (v / 128) r hq h
        rw [h2, List.length_set] at this
        simp only [varintGroups, hlt, if_false, List.length_cons]
        omega

theorem encodeVarintMppProcessor_inv {d : List Byte} {off v : Nat} {out : List Byte} {j : Nat}
    (hv : v < 2 ^ 64) (h : encodeVarintMppProcessor d off v = .ok (out, j)) :
    off + (varint v).length ≤ d.length ∧ j = off + (varint v).length ∧
      out = d.take off ++ varint v ++ d.drop (off + (varint v).length) := by
  have hroom : off + (varint v).length ≤ d.length :=
    encodeVarintLoop_room 9 d off v _ (lt_of_lt_of_le hv (by norm_num)) h
  rw [encodeVarintMppProcessor_eq hv hroom] at h
  simp only [Except.ok.injEq, Prod.mk.injEq] at h
  exact ⟨hroom, h.2.symm, h.1.symm⟩

theorem keeps_thenWrite {w1 w2 : List Byte → Nat → Res (List Byte × Nat)}
    (h1 : KeepsPrefix w1) (h2 : KeepsPrefix w2) : KeepsPrefix (thenWrite w1 w2) := by
  intro d i out j h
  unfold thenWrite at h
  cases hw : w1 d i with
  | error e => simp [hw] at h
  | ok r =>
    obtain ⟨d1, i1⟩ := r
    simp only [hw] at h
    obtain ⟨a1, a2⟩ := h1 d i d1 i1 hw
    obtain ⟨b1, b2⟩ := h2 d1 i1 out j h
    refine ⟨by omega, ?_⟩
    have : out.take i = (out.take i1).take i := by
      rw [List.take_take, Nat.min_eq_left a1]
    rw [this, b2, List.take_take, Nat.min_eq_left a1, a2]

theorem keeps_nothing : KeepsPrefix (fun dAtA i => .ok (dAtA, i)) := by
  intro d i out j h
  simp only [Except.ok.injEq, Prod.mk.injEq] at h
  obtain ⟨rfl, rfl⟩ := h
  exact ⟨Nat.le_refl _, rfl⟩

theorem keeps_copyWrite (src : List Byte) : KeepsPrefix (copyWrite src) := by
  intro d i out j h
  unfold copyWrite copyAt at h
  by_cases hle : i ≤ d.length
  · simp only [hle, if_true, Except.ok.injEq, Prod.mk.injEq] at h
    obtain ⟨rfl, rfl⟩ := h
    refine ⟨by omega, ?_⟩
    rw [List.append_assoc, List.take_append_of_le_length (by simp; omega), List.take_take]
    simp
  · simp [hle] at h

theorem keeps_marshalNested (marshalTo : List Byte → Res (Nat × List Byte)) :
    KeepsPrefix (marshalNested marshalTo) := by
  intro d i out j h
  unfold marshalNested at h
  cases hs : sliceFrom d i with
  | error e => simp [hs] at h
  | ok sub =>
    have hi := (sliceFrom_inv hs).2.1
    simp only [hs] at h
    cases hm : marshalTo sub with
    | error e => simp [hm] at h
    | ok r =>
      obtain ⟨n, sub1⟩ := r
      simp only [hm, Except.ok.injEq, Prod.mk.injEq] at h
      obtain ⟨rfl, rfl⟩ := h
      refine ⟨by omega, ?_⟩
      have hi' : i ≤ d.length := by exact_mod_cast hi
      rw [List.take_append_of_le_length (by simp; omega), List.take_take]
      simp

theorem marshalField_inv {tag : Byte} {size : Nat}
    {write : List Byte → Nat → Res (List Byte × Nat)} (hw : KeepsPrefix write)
    {d : List Byte} {i : Nat} {out : List Byte} {j : Nat}
    (h : marshalField tag size write d i = .ok (out, j)) :
    i < d.length ∧ i + 1 + (varint (size % 2 ^ 64)).length ≤ j ∧
      out.take (i + 1 + (varint (size % 2 ^ 64)).length) =
        d.take i ++ tag :: varint (size % 2 ^ 64) := by
  have hv : size % 2 ^ 64 < 2 ^ 64 := Nat.mod_lt _ (by norm_num)
  unfold marshalField at h
  generalize size % 2 ^ 64 = v at h hv ⊢
  cases hs : setByte d i tag with
  | error e => simp [hs] at h
  | ok d1 =>
    obtain ⟨hi, rfl⟩ := setByte_inv hs
    rw [hs] at h
    change (match encodeVarintMppProcessor (d.set i tag) (i + 1) v with
      | Except.error e => Except.error e
      | Except.ok (dAtA, i) => write dAtA i) = Except.ok (out, j) at h
    cases he : encodeVarintMppProcessor (d.set i tag) (i + 1) v with
    | error e => simp [he] at h
    | ok r =>
      obtain ⟨d2, i2⟩ := r
      rw [he] at h
      change write d2 i2 = Except.ok (out, j) at h
      obtain ⟨hroom, rfl, rfl⟩ := encodeVarintMppProcessor_inv hv he
      obtain ⟨a1, a2⟩ := hw _ _ out j h
      refine ⟨hi, a1, ?_⟩
      rw [List.length_set] at hroom
      rw [a2, List.take_append_of_le_length (by simp; omega), List.take_append_eq_append_take]
      simp only [List.take_take, List.length_take, List.length_set]
      have e1 : min (i + 1 + (varint v).length) (i + 1) = i + 1 := by omega
      have e2 : i + 1 + (varint v).length - min (i + 1) d.length = (varint v).length := by omega
      rw [e1, e2, List.take_length, List.set_eq_take_append_cons_drop]
      simp only [hi, if_true]
      rw [List.take_append_eq_append_take]
      simp only [List.take_take, List.length_take]
      have e3 : min (i + 1) i = i := by omega
      have e4 : i + 1 - min i d.length = 1 := by omega
      rw [e3, e4]
      simp

theorem keeps_marshalField (tag : Byte) (size : Nat)
    {write : List Byte → Nat → Res (List Byte × Nat)} (hw : KeepsPrefix write) :
    KeepsPrefix (marshalField tag size write) := by
  intro d i out j h
  obtain ⟨hi, h1, h2⟩ := marshalField_inv hw h
  refine ⟨by omega, ?_⟩
  have : out.take i = (out.take (i + 1 + (varint (size % 2 ^ 64)).length)).take i := by
    rw [List.take_take]
    congr 1
    omega
  rw [this, h2, List.take_append_of_le_length (by simp; omega), List.take_take]
  simp

theorem keeps_marshalOptional {T : Type} (tag : Byte) (size : T → Nat)
    (marshalTo : T → List Byte → Res (Nat × List Byte)) (f : Option T) :
    KeepsPrefix (marshalOptional tag size marshalTo f) := by
  cases f with
  | none => exact keeps_nothing
  | some f => exact keeps_marshalField tag (size f) (keeps_marshalNested (marshalTo f))

theorem keeps_marshalBytes (tag : Byte) (f : List Byte) :
    KeepsPrefix (KeyRange.marshalBytes tag f) := by
  unfold KeyRange.marshalBytes
  split
  · exact keeps_marshalField tag f.length (keeps_copyWrite f)
  · exact keeps_nothing

theorem Response_Marshal_header {D E L X : Type} (deps : ResponseDeps D E L X)
    (m : Response D E L X) {bs : List Byte} (h : Response.Marshal deps m = .ok bs) :
    ∃ rest, bs = 0x0a :: (varint (deps.data.Size m.Data % 2 ^ 64) ++ rest) := by
  unfold Response.Marshal marshalWith at h
  rw [Response_MarshalTo_eq] at h
  have hk := keeps_thenWrite
    (keeps_marshalOptional 0x12 deps.regionError.Size deps.regionError.MarshalTo m.RegionError)
    (keeps_thenWrite (keeps_marshalOptional 0x1a deps.locked.Size deps.locked.MarshalTo m.Locked)
      (keeps_thenWrite (keeps_marshalBytes 0x22 m.OtherError)
        (keeps_thenWrite (keeps_marshalOptional 0x2a KeyRange.Size KeyRange.MarshalTo m.Range)
          (keeps_thenWrite
            (keeps_marshalOptional 0x32 deps.execDetails.Size deps.execDetails.MarshalTo
              m.ExecDetails)
            (keeps_copyWrite m.XXX_unrecognized)))))
  generalize thenWrite
    (marshalOptional 0x12 deps.regionError.Size deps.regionError.MarshalTo m.RegionError) _ = w
    at h hk
  unfold thenWrite at h
  cases h1 : marshalField 0xa (deps.data.Size m.Data) (marshalNested (deps.data.MarshalTo m.Data))
      (List.replicate (Response.Size deps m) 0) 0 with
  | error e => simp [h1] at h
  | ok r1 =>
    obtain ⟨d1, i1⟩ := r1
    simp only [h1] at h
    obtain ⟨-, a1, a2⟩ := marshalField_inv (keeps_marshalNested _) h1
    cases h2 : w d1 i1 with
    | error e => simp [h2] at h
    | ok r2 =>
      obtain ⟨out, n⟩ := r2
      simp only [h2] at h
      obtain ⟨b1, b2⟩ := hk d1 i1 out n h2
      have hs := @slice_inv out 0 _ _ h
      obtain ⟨-, hn, rfl⟩ := hs
      simp only [List.drop_zero, Int.toNat_ofNat, Nat.sub_zero] at hn ⊢
      have hn' : n ≤ out.length := by exact_mod_cast hn
      simp only [Nat.zero_add, List.take_zero, List.nil_append] at a1 a2
      refine ⟨(out.take n).drop (1 + (varint (deps.data.Size m.Data % 2 ^ 64)).length), ?_⟩
      have e : (out.take n).take (1 + (varint (deps.data.Size m.Data % 2 ^ 64)).length) =
          0x0a :: varint (deps.data.Size m.Data % 2 ^ 64) := by
        rw [List.take_take, Nat.min_eq_left (by omega), ← a2]
        have : out.take (1 + (varint (deps.data.Size m.Data % 2 ^ 64)).length) =
            (out.take i1).take (1 + (varint (deps.data.Size m.Data % 2 ^ 64)).length) := by
          rw [List.take_take, Nat.min_eq_left a1]
        rw [this, b2, List.take_take, Nat.min_eq_left a1]
      have := List.take_append_drop (1 + (varint (deps.data.Size m.Data % 2 ^ 64)).length)
        (out.take n)
      rw [e] at this
      exact this.symm

/-! ## The decoder of `Response` on an encoding -/

section ResponseDecode

variable {E L X : Type} (re : Collaborator E) (lk : Collaborator L) (ed : Collaborator X)

theorem Response_decode_data (m : Response (List Byte) E L X) (s : List Byte)
    (hlen : (lengthDelimited 0x0a s).length < 2 ^ 63) :
    decodeWith .Response Response.schema (Response.store (Response.bytesDeps re lk ed)) m
      (lengthDelimited 0x0a s) = .ok { m with Data := s } := by
  apply decodeWith_single _ _ _ (by simp [lengthDelimited])
  unfold fieldStep
  have := readField_lengthDelimited .Response Response.schema 0x0a .Data s []
    (by decide) (by decide) (by decide) (by decide) hlen
  rw [List.append_nil] at this
  rw [this]
  rfl

theorem Response_decode_otherError {D : Type} (deps : ResponseDeps D E L X)
    (m : Response D E L X) (s : List Byte) (hlen : (bytesField 0x22 s).length < 2 ^ 63) :
    decodeWith .Response Response.schema (Response.store deps) m (bytesField 0x22 s) =
      .ok (if s.length > 0 then { m with OtherError := s } else m) := by
  unfold bytesField at hlen ⊢
  split
  · simp only [*, if_true] at hlen
    apply decodeWith_single _ _ _ (by simp [lengthDelimited])
    unfold fieldStep
    have := readField_lengthDelimited .Response Response.schema 0x22 .OtherError s []
      (by decide) (by decide) (by decide) (by decide) hlen
    rw [List.append_nil] at this
    rw [this]
    rfl
  · exact decodeWith_nil _ _ _ _

theorem Response_decode_range_bytes {D : Type} (deps : ResponseDeps D E L X)
    (m : Response D E L X) (s : List Byte) (r : KeyRange)
    (hr : KeyRange.Unmarshal (m.Range.getD KeyRange.zero) s = .ok r)
    (hlen : (lengthDelimited 0x2a s).length < 2 ^ 63) :
    decodeWith .Response Response.schema (Response.store deps) m (lengthDelimited 0x2a s) =
      .ok { m with Range := some r } := by
  apply decodeWith_single _ _ _ (by simp [lengthDelimited])
  unfold fieldStep
  have := readField_lengthDelimited .Response Response.schema 0x2a .Range s []
    (by decide) (by decide) (by decide) (by decide) hlen
  rw [List.append_nil] at this
  rw [this]
  have h5 : toInt32 ((0x2a : Byte).val >>> 3) = 5 := by decide
  simp [Response.store, h5, unmarshalOptional, hr]

theorem Response_decode_rangeField {D : Type} (deps : ResponseDeps D E L X)
    (m : Response D E L X) (range : Option KeyRange) (hm : m.Range = none)
    (ht : ∀ r, range = some r → r.XXX_unrecognized = [])
    (hlen : (Response.rangeField range).length < 2 ^ 63) :
    decodeWith .Response Response.schema (Response.store deps) m (Response.rangeField range) =
      .ok { m with Range := range } := by
  cases range with
  | none =>
    have : ({ m with Range := none } : Response D E L X) = m := by
      cases m
      simp only at hm
      simp [hm]
    rw [this]
    exact decodeWith_nil _ _ _ _
  | some r =>
    simp only [Response.rangeField] at hlen ⊢
    apply Response_decode_range_bytes deps m r.wire r _ hlen
    rw [hm]
    exact KeyRange_decode_wire r (ht r rfl) (by simp [lengthDelimited] at hlen; omega)

theorem Response_decode_wire (data oe : List Byte) (range : Option KeyRange)
    (ht : ∀ r, range = some r → r.XXX_unrecognized = [])
    (hlen : (Response.wire
      (⟨data, none, none, oe, range, none, []⟩ : Response (List Byte) E L X)).length < 2 ^ 63) :
    Response.Unmarshal (Response.bytesDeps re lk ed) (Response.zero (Response.bytesDeps re lk ed))
      (Response.wire (⟨data, none, none, oe, range, none, []⟩ : Response (List Byte) E L X)) =
      .ok ⟨data, none, none, oe, range, none, []⟩ := by
  rw [Response_Unmarshal_eq]
  unfold Response.wire at hlen ⊢
  simp only [List.append_nil, List.length_append] at hlen ⊢
  have e1 : decodeWith .Response Response.schema (Response.store (Response.bytesDeps re lk ed))
      (Response.zero (Response.bytesDeps re lk ed)) (lengthDelimited 0x0a data) =
        .ok ⟨data, none, none, [], none, none, []⟩ := by
    rw [Response_decode_data re lk ed _ data (by omega)]
    rfl
  have e2 : decodeWith .Response Response.schema (Response.store (Response.bytesDeps re lk ed))
      ⟨data, none, none, [], none, none, []⟩ (bytesField 0x22 oe) =
        .ok ⟨data, none, none, oe, none, none, []⟩ := by
    rw [Response_decode_otherError _ _ oe (by omega)]
    cases oe <;> simp
  have e12 := decodeWith_append _ _ _ e1 e2 (by rw [List.length_append]; omega)
  have e3 := Response_decode_rangeField (Response.bytesDeps re lk ed)
    ⟨data, none, none, oe, none, none, []⟩ range rfl ht (by omega)
  rw [decodeWith_append _ _ _ e12 e3 (by simp only [List.length_append]; omega)]

end ResponseDecode

/-! ## The claims on the encoding of `Response` -/

/-- C13: `Response.Marshal` always writes field 1.  For the `Response` with every field at its
default, the data being an empty byte string, `Size` is 2 and `Marshal` returns `0x0a 0x00`.
For a `Response` with byte-string data and no `region_error`, `locked` or `exec_details`,
`Marshal` returns the tag `0x0a`, the varint of the length of the data and the data, followed by
the other fields.  For any `Response` and any collaborators, what `Marshal` returns begins with
`0x0a` and the varint of the size of the data. -/
theorem Response_data_always_encoded :
    (∀ (E L X : Type) (re : Collaborator E) (lk : Collaborator L) (ed : Collaborator X),
      Response.Size (Response.bytesDeps re lk ed) ⟨[], none, none, [], none, none, []⟩ = 2 ∧
      Response.Marshal (Response.bytesDeps re lk ed) ⟨[], none, none, [], none, none, []⟩ =
        .ok [0x0a, 0x00]) ∧
    (∀ (E L X : Type) (re : Collaborator E) (lk : Collaborator L) (ed : Collaborator X)
      (data oe : List Byte) (range : Option KeyRange) (tail : List Byte),
      Response.Marshal (Response.bytesDeps re lk ed) ⟨data, none, none, oe, range, none, tail⟩ =
        .ok (0x0a :: (varint (data.length % 2 ^ 64) ++ data) ++ bytesField 0x22 oe ++
          Response.rangeField range ++ tail)) ∧
    (∀ (D E L X : Type) (deps : ResponseDeps D E L X) (m : Response D E L X) (bs : List Byte),
      Response.Marshal deps m = .ok bs →
      ∃ rest, bs = 0x0a :: (varint (deps.data.Size m.Data % 2 ^ 64) ++ rest)) := by
  refine ⟨?_, ?_, ?_⟩
  · intro E L X re lk ed
    refine ⟨?_, ?_⟩
    · rw [← Response_wire_length re lk ed _ rfl rfl rfl]
      show (lengthDelimited 0x0a [] ++ bytesField 0x22 [] ++ Response.rangeField none ++
        ([] : List Byte)).length = 2
      decide
    · rw [Response_Marshal_eq re lk ed _ rfl rfl rfl]
      show Except.ok (lengthDelimited 0x0a [] ++ bytesField 0x22 [] ++ Response.rangeField none ++
        ([] : List Byte)) = (Except.ok [0x0a, 0x00] : Res (List Byte))
      decide
  · intro E L X re lk ed data oe range tail
    rw [Response_Marshal_eq re lk ed _ rfl rfl rfl]
    rfl
  · intro D E L X deps m bs h
    exact Response_Marshal_header deps m h

theorem Response_data_always_encoded_witness :
    ∃ rest, ([0x0a, 0x01, 0x07, 0x22, 0x01, 0x65] : List Byte) =
      0x0a :: (varint ((Response.bytesDeps emptyCollaborator emptyCollaborator
        emptyCollaborator).data.Size
          (⟨[0x07], none, none, [0x65], none, none, []⟩ :
            Response (List Byte) Unit Unit Unit).Data % 2 ^ 64) ++ rest) :=
  Response_data_always_encoded.2.2 (List Byte) Unit Unit Unit
    (Response.bytesDeps emptyCollaborator emptyCollaborator emptyCollaborator)
    ⟨[0x07], none, none, [0x65], none, none, []⟩ [0x0a, 0x01, 0x07, 0x22, 0x01, 0x65] (by decide)

/-- C14: a `Response` with byte-string data, any `other_error`, a range that is absent or a
`KeyRange` with empty tail, no `region_error`, `locked` or `exec_details` and no unknown-field
tail, whose encoding fits a slice: `Marshal` returns an encoding, and `Unmarshal` of it into a
fresh `Response` gives back the message, with the same data, `other_error` and range; an absent
range comes back absent and a present one comes back present. -/
theorem Response_roundtrip {E L X : Type} (re : Collaborator E) (lk : Collaborator L)
    (ed : Collaborator X) (data oe : List Byte) (range : Option KeyRange)
    (ht : ∀ r, range = some r → r.XXX_unrecognized = [])
    (hsize : Response.Size (Response.bytesDeps re lk ed)
      ⟨data, none, none, oe, range, none, []⟩ < 2 ^ 63) :
    ∃ bs, Response.Marshal (Response.bytesDeps re lk ed)
        ⟨data, none, none, oe, range, none, []⟩ = .ok bs ∧
      Response.Unmarshal (Response.bytesDeps re lk ed)
        (Response.zero (Response.bytesDeps re lk ed)) bs =
          .ok ⟨data, none, none, oe, range, none, []⟩ := by
  refine ⟨_, Response_Marshal_eq re lk ed _ rfl rfl rfl, ?_⟩
  apply Response_decode_wire re lk ed data oe range ht
  rw [Response_wire_length re lk ed _ rfl rfl rfl]
  exact hsize

theorem Response_roundtrip_witness :
    ((∀ r, some (⟨[], [], []⟩ : KeyRange) = some r → r.XXX_unrecognized = []) ∧
      Response.Size (Response.bytesDeps emptyCollaborator emptyCollaborator emptyCollaborator)
        ⟨[1, 2], none, none, [0x65], some ⟨[], [], []⟩, none, []⟩ < 2 ^ 63) ∧
    ∃ bs, Response.Marshal (Response.bytesDeps emptyCollaborator emptyCollaborator
        emptyCollaborator) ⟨[1, 2], none, none, [0x65], some ⟨[], [], []⟩, none, []⟩ = .ok bs ∧
      Response.Unmarshal (Response.bytesDeps emptyCollaborator emptyCollaborator
        emptyCollaborator)
        (Response.zero (Response.bytesDeps emptyCollaborator emptyCollaborator
          emptyCollaborator)) bs =
          .ok ⟨[1, 2], none, none, [0x65], some ⟨[], [], []⟩, none, []⟩ :=
  ⟨⟨fun r h => by cases h; rfl, by decide⟩,
    Response_roundtrip emptyCollaborator emptyCollaborator emptyCollaborator [1, 2] [0x65]
      (some ⟨[], [], []⟩) (fun r h => by cases h; rfl) (by decide)⟩

/-! ## A decoder stores the fields of its input in order -/

section Trace

variable {M : Type} (name : MsgName) (schema : Schema) (store : M → Int → Payload → Res M)

theorem unmarshalLoop_storeAll (d : List Byte) : ∀ (f : Nat) (m : M) (i : Nat) (m' : M),
    unmarshalLoop (fieldStep name schema store d) d.length f m i = .ok m' →
    storeAll store m (readFields name schema d f i) = .ok m' := by
  intro f
  induction f with
  | zero =>
    intro m i m' h
    rw [unmarshalLoop] at h
    by_cases h1 : i < d.length
    · simp [h1] at h
    · by_cases h2 : i > d.length
      · simp [h1, h2] at h
      · simp only [h1, h2, if_false, Except.ok.injEq] at h
        subst h
        rfl
  | succ f ih =>
    intro m i m' h
    rw [unmarshalLoop] at h
    rw [readFields]
    by_cases h1 : i < d.length
    · simp only [h1, if_true] at h ⊢
      unfold fieldStep at h
      cases hr : readField name schema d i with
      | error e => simp [hr] at h
      | ok r =>
        obtain ⟨n, p, j⟩ := r
        simp only [hr] at h ⊢
        cases hs : store m n p with
        | error e => simp [hs] at h
        | ok m1 =>
          simp only [hs] at h
          simp only [storeAll, hs]
          exact ih m1 j m' h
    · by_cases h2 : i > d.length
      · simp [h1, h2] at h
      · simp only [h1, h2, if_false, Except.ok.injEq] at h ⊢
        subst h
        rfl

theorem decodeWith_storeAll {m m' : M} {d : List Byte}
    (h : decodeWith name schema store m d = .ok m') :
    storeAll store m (fieldsOf name schema d) = .ok m' :=
  unmarshalLoop_storeAll name schema store d d.length m 0 m' h

end Trace

theorem readField_fits {name : MsgName} {schema : Schema} {d : List Byte} {i j : Nat} {n : Int}
    {p : Payload} (h : readField name schema d i = .ok (n, p, j)) : Fits schema (n, p) := by
  unfold readField at h
  cases ht : readTag name d i with
  | error e => simp [ht] at h
  | ok r =>
    obtain ⟨fieldNum, wireType, i1⟩ := r
    simp only [ht] at h
    cases hs : schema fieldNum with
    | none =>
      simp only [hs] at h
      cases hk : skipUnknown d i with
      | error e => simp [hk] at h
      | ok r =>
        simp only [hk, Except.ok.injEq, Prod.mk.injEq] at h
        obtain ⟨rfl, rfl, -⟩ := h
        exact hs
    | some fk =>
      obtain ⟨f, kind⟩ := fk
      cases kind with
      | bytes =>
        simp only [hs] at h
        split at h
        · simp at h
        · cases hl : readLengthDelimited d i1 with
          | error e => simp [hl] at h
          | ok r =>
            simp only [hl, Except.ok.injEq, Prod.mk.injEq] at h
            obtain ⟨rfl, rfl, -⟩ := h
            exact ⟨f, hs⟩
      | varint =>
        simp only [hs] at h
        split at h
        · simp at h
        · cases hl : decodeVarint d i1 with
          | error e => simp [hl] at h
          | ok r =>
            simp only [hl, Except.ok.injEq, Prod.mk.injEq] at h
            obtain ⟨rfl, rfl, -⟩ := h
            exact ⟨f, hs⟩

theorem readFields_fits (name : MsgName) (schema : Schema) (d : List Byte) :
    ∀ (f i : Nat), ∀ x ∈ readFields name schema d f i, Fits schema x := by
  intro f
  induction f with
  | zero => intro i x hx; simp [readFields] at hx
  | succ f ih =>
    intro i x hx
    rw [readFields] at hx
    by_cases h1 : i < d.length
    · simp only [h1, if_true] at hx
      cases hr : readField name schema d i with
      | error e => simp [hr] at hx
      | ok r =>
        obtain ⟨n, p, j⟩ := r
        simp only [hr, List.mem_cons] at hx
        rcases hx with rfl | hx
        · exact readField_fits hr
        · exact ih j x hx
    · simp [h1] at hx

theorem fieldsOf_fits (name : MsgName) (schema : Schema) (d : List Byte) :
    ∀ x ∈ fieldsOf name schema d, Fits schema x :=
  readFields_fits name schema d d.length 0

/-! ## What `KeyRange.Unmarshal` leaves in the receiver -/

theorem KeyRange_storeAll : ∀ (fs : List (Int × Payload)) (m m' : KeyRange),
    (∀ x ∈ fs, Fits KeyRange.schema x) → storeAll KeyRange.store m fs = .ok m' →
    m'.Start = (bytesOf 1 fs).getLast?.getD m.Start ∧
    m'.End = (bytesOf 2 fs).getLast?.getD m.End ∧
    m'.XXX_unrecognized = m.XXX_unrecognized ++ unknownOf fs := by
  intro fs
  induction fs with
  | nil =>
    intro m m' _ h
    simp only [storeAll, Except.ok.injEq] at h
    subst h
    simp [bytesOf, unknownOf]
  | cons x fs ih =>
    intro m m' hfit h
    obtain ⟨n, p⟩ := x
    have hx : Fits KeyRange.schema (n, p) := hfit _ (by simp)
    have hrest : ∀ y ∈ fs, Fits KeyRange.schema y := fun y hy => hfit y (by simp [hy])
    cases p with
    | bytes s =>
      obtain ⟨f, hf⟩ := hx
      simp only [KeyRange.schema] at hf
      by_cases h1 : n = 1
      · subst h1
        simp only [storeAll, KeyRange.store, if_true] at h
        obtain ⟨a, b, c⟩ := ih _ m' hrest h
        refine ⟨?_, ?_, ?_⟩
        · rw [a]
          simp only [bytesOf, if_true, List.getLast?_cons]
          cases (bytesOf 1 fs).getLast? <;> rfl
        · rw [b]
          simp [bytesOf]
        · rw [c]
          simp [unknownOf]
      · by_cases h2 : n = 2
        · subst h2
          simp only [storeAll, KeyRange.store] at h
          obtain ⟨a, b, c⟩ := ih _ m' hrest h
          refine ⟨?_, ?_, ?_⟩
          · rw [a]
            simp [bytesOf]
          · rw [b]
            simp only [bytesOf, if_true, List.getLast?_cons]
            cases (bytesOf 2 fs).getLast? <;> rfl
          · rw [c]
            simp [unknownOf]
        · simp [h1, h2] at hf
    | varint raw =>
      obtain ⟨f, hf⟩ := hx
      simp only [KeyRange.schema] at hf
      by_cases h1 : n = 1
      · simp [h1] at hf
      · by_cases h2 : n = 2
        · simp [h2] at hf
        · simp [h1, h2] at hf
    | unknown s =>
      simp only [storeAll, KeyRange.store] at h
      obtain ⟨a, b, c⟩ := ih _ m' hrest h
      refine ⟨?_, ?_, ?_⟩
      · rw [a]
        simp [bytesOf]
      · rw [b]
        simp [bytesOf]
      · rw [c]
        simp [unknownOf]

theorem KeyRange_Unmarshal_fields {m m' : KeyRange} {d : List Byte}
    (h : KeyRange.Unmarshal m d = .ok m') :
    m'.Start = (bytesOf 1 (fieldsOf .KeyRange KeyRange.schema d)).getLast?.getD m.Start ∧
    m'.End = (bytesOf 2 (fieldsOf .KeyRange KeyRange.schema d)).getLast?.getD m.End ∧
    m'.XXX_unrecognized =
      m.XXX_unrecognized ++ unknownOf (fieldsOf .KeyRange KeyRange.schema d) := by
  rw [KeyRange_Unmarshal_eq] at h
  exact KeyRange_storeAll _ m m' (fieldsOf_fits _ _ d) (decodeWith_storeAll _ _ _ h)

theorem KeyRange_Unmarshal_any {m m' : KeyRange} {d : List Byte}
    (h : KeyRange.Unmarshal m d = .ok m') (n : KeyRange) :
    ∃ n', KeyRange.Unmarshal n d = .ok n' := by
  rw [KeyRange_Unmarshal_eq] at h
  obtain ⟨n', hn', -⟩ := KeyRange_loop_tail d d.length d.length m n 0 m' h
  exact ⟨n', by rw [KeyRange_Unmarshal_eq]; exact hn'⟩

/-! ## The claim on a repeated `range` field -/

/-- C11: when, after accepted fields, `Response.Unmarshal` meets field 5 twice, with payloads
`e1` and `e2` that each decode as a `KeyRange`, the range of the result is the one `KeyRange`
got by decoding `e1` and then `e2` into the same instance (the range that was there, or a fresh
one), which is also what decoding `e1 ++ e2` into it gives.  A field that occurs in `e2` has the
value of its last occurrence in `e2`, a field that does not occur in `e2` keeps the value it has
after `e1`, and the tail is the unknown bytes of `e1` followed by those of `e2`.  Payloads
`{start=[1]}` then `{end=[2]}` give the range `{start=[1], end=[2]}`. -/
theorem Response_range_merge :
    (∀ (D E L X : Type) (deps : ResponseDeps D E L X) (m0 m1 : Response D E L X)
      (pre e1 e2 : List Byte) (a1 a2 : KeyRange),
      Response.Unmarshal deps m0 pre = .ok m1 →
      KeyRange.Unmarshal KeyRange.zero e1 = .ok a1 →
      KeyRange.Unmarshal KeyRange.zero e2 = .ok a2 →
      (pre ++ (lengthDelimited 0x2a e1 ++ lengthDelimited 0x2a e2)).length < 2 ^ 63 →
      ∃ r1 r2, KeyRange.Unmarshal (m1.Range.getD KeyRange.zero) e1 = .ok r1 ∧
        KeyRange.Unmarshal r1 e2 = .ok r2 ∧
        KeyRange.Unmarshal (m1.Range.getD KeyRange.zero) (e1 ++ e2) = .ok r2 ∧
        Response.Unmarshal deps m0 (pre ++ (lengthDelimited 0x2a e1 ++ lengthDelimited 0x2a e2)) =
          .ok { m1 with Range := some r2 } ∧
        r2.Start = (bytesOf 1 (fieldsOf .KeyRange KeyRange.schema e2)).getLast?.getD r1.Start ∧
        r2.End = (bytesOf 2 (fieldsOf .KeyRange KeyRange.schema e2)).getLast?.getD r1.End ∧
        r2.XXX_unrecognized = (m1.Range.getD KeyRange.zero).XXX_unrecognized ++
          a1.XXX_unrecognized ++ a2.XXX_unrecognized) ∧
    Response.Unmarshal (Response.bytesDeps emptyCollaborator emptyCollaborator emptyCollaborator)
        ⟨[], none, none, [], none, none, []⟩
        [0x2a, 0x03, 0x0a, 0x01, 0x01, 0x2a, 0x03, 0x12, 0x01, 0x02] =
      .ok ⟨[], none, none, [], some ⟨[0x01], [0x02], []⟩, none, []⟩ := by
  refine ⟨?_, by decide⟩
  intro D E L X deps m0 m1 pre e1 e2 a1 a2 hpre h1 h2 hlen
  obtain ⟨r1, hr1⟩ := KeyRange_Unmarshal_any h1 (m1.Range.getD KeyRange.zero)
  obtain ⟨r2, hr2⟩ := KeyRange_Unmarshal_any h2 r1
  have hl1 : (lengthDelimited 0x2a e1).length < 2 ^ 63 := by
    simp only [List.length_append] at hlen
    omega
  have hl2 : (lengthDelimited 0x2a e2).length < 2 ^ 63 := by
    simp only [List.length_append] at hlen
    omega
  have he : (e1 ++ e2).length < 2 ^ 63 := by
    simp only [List.length_append, lengthDelimited, List.length_cons] at hlen ⊢
    omega
  refine ⟨r1, r2, hr1, hr2, ?_, ?_, ?_, ?_, ?_⟩
  · rw [KeyRange_Unmarshal_eq] at hr1 hr2 ⊢
    exact decodeWith_append _ _ _ hr1 hr2 he
  · rw [Response_Unmarshal_eq] at hpre ⊢
    have s1 := Response_decode_range_bytes deps m1 e1 r1 hr1 hl1
    have s2 := Response_decode_range_bytes deps { m1 with Range := some r1 } e2 r2 hr2 hl2
    have s12 := decodeWith_append _ _ _ s1 s2 (by
      simp only [List.length_append] at hlen ⊢
      omega)
    exact decodeWith_append _ _ _ hpre s12 hlen
  · exact (KeyRange_Unmarshal_fields hr2).1
  · exact (KeyRange_Unmarshal_fields hr2).2.1
  · rw [KeyRange_Unmarshal_eq] at hr1 hr2 h1 h2
    obtain ⟨b1, hb1, t1⟩ := KeyRange_decode_tail hr1
    obtain ⟨b2, hb2, t2⟩ := KeyRange_decode_tail hr2
    rw [h1] at hb1
    rw [h2] at hb2
    simp only [Except.ok.injEq] at hb1 hb2
    subst hb1 hb2
    rw [t2, t1]

theorem Response_range_merge_witness :
    ∃ r1 r2, KeyRange.Unmarshal ((⟨[], none, none, [], none, none, []⟩ :
          Response (List Byte) Unit Unit Unit).Range.getD KeyRange.zero)
          [0x0a, 0x01, 0x01, 0x12, 0x01, 0x09, 0x18, 0x05] = .ok r1 ∧
        KeyRange.Unmarshal r1 [0x12, 0x01, 0x02, 0x20, 0x06] = .ok r2 ∧
        KeyRange.Unmarshal ((⟨[], none, none, [], none, none, []⟩ :
          Response (List Byte) Unit Unit Unit).Range.getD KeyRange.zero)
          ([0x0a, 0x01, 0x01, 0x12, 0x01, 0x09, 0x18, 0x05] ++
            [0x12, 0x01, 0x02, 0x20, 0x06]) = .ok r2 ∧
        Response.Unmarshal
          (Response.bytesDeps emptyCollaborator emptyCollaborator emptyCollaborator)
          ⟨[], none, none, [], none, none, []⟩
          ([] ++ (lengthDelimited 0x2a [0x0a, 0x01, 0x01, 0x12, 0x01, 0x09, 0x18, 0x05] ++
            lengthDelimited 0x2a [0x12, 0x01, 0x02, 0x20, 0x06])) =
          .ok { (⟨[], none, none, [], none, none, []⟩ : Response (List Byte) Unit Unit Unit) with
            Range := some r2 } ∧
        r2.Start = (bytesOf 1 (fieldsOf .KeyRange KeyRange.schema
          [0x12, 0x01, 0x02, 0x20, 0x06])).getLast?.getD r1.Start ∧
        r2.End = (bytesOf 2 (fieldsOf .KeyRange KeyRange.schema
          [0x12, 0x01, 0x02, 0x20, 0x06])).getLast?.getD r1.End ∧
        r2.XXX_unrecognized = ((⟨[], none, none, [], none, none, []⟩ :
          Response (List Byte) Unit Unit Unit).Range.getD KeyRange.zero).XXX_unrecognized ++
          (⟨[0x01], [0x09], [0x18, 0x05]⟩ : KeyRange).XXX_unrecognized ++
          (⟨[], [0x02], [0x20, 0x06]⟩ : KeyRange).XXX_unrecognized :=
  Response_range_merge.1 (List Byte) Unit Unit Unit
    (Response.bytesDeps emptyCollaborator emptyCollaborator emptyCollaborator)
    ⟨[], none, none, [], none, none, []⟩ ⟨[], none, none, [], none, none, []⟩ []
    [0x0a, 0x01, 0x01, 0x12, 0x01, 0x09, 0x18, 0x05] [0x12, 0x01, 0x02, 0x20, 0x06]
    ⟨[0x01], [0x09], [0x18, 0x05]⟩ ⟨[], [0x02], [0x20, 0x06]⟩ (by decide) (by decide) (by decide)
    (by decide)

/-! ## What `Request.Unmarshal` leaves in the receiver -/

theorem Request_storeAll {Ctx : Type} (ctx : Collaborator Ctx) :
    ∀ (fs : List (Int × Payload)) (m m' : Request Ctx),
    (∀ x ∈ fs, Fits Request.schema x) → storeAll (Request.store ctx) m fs = .ok m' →
    (∃ rs, List.Forall₂ (fun s r => KeyRange.Unmarshal KeyRange.zero s = .ok r)
        (bytesOf 4 fs) rs ∧ m'.Ranges = m.Ranges ++ rs) ∧
    m'.Tp = ((varintsOf 2 fs).getLast?.map toInt64).getD m.Tp ∧
    m'.Data = (bytesOf 3 fs).getLast?.getD m.Data ∧
    m'.XXX_unrecognized = m.XXX_unrecognized ++ unknownOf fs ∧
    (bytesOf 1 fs = [] → m'.Context = m.Context) := by
  intro fs
  induction fs with
  | nil =>
    intro m m' _ h
    simp only [storeAll, Except.ok.injEq] at h
    subst h
    exact ⟨⟨[], by simp [bytesOf], by simp⟩, by simp [varintsOf], by simp [bytesOf],
      by simp [unknownOf], fun _ => rfl⟩
  | cons x fs ih =>
    intro m m' hfit h
    obtain ⟨n, p⟩ := x
    have hx : Fits Request.schema (n, p) := hfit _ (by simp)
    have hrest : ∀ y ∈ fs, Fits Request.schema y := fun y hy => hfit y (by simp [hy])
    cases p with
    | bytes s =>
      obtain ⟨f, hf⟩ := hx
      simp only [Request.schema] at hf
      by_cases h1 : n = 1
      · subst h1
        simp only [storeAll, Request.store, if_true] at h
        cases hc : ctx.Unmarshal (m.Context.getD ctx.zero) s with
        | error e => simp [hc] at h
        | ok c =>
          simp only [hc] at h
          obtain ⟨⟨rs, a1, a2⟩, b, c', d, e⟩ := ih _ m' hrest h
          refine ⟨⟨rs, by simpa [bytesOf] using a1, a2⟩, ?_, ?_, ?_, ?_⟩
          · rw [b]; simp [varintsOf]
          · rw [c']; simp [bytesOf]
          · rw [d]; simp [unknownOf]
          · intro hb; simp [bytesOf] at hb
      · by_cases h3 : n = 3
        · subst h3
          simp only [storeAll, Request.store] at h
          simp only [show ¬ ((3 : Int) = 1) by decide, if_false, if_true] at h
          obtain ⟨⟨rs, a1, a2⟩, b, c', d, e⟩ := ih _ m' hrest h
          refine ⟨⟨rs, by simpa [bytesOf] using a1, a2⟩, ?_, ?_, ?_, ?_⟩
          · rw [b]; simp [varintsOf]
          · rw [c']
            simp only [bytesOf, if_true, List.getLast?_cons]
            cases (bytesOf 3 fs).getLast? <;> rfl
          · rw [d]; simp [unknownOf]
          · intro hb
            rw [e (by simpa [bytesOf] using hb)]
        · by_cases h4 : n = 4
          · subst h4
            simp only [storeAll, Request.store] at h
            simp only [show ¬ ((4 : Int) = 1) by decide, show ¬ ((4 : Int) = 3) by decide,
              if_false] at h
            cases hr : KeyRange.Unmarshal KeyRange.zero s with
            | error e => simp [hr] at h
            | ok r =>
              simp only [hr] at h
              obtain ⟨⟨rs, a1, a2⟩, b, c', d, e⟩ := ih _ m' hrest h
              refine ⟨⟨r :: rs, ?_, ?_⟩, ?_, ?_, ?_, ?_⟩
              · simp only [bytesOf, if_true]
                exact List.Forall₂.cons hr a1
              · rw [a2]; simp
              · rw [b]; simp [varintsOf]
              · rw [c']; simp [bytesOf]
              · rw [d]; simp [unknownOf]
              · intro hb
                rw [e (by simpa [bytesOf] using hb)]
          · by_cases h2 : n = 2
            · simp [h2] at hf
            · simp [h1, h2, h3, h4] at hf
    | varint raw =>
      obtain ⟨f, hf⟩ := hx
      simp only [Request.schema] at hf
      by_cases h2 : n = 2
      · subst h2
        simp only [storeAll, Request.store] at h
        obtain ⟨⟨rs, a1, a2⟩, b, c', d, e⟩ := ih _ m' hrest h
        refine ⟨⟨rs, by simpa [bytesOf] using a1, a2⟩, ?_, ?_, ?_, ?_⟩
        · rw [b]
          simp only [varintsOf, if_true, List.getLast?_cons]
          cases (varintsOf 2 fs).getLast? <;> rfl
        · rw [c']; simp [bytesOf]
        · rw [d]; simp [unknownOf]
        · intro hb
          rw [e (by simpa [bytesOf] using hb)]
      · by_cases h1 : n = 1
        · simp [h1] at hf
        · by_cases h3 : n = 3
          · simp [h3] at hf
          · by_cases h4 : n = 4
            · simp [h4] at hf
            · simp [h1, h2, h3, h4] at hf
    | unknown s =>
      simp only [storeAll, Request.store] at h
      obtain ⟨⟨rs, a1, a2⟩, b, c', d, e⟩ := ih _ m' hrest h
      refine ⟨⟨rs, by simpa [bytesOf] using a1, a2⟩, ?_, ?_, ?_, ?_⟩
      · rw [b]; simp [varintsOf]
      · rw [c']; simp [bytesOf]
      · rw [d]; simp [unknownOf]
      · intro hb
        rw [e (by simpa [bytesOf] using hb)]

theorem Request_Unmarshal_fields {Ctx : Type} (ctx : Collaborator Ctx) {m m' : Request Ctx}
    {d : List Byte} (h : Request.Unmarshal ctx m d = .ok m') :
    (∃ rs, List.Forall₂ (fun s r => KeyRange.Unmarshal KeyRange.zero s = .ok r)
        (bytesOf 4 (fieldsOf .Request Request.schema d)) rs ∧ m'.Ranges = m.Ranges ++ rs) ∧
    m'.Tp = ((varintsOf 2 (fieldsOf .Request Request.schema d)).getLast?.map toInt64).getD m.Tp ∧
    m'.Data = (bytesOf 3 (fieldsOf .Request Request.schema d)).getLast?.getD m.Data ∧
    m'.XXX_unrecognized =
      m.XXX_unrecognized ++ unknownOf (fieldsOf .Request Request.schema d) ∧
    (bytesOf 1 (fieldsOf .Request Request.schema d) = [] → m'.Context = m.Context) := by
  rw [Request_Unmarshal_eq] at h
  exact Request_storeAll ctx _ m m' (fieldsOf_fits _ _ d) (decodeWith_storeAll _ _ _ h)

theorem Request_foldl_ranges {Ctx : Type} : ∀ (cs : List Request.Field) (m : Request Ctx),
    (cs.foldl Request.Field.apply m).Ranges = m.Ranges ++ cs.filterMap Request.Field.asRange := by
  intro cs
  induction cs with
  | nil => intro m; simp
  | cons c cs ih =>
    intro m
    rw [List.foldl_cons, ih]
    cases c <;> simp [Request.Field.apply, Request.Field.asRange]

/-! ## The claim on the repeated field `ranges` -/

/-- C12: for every input that `Request.Unmarshal` accepts, the ranges of the result are those of
the receiver followed by one element per occurrence of field 4 in the input, in the order of
occurrence, each the decoding of its payload into a fresh `KeyRange`.  The occurrences need not
be contiguous: any sequence of `tp`, `data` and range fields, in any order, is accepted and its
ranges come out in order.  The input range `start="A"`, `tp=7`, range `end="B"` gives `tp = 7`
and the two ranges in that order. -/
theorem Request_ranges_in_order :
    (∀ (Ctx : Type) (ctx : Collaborator Ctx) (m0 m : Request Ctx) (d : List Byte),
      Request.Unmarshal ctx m0 d = .ok m →
      ∃ rs, List.Forall₂ (fun s r => KeyRange.Unmarshal KeyRange.zero s = .ok r)
          (bytesOf 4 (fieldsOf .Request Request.schema d)) rs ∧
        m.Ranges = m0.Ranges ++ rs) ∧
    (∀ (Ctx : Type) (ctx : Collaborator Ctx) (m0 : Request Ctx) (cs : List Request.Field),
      (∀ c ∈ cs, c.Valid) → (cs.map Request.Field.wire).flatten.length < 2 ^ 63 →
      ∃ m, Request.Unmarshal ctx m0 (cs.map Request.Field.wire).flatten = .ok m ∧
        m.Ranges = m0.Ranges ++ cs.filterMap Request.Field.asRange) ∧
    Request.Unmarshal emptyCollaborator Request.zero
        [0x22, 0x03, 0x0a, 0x01, 0x41, 0x10, 0x07, 0x22, 0x03, 0x12, 0x01, 0x42] =
      .ok ⟨none, 7, [], [⟨[0x41], [], []⟩, ⟨[], [0x42], []⟩], []⟩ ∧
    bytesOf 4 (fieldsOf .Request Request.schema
        [0x22, 0x03, 0x0a, 0x01, 0x41, 0x10, 0x07, 0x22, 0x03, 0x12, 0x01, 0x42]) =
      [[0x0a, 0x01, 0x41], [0x12, 0x01, 0x42]] := by
  refine ⟨?_, ?_, by decide, by decide⟩
  · intro Ctx ctx m0 m d h
    exact (Request_Unmarshal_fields ctx h).1
  · intro Ctx ctx m0 cs hv hlen
    refine ⟨cs.foldl Request.Field.apply m0, ?_, Request_foldl_ranges cs m0⟩
    rw [Request_Unmarshal_eq]
    exact Request_decode_fields ctx cs m0 hv hlen

theorem Request_ranges_in_order_witness :
    (∃ rs, List.Forall₂ (fun s r => KeyRange.Unmarshal KeyRange.zero s = .ok r)
        (bytesOf 4 (fieldsOf .Request Request.schema
          [0x22, 0x03, 0x0a, 0x01, 0x41, 0x10, 0x07, 0x22, 0x00])) rs ∧
      (⟨none, 7, [], [⟨[0x41], [], []⟩, ⟨[], [], []⟩], []⟩ : Request Unit).Ranges =
        (Request.zero : Request Unit).Ranges ++ rs) ∧
    ∃ m, Request.Unmarshal emptyCollaborator (Request.zero : Request Unit)
        ([Request.Field.range ⟨[0x41], [], []⟩, .tp 7, .range ⟨[], [0x42], []⟩].map
          Request.Field.wire).flatten = .ok m ∧
      m.Ranges = (Request.zero : Request Unit).Ranges ++
        [Request.Field.range ⟨[0x41], [], []⟩, .tp 7, .range ⟨[], [0x42], []⟩].filterMap
          Request.Field.asRange :=
  ⟨Request_ranges_in_order.1 Unit emptyCollaborator Request.zero
      ⟨none, 7, [], [⟨[0x41], [], []⟩, ⟨[], [], []⟩], []⟩
      [0x22, 0x03, 0x0a, 0x01, 0x41, 0x10, 0x07, 0x22, 0x00] (by decide),
    Request_ranges_in_order.2.1 Unit emptyCollaborator Request.zero
      [.range ⟨[0x41], [], []⟩, .tp 7, .range ⟨[], [0x42], []⟩]
      (by
        intro c hc
        simp only [List.mem_cons, List.mem_singleton, List.not_mem_nil, or_false] at hc
        rcases hc with rfl | rfl | rfl
        · rfl
        · exact ⟨by decide, by decide⟩
        · rfl)
      (by decide)⟩

/-! ## What `skipMppProcessor` returns -/

theorem skipMppProcessor_tag {d : List Byte} {wire k : Nat}
    (hd : decodeVarint d 0 = .ok (wire, k)) :
    skipMppProcessor d =
      if wire &&& 0x7 = 0 then
        match decodeVarint d k with
        | .error e => .error e
        | .ok (_, iNdEx) => .ok (iNdEx : Int)
      else if wire &&& 0x7 = 1 then .ok (wrapInt64 (k + 8))
      else if wire &&& 0x7 = 2 then
        match decodeVarint d k with
        | .error e => .error e
        | .ok (raw, iNdEx) =>
          if toInt64 raw < 0 then .error .ErrInvalidLengthMppProcessor
          else .ok (wrapInt64 (iNdEx + toInt64 raw))
      else if wire &&& 0x7 = 3 then
        skipGroupLoop (skipFuel (2 * d.length)) d (2 * d.length) k
      else if wire &&& 0x7 = 4 then .ok (k : Int)
      else if wire &&& 0x7 = 5 then .ok (wrapInt64 (k + 4))
      else .error (.illegalWireType (wire &&& 0x7)) := by
  have hb := decodeVarint_bounds hd
  have hl : 0 < d.length := by omega
  unfold skipMppProcessor
  rw [skipFuel]
  simp only [hl, if_true, hd]

theorem wrapInt64_nat {n : Nat} (h : n < 2 ^ 63) : wrapInt64 (n : Int) = n :=
  wrapInt64_of_range (by omega) (by exact_mod_cast h)

theorem skipGroupLoop_children {sk : List Byte → Res Int} {e rest : List Byte} {we : Nat}
    (he : decodeVarint (e ++ rest) 0 = .ok (we, e.length)) (hwe : we &&& 0x7 = 4) :
    ∀ (children : List (List Byte)) (a : List Byte) (g : Nat), children.length < g →
      (a ++ (children.flatten ++ (e ++ rest))).length < 2 ^ 63 →
      (∀ c ∈ children, (∀ x, sk (c ++ x) = .ok (c.length : Int)) ∧
        ∃ w k, decodeVarint c 0 = .ok (w, k) ∧ w &&& 0x7 ≠ 4) →
      skipGroupLoop sk (a ++ (children.flatten ++ (e ++ rest))) g (a.length : Int) =
        .ok ((a.length + children.flatten.length + e.length : Nat) : Int) := by
  intro children
  induction children with
  | nil =>
    intro a g hg hlen _
    obtain ⟨g, rfl⟩ : ∃ k, g = k + 1 := ⟨g - 1, by omega⟩
    rw [skipGroupLoop]
    have h0 : ¬ ((a.length : Int) < 0) := by omega
    have hdv := decodeVarint_shift a (e ++ rest) 0
    rw [Nat.add_zero, he] at hdv
    simp only [h0, if_false, Int.toNat_ofNat, List.flatten_nil, List.nil_append, hdv,
      shiftIndex_ok, hwe, if_true, List.length_nil, Nat.add_zero]
  | cons c cs ih =>
    intro a g hg hlen hc
    obtain ⟨g, rfl⟩ : ∃ k, g = k + 1 := ⟨g - 1, by simp at hg; omega⟩
    obtain ⟨hsk, w, k, hw, hw4⟩ := hc c (by simp)
    rw [skipGroupLoop]
    have h0 : ¬ ((a.length : Int) < 0) := by omega
    have hD : a ++ ((c :: cs).flatten ++ (e ++ rest)) = a ++ (c ++ (cs.flatten ++ (e ++ rest))) := by
      simp
    have hdv := decodeVarint_shift a (c ++ (cs.flatten ++ (e ++ rest))) 0
    rw [Nat.add_zero, decodeVarint_local _ hw] at hdv
    have hsl : sliceFrom (a ++ (c ++ (cs.flatten ++ (e ++ rest)))) (a.length : Int) =
        .ok (c ++ (cs.flatten ++ (e ++ rest))) := by
      rw [sliceFrom_eq (by simp)]
      simp
    rw [hD] at hlen ⊢
    simp only [h0, if_false, Int.toNat_ofNat, hdv, shiftIndex_ok, hw4, hsl, hsk]
    have hwrap : wrapInt64 ((a.length : Int) + (c.length : Int)) = ((a ++ c).length : Nat) := by
      have : (a.length : Int) + (c.length : Int) = ((a.length + c.length : Nat) : Int) := by
        push_cast; rfl
      rw [this, wrapInt64_nat (by simp only [List.length_append] at hlen; omega)]
      simp
    rw [hwrap]
    have := ih (a ++ c) g (by simp at hg; omega) (by simpa [List.append_assoc] using hlen)
      (fun c' hc' => hc c' (by simp [hc']))
    rw [List.append_assoc] at this
    rw [this]
    simp [Nat.add_assoc]

theorem skipMppProcessor_group {t e rest : List Byte} {children : List (List Byte)}
    {wire we : Nat}
    (ht : decodeVarint (t ++ (children.flatten ++ (e ++ rest))) 0 = .ok (wire, t.length))
    (hw : wire &&& 0x7 = 3)
    (hc : ∀ c ∈ children, skipMppProcessor c = .ok (c.length : Int) ∧
      ∃ w k, decodeVarint c 0 = .ok (w, k) ∧ w &&& 0x7 ≠ 4)
    (he : decodeVarint (e ++ rest) 0 = .ok (we, e.length)) (hwe : we &&& 0x7 = 4)
    (hlen : (t ++ (children.flatten ++ (e ++ rest))).length < 2 ^ 63) :
    skipMppProcessor (t ++ (children.flatten ++ (e ++ rest))) =
      .ok ((t.length + children.flatten.length + e.length : Nat) : Int) := by
  rw [skipMppProcessor_tag ht]
  simp only [hw, show ¬ ((3 : Nat) = 0) by decide, show ¬ ((3 : Nat) = 1) by decide,
    show ¬ ((3 : Nat) = 2) by decide, if_false, if_true]
  have htpos : 0 < t.length := (decodeVarint_bounds ht).1
  have hcpos : ∀ c ∈ children, 0 < c.length := by
    intro c hcm
    obtain ⟨-, w, k, hd, -⟩ := hc c hcm
    have := decodeVarint_bounds hd
    omega
  have hmem : ∀ c ∈ children, c.length ≤ children.flatten.length := by
    intro c hcm
    obtain ⟨l1, l2, rfl⟩ := List.append_of_mem hcm
    simp
    omega
  have hcount : ∀ (cs : List (List Byte)), (∀ c ∈ cs, 0 < c.length) →
      cs.length ≤ cs.flatten.length := by
    intro cs
    induction cs with
    | nil => intro _; simp
    | cons c cs ih =>
      intro h
      have h1 := h c (by simp)
      have h2 := ih (fun x hx => h x (by simp [hx]))
      simp only [List.length_cons, List.flatten_cons, List.length_append]
      omega
  apply skipGroupLoop_children he hwe children t
  · have := hcount children hcpos
    simp only [List.length_append]
    omega
  · exact hlen
  · intro c hcm
    obtain ⟨hs, hex⟩ := hc c hcm
    refine ⟨fun x => ?_, hex⟩
    unfold skipMppProcessor at hs
    apply skipFuel_local x _ c _ hs
    have := hmem c hcm
    simp only [List.length_append]
    omega

/-! ## The claim on `skipMppProcessor` -/

/-- C20: on an input that begins with a tag of `k` bytes, `skipMppProcessor` returns the length
of the first field, tag included.  Wire type 0: the index after the value varint that follows
the tag.  Wire type 1: `k + 8`.  Wire type 2: the index after the length varint plus the
declared length, when the length is not negative and the sum stays below `2^63`.  Wire type 5:
`k + 4`.  Wire type 3: when the tag is followed by fields that `skipMppProcessor` skips whole,
none of them beginning with an end-group tag, and then by an end-group tag, the length up to
and including that end-group tag.  Wire types 6 and 7: the "illegal wireType" error. -/
theorem skip_returns_field_length :
    (∀ (d : List Byte) (wire k v j : Nat), decodeVarint d 0 = .ok (wire, k) →
      wire &&& 0x7 = 0 → decodeVarint d k = .ok (v, j) →
      skipMppProcessor d = .ok (j : Int) ∧ k < j ∧ j ≤ d.length) ∧
    (∀ (d : List Byte) (wire k : Nat), decodeVarint d 0 = .ok (wire, k) → wire &&& 0x7 = 1 →
      skipMppProcessor d = .ok ((k + 8 : Nat) : Int)) ∧
    (∀ (d : List Byte) (wire k raw j : Nat), decodeVarint d 0 = .ok (wire, k) →
      wire &&& 0x7 = 2 → decodeVarint d k = .ok (raw, j) → raw < 2 ^ 63 → j + raw < 2 ^ 63 →
      skipMppProcessor d = .ok ((j + raw : Nat) : Int)) ∧
    (∀ (d : List Byte) (wire k : Nat), decodeVarint d 0 = .ok (wire, k) → wire &&& 0x7 = 5 →
      skipMppProcessor d = .ok ((k + 4 : Nat) : Int)) ∧
    (∀ (t e rest : List Byte) (children : List (List Byte)) (wire we : Nat),
      decodeVarint (t ++ (children.flatten ++ (e ++ rest))) 0 = .ok (wire, t.length) →
      wire &&& 0x7 = 3 →
      (∀ c ∈ children, skipMppProcessor c = .ok (c.length : Int) ∧
        ∃ w k, decodeVarint c 0 = .ok (w, k) ∧ w &&& 0x7 ≠ 4) →
      decodeVarint (e ++ rest) 0 = .ok (we, e.length) → we &&& 0x7 = 4 →
      (t ++ (children.flatten ++ (e ++ rest))).length < 2 ^ 63 →
      skipMppProcessor (t ++ (children.flatten ++ (e ++ rest))) =
        .ok ((t.length + children.flatten.length + e.length : Nat) : Int)) ∧
    (∀ (d : List Byte) (wire k : Nat), decodeVarint d 0 = .ok (wire, k) →
      wire &&& 0x7 = 6 ∨ wire &&& 0x7 = 7 →
      skipMppProcessor d = .error (.illegalWireType (wire &&& 0x7))) := by
  refine ⟨?_, ?_, ?_, ?_, ?_, ?_⟩
  · intro d wire k v j hd hw hv
    have hb := decodeVarint_bounds hv
    rw [skipMppProcessor_tag hd]
    simp only [hw, if_true, hv]
    exact ⟨trivial, hb.1, hb.2.1⟩
  · intro d wire k hd hw
    have hb := decodeVarint_bounds hd
    rw [skipMppProcessor_tag hd]
    simp only [hw, show ¬ ((1 : Nat) = 0) by decide, if_false, if_true]
    have : (k : Int) + 8 = ((k + 8 : Nat) : Int) := by push_cast; rfl
    rw [this, wrapInt64_nat (by omega)]
  · intro d wire k raw j hd hw hv hraw hsum
    rw [skipMppProcessor_tag hd]
    simp only [hw, show ¬ ((2 : Nat) = 0) by decide, show ¬ ((2 : Nat) = 1) by decide,
      if_false, if_true, hv]
    rw [toInt64_of_lt hraw]
    have h0 : ¬ ((raw : Int) < 0) := by omega
    have : (j : Int) + (raw : Int) = ((j + raw : Nat) : Int) := by push_cast; rfl
    simp only [h0, if_false]
    rw [this, wrapInt64_nat hsum]
  · intro d wire k hd hw
    have hb := decodeVarint_bounds hd
    rw [skipMppProcessor_tag hd]
    simp only [hw, show ¬ ((5 : Nat) = 0) by decide, show ¬ ((5 : Nat) = 1) by decide,
      show ¬ ((5 : Nat) = 2) by decide, show ¬ ((5 : Nat) = 3) by decide,
      show ¬ ((5 : Nat) = 4) by decide, if_false, if_true]
    have : (k : Int) + 4 = ((k + 4 : Nat) : Int) := by push_cast; rfl
    rw [this, wrapInt64_nat (by omega)]
  · intro t e rest children wire we ht hw hc he hwe hlen
    exact skipMppProcessor_group ht hw hc he hwe hlen
  · intro d wire k hd hw
    rw [skipMppProcessor_tag hd]
    rcases hw with hw | hw <;> simp [hw]

theorem skip_returns_field_length_witness :
    (skipMppProcessor [0x08, 0xac, 0x02, 0xff] = .ok ((3 : Nat) : Int) ∧
      1 < 3 ∧ 3 ≤ ([0x08, 0xac, 0x02, 0xff] : List Byte).length) ∧
    skipMppProcessor [0x09, 1, 2, 3, 4, 5, 6, 7, 8] = .ok ((1 + 8 : Nat) : Int) ∧
    skipMppProcessor [0x1a, 0x03, 0x41, 0x42, 0x43, 0xff] = .ok ((2 + 3 : Nat) : Int) ∧
    skipMppProcessor [0x0d, 1, 2, 3, 4] = .ok ((1 + 4 : Nat) : Int) ∧
    skipMppProcessor ([0x0b] ++ ([[0x13, 0x08, 0x01, 0x14], [0x15, 1, 2, 3, 4]].flatten ++
        ([0x0c] ++ [0xff]))) =
      .ok ((([0x0b] : List Byte).length +
        ([[0x13, 0x08, 0x01, 0x14], [0x15, 1, 2, 3, 4]] : List (List Byte)).flatten.length +
        ([0x0c] : List Byte).length : Nat) : Int) ∧
    skipMppProcessor [0x0e, 0x00] = .error (.illegalWireType (14 &&& 0x7)) :=
  ⟨skip_returns_field_length.1 [0x08, 0xac, 0x02, 0xff] 8 1 300 3 (by decide) (by decide)
      (by decide),
    skip_returns_field_length.2.1 [0x09, 1, 2, 3, 4, 5, 6, 7, 8] 9 1 (by decide) (by decide),
    skip_returns_field_length.2.2.1 [0x1a, 0x03, 0x41, 0x42, 0x43, 0xff] 26 1 3 2 (by decide)
      (by decide) (by decide) (by decide) (by decide),
    skip_returns_field_length.2.2.2.1 [0x0d, 1, 2, 3, 4] 13 1 (by decide) (by decide),
    skip_returns_field_length.2.2.2.2.1 [0x0b] [0x0c] [0xff]
      [[0x13, 0x08, 0x01, 0x14], [0x15, 1, 2, 3, 4]] 11 12 (by decide) (by decide)
      (by
        intro c hc
        simp only [List.mem_cons, List.mem_singleton, List.not_mem_nil, or_false] at hc
        rcases hc with rfl | rfl
        · exact ⟨by decide, 19, 1, by decide, by decide⟩
        · exact ⟨by decide, 21, 1, by decide, by decide⟩)
      (by decide) (by decide) (by decide),
    skip_returns_field_length.2.2.2.2.2 [0x0e, 0x00] 14 1 (by decide) (Or.inl (by decide))⟩

/-! ## A length prefix near `2^63` -/

/-- C21: a length prefix of `2^63 - 1` is not negative, and adding it to the index wraps around
to a negative `postIndex`, which passes the test `postIndex > l`; the slice expression then
panics.  `KeyRange.Unmarshal` and `Request.Unmarshal` panic on the ten bytes
`0x0a 0xff .. 0xff 0x7f`, and `skipMppProcessor` panics on a group that holds such a field: it
takes the negative count of the inner call as its next index. -/
theorem length_wraparound_panics :
    KeyRange.Unmarshal KeyRange.zero
        [0x0a, 0xff, 0xff, 0xff, 0xff, 0xff, 0xff, 0xff, 0xff, 0x7f] = .error .panicSlice ∧
    Request.Unmarshal emptyCollaborator Request.zero
        [0x1a, 0xff, 0xff, 0xff, 0xff, 0xff, 0xff, 0xff, 0xff, 0x7f] = .error .panicSlice ∧
    skipMppProcessor [0x0a, 0xff, 0xff, 0xff, 0xff, 0xff, 0xff, 0xff, 0xff, 0x7f] =
      .ok (-9223372036854775799) ∧
    skipMppProcessor [0x0b, 0x12, 0xff, 0xff, 0xff, 0xff, 0xff, 0xff, 0xff, 0xff, 0x7f] =
      .error .panicIndex ∧
    KeyRange.Unmarshal KeyRange.zero
        [0x1b, 0x12, 0xff, 0xff, 0xff, 0xff, 0xff, 0xff, 0xff, 0xff, 0x7f] =
      .error .panicIndex := by
  decide

/-! ## Dispatch on the truncated field number -/

theorem toInt32_of_mod {u : Nat} {n : Nat} (h : u % 2 ^ 32 = n) (hn : n < 2 ^ 31) :
    toInt32 u = (n : Int) := by
  unfold toInt32
  rw [h, if_pos hn]

theorem readField_bytes_general (name : MsgName) (schema : Schema)
    {t lenBytes content : List Byte} {wire : Nat} {f : FieldName}
    (ht : decodeVarint (t ++ (lenBytes ++ content)) 0 = .ok (wire, t.length))
    (hwt : wire &&& 0x7 = 2) (hpos : 0 < toInt32 (wire >>> 3))
    (hs : schema (toInt32 (wire >>> 3)) = some (f, .bytes))
    (hl : decodeVarint (lenBytes ++ content) 0 = .ok (content.length, lenBytes.length))
    (hlen : (t ++ (lenBytes ++ content)).length < 2 ^ 63) :
    readField name schema (t ++ (lenBytes ++ content)) 0 =
      .ok (toInt32 (wire >>> 3), .bytes content, (t ++ (lenBytes ++ content)).length) := by
  have htag := readTag_at name [] ht
  simp only [List.nil_append, List.length_nil, Nat.zero_add] at htag
  rw [if_neg (by rw [hwt]; decide), if_neg (by omega)] at htag
  have hdv := decodeVarint_shift t (lenBytes ++ content) 0
  rw [Nat.add_zero, hl] at hdv
  simp only [shiftIndex_ok] at hdv
  simp only [List.length_append] at hlen
  have hrl := readLengthDelimited_ok hdv (by omega)
    (by simp only [List.length_append]; omega) (by omega)
  unfold readField
  simp only [htag, hs, hwt, hrl]
  simp [Nat.add_assoc]

theorem KeyRange_decode_bytes_general (m : KeyRange) {t lenBytes content : List Byte}
    {wire : Nat} (ht : decodeVarint (t ++ (lenBytes ++ content)) 0 = .ok (wire, t.length))
    (hwt : wire &&& 0x7 = 2)
    (hl : decodeVarint (lenBytes ++ content) 0 = .ok (content.length, lenBytes.length))
    (hlen : (t ++ (lenBytes ++ content)).length < 2 ^ 63) :
    ((wire >>> 3) % 2 ^ 32 = 1 →
      decodeWith .KeyRange KeyRange.schema KeyRange.store m (t ++ (lenBytes ++ content)) =
        .ok { m with Start := content }) ∧
    ((wire >>> 3) % 2 ^ 32 = 2 →
      decodeWith .KeyRange KeyRange.schema KeyRange.store m (t ++ (lenBytes ++ content)) =
        .ok { m with End := content }) := by
  have hb := decodeVarint_bounds ht
  have hpos : 0 < (t ++ (lenBytes ++ content)).length := by omega
  have hne : t ++ (lenBytes ++ content) ≠ [] := by
    intro h
    rw [h] at hpos
    simp at hpos
  constructor
  · intro h1
    have hn : toInt32 (wire >>> 3) = 1 := toInt32_of_mod h1 (by norm_num)
    apply decodeWith_single _ _ _ hne
    unfold fieldStep
    rw [readField_bytes_general .KeyRange KeyRange.schema (f := .Start) ht hwt (by omega)
      (by rw [hn]; rfl) hl hlen, hn]
    rfl
  · intro h2
    have hn : toInt32 (wire >>> 3) = 2 := toInt32_of_mod h2 (by norm_num)
    apply decodeWith_single _ _ _ hne
    unfold fieldStep
    rw [readField_bytes_general .KeyRange KeyRange.schema (f := .End) ht hwt (by omega)
      (by rw [hn]; rfl) hl hlen, hn]
    rfl

/-- C24: the decoders dispatch on `int32(wire >> 3)`.  In `KeyRange.Unmarshal`, after accepted
fields, a length-delimited field whose field number is congruent to 1 modulo `2^32` is stored in
`start` (to 2: in `end`) and the unknown-field tail is as before.  In the three decoders a tag
whose wire type is not 4 and whose truncated field number is zero or negative gives the
"illegal tag" error.  Field number `2^32 + 1` is stored in `start`; field numbers `2^31` and
`2^32` truncate to `-2^31` and `0` and are illegal tags. -/
theorem dispatch_on_truncated_number :
    (∀ (m0 m1 : KeyRange) (pre t lenBytes content : List Byte) (wire : Nat),
      KeyRange.Unmarshal m0 pre = .ok m1 →
      decodeVarint (t ++ (lenBytes ++ content)) 0 = .ok (wire, t.length) → wire &&& 0x7 = 2 →
      decodeVarint (lenBytes ++ content) 0 = .ok (content.length, lenBytes.length) →
      (pre ++ (t ++ (lenBytes ++ content))).length < 2 ^ 63 →
      ((wire >>> 3) % 2 ^ 32 = 1 →
        KeyRange.Unmarshal m0 (pre ++ (t ++ (lenBytes ++ content))) =
          .ok { m1 with Start := content }) ∧
      ((wire >>> 3) % 2 ^ 32 = 2 →
        KeyRange.Unmarshal m0 (pre ++ (t ++ (lenBytes ++ content))) =
          .ok { m1 with End := content })) ∧
    (∀ (m0 m1 : KeyRange) (pre t : List Byte) (wire k : Nat),
      KeyRange.Unmarshal m0 pre = .ok m1 → decodeVarint t 0 = .ok (wire, k) →
      (pre ++ t).length < 2 ^ 63 → wire &&& 0x7 ≠ 4 →
      (wire >>> 3) % 2 ^ 32 = 0 ∨ 2 ^ 31 ≤ (wire >>> 3) % 2 ^ 32 →
      KeyRange.Unmarshal m0 (pre ++ t) =
        .error (.illegalTag .KeyRange (toInt32 (wire >>> 3)) wire)) ∧
    (∀ (Ctx : Type) (ctx : Collaborator Ctx) (m0 m1 : Request Ctx) (pre t : List Byte)
      (wire k : Nat),
      Request.Unmarshal ctx m0 pre = .ok m1 → decodeVarint t 0 = .ok (wire, k) →
      (pre ++ t).length < 2 ^ 63 → wire &&& 0x7 ≠ 4 →
      (wire >>> 3) % 2 ^ 32 = 0 ∨ 2 ^ 31 ≤ (wire >>> 3) % 2 ^ 32 →
      Request.Unmarshal ctx m0 (pre ++ t) =
        .error (.illegalTag .Request (toInt32 (wire >>> 3)) wire)) ∧
    (∀ (D E L X : Type) (deps : ResponseDeps D E L X) (m0 m1 : Response D E L X)
      (pre t : List Byte) (wire k : Nat),
      Response.Unmarshal deps m0 pre = .ok m1 → decodeVarint t 0 = .ok (wire, k) →
      (pre ++ t).length < 2 ^ 63 → wire &&& 0x7 ≠ 4 →
      (wire >>> 3) % 2 ^ 32 = 0 ∨ 2 ^ 31 ≤ (wire >>> 3) % 2 ^ 32 →
      Response.Unmarshal deps m0 (pre ++ t) =
        .error (.illegalTag .Response (toInt32 (wire >>> 3)) wire)) ∧
    KeyRange.Unmarshal KeyRange.zero [0x8a, 0x80, 0x80, 0x80, 0x80, 0x01, 0x01, 0x41] =
      .ok ⟨[0x41], [], []⟩ ∧
    decodeVarint [0x8a, 0x80, 0x80, 0x80, 0x80, 0x01, 0x01, 0x41] 0 =
      .ok ((2 ^ 32 + 1) * 8 + 2, 6) ∧
    toInt32 (2 ^ 31) = -2 ^ 31 ∧ toInt32 (2 ^ 32) = 0 := by
  have hneg : ∀ u : Nat, u % 2 ^ 32 = 0 ∨ 2 ^ 31 ≤ u % 2 ^ 32 → toInt32 u ≤ 0 := by
    intro u h
    unfold toInt32
    have hlt : u % 2 ^ 32 < 2 ^ 32 := Nat.mod_lt _ (by norm_num)
    rcases h with h | h
    · rw [h]
      simp
    · rw [if_neg (by omega)]
      omega
  refine ⟨?_, ?_, ?_, ?_, by decide, by decide, by decide, by decide⟩
  · intro m0 m1 pre t lenBytes content wire hpre ht hwt hl hlen
    rw [KeyRange_Unmarshal_eq] at hpre
    have hlen' : (t ++ (lenBytes ++ content)).length < 2 ^ 63 := by
      simp only [List.length_append] at hlen ⊢
      omega
    obtain ⟨a, b⟩ := KeyRange_decode_bytes_general m1 ht hwt hl hlen'
    constructor
    · intro h1
      rw [KeyRange_Unmarshal_eq]
      exact decodeWith_append _ _ _ hpre (a h1) hlen
    · intro h2
      rw [KeyRange_Unmarshal_eq]
      exact decodeWith_append _ _ _ hpre (b h2) hlen
  · intro m0 m1 pre t wire k hpre hd hlen hwt hnum
    rw [KeyRange_Unmarshal_eq] at hpre ⊢
    exact decodeWith_illegal_tag _ _ _ hpre hd hlen hwt (hneg _ hnum)
  · intro Ctx ctx m0 m1 pre t wire k hpre hd hlen hwt hnum
    rw [Request_Unmarshal_eq] at hpre ⊢
    exact decodeWith_illegal_tag _ _ _ hpre hd hlen hwt (hneg _ hnum)
  · intro D E L X deps m0 m1 pre t wire k hpre hd hlen hwt hnum
    rw [Response_Unmarshal_eq] at hpre ⊢
    exact decodeWith_illegal_tag _ _ _ hpre hd hlen hwt (hneg _ hnum)

theorem dispatch_on_truncated_number_witness :
    (((34359738378 >>> 3) % 2 ^ 32 = 1 →
        KeyRange.Unmarshal KeyRange.zero ([0x12, 0x01, 0x42] ++
          ([0x8a, 0x80, 0x80, 0x80, 0x80, 0x01] ++ ([0x01] ++ [0x41]))) =
          .ok { (⟨[], [0x42], []⟩ : KeyRange) with Start := [0x41] }) ∧
      ((34359738378 >>> 3) % 2 ^ 32 = 2 →
        KeyRange.Unmarshal KeyRange.zero ([0x12, 0x01, 0x42] ++
          ([0x8a, 0x80, 0x80, 0x80, 0x80, 0x01] ++ ([0x01] ++ [0x41]))) =
          .ok { (⟨[], [0x42], []⟩ : KeyRange) with End := [0x41] })) ∧
    KeyRange.Unmarshal KeyRange.zero ([] ++ [0x80, 0x80, 0x80, 0x80, 0x40, 0x00]) =
      .error (.illegalTag .KeyRange (toInt32 (17179869184 >>> 3)) 17179869184) ∧
    Request.Unmarshal emptyCollaborator Request.zero
        ([0x10, 0x07] ++ [0x80, 0x80, 0x80, 0x80, 0x80, 0x01, 0x00]) =
      .error (.illegalTag .Request (toInt32 (34359738368 >>> 3)) 34359738368) :=
  ⟨dispatch_on_truncated_number.1 KeyRange.zero ⟨[], [0x42], []⟩ [0x12, 0x01, 0x42]
      [0x8a, 0x80, 0x80, 0x80, 0x80, 0x01] [0x01] [0x41] 34359738378 (by decide) (by decide)
      (by decide) (by decide) (by decide),
    dispatch_on_truncated_number.2.1 KeyRange.zero KeyRange.zero []
      [0x80, 0x80, 0x80, 0x80, 0x40, 0x00] 17179869184 5 (by decide) (by decide) (by decide)
      (by decide) (Or.inr (by decide)),
    dispatch_on_truncated_number.2.2.1 Unit emptyCollaborator Request.zero
      ⟨none, 7, [], [], []⟩ [0x10, 0x07] [0x80, 0x80, 0x80, 0x80, 0x80, 0x01, 0x00] 34359738368 6
      (by decide) (by decide) (by decide) (by decide) (Or.inl (by decide))⟩

/-! ## `skipMppProcessor`: one step, and where its result lies -/

theorem skipFuel_succ {f : Nat} {d : List Byte} {wire k : Nat}
    (hd : decodeVarint d 0 = .ok (wire, k)) :
    skipFuel (f + 1) d =
      if wire &&& 0x7 = 0 then
        match decodeVarint d k with
        | .error e => .error e
        | .ok (_, iNdEx) => .ok (iNdEx : Int)
      else if wire &&& 0x7 = 1 then .ok (wrapInt64 (k + 8))
      else if wire &&& 0x7 = 2 then
        match decodeVarint d k with
        | .error e => .error e
        | .ok (raw, iNdEx) =>
          if toInt64 raw < 0 then .error .ErrInvalidLengthMppProcessor
          else .ok (wrapInt64 (iNdEx + toInt64 raw))
      else if wire &&& 0x7 = 3 then skipGroupLoop (skipFuel f) d f k
      else if wire &&& 0x7 = 4 then .ok (k : Int)
      else if wire &&& 0x7 = 5 then .ok (wrapInt64 (k + 4))
      else .error (.illegalWireType (wire &&& 0x7)) := by
  have hb := decodeVarint_bounds hd
  have hl : 0 < d.length := by omega
  rw [skipFuel]
  simp only [hl, if_true, hd]

theorem skipFuel_nil (f : Nat) : skipFuel (f + 1) [] = .error .panicUnreachable := by
  rw [skipFuel]
  simp

theorem skipFuel_tag_error {f : Nat} {d : List Byte} {e : Error} (hl : d ≠ [])
    (hd : decodeVarint d 0 = .error e) : skipFuel (f + 1) d = .error e := by
  have hl' : 0 < d.length := List.length_pos.2 hl
  rw [skipFuel]
  simp only [hl', if_true, hd]

theorem decodeVarintLoop_error (d : List Byte) : ∀ (k shift i acc : Nat) (e : Error),
    decodeVarintLoop d k shift i acc = .error e →
    e = .ErrIntOverflowMppProcessor ∨ e = .ErrUnexpectedEOF := by
  intro k
  induction k with
  | zero =>
    intro shift i acc e h
    simp only [decodeVarintLoop, Except.error.injEq] at h
    exact Or.inl h.symm
  | succ k ih =>
    intro shift i acc e h
    rw [decodeVarintLoop] at h
    by_cases hs : shift ≥ 64
    · simp only [hs, if_true, Except.error.injEq] at h
      exact Or.inl h.symm
    · simp only [hs, if_false] at h
      cases hb : d[i]? with
      | none =>
        simp only [hb, Except.error.injEq] at h
        exact Or.inr h.symm
      | some b =>
        simp only [hb] at h
        by_cases hlt : b.val < 0x80
        · simp [hlt] at h
        · simp only [hlt, if_false] at h
          exact ih _ _ _ e h

theorem decodeVarint_error {d : List Byte} {i : Nat} {e : Error}
    (h : decodeVarint d i = .error e) :
    e = .ErrIntOverflowMppProcessor ∨ e = .ErrUnexpectedEOF :=
  decodeVarintLoop_error d 10 0 i 0 e h

theorem wrapInt64_cases (x : Int) (h0 : 0 ≤ x) (h1 : x < 2 ^ 64) :
    (x < 2 ^ 63 ∧ wrapInt64 x = x) ∨ (2 ^ 63 ≤ x ∧ wrapInt64 x = x - 2 ^ 64) := by
  by_cases h : x < 2 ^ 63
  · exact Or.inl ⟨h, wrapInt64_of_range h0 h⟩
  · right
    refine ⟨by omega, ?_⟩
    obtain ⟨⟨q, hq⟩, hlo, hhi⟩ := wrapInt64_spec x
    have : q = 1 := by omega
    rw [hq, this]
    ring

/-- A count that `skipMppProcessor` returns is an `int`; it is at least 1, or it comes from a
length that wrapped around and is then so negative that adding it to any index of a buffer that
ends with the input gives a negative index. -/
theorem skipFuel_bounds {f : Nat} {d : List Byte} {m : Int} (h : skipFuel f d = .ok m)
    (hlen : d.length < 2 ^ 63) :
    (-2 ^ 63 ≤ m ∧ m < 2 ^ 63) ∧ (1 ≤ m ∨ m < (d.length : Int) - 2 ^ 63) := by
  cases f with
  | zero => simp [skipFuel] at h
  | succ f =>
    by_cases hl : d = []
    · rw [hl, skipFuel_nil] at h
      simp at h
    · cases hd : decodeVarint d 0 with
      | error e => rw [skipFuel_tag_error hl hd] at h; simp at h
      | ok p =>
        obtain ⟨wire, k⟩ := p
        have hb := decodeVarint_bounds hd
        rw [skipFuel_succ hd] at h
        by_cases h0 : wire &&& 0x7 = 0
        · simp only [h0, if_true] at h
          cases hd2 : decodeVarint d k with
          | error e => simp [hd2] at h
          | ok p2 =>
            obtain ⟨v2, i2⟩ := p2
            have hb2 := decodeVarint_bounds hd2
            simp only [hd2, Except.ok.injEq] at h
            omega
        · simp only [h0, if_false] at h
          by_cases h1 : wire &&& 0x7 = 1
          · simp only [h1, if_true, Except.ok.injEq] at h
            rw [wrapInt64_of_range (by omega) (by omega)] at h
            omega
          · simp only [h1, if_false] at h
            by_cases h2 : wire &&& 0x7 = 2
            · simp only [h2, if_true] at h
              cases hd2 : decodeVarint d k with
              | error e => simp [hd2] at h
              | ok p2 =>
                obtain ⟨v2, i2⟩ := p2
                have hb2 := decodeVarint_bounds hd2
                have hlt := decodeVarint_lt hd2
                simp only [hd2] at h
                split at h
                · simp at h
                · rename_i hneg
                  have hraw : v2 < 2 ^ 63 := (toInt64_nonneg_iff hlt).1 (by omega)
                  rw [toInt64_of_lt hraw] at h
                  simp only [Except.ok.injEq] at h
                  rcases wrapInt64_cases ((i2 : Int) + (v2 : Int)) (by omega) (by omega) with
                    ⟨a, b⟩ | ⟨a, b⟩
                  · rw [b] at h
                    omega
                  · rw [b] at h
                    omega
            · simp only [h2, if_false] at h
              by_cases h3 : wire &&& 0x7 = 3
              · simp only [h3, if_true] at h
                have := skipGroupLoop_pos _ _ _ h
                have := skipGroupLoop_range _ _ _ h
                omega
              · simp only [h3, if_false] at h
                by_cases h4 : wire &&& 0x7 = 4
                · simp only [h4, if_true, Except.ok.injEq] at h
                  omega
                · simp only [h4, if_false] at h
                  by_cases h5 : wire &&& 0x7 = 5
                  · simp only [h5, if_true, Except.ok.injEq] at h
                    rw [wrapInt64_of_range (by omega) (by omega)] at h
                    omega
                  · simp [h5] at h

theorem wrapInt64_id {x : Int} (h0 : -2 ^ 63 ≤ x) (h1 : x < 2 ^ 63) : wrapInt64 x = x := by
  obtain ⟨⟨q, hq⟩, hlo, hhi⟩ := wrapInt64_spec x
  have : q = 0 := by omega
  rw [hq, this]
  ring

/-- The index after a recursive call in the group loop: it is negative, or it has moved
forward. -/
theorem next_index_cases {i next : Int} {l : Nat} (hl : l < 2 ^ 63) (hi : 1 ≤ i)
    (hil : i < l) (hr : -2 ^ 63 ≤ next ∧ next < 2 ^ 63)
    (hn : 1 ≤ next ∨ next < ((l : Int) - i) - 2 ^ 63) :
    wrapInt64 (i + next) < 0 ∨ i + 1 ≤ wrapInt64 (i + next) := by
  rcases hn with hn | hn
  · rcases wrapInt64_cases (i + next) (by omega) (by omega) with ⟨a, b⟩ | ⟨a, b⟩
    · right; rw [b]; omega
    · left; rw [b]; omega
  · left
    rw [wrapInt64_id (by omega) (by omega)]
    omega

theorem sliceFrom_error {d : List Byte} {lo : Int} {e : Error}
    (h : sliceFrom d lo = .error e) : e = .panicSlice := by
  unfold sliceFrom at h
  split at h
  · simp at h
  · simp only [Except.error.injEq] at h
    exact h.symm

/-! ## `skipMppProcessor` terminates -/

theorem skipGroupLoop_fuel {sk : List Byte → Res Int} {d : List Byte} (hlen : d.length < 2 ^ 63)
    (hsk : ∀ (s : Nat) (m : Int), s < d.length → sk (d.drop s) = .ok m →
      (-2 ^ 63 ≤ m ∧ m < 2 ^ 63) ∧ (1 ≤ m ∨ m < ((d.length : Int) - s) - 2 ^ 63))
    (hfuel : ∀ s : Nat, 1 ≤ s → s < d.length → sk (d.drop s) ≠ .error .outOfFuel) :
    ∀ (g : Nat) (i : Int), 1 ≤ g → i < 0 ∨ (1 ≤ i ∧ (d.length : Int) + 1 ≤ i + g) →
      skipGroupLoop sk d g i ≠ .error .outOfFuel := by
  intro g
  induction g with
  | zero => intro i hg; omega
  | succ g ih =>
    intro i _ hi
    rw [skipGroupLoop]
    by_cases hneg : i < 0
    · simp [hneg]
    · have hi1 : 1 ≤ i ∧ (d.length : Int) + 1 ≤ i + (g + 1 : Nat) := by
        rcases hi with h | h
        · omega
        · exact h
      simp only [hneg, if_false]
      cases hd : decodeVarint d i.toNat with
      | error e =>
        simp only
        rcases decodeVarint_error hd with rfl | rfl <;> simp
      | ok p =>
        obtain ⟨iw, i'⟩ := p
        have hb := decodeVarint_bounds hd
        simp only
        by_cases h4 : iw &&& 0x7 = 4
        · simp [h4]
        · simp only [h4, if_false]
          cases hsl : sliceFrom d i with
          | error e =>
            simp only
            rw [sliceFrom_error hsl]
            simp
          | ok rest =>
            obtain ⟨-, -, hrest⟩ := sliceFrom_inv hsl
            subst hrest
            simp only
            cases hs : sk (d.drop i.toNat) with
            | error e =>
              simp only
              intro hcon
              simp only [Except.error.injEq] at hcon
              subst hcon
              exact hfuel i.toNat (by omega) (by omega) hs
            | ok next =>
              simp only
              obtain ⟨hr, hn⟩ := hsk i.toNat next (by omega) hs
              have hit : ((i.toNat : Nat) : Int) = i := by omega
              rw [hit] at hn
              have hc := next_index_cases hlen hi1.1 (by omega) hr hn
              apply ih _ (by omega)
              rcases hc with hc | hc
              · exact Or.inl hc
              · right
                push_cast at hi1
                omega

theorem skipFuel_fuel : ∀ (f : Nat) (d : List Byte), d.length < 2 ^ 63 →
    2 * d.length + 1 ≤ f → skipFuel f d ≠ .error .outOfFuel := by
  intro f
  induction f with
  | zero => intro d _ h; omega
  | succ f ih =>
    intro d hlen hf
    by_cases hl : d = []
    · rw [hl, skipFuel_nil]
      simp
    · have hpos : 0 < d.length := List.length_pos.2 hl
      cases hd : decodeVarint d 0 with
      | error e =>
        rw [skipFuel_tag_error hl hd]
        rcases decodeVarint_error hd with rfl | rfl <;> simp
      | ok p =>
        obtain ⟨wire, k⟩ := p
        have hb := decodeVarint_bounds hd
        rw [skipFuel_succ hd]
        by_cases h0 : wire &&& 0x7 = 0
        · simp only [h0, if_true]
          cases hd2 : decodeVarint d k with
          | error e =>
            simp only
            rcases decodeVarint_error hd2 with rfl | rfl <;> simp
          | ok p2 => simp
        · simp only [h0, if_false]
          by_cases h1 : wire &&& 0x7 = 1
          · simp [h1]
          · simp only [h1, if_false]
            by_cases h2 : wire &&& 0x7 = 2
            · simp only [h2, if_true]
              cases hd2 : decodeVarint d k with
              | error e =>
                simp only
                rcases decodeVarint_error hd2 with rfl | rfl <;> simp
              | ok p2 =>
                simp only
                split <;> simp
            · simp only [h2, if_false]
              by_cases h3 : wire &&& 0x7 = 3
              · simp only [h3, if_true]
                apply skipGroupLoop_fuel hlen _ _ f (k : Int) (by omega)
                · right
                  constructor
                  · omega
                  · omega
                · intro s m hs hm
                  have := skipFuel_bounds hm (by simp; omega)
                  simp only [List.length_drop] at this
                  have hc : ((d.length - s : Nat) : Int) = (d.length : Int) - s := by omega
                  rw [hc] at this
                  exact this
                · intro s hs1 hs2
                  apply ih
                  · simp; omega
                  · simp only [List.length_drop]
                    omega
              · simp only [h3, if_false]
                by_cases h4 : wire &&& 0x7 = 4
                · simp [h4]
                · simp only [h4, if_false]
                  by_cases h5 : wire &&& 0x7 = 5
                  · simp [h5]
                  · simp [h5]

theorem skipMppProcessor_fuel {d : List Byte} (hlen : d.length < 2 ^ 63) :
    skipMppProcessor d ≠ .error .outOfFuel :=
  skipFuel_fuel _ d hlen (Nat.le_refl _)

/-! ## More fuel does not change a result -/

theorem skipGroupLoop_stable {sk sk' : List Byte → Res Int} {d : List Byte}
    (H : ∀ rest r, sk rest = r → r ≠ .error .outOfFuel → sk' rest = r) :
    ∀ (g : Nat) (i : Int) (r : Res Int), skipGroupLoop sk d g i = r → r ≠ .error .outOfFuel →
      ∀ g', g ≤ g' → skipGroupLoop sk' d g' i = r := by
  intro g
  induction g with
  | zero =>
    intro i r h hr
    simp only [skipGroupLoop] at h
    exact absurd h.symm hr
  | succ g ih =>
    intro i r h hr g' hg
    obtain ⟨g', rfl⟩ : ∃ k, g' = k + 1 := ⟨g' - 1, by omega⟩
    rw [skipGroupLoop] at h ⊢
    by_cases hi : i < 0
    · simpa [hi] using h
    · simp only [hi, if_false] at h ⊢
      cases hd : decodeVarint d i.toNat with
      | error e => simpa [hd] using h
      | ok p =>
        obtain ⟨iw, i'⟩ := p
        simp only [hd] at h ⊢
        by_cases h4 : iw &&& 0x7 = 4
        · simpa [h4] using h
        · simp only [h4, if_false] at h ⊢
          cases hsl : sliceFrom d i with
          | error e => simpa [hsl] using h
          | ok rest =>
            simp only [hsl] at h ⊢
            cases hsk : sk rest with
            | error e =>
              simp only [hsk] at h
              have he : (Except.error e : Res Int) ≠ .error .outOfFuel := by
                intro hcon
                simp only [Except.error.injEq] at hcon
                subst hcon
                exact hr h.symm
              rw [H rest _ hsk he]
              exact h
            | ok next =>
              simp only [hsk] at h
              rw [H rest _ hsk (by simp)]
              exact ih _ _ h hr g' (by omega)

theorem skipFuel_stable : ∀ (f : Nat) (d : List Byte) (r : Res Int), skipFuel f d = r →
    r ≠ .error .outOfFuel → ∀ f', f ≤ f' → skipFuel f' d = r := by
  intro f
  induction f with
  | zero =>
    intro d r h hr
    simp only [skipFuel] at h
    exact absurd h.symm hr
  | succ f ih =>
    intro d r h hr f' hf
    obtain ⟨f', rfl⟩ : ∃ k, f' = k + 1 := ⟨f' - 1, by omega⟩
    by_cases hl : d = []
    · rw [hl, skipFuel_nil] at h ⊢
      exact h
    · cases hd : decodeVarint d 0 with
      | error e =>
        rw [skipFuel_tag_error hl hd] at h ⊢
        exact h
      | ok p =>
        obtain ⟨wire, k⟩ := p
        rw [skipFuel_succ hd] at h ⊢
        by_cases h3 : wire &&& 0x7 = 3
        · simp only [h3, show ¬ ((3 : Nat) = 0) by decide, show ¬ ((3 : Nat) = 1) by decide,
            show ¬ ((3 : Nat) = 2) by decide, if_false, if_true] at h ⊢
          exact skipGroupLoop_stable (fun rest r' hr1 hr2 => ih rest r' hr1 hr2 f' (by omega))
            f _ r h hr f' (by omega)
        · simp only [h3, if_false] at h ⊢
          exact h

/-- With fuel for twice the length of the input, `skipMppProcessor` never stops for lack of
fuel, and more fuel gives the same result. -/
theorem skipMppProcessor_total {d : List Byte} (hlen : d.length < 2 ^ 63) (f : Nat)
    (hf : 2 * d.length + 1 ≤ f) :
    skipFuel f d = skipMppProcessor d ∧ skipMppProcessor d ≠ .error .outOfFuel :=
  ⟨skipFuel_stable _ d _ rfl (skipMppProcessor_fuel hlen) f hf, skipMppProcessor_fuel hlen⟩

/-! ## The group loop looks at shorter, non-empty suffixes only -/

theorem skipGroupLoop_congr {sk sk' : List Byte → Res Int} {d : List Byte}
    (hlen : d.length < 2 ^ 63)
    (hsk : ∀ (s : Nat) (m : Int), s < d.length → sk (d.drop s) = .ok m →
      (-2 ^ 63 ≤ m ∧ m < 2 ^ 63) ∧ (1 ≤ m ∨ m < ((d.length : Int) - s) - 2 ^ 63))
    (hagree : ∀ s : Nat, 1 ≤ s → s < d.length → sk' (d.drop s) = sk (d.drop s)) :
    ∀ (g : Nat) (i : Int), i < 0 ∨ 1 ≤ i →
      skipGroupLoop sk' d g i = skipGroupLoop sk d g i := by
  intro g
  induction g with
  | zero => intro i _; rfl
  | succ g ih =>
    intro i hi
    rw [skipGroupLoop, skipGroupLoop]
    by_cases hneg : i < 0
    · simp [hneg]
    · have hi1 : 1 ≤ i := by omega
      simp only [hneg, if_false]
      cases hd : decodeVarint d i.toNat with
      | error e => rfl
      | ok p =>
        obtain ⟨iw, i'⟩ := p
        have hb := decodeVarint_bounds hd
        simp only
        by_cases h4 : iw &&& 0x7 = 4
        · simp [h4]
        · simp only [h4, if_false]
          cases hsl : sliceFrom d i with
          | error e => rfl
          | ok rest =>
            obtain ⟨-, -, hrest⟩ := sliceFrom_inv hsl
            subst hrest
            simp only
            rw [hagree i.toNat (by omega) (by omega)]
            cases hs : sk (d.drop i.toNat) with
            | error e => rfl
            | ok next =>
              simp only
              obtain ⟨hr, hn⟩ := hsk i.toNat next (by omega) hs
              have hit : ((i.toNat : Nat) : Int) = i := by omega
              rw [hit] at hn
              have hc := next_index_cases hlen hi1 (by omega) hr hn
              apply ih
              rcases hc with hc | hc
              · exact Or.inl hc
              · right; omega

theorem skipFuel_group_congr {f : Nat} {d : List Byte} {k : Nat} (hlen : d.length < 2 ^ 63)
    (hk : 1 ≤ k) (sk' : List Byte → Res Int)
    (hagree : ∀ s : Nat, 1 ≤ s → s < d.length → sk' (d.drop s) = skipFuel f (d.drop s)) :
    skipGroupLoop sk' d f k = skipGroupLoop (skipFuel f) d f k := by
  apply skipGroupLoop_congr hlen _ hagree f (k : Int) (Or.inr (by omega))
  intro s m hs hm
  have := skipFuel_bounds hm (by simp; omega)
  simp only [List.length_drop] at this
  have hc : ((d.length - s : Nat) : Int) = (d.length : Int) - s := by omega
  rw [hc] at this
  exact this

/-! ## `panic("unreachable")` -/

theorem skipGroupLoop_unreachable {sk : List Byte → Res Int} {d : List Byte}
    (hsk : ∀ rest, rest ≠ [] → sk rest ≠ .error .panicUnreachable) :
    ∀ (g : Nat) (i : Int), skipGroupLoop sk d g i ≠ .error .panicUnreachable := by
  intro g
  induction g with
  | zero => intro i; simp [skipGroupLoop]
  | succ g ih =>
    intro i
    rw [skipGroupLoop]
    by_cases hneg : i < 0
    · simp [hneg]
    · simp only [hneg, if_false]
      cases hd : decodeVarint d i.toNat with
      | error e =>
        simp only
        rcases decodeVarint_error hd with rfl | rfl <;> simp
      | ok p =>
        obtain ⟨iw, i'⟩ := p
        have hb := decodeVarint_bounds hd
        simp only
        by_cases h4 : iw &&& 0x7 = 4
        · simp [h4]
        · simp only [h4, if_false]
          cases hsl : sliceFrom d i with
          | error e =>
            simp only
            rw [sliceFrom_error hsl]
            simp
          | ok rest =>
            obtain ⟨-, -, hrest⟩ := sliceFrom_inv hsl
            subst hrest
            simp only
            have hne : d.drop i.toNat ≠ [] := by
              intro hcon
              have := congrArg List.length hcon
              simp only [List.length_drop, List.length_nil] at this
              omega
            cases hs : sk (d.drop i.toNat) with
            | error e =>
              simp only
              intro hcon
              simp only [Except.error.injEq] at hcon
              subst hcon
              exact hsk _ hne hs
            | ok next => exact ih _

theorem skipFuel_unreachable : ∀ (f : Nat) (d : List Byte), d ≠ [] →
    skipFuel f d ≠ .error .panicUnreachable := by
  intro f
  induction f with
  | zero => intro d _; simp [skipFuel]
  | succ f ih =>
    intro d hl
    cases hd : decodeVarint d 0 with
    | error e =>
      rw [skipFuel_tag_error hl hd]
      rcases decodeVarint_error hd with rfl | rfl <;> simp
    | ok p =>
      obtain ⟨wire, k⟩ := p
      rw [skipFuel_succ hd]
      by_cases h0 : wire &&& 0x7 = 0
      · simp only [h0, if_true]
        cases hd2 : decodeVarint d k with
        | error e =>
          simp only
          rcases decodeVarint_error hd2 with rfl | rfl <;> simp
        | ok p2 => simp
      · simp only [h0, if_false]
        by_cases h1 : wire &&& 0x7 = 1
        · simp [h1]
        · simp only [h1, if_false]
          by_cases h2 : wire &&& 0x7 = 2
          · simp only [h2, if_true]
            cases hd2 : decodeVarint d k with
            | error e =>
              simp only
              rcases decodeVarint_error hd2 with rfl | rfl <;> simp
            | ok p2 =>
              simp only
              split <;> simp
          · simp only [h2, if_false]
            by_cases h3 : wire &&& 0x7 = 3
            · simp only [h3, if_true]
              exact skipGroupLoop_unreachable (fun rest hr => ih rest hr) f _
            · simp only [h3, if_false]
              by_cases h4 : wire &&& 0x7 = 4
              · simp [h4]
              · simp only [h4, if_false]
                by_cases h5 : wire &&& 0x7 = 5
                · simp [h5]
                · simp [h5]

theorem skipMppProcessor_unreachable_iff (d : List Byte) :
    skipMppProcessor d = .error .panicUnreachable ↔ d = [] := by
  constructor
  · intro h
    by_contra hne
    exact skipFuel_unreachable _ d hne h
  · intro h
    rw [h]
    rfl

/-! ## The errors of a decoder -/

theorem slice_error {d : List Byte} {lo hi : Int} {e : Error} (h : slice d lo hi = .error e) :
    e = .panicSlice := by
  unfold slice at h
  split at h
  · simp at h
  · simp only [Except.error.injEq] at h
    exact h.symm

theorem readTag_error_of {P : Error → Prop} {name : MsgName} {d : List Byte} {i : Nat}
    {e : Error} (h : readTag name d i = .error e) (h1 : P .ErrIntOverflowMppProcessor)
    (h2 : P .ErrUnexpectedEOF) (h4 : P (.wiretypeEndGroup name))
    (h5 : ∀ n w, P (.illegalTag name n w)) : P e := by
  unfold readTag at h
  cases hd : decodeVarint d i with
  | error e' =>
    simp only [hd, Except.error.injEq] at h
    subst h
    rcases decodeVarint_error hd with rfl | rfl
    · exact h1
    · exact h2
  | ok p =>
    obtain ⟨wire, j⟩ := p
    simp only [hd] at h
    split at h
    · simp only [Except.error.injEq] at h
      subst h
      exact h4
    · split at h
      · simp only [Except.error.injEq] at h
        subst h
        exact h5 _ _
      · simp at h

theorem readLengthDelimited_error_of {P : Error → Prop} {d : List Byte} {i : Nat} {e : Error}
    (h : readLengthDelimited d i = .error e) (h1 : P .ErrIntOverflowMppProcessor)
    (h2 : P .ErrUnexpectedEOF) (h3 : P .ErrInvalidLengthMppProcessor) (h7 : P .panicSlice) :
    P e := by
  unfold readLengthDelimited at h
  cases hd : decodeVarint d i with
  | error e' =>
    simp only [hd, Except.error.injEq] at h
    subst h
    rcases decodeVarint_error hd with rfl | rfl
    · exact h1
    · exact h2
  | ok p =>
    obtain ⟨raw, j⟩ := p
    simp only [hd] at h
    split at h
    · simp only [Except.error.injEq] at h
      subst h
      exact h3
    · split at h
      · simp only [Except.error.injEq] at h
        subst h
        exact h2
      · cases hs : slice d j (wrapInt64 (j + toInt64 raw)) with
        | error e' =>
          simp only [hs, Except.error.injEq] at h
          subst h
          rw [slice_error hs]
          exact h7
        | ok s => simp [hs] at h

theorem skipUnknown_error_of {P : Error → Prop} {d : List Byte} {i : Nat} {e : Error}
    (h : skipUnknown d i = .error e) (h2 : P .ErrUnexpectedEOF)
    (h3 : P .ErrInvalidLengthMppProcessor) (h7 : P .panicSlice)
    (h8 : i ≤ d.length → skipMppProcessor (d.drop i) = .error e → P e) : P e := by
  unfold skipUnknown at h
  simp only at h
  cases hsl : sliceFrom d i with
  | error e' =>
    simp only [hsl, Except.error.injEq] at h
    subst h
    rw [sliceFrom_error hsl]
    exact h7
  | ok rest =>
    obtain ⟨-, hle, hrest⟩ := sliceFrom_inv hsl
    simp only [Int.toNat_ofNat] at hrest
    subst hrest
    simp only [hsl] at h
    cases hsk : skipMppProcessor (d.drop i) with
    | error e' =>
      simp only [hsk, Except.error.injEq] at h
      subst h
      exact h8 (by exact_mod_cast hle) hsk
    | ok skippy =>
      simp only [hsk] at h
      split at h
      · simp only [Except.error.injEq] at h
        subst h
        exact h3
      · split at h
        · simp only [Except.error.injEq] at h
          subst h
          exact h2
        · cases hs : slice d i (wrapInt64 (i + skippy)) with
          | error e' =>
            simp only [hs, Except.error.injEq] at h
            subst h
            rw [slice_error hs]
            exact h7
          | ok s => simp [hs] at h

theorem readField_error_of {P : Error → Prop} {name : MsgName} {schema : Schema}
    {d : List Byte} {i : Nat} {e : Error} (h : readField name schema d i = .error e)
    (h1 : P .ErrIntOverflowMppProcessor) (h2 : P .ErrUnexpectedEOF)
    (h3 : P .ErrInvalidLengthMppProcessor) (h4 : P (.wiretypeEndGroup name))
    (h5 : ∀ n w, P (.illegalTag name n w)) (h6 : ∀ w f, P (.wrongWireType w f))
    (h7 : P .panicSlice)
    (h8 : i < d.length → skipMppProcessor (d.drop i) = .error e → P e) : P e := by
  unfold readField at h
  simp only at h
  cases ht : readTag name d i with
  | error e' =>
    simp only [ht, Except.error.injEq] at h
    subst h
    exact readTag_error_of ht h1 h2 h4 h5
  | ok r =>
    obtain ⟨fieldNum, wireType, i1⟩ := r
    have hb := readTag_bounds ht
    simp only [ht] at h
    cases hs : schema fieldNum with
    | none =>
      simp only [hs] at h
      cases hk : skipUnknown d i with
      | error e' =>
        simp only [hk, Except.error.injEq] at h
        subst h
        exact skipUnknown_error_of hk h2 h3 h7 (fun _ hsk => h8 (by omega) hsk)
      | ok r => simp [hk] at h
    | some fk =>
      obtain ⟨f, kind⟩ := fk
      cases kind with
      | bytes =>
        simp only [hs] at h
        split at h
        · simp only [Except.error.injEq] at h
          subst h
          exact h6 _ _
        · cases hl : readLengthDelimited d i1 with
          | error e' =>
            simp only [hl, Except.error.injEq] at h
            subst h
            exact readLengthDelimited_error_of hl h1 h2 h3 h7
          | ok r => simp [hl] at h
      | varint =>
        simp only [hs] at h
        split at h
        · simp only [Except.error.injEq] at h
          subst h
          exact h6 _ _
        · cases hl : decodeVarint d i1 with
          | error e' =>
            simp only [hl, Except.error.injEq] at h
            subst h
            rcases decodeVarint_error hl with rfl | rfl
            · exact h1
            · exact h2
          | ok r => simp [hl] at h

theorem readField_no_outOfFuel {name : MsgName} {schema : Schema} {d : List Byte} {i : Nat}
    (hlen : d.length < 2 ^ 63) : readField name schema d i ≠ .error .outOfFuel := by
  intro h
  refine readField_error_of (P := fun e => e ≠ .outOfFuel) h (by simp) (by simp) (by simp)
    (by simp) (by simp) (by simp) (by simp) ?_ rfl
  intro _ hsk
  exact absurd hsk (skipMppProcessor_fuel (by simp; omega))

theorem readField_no_unreachable {name : MsgName} {schema : Schema} {d : List Byte} {i : Nat} :
    readField name schema d i ≠ .error .panicUnreachable := by
  intro h
  refine readField_error_of (P := fun e => e ≠ .panicUnreachable) h (by simp) (by simp)
    (by simp) (by simp) (by simp) (by simp) (by simp) ?_ rfl
  intro hi hsk
  have hne : d.drop i ≠ [] := by
    intro hcon
    have := congrArg List.length hcon
    simp only [List.length_drop, List.length_nil] at this
    omega
  exact absurd hsk (skipFuel_unreachable _ _ hne)

theorem readField_payload_length {name : MsgName} {schema : Schema} {d : List Byte}
    {i j : Nat} {n : Int} {s : List Byte}
    (h : readField name schema d i = .ok (n, .bytes s, j)) : s.length ≤ d.length := by
  unfold readField at h
  simp only at h
  cases ht : readTag name d i with
  | error e => simp [ht] at h
  | ok r =>
    obtain ⟨fieldNum, wireType, i1⟩ := r
    simp only [ht] at h
    cases hs : schema fieldNum with
    | none =>
      simp only [hs] at h
      cases hk : skipUnknown d i with
      | error e => simp [hk] at h
      | ok r => simp [hk] at h
    | some fk =>
      obtain ⟨f, kind⟩ := fk
      cases kind with
      | bytes =>
        simp only [hs] at h
        split at h
        · simp at h
        · cases hl : readLengthDelimited d i1 with
          | error e => simp [hl] at h
          | ok r =>
            obtain ⟨s', j'⟩ := r
            simp only [hl, Except.ok.injEq, Prod.mk.injEq, Payload.bytes.injEq] at h
            obtain ⟨-, rfl, -⟩ := h
            obtain ⟨raw, i', -, -, -, -, -, rfl⟩ := readLengthDelimited_inv hl
            simp only [List.length_take, List.length_drop]
            omega
      | varint =>
        simp only [hs] at h
        split at h
        · simp at h
        · cases hl : decodeVarint d i1 with
          | error e => simp [hl] at h
          | ok r => simp [hl] at h

section Loop

variable {M : Type}

theorem unmarshalLoop_error_of {P : Error → Prop} {step : M → Nat → Res (M × Nat)} {l : Nat}
    (hEOF : P .ErrUnexpectedEOF) (hfuel : P .outOfFuel)
    (hstep : ∀ m i e, i < l → step m i = .error e → P e) :
    ∀ (f : Nat) (m : M) (i : Nat) (e : Error), unmarshalLoop step l f m i = .error e → P e := by
  intro f
  induction f with
  | zero =>
    intro m i e h
    rw [unmarshalLoop] at h
    split at h
    · simp only [Except.error.injEq] at h
      subst h
      exact hfuel
    · split at h
      · simp only [Except.error.injEq] at h
        subst h
        exact hEOF
      · simp at h
  | succ f ih =>
    intro m i e h
    rw [unmarshalLoop] at h
    by_cases hi : i < l
    · simp only [hi, if_true] at h
      cases hs : step m i with
      | error e' =>
        simp only [hs, Except.error.injEq] at h
        subst h
        exact hstep m i _ hi hs
      | ok r =>
        obtain ⟨m', j⟩ := r
        simp only [hs] at h
        exact ih m' j e h
    · simp only [hi, if_false] at h
      split at h
      · simp only [Except.error.injEq] at h
        subst h
        exact hEOF
      · simp at h

theorem unmarshalLoop_no_outOfFuel {step : M → Nat → Res (M × Nat)} {l : Nat}
    (hP : ∀ m i m' j, step m i = .ok (m', j) → i < j)
    (hstep : ∀ m i, i < l → step m i ≠ .error .outOfFuel) :
    ∀ (f : Nat) (m : M) (i : Nat), l - i ≤ f → unmarshalLoop step l f m i ≠ .error .outOfFuel := by
  intro f
  induction f with
  | zero =>
    intro m i hf
    have hi : ¬ i < l := by omega
    rw [unmarshalLoop]
    simp only [hi, if_false]
    split <;> simp
  | succ f ih =>
    intro m i hf
    rw [unmarshalLoop]
    by_cases hi : i < l
    · simp only [hi, if_true]
      cases hs : step m i with
      | error e =>
        simp only
        intro hcon
        simp only [Except.error.injEq] at hcon
        subst hcon
        exact hstep m i hi hs
      | ok r =>
        obtain ⟨m', j⟩ := r
        have := hP m i m' j hs
        exact ih m' j (by omega)
    · simp only [hi, if_false]
      split <;> simp

theorem fieldStep_error_inv {name : MsgName} {schema : Schema}
    {store : M → Int → Payload → Res M} {d : List Byte} {m : M} {i : Nat} {e : Error}
    (h : fieldStep name schema store d m i = .error e) :
    readField name schema d i = .error e ∨
      ∃ n p j, readField name schema d i = .ok (n, p, j) ∧ store m n p = .error e := by
  unfold fieldStep at h
  cases hr : readField name schema d i with
  | error e' =>
    simp only [hr, Except.error.injEq] at h
    subst h
    exact Or.inl rfl
  | ok r =>
    obtain ⟨n, p, j⟩ := r
    simp only [hr] at h
    cases hs : store m n p with
    | error e' =>
      simp only [hs, Except.error.injEq] at h
      subst h
      exact Or.inr ⟨n, p, j, rfl, hs⟩
    | ok m' => simp [hs] at h

end Loop

/-! ## The three decoders: no lack of fuel, no `panic("unreachable")` -/

theorem KeyRange_store_ok (m : KeyRange) (n : Int) (p : Payload) :
    ∃ m', KeyRange.store m n p = .ok m' := by
  cases p with
  | bytes s =>
    by_cases h : n = 1
    · exact ⟨{ m with Start := s }, by simp [KeyRange.store, h]⟩
    · exact ⟨{ m with End := s }, by simp [KeyRange.store, h]⟩
  | varint v => exact ⟨_, rfl⟩
  | unknown s => exact ⟨_, rfl⟩

theorem KeyRange_decode_error_of {P : Error → Prop} {m : KeyRange} {d : List Byte} {e : Error}
    (h : decodeWith .KeyRange KeyRange.schema KeyRange.store m d = .error e)
    (hfuel : P .outOfFuel) (hread : ∀ i e, readField .KeyRange KeyRange.schema d i = .error e →
      P e) (hEOF : P .ErrUnexpectedEOF) : P e := by
  refine unmarshalLoop_error_of hEOF hfuel ?_ _ _ _ _ h
  intro m' i e' _ hs
  rcases fieldStep_error_inv hs with hr | ⟨n, p, j, -, hst⟩
  · exact hread i e' hr
  · obtain ⟨m2, hm2⟩ := KeyRange_store_ok m' n p
    rw [hm2] at hst
    simp at hst

theorem KeyRange_no_unreachable (m : KeyRange) (d : List Byte) :
    KeyRange.Unmarshal m d ≠ .error .panicUnreachable := by
  rw [KeyRange_Unmarshal_eq]
  intro h
  exact KeyRange_decode_error_of (P := fun e => e ≠ .panicUnreachable) h (by simp)
    (fun i e he hcon => readField_no_unreachable (hcon ▸ he)) (by simp) rfl

theorem KeyRange_no_outOfFuel (m : KeyRange) {d : List Byte} (hlen : d.length < 2 ^ 63) :
    KeyRange.Unmarshal m d ≠ .error .outOfFuel := by
  rw [KeyRange_Unmarshal_eq]
  unfold decodeWith
  apply unmarshalLoop_no_outOfFuel (fun m i m' j h => (fieldStep_bounds h hlen).1) _ _ _ _
    (by omega)
  intro m' i _ hs
  rcases fieldStep_error_inv hs with hr | ⟨n, p, j, -, hst⟩
  · exact readField_no_outOfFuel hlen hr
  · obtain ⟨m2, hm2⟩ := KeyRange_store_ok m' n p
    rw [hm2] at hst
    simp at hst

theorem Request_store_error {Ctx : Type} {ctx : Collaborator Ctx} {m : Request Ctx} {n : Int}
    {p : Payload} {e : Error} (h : Request.store ctx m n p = .error e) :
    (∃ c s, ctx.Unmarshal c s = .error e) ∨
      ∃ s, p = .bytes s ∧ KeyRange.Unmarshal KeyRange.zero s = .error e := by
  cases p with
  | bytes s =>
    simp only [Request.store] at h
    split at h
    · cases hc : ctx.Unmarshal (m.Context.getD ctx.zero) s with
      | error e' =>
        simp only [hc, Except.error.injEq] at h
        subst h
        exact Or.inl ⟨_, _, hc⟩
      | ok c => simp [hc] at h
    · split at h
      · simp at h
      · cases hr : KeyRange.Unmarshal KeyRange.zero s with
        | error e' =>
          simp only [hr, Except.error.injEq] at h
          subst h
          exact Or.inr ⟨s, rfl, hr⟩
        | ok r => simp [hr] at h
  | varint v => simp [Request.store] at h
  | unknown s => simp [Request.store] at h

theorem Request_no_unreachable {Ctx : Type} (ctx : Collaborator Ctx)
    (hctx : ∀ c s, ctx.Unmarshal c s ≠ .error .panicUnreachable) (m : Request Ctx)
    (d : List Byte) : Request.Unmarshal ctx m d ≠ .error .panicUnreachable := by
  rw [Request_Unmarshal_eq]
  intro h
  refine unmarshalLoop_error_of (P := fun e => e ≠ .panicUnreachable) (by simp) (by simp) ?_
    _ _ _ _ h rfl
  intro m' i e' _ hs hcon
  subst hcon
  rcases fieldStep_error_inv hs with hr | ⟨n, p, j, -, hst⟩
  · exact readField_no_unreachable hr
  · rcases Request_store_error hst with ⟨c, s, hc⟩ | ⟨s, -, hk⟩
    · exact hctx c s hc
    · exact KeyRange_no_unreachable _ _ hk

theorem Request_no_outOfFuel {Ctx : Type} (ctx : Collaborator Ctx)
    (hctx : ∀ c s, ctx.Unmarshal c s ≠ .error .outOfFuel) (m : Request Ctx) {d : List Byte}
    (hlen : d.length < 2 ^ 63) : Request.Unmarshal ctx m d ≠ .error .outOfFuel := by
  rw [Request_Unmarshal_eq]
  unfold decodeWith
  apply unmarshalLoop_no_outOfFuel (fun m i m' j h => (fieldStep_bounds h hlen).1) _ _ _ _
    (by omega)
  intro m' i _ hs
  rcases fieldStep_error_inv hs with hr | ⟨n, p, j, hrd, hst⟩
  · exact readField_no_outOfFuel hlen hr
  · rcases Request_store_error hst with ⟨c, s, hc⟩ | ⟨s, rfl, hk⟩
    · exact hctx c s hc
    · have := readField_payload_length hrd
      exact KeyRange_no_outOfFuel _ (by omega) hk

theorem Response_store_error {D E L X : Type} {deps : ResponseDeps D E L X}
    {m : Response D E L X} {n : Int} {p : Payload} {e : Error}
    (h : Response.store deps m n p = .error e) :
    (∃ c s, deps.data.Unmarshal c s = .error e) ∨
    (∃ c s, deps.regionError.Unmarshal c s = .error e) ∨
    (∃ c s, deps.locked.Unmarshal c s = .error e) ∨
    (∃ c s, deps.execDetails.Unmarshal c s = .error e) ∨
      ∃ r s, KeyRange.Unmarshal r s = .error e := by
  cases p with
  | bytes s =>
    simp only [Response.store, unmarshalOptional] at h
    split at h
    · cases hc : deps.data.Unmarshal m.Data s with
      | error e' =>
        simp only [hc, Except.error.injEq] at h
        subst h
        exact Or.inl ⟨_, _, hc⟩
      | ok c => simp [hc] at h
    · split at h
      · cases hc : deps.regionError.Unmarshal (m.RegionError.getD deps.regionError.zero) s with
        | error e' =>
          simp only [hc, Except.error.injEq] at h
          subst h
          exact Or.inr (Or.inl ⟨_, _, hc⟩)
        | ok c => simp [hc] at h
      · split at h
        · cases hc : deps.locked.Unmarshal (m.Locked.getD deps.locked.zero) s with
          | error e' =>
            simp only [hc, Except.error.injEq] at h
            subst h
            exact Or.inr (Or.inr (Or.inl ⟨_, _, hc⟩))
          | ok c => simp [hc] at h
        · split at h
          · simp at h
          · split at h
            · cases hc : KeyRange.Unmarshal (m.Range.getD KeyRange.zero) s with
              | error e' =>
                simp only [hc, Except.error.injEq] at h
                subst h
                exact Or.inr (Or.inr (Or.inr (Or.inr ⟨_, _, hc⟩)))
              | ok c => simp [hc] at h
            · cases hc : deps.execDetails.Unmarshal
                  (m.ExecDetails.getD deps.execDetails.zero) s with
              | error e' =>
                simp only [hc, Except.error.injEq] at h
                subst h
                exact Or.inr (Or.inr (Or.inr (Or.inl ⟨_, _, hc⟩)))
              | ok c => simp [hc] at h
  | varint v => simp [Response.store] at h
  | unknown s => simp [Response.store] at h

theorem Response_no_unreachable {D E L X : Type} (deps : ResponseDeps D E L X)
    (h1 : ∀ c s, deps.data.Unmarshal c s ≠ .error .panicUnreachable)
    (h2 : ∀ c s, deps.regionError.Unmarshal c s ≠ .error .panicUnreachable)
    (h3 : ∀ c s, deps.locked.Unmarshal c s ≠ .error .panicUnreachable)
    (h6 : ∀ c s, deps.execDetails.Unmarshal c s ≠ .error .panicUnreachable)
    (m : Response D E L X) (d : List Byte) :
    Response.Unmarshal deps m d ≠ .error .panicUnreachable := by
  rw [Response_Unmarshal_eq]
  intro h
  refine unmarshalLoop_error_of (P := fun e => e ≠ .panicUnreachable) (by simp) (by simp) ?_
    _ _ _ _ h rfl
  intro m' i e' _ hs hcon
  subst hcon
  rcases fieldStep_error_inv hs with hr | ⟨n, p, j, -, hst⟩
  · exact readField_no_unreachable hr
  · rcases Response_store_error hst with ⟨c, s, hc⟩ | ⟨c, s, hc⟩ | ⟨c, s, hc⟩ | ⟨c, s, hc⟩ |
      ⟨r, s, hk⟩
    · exact h1 c s hc
    · exact h2 c s hc
    · exact h3 c s hc
    · exact h6 c s hc
    · exact KeyRange_no_unreachable _ _ hk

theorem skipGroupLoop_congr_nonempty {sk sk' : List Byte → Res Int} {d : List Byte}
    (hagree : ∀ rest, rest ≠ [] → sk' rest = sk rest) :
    ∀ (g : Nat) (i : Int), skipGroupLoop sk' d g i = skipGroupLoop sk d g i := by
  intro g
  induction g with
  | zero => intro i; rfl
  | succ g ih =>
    intro i
    rw [skipGroupLoop, skipGroupLoop]
    by_cases hneg : i < 0
    · simp [hneg]
    · simp only [hneg, if_false]
      cases hd : decodeVarint d i.toNat with
      | error e => rfl
      | ok p =>
        obtain ⟨iw, i'⟩ := p
        have hb := decodeVarint_bounds hd
        simp only
        by_cases h4 : iw &&& 0x7 = 4
        · simp [h4]
        · simp only [h4, if_false]
          cases hsl : sliceFrom d i with
          | error e => rfl
          | ok rest =>
            obtain ⟨-, -, hrest⟩ := sliceFrom_inv hsl
            subst hrest
            simp only
            have hne : d.drop i.toNat ≠ [] := by
              intro hcon
              have := congrArg List.length hcon
              simp only [List.length_drop, List.length_nil] at this
              omega
            rw [hagree _ hne]
            cases hs : sk (d.drop i.toNat) with
            | error e => rfl
            | ok next => exact ih _

/-! ## The claims on termination and on `panic("unreachable")` -/

/-- C25: on an input that fits a slice, `KeyRange.Unmarshal`, `Request.Unmarshal` (with a
context decoder that terminates) and `skipMppProcessor` never stop for lack of fuel, and any
larger amount of fuel gives the same result.  A turn of a decode loop that does not return moves
the index forward by at least one byte and not past the end.  In the start-group case
`skipMppProcessor` uses its recursive results on the suffixes `dAtA[s:]` with `1 ≤ s < len(dAtA)`
only, which are strictly shorter than its input, whatever the nesting. -/
theorem decoders_terminate :
    (∀ (m : KeyRange) (d : List Byte), d.length < 2 ^ 63 →
      KeyRange.Unmarshal m d ≠ .error .outOfFuel ∧
      ∀ f, d.length ≤ f →
        unmarshalLoop (KeyRange.unmarshalField d) d.length f m 0 = KeyRange.Unmarshal m d) ∧
    (∀ (Ctx : Type) (ctx : Collaborator Ctx), (∀ c s, ctx.Unmarshal c s ≠ .error .outOfFuel) →
      ∀ (m : Request Ctx) (d : List Byte), d.length < 2 ^ 63 →
      Request.Unmarshal ctx m d ≠ .error .outOfFuel ∧
      ∀ f, d.length ≤ f →
        unmarshalLoop (Request.unmarshalField ctx d) d.length f m 0 =
          Request.Unmarshal ctx m d) ∧
    (∀ d : List Byte, d.length < 2 ^ 63 →
      skipMppProcessor d ≠ .error .outOfFuel ∧
      ∀ f, 2 * d.length + 1 ≤ f → skipFuel f d = skipMppProcessor d) ∧
    (∀ (d : List Byte) (m m' : KeyRange) (i j : Nat), d.length < 2 ^ 63 →
      KeyRange.unmarshalField d m i = .ok (m', j) → i < j ∧ j ≤ d.length) ∧
    (∀ (Ctx : Type) (ctx : Collaborator Ctx) (d : List Byte) (m m' : Request Ctx) (i j : Nat),
      d.length < 2 ^ 63 → Request.unmarshalField ctx d m i = .ok (m', j) →
      i < j ∧ j ≤ d.length) ∧
    (∀ (f : Nat) (d : List Byte) (wire k : Nat) (sk : List Byte → Res Int),
      d.length < 2 ^ 63 → decodeVarint d 0 = .ok (wire, k) → wire &&& 0x7 = 3 →
      (∀ s : Nat, 1 ≤ s → s < d.length → sk (d.drop s) = skipFuel f (d.drop s)) →
      skipFuel (f + 1) d = skipGroupLoop sk d f k) := by
  refine ⟨?_, ?_, ?_, ?_, ?_, ?_⟩
  · intro m d hlen
    refine ⟨KeyRange_no_outOfFuel m hlen, fun f hf => ?_⟩
    rw [KeyRange_Unmarshal_eq, KeyRange_unmarshalField_eq]
    exact decodeWith_fuel _ _ _ m d hlen f hf
  · intro Ctx ctx hctx m d hlen
    refine ⟨Request_no_outOfFuel ctx hctx m hlen, fun f hf => ?_⟩
    rw [Request_Unmarshal_eq, Request_unmarshalField_eq]
    exact decodeWith_fuel _ _ _ m d hlen f hf
  · intro d hlen
    exact ⟨skipMppProcessor_fuel hlen, fun f hf => (skipMppProcessor_total hlen f hf).1⟩
  · intro d m m' i j hlen h
    rw [KeyRange_unmarshalField_eq] at h
    exact fieldStep_bounds h hlen
  · intro Ctx ctx d m m' i j hlen h
    rw [Request_unmarshalField_eq] at h
    exact fieldStep_bounds h hlen
  · intro f d wire k sk hlen hd hw hagree
    have hb := decodeVarint_bounds hd
    rw [skipFuel_succ hd]
    simp only [hw, show ¬ ((3 : Nat) = 0) by decide, show ¬ ((3 : Nat) = 1) by decide,
      show ¬ ((3 : Nat) = 2) by decide, if_false, if_true]
    exact (skipFuel_group_congr hlen hb.1 sk hagree).symm

theorem decoders_terminate_witness :
    (KeyRange.Unmarshal KeyRange.zero [0x1b, 0x08, 0x01, 0x1c, 0x0a, 0x01] ≠ .error .outOfFuel ∧
      ∀ f, ([0x1b, 0x08, 0x01, 0x1c, 0x0a, 0x01] : List Byte).length ≤ f →
        unmarshalLoop (KeyRange.unmarshalField [0x1b, 0x08, 0x01, 0x1c, 0x0a, 0x01])
          ([0x1b, 0x08, 0x01, 0x1c, 0x0a, 0x01] : List Byte).length f KeyRange.zero 0 =
          KeyRange.Unmarshal KeyRange.zero [0x1b, 0x08, 0x01, 0x1c, 0x0a, 0x01]) ∧
    (skipMppProcessor [0x0b, 0x13, 0x14, 0x0b] ≠ .error .outOfFuel ∧
      ∀ f, 2 * ([0x0b, 0x13, 0x14, 0x0b] : List Byte).length + 1 ≤ f →
        skipFuel f [0x0b, 0x13, 0x14, 0x0b] = skipMppProcessor [0x0b, 0x13, 0x14, 0x0b]) ∧
    (0 < 2 ∧ 2 ≤ ([0x0a, 0x00, 0x12, 0x00] : List Byte).length) :=
  ⟨decoders_terminate.1 KeyRange.zero [0x1b, 0x08, 0x01, 0x1c, 0x0a, 0x01] (by decide),
    decoders_terminate.2.2.1 [0x0b, 0x13, 0x14, 0x0b] (by decide),
    decoders_terminate.2.2.2.1 [0x0a, 0x00, 0x12, 0x00] KeyRange.zero KeyRange.zero 0 2
      (by decide) (by decide)⟩

/-- C26: `skipMppProcessor` reaches `panic("unreachable")` exactly on the empty input.  The
group loop uses its recursive results on non-empty slices only, and the slice `dAtA[iNdEx:]` of
the default case of a decoder, taken where a tag was read, is not empty.  `KeyRange.Unmarshal`
never ends in that panic, nor do `Request.Unmarshal` and `Response.Unmarshal` when the decoders
of the nested messages of other packages do not. -/
theorem unreachable_only_on_empty_input :
    (∀ d : List Byte, skipMppProcessor d = .error .panicUnreachable ↔ d = []) ∧
    (∀ (sk sk' : List Byte → Res Int) (d : List Byte) (g : Nat) (i : Int),
      (∀ rest, rest ≠ [] → sk' rest = sk rest) →
      skipGroupLoop sk' d g i = skipGroupLoop sk d g i) ∧
    (∀ (name : MsgName) (d : List Byte) (i : Nat) (r : Int × Nat × Nat),
      readTag name d i = .ok r → ∃ b rest, sliceFrom d i = .ok (b :: rest)) ∧
    (∀ (m : KeyRange) (d : List Byte), KeyRange.Unmarshal m d ≠ .error .panicUnreachable) ∧
    (∀ (Ctx : Type) (ctx : Collaborator Ctx),
      (∀ c s, ctx.Unmarshal c s ≠ .error .panicUnreachable) →
      ∀ (m : Request Ctx) (d : List Byte),
        Request.Unmarshal ctx m d ≠ .error .panicUnreachable) ∧
    (∀ (D E L X : Type) (deps : ResponseDeps D E L X),
      (∀ c s, deps.data.Unmarshal c s ≠ .error .panicUnreachable) →
      (∀ c s, deps.regionError.Unmarshal c s ≠ .error .panicUnreachable) →
      (∀ c s, deps.locked.Unmarshal c s ≠ .error .panicUnreachable) →
      (∀ c s, deps.execDetails.Unmarshal c s ≠ .error .panicUnreachable) →
      ∀ (m : Response D E L X) (d : List Byte),
        Response.Unmarshal deps m d ≠ .error .panicUnreachable) := by
  refine ⟨skipMppProcessor_unreachable_iff, ?_, ?_, KeyRange_no_unreachable,
    fun Ctx ctx => Request_no_unreachable ctx,
    fun D E L X deps => Response_no_unreachable deps⟩
  · intro sk sk' d g i hagree
    exact skipGroupLoop_congr_nonempty hagree g i
  · intro name d i r h
    obtain ⟨f, w, j⟩ := r
    have hb := readTag_bounds h
    have hi : i < d.length := by omega
    rw [sliceFrom_eq (by omega)]
    cases hdrop : d.drop i with
    | nil =>
      have := congrArg List.length hdrop
      simp only [List.length_drop, List.length_nil] at this
      omega
    | cons b rest => exact ⟨b, rest, rfl⟩

theorem unreachable_only_on_empty_input_witness :
    (∃ b rest, sliceFrom [0x0a, 0x00, 0x1b, 0x1c] 2 = .ok (b :: rest)) ∧
    Request.Unmarshal emptyCollaborator Request.zero [0x2b, 0x2c] ≠
      .error .panicUnreachable :=
  ⟨unreachable_only_on_empty_input.2.2.1 .KeyRange [0x0a, 0x00, 0x1b, 0x1c] 2 (3, 3, 3)
      (by decide),
    unreachable_only_on_empty_input.2.2.2.2.1 Unit emptyCollaborator
      (fun c s => by simp [emptyCollaborator]) Request.zero [0x2b, 0x2c]⟩

/-! ## Fields that do not occur in the input -/

theorem bytesOf_absent (n : Int) : ∀ fs : List (Int × Payload), n ∉ fs.map Prod.fst →
    bytesOf n fs = [] := by
  intro fs
  induction fs with
  | nil => intro _; rfl
  | cons x fs ih =>
    intro h
    obtain ⟨k, p⟩ := x
    simp only [List.map_cons, List.mem_cons, not_or] at h
    have hk : ¬ k = n := fun hc => h.1 hc.symm
    cases p <;> simp [bytesOf, hk, ih h.2]

theorem varintsOf_absent (n : Int) : ∀ fs : List (Int × Payload), n ∉ fs.map Prod.fst →
    varintsOf n fs = [] := by
  intro fs
  induction fs with
  | nil => intro _; rfl
  | cons x fs ih =>
    intro h
    obtain ⟨k, p⟩ := x
    simp only [List.map_cons, List.mem_cons, not_or] at h
    have hk : ¬ k = n := fun hc => h.1 hc.symm
    cases p <;> simp [varintsOf, hk, ih h.2]

/-! ## What a decoder keeps of the values of its receiver -/

/-- On the values of the fields, `Unmarshal` adds to its receiver.  For a `KeyRange` or
`Request` receiver `m0` and an accepted input, a singular field whose number does not occur
among the fields of the input has its value from `m0`; the ranges are those of `m0` followed by
one decoded element per occurrence of field 4; the tail is that of `m0` followed by the raw
bytes of the unknown fields of the input, in order.  The empty input is accepted and gives back
the receiver. -/
theorem Unmarshal_keeps_values :
    (∀ (m0 m : KeyRange) (b : List Byte), KeyRange.Unmarshal m0 b = .ok m →
      (1 ∉ (fieldsOf .KeyRange KeyRange.schema b).map Prod.fst → m.Start = m0.Start) ∧
      (2 ∉ (fieldsOf .KeyRange KeyRange.schema b).map Prod.fst → m.End = m0.End) ∧
      m.XXX_unrecognized =
        m0.XXX_unrecognized ++ unknownOf (fieldsOf .KeyRange KeyRange.schema b)) ∧
    (∀ (Ctx : Type) (ctx : Collaborator Ctx) (m0 m : Request Ctx) (b : List Byte),
      Request.Unmarshal ctx m0 b = .ok m →
      (1 ∉ (fieldsOf .Request Request.schema b).map Prod.fst → m.Context = m0.Context) ∧
      (2 ∉ (fieldsOf .Request Request.schema b).map Prod.fst → m.Tp = m0.Tp) ∧
      (3 ∉ (fieldsOf .Request Request.schema b).map Prod.fst → m.Data = m0.Data) ∧
      (∃ rs, List.Forall₂ (fun s r => KeyRange.Unmarshal KeyRange.zero s = .ok r)
          (bytesOf 4 (fieldsOf .Request Request.schema b)) rs ∧
        m.Ranges = m0.Ranges ++ rs) ∧
      m.XXX_unrecognized =
        m0.XXX_unrecognized ++ unknownOf (fieldsOf .Request Request.schema b)) ∧
    (∀ m : KeyRange, KeyRange.Unmarshal m [] = .ok m) ∧
    (∀ (Ctx : Type) (ctx : Collaborator Ctx) (m : Request Ctx),
      Request.Unmarshal ctx m [] = .ok m) := by
  refine ⟨?_, ?_, fun m => rfl, fun Ctx ctx m => rfl⟩
  · intro m0 m b h
    obtain ⟨a, e, t⟩ := KeyRange_Unmarshal_fields h
    refine ⟨fun h1 => ?_, fun h2 => ?_, t⟩
    · rw [a, bytesOf_absent 1 _ h1]
      rfl
    · rw [e, bytesOf_absent 2 _ h2]
      rfl
  · intro Ctx ctx m0 m b h
    obtain ⟨rs, tp, data, tail, c⟩ := Request_Unmarshal_fields ctx h
    refine ⟨fun h1 => c (bytesOf_absent 1 _ h1), fun h2 => ?_, fun h3 => ?_, rs, tail⟩
    · rw [tp, varintsOf_absent 2 _ h2]
      rfl
    · rw [data, bytesOf_absent 3 _ h3]
      rfl

/-! ## A varint and a skipped field do not depend on what follows them -/

theorem decodeVarintLoop_take (d : List Byte) (n : Nat) : ∀ (k shift i acc v j : Nat),
    decodeVarintLoop d k shift i acc = .ok (v, j) → j ≤ n →
    decodeVarintLoop (d.take n) k shift i acc = .ok (v, j) := by
  intro k
  induction k with
  | zero => intro shift i acc v j h; simp [decodeVarintLoop] at h
  | succ k ih =>
    intro shift i acc v j h hj
    have hb := decodeVarintLoop_bounds d _ _ _ _ _ _ h
    rw [decodeVarintLoop] at h ⊢
    by_cases hs : shift ≥ 64
    · simp [hs] at h
    · simp only [hs, if_false] at h ⊢
      rw [List.getElem?_take_of_lt (by omega)]
      cases hbyte : d[i]? with
      | none => simp [hbyte] at h
      | some b =>
        simp only [hbyte] at h ⊢
        by_cases hlt : b.val < 0x80
        · simpa [hlt] using h
        · simp only [hlt, if_false] at h ⊢
          exact ih _ _ _ _ _ h hj

theorem decodeVarint_take {d : List Byte} {i v j : Nat} (h : decodeVarint d i = .ok (v, j))
    {n : Nat} (hj : j ≤ n) : decodeVarint (d.take n) i = .ok (v, j) :=
  decodeVarintLoop_take d n 10 0 i 0 v j h hj

theorem decodeVarint_drop {d : List Byte} {i v j : Nat} (h : decodeVarint d i = .ok (v, j)) :
    decodeVarint (d.drop i) 0 = .ok (v, j - i) := by
  have hb := decodeVarint_bounds h
  have hsplit : d = d.take i ++ d.drop i := (List.take_append_drop i d).symm
  have hl : (d.take i).length = i := by simp; omega
  have hs := decodeVarint_shift (d.take i) (d.drop i) 0
  rw [← hsplit, hl, Nat.add_zero, h] at hs
  cases hd : decodeVarint (d.drop i) 0 with
  | error e => rw [hd] at hs; simp at hs
  | ok r =>
    obtain ⟨v', j'⟩ := r
    rw [hd] at hs
    simp only [shiftIndex_ok, Except.ok.injEq, Prod.mk.injEq] at hs
    obtain ⟨rfl, rfl⟩ := hs
    simp

/-- In the group loop a result lies after the index the loop starts from. -/
theorem skipGroupLoop_mono {sk : List Byte → Res Int} {d : List Byte} (hlen : d.length < 2 ^ 63)
    (hsk : ∀ (s : Nat) (m : Int), s < d.length → sk (d.drop s) = .ok m →
      (-2 ^ 63 ≤ m ∧ m < 2 ^ 63) ∧ (1 ≤ m ∨ m < ((d.length : Int) - s) - 2 ^ 63)) :
    ∀ (g : Nat) (i n : Int), 1 ≤ i → skipGroupLoop sk d g i = .ok n → i < n := by
  intro g
  induction g with
  | zero => intro i n _ h; simp [skipGroupLoop] at h
  | succ g ih =>
    intro i n hi h
    rw [skipGroupLoop] at h
    have hneg : ¬ i < 0 := by omega
    simp only [hneg, if_false] at h
    cases hd : decodeVarint d i.toNat with
    | error e => simp [hd] at h
    | ok p =>
      obtain ⟨iw, i'⟩ := p
      have hb := decodeVarint_bounds hd
      simp only [hd] at h
      by_cases h4 : iw &&& 0x7 = 4
      · simp only [h4, if_true, Except.ok.injEq] at h
        omega
      · simp only [h4, if_false] at h
        cases hsl : sliceFrom d i with
        | error e => simp [hsl] at h
        | ok rest =>
          obtain ⟨-, -, hrest⟩ := sliceFrom_inv hsl
          subst hrest
          simp only [hsl] at h
          cases hs : sk (d.drop i.toNat) with
          | error e => simp [hs] at h
          | ok next =>
            simp only [hs] at h
            obtain ⟨hr, hn⟩ := hsk i.toNat next (by omega) hs
            have hit : ((i.toNat : Nat) : Int) = i := by omega
            rw [hit] at hn
            rcases next_index_cases hlen hi (by omega) hr hn with hc | hc
            · cases g with
              | zero => simp [skipGroupLoop] at h
              | succ g =>
                rw [skipGroupLoop] at h
                simp [hc] at h
            · have := ih _ n (by omega) h
              omega

theorem skipFuel_bounds_drop {f : Nat} {d : List Byte} (hlen : d.length < 2 ^ 63) :
    ∀ (s : Nat) (m : Int), s < d.length → skipFuel f (d.drop s) = .ok m →
      (-2 ^ 63 ≤ m ∧ m < 2 ^ 63) ∧ (1 ≤ m ∨ m < ((d.length : Int) - s) - 2 ^ 63) := by
  intro s m hs hm
  have := skipFuel_bounds hm (by simp; omega)
  simp only [List.length_drop] at this
  have hc : ((d.length - s : Nat) : Int) = (d.length : Int) - s := by omega
  rw [hc] at this
  exact this

/-- A count of at least 1 that `skipMppProcessor` returns covers the tag of the field. -/
theorem skipFuel_ge_tag {f : Nat} {d : List Byte} {m : Int} {wire k : Nat}
    (h : skipFuel f d = .ok m) (hlen : d.length < 2 ^ 63)
    (hd : decodeVarint d 0 = .ok (wire, k)) (hm : 1 ≤ m) : (k : Int) ≤ m := by
  cases f with
  | zero => simp [skipFuel] at h
  | succ f =>
    have hb := decodeVarint_bounds hd
    rw [skipFuel_succ hd] at h
    by_cases h0 : wire &&& 0x7 = 0
    · simp only [h0, if_true] at h
      cases hd2 : decodeVarint d k with
      | error e => simp [hd2] at h
      | ok p2 =>
        obtain ⟨v2, i2⟩ := p2
        have hb2 := decodeVarint_bounds hd2
        simp only [hd2, Except.ok.injEq] at h
        omega
    · simp only [h0, if_false] at h
      by_cases h1 : wire &&& 0x7 = 1
      · simp only [h1, if_true, Except.ok.injEq] at h
        rw [wrapInt64_of_range (by omega) (by omega)] at h
        omega
      · simp only [h1, if_false] at h
        by_cases h2 : wire &&& 0x7 = 2
        · simp only [h2, if_true] at h
          cases hd2 : decodeVarint d k with
          | error e => simp [hd2] at h
          | ok p2 =>
            obtain ⟨v2, i2⟩ := p2
            have hb2 := decodeVarint_bounds hd2
            have hlt := decodeVarint_lt hd2
            simp only [hd2] at h
            split at h
            · simp at h
            · rename_i hneg
              have hraw : v2 < 2 ^ 63 := (toInt64_nonneg_iff hlt).1 (by omega)
              rw [toInt64_of_lt hraw] at h
              simp only [Except.ok.injEq] at h
              rcases wrapInt64_cases ((i2 : Int) + (v2 : Int)) (by omega) (by omega) with
                ⟨a, b⟩ | ⟨a, b⟩
              · rw [b] at h
                omega
              · rw [b] at h
                omega
        · simp only [h2, if_false] at h
          by_cases h3 : wire &&& 0x7 = 3
          · simp only [h3, if_true] at h
            have := skipGroupLoop_mono hlen (skipFuel_bounds_drop hlen) f k m (by omega) h
            omega
          · simp only [h3, if_false] at h
            by_cases h4 : wire &&& 0x7 = 4
            · simp only [h4, if_true, Except.ok.injEq] at h
              omega
            · simp only [h4, if_false] at h
              by_cases h5 : wire &&& 0x7 = 5
              · simp only [h5, if_true, Except.ok.injEq] at h
                rw [wrapInt64_of_range (by omega) (by omega)] at h
                omega
              · simp [h5] at h

theorem skipGroupLoop_take {sk : List Byte → Res Int} {d : List Byte}
    (hlen : d.length < 2 ^ 63)
    (hsk : ∀ (s : Nat) (m : Int), s < d.length → sk (d.drop s) = .ok m →
      (-2 ^ 63 ≤ m ∧ m < 2 ^ 63) ∧ (1 ≤ m ∨ m < ((d.length : Int) - s) - 2 ^ 63))
    (hge : ∀ (s : Nat) (m : Int) (w k : Nat), s < d.length → sk (d.drop s) = .ok m → 1 ≤ m →
      decodeVarint (d.drop s) 0 = .ok (w, k) → (k : Int) ≤ m)
    (htake : ∀ (rest x : List Byte) (m : Nat), rest.length < d.length →
      sk rest = .ok (m : Int) → m ≤ rest.length → sk (rest.take m ++ x) = .ok (m : Int)) :
    ∀ (g : Nat) (i n : Nat), 1 ≤ i → skipGroupLoop sk d g (i : Int) = .ok (n : Int) →
      skipGroupLoop sk (d.take n) g (i : Int) = .ok (n : Int) := by
  intro g
  induction g with
  | zero => intro i n _ h; simp [skipGroupLoop] at h
  | succ g ih =>
    intro i n hi h
    have hnl : (n : Int) ≤ d.length := skipGroupLoop_range _ _ _ h
    have hnl' : n ≤ d.length := by exact_mod_cast hnl
    rw [skipGroupLoop] at h ⊢
    have hneg : ¬ ((i : Int) < 0) := by omega
    simp only [hneg, if_false, Int.toNat_ofNat] at h ⊢
    cases hd : decodeVarint d i with
    | error e => simp [hd] at h
    | ok p =>
      obtain ⟨iw, i'⟩ := p
      have hb := decodeVarint_bounds hd
      simp only [hd] at h
      by_cases h4 : iw &&& 0x7 = 4
      · simp only [h4, if_true, Except.ok.injEq] at h
        have hin : i' = n := by exact_mod_cast h
        subst hin
        rw [decodeVarint_take hd (Nat.le_refl _)]
        simp [h4]
      · simp only [h4, if_false] at h
        have hsl : sliceFrom d (i : Int) = .ok (d.drop i) := sliceFrom_eq (by omega)
        simp only [hsl] at h
        cases hs : sk (d.drop i) with
        | error e => simp [hs] at h
        | ok next =>
          simp only [hs] at h
          obtain ⟨hr, hn⟩ := hsk i next (by omega) hs
          have hcases : wrapInt64 ((i : Int) + next) < 0 ∨
              (1 ≤ next ∧ wrapInt64 ((i : Int) + next) = (i : Int) + next) := by
            rcases hn with hn | hn
            · rcases wrapInt64_cases ((i : Int) + next) (by omega) (by omega) with
                ⟨a, b⟩ | ⟨a, b⟩
              · exact Or.inr ⟨hn, b⟩
              · left; rw [b]; omega
            · left
              rw [wrapInt64_id (by omega) (by omega)]
              omega
          rcases hcases with hc | ⟨hn1, hw⟩
          · cases g with
            | zero => simp [skipGroupLoop] at h
            | succ g =>
              rw [skipGroupLoop] at h
              simp [hc] at h
          · rw [hw] at h
            obtain ⟨nx, rfl⟩ : ∃ nx : Nat, next = (nx : Int) := ⟨next.toNat, by omega⟩
            have hcast : ((i : Int) + (nx : Int)) = ((i + nx : Nat) : Int) := by push_cast; rfl
            rw [hcast] at h
            have hmono := skipGroupLoop_mono hlen hsk g _ _ (by omega) h
            have hin : i + nx < n := by exact_mod_cast hmono
            have hk := hge i _ iw (i' - i) (by omega) hs hn1 (decodeVarint_drop hd)
            have hi'n : i' ≤ n := by omega
            rw [decodeVarint_take hd hi'n]
            simp only [h4, if_false]
            have hsl' : sliceFrom (d.take n) (i : Int) = .ok ((d.take n).drop i) :=
              sliceFrom_eq (by simp; omega)
            have hdt : (d.take n).drop i = (d.drop i).take nx ++
                ((d.drop i).drop nx).take (n - i - nx) := by
              rw [List.drop_take, ← List.take_add]
              congr 1
              omega
            have hsk' := htake (d.drop i) (((d.drop i).drop nx).take (n - i - nx)) nx
              (by simp; omega) hs (by simp; omega)
            rw [hcast] at hw
            simp only [hsl', hdt, hsk', hcast, hw]
            exact ih _ _ (by omega) h

theorem skipFuel_take : ∀ (f : Nat) (d : List Byte) (m : Nat), skipFuel f d = .ok (m : Int) →
    d.length < 2 ^ 63 → m ≤ d.length → skipFuel f (d.take m) = .ok (m : Int) := by
  intro f
  induction f with
  | zero => intro d m h; simp [skipFuel] at h
  | succ f ih =>
    intro d m h hlen hm
    by_cases hl : d = []
    · rw [hl, skipFuel_nil] at h
      simp at h
    · cases hd : decodeVarint d 0 with
      | error e => rw [skipFuel_tag_error hl hd] at h; simp at h
      | ok p =>
        obtain ⟨wire, k⟩ := p
        have hb := decodeVarint_bounds hd
        have hm1 : (1 : Int) ≤ m := by
          have := skipFuel_ne_zero h
          omega
        have hkm : k ≤ m := by
          have := skipFuel_ge_tag h hlen hd hm1
          omega
        have hd' := decodeVarint_take hd hkm
        rw [skipFuel_succ hd] at h
        rw [skipFuel_succ hd']
        by_cases h0 : wire &&& 0x7 = 0
        · simp only [h0, if_true] at h ⊢
          cases hd2 : decodeVarint d k with
          | error e => simp [hd2] at h
          | ok p2 =>
            obtain ⟨v2, i2⟩ := p2
            simp only [hd2, Except.ok.injEq] at h
            have : i2 = m := by exact_mod_cast h
            subst this
            rw [decodeVarint_take hd2 (Nat.le_refl _)]
        · simp only [h0, if_false] at h ⊢
          by_cases h1 : wire &&& 0x7 = 1
          · simpa [h1] using h
          · simp only [h1, if_false] at h ⊢
            by_cases h2 : wire &&& 0x7 = 2
            · simp only [h2, if_true] at h ⊢
              cases hd2 : decodeVarint d k with
              | error e => simp [hd2] at h
              | ok p2 =>
                obtain ⟨v2, i2⟩ := p2
                have hb2 := decodeVarint_bounds hd2
                have hlt := decodeVarint_lt hd2
                simp only [hd2] at h
                by_cases hneg : toInt64 v2 < 0
                · simp [hneg] at h
                · simp only [hneg, if_false, Except.ok.injEq] at h
                  have hraw : v2 < 2 ^ 63 := (toInt64_nonneg_iff hlt).1 (by omega)
                  have hi2 : i2 ≤ m := by
                    rw [toInt64_of_lt hraw] at h
                    rcases wrapInt64_cases ((i2 : Int) + (v2 : Int)) (by omega) (by omega) with
                      ⟨a, b⟩ | ⟨a, b⟩
                    · rw [b] at h
                      omega
                    · rw [b] at h
                      omega
                  rw [decodeVarint_take hd2 hi2]
                  simp only [hneg, if_false, h]
            · simp only [h2, if_false] at h ⊢
              by_cases h3 : wire &&& 0x7 = 3
              · simp only [h3, if_true] at h ⊢
                apply skipGroupLoop_take hlen (skipFuel_bounds_drop hlen) _ _ f k m (by omega) h
                · intro s m' w k' hs hm' h1' hdv
                  exact skipFuel_ge_tag hm' (by simp; omega) hdv h1'
                · intro rest x m' hrest hsk hm'
                  have := ih rest m' hsk (by omega) hm'
                  exact skipFuel_local x f _ _ this f (Nat.le_refl _)
              · simpa [h3] using h

theorem skipMppProcessor_take {d : List Byte} {m : Nat} (h : skipMppProcessor d = .ok (m : Int))
    (hlen : d.length < 2 ^ 63) (hm : m ≤ d.length) :
    skipMppProcessor (d.take m) = .ok (m : Int) := by
  have h1 := skipFuel_take _ d m h hlen hm
  have hl : (d.take m).length < 2 ^ 63 := by simp; omega
  rw [← (skipMppProcessor_total hl (2 * d.length + 1)
    (by simp only [List.length_take]; omega)).1]
  exact h1

/-! ## The extent of a field in the input -/

theorem readTag_inv {name : MsgName} {d : List Byte} {i j : Nat} {n : Int} {wt : Nat}
    (h : readTag name d i = .ok (n, wt, j)) :
    ∃ wire, decodeVarint d i = .ok (wire, j) ∧ n = toInt32 (wire >>> 3) ∧ wt = wire &&& 0x7 ∧
      wire &&& 0x7 ≠ 4 ∧ 0 < toInt32 (wire >>> 3) := by
  unfold readTag at h
  cases hd : decodeVarint d i with
  | error e => simp [hd] at h
  | ok p =>
    obtain ⟨wire, j'⟩ := p
    simp only [hd] at h
    by_cases h4 : wire &&& 0x7 = 4
    · simp [h4] at h
    · simp only [h4, if_false] at h
      by_cases h0 : toInt32 (wire >>> 3) ≤ 0
      · simp [h0] at h
      · simp only [h0, if_false, Except.ok.injEq, Prod.mk.injEq] at h
        obtain ⟨rfl, rfl, rfl⟩ := h
        exact ⟨wire, rfl, rfl, rfl, h4, by omega⟩

theorem decodeVarintLoop_size (d : List Byte) : ∀ (k shift i acc v j : Nat),
    decodeVarintLoop d k shift i acc = .ok (v, j) → acc < 2 ^ shift →
    v < 2 ^ (shift + 7 * (j - i)) := by
  intro k
  induction k with
  | zero => intro shift i acc v j h; simp [decodeVarintLoop] at h
  | succ k ih =>
    intro shift i acc v j h hacc
    have hb := decodeVarintLoop_bounds d _ _ _ _ _ _ h
    rw [decodeVarintLoop] at h
    by_cases hs : shift ≥ 64
    · simp [hs] at h
    · simp only [hs, if_false] at h
      cases hbyte : d[i]? with
      | none => simp [hbyte] at h
      | some c =>
        simp only [hbyte, and_group] at h
        rw [or_shift_eq _ hacc (by omega)] at h
        have hg : c.val % 128 < 128 := Nat.mod_lt _ (by decide)
        have hpow : (2 : Nat) ^ (shift + 7) = 2 ^ shift * 128 := by rw [pow_add]; rfl
        have hlt : (acc + c.val % 128 * 2 ^ shift) % 2 ^ 64 < 2 ^ (shift + 7) := by
          apply lt_of_le_of_lt (Nat.mod_le _ _)
          rw [hpow]
          have : c.val % 128 * 2 ^ shift ≤ 127 * 2 ^ shift := Nat.mul_le_mul_right _ (by omega)
          omega
        by_cases hc : c.val < 0x80
        · simp only [hc, if_true, Except.ok.injEq, Prod.mk.injEq] at h
          obtain ⟨rfl, rfl⟩ := h
          have : shift + 7 * (i + 1 - i) = shift + 7 := by omega
          rw [this]
          exact hlt
        · simp only [hc, if_false] at h
          have := ih _ _ _ _ _ h hlt
          have hb2 := decodeVarintLoop_bounds d _ _ _ _ _ _ h
          have he : shift + 7 + 7 * (j - (i + 1)) = shift + 7 * (j - i) := by omega
          rw [he] at this
          exact this

/-- A varint that decodes to `v` is at least as long as the encoding of `v`. -/
theorem decodeVarint_size {d : List Byte} {i v j : Nat} (h : decodeVarint d i = .ok (v, j)) :
    sovMppProcessor v ≤ j - i := by
  have hb := decodeVarint_bounds h
  have hv := decodeVarint_lt h
  have hsz := decodeVarintLoop_size d 10 0 i 0 v j h (by norm_num)
  rw [Nat.zero_add] at hsz
  rw [sovMppProcessor_eq hv]
  have h128 : (2 : Nat) ^ (7 * (j - i)) = 128 ^ (j - i) := by rw [pow_mul]; norm_num
  rw [h128] at hsz
  exact (varintGroups_least 9 v (lt_of_lt_of_le hv (by norm_num))).2 (j - i) (by omega) hsz

theorem readField_unknown_inv {name : MsgName} {schema : Schema} {d : List Byte} {i j : Nat}
    {n : Int} {u : List Byte} (h : readField name schema d i = .ok (n, .unknown u, j))
    (hlen : d.length < 2 ^ 63) :
    i < j ∧ j ≤ d.length ∧ u.length = j - i ∧ schema n = none ∧
      readField name schema u 0 = .ok (n, .unknown u, u.length) := by
  have hbnd := readField_bounds h hlen
  have hfit : Fits schema (n, .unknown u) := readField_fits h
  have hs : schema n = none := hfit
  unfold readField at h
  simp only at h
  cases ht : readTag name d i with
  | error e => simp [ht] at h
  | ok r =>
    obtain ⟨fieldNum, wireType, i1⟩ := r
    obtain ⟨wire, hd, hn, -, hw4, hpos⟩ := readTag_inv ht
    simp only [ht] at h
    cases hsc : schema fieldNum with
    | some fk =>
      obtain ⟨f, kind⟩ := fk
      cases kind with
      | bytes =>
        simp only [hsc] at h
        split at h
        · simp at h
        · cases hl : readLengthDelimited d i1 with
          | error e => simp [hl] at h
          | ok r => simp [hl] at h
      | varint =>
        simp only [hsc] at h
        split at h
        · simp at h
        · cases hl : decodeVarint d i1 with
          | error e => simp [hl] at h
          | ok r => simp [hl] at h
    | none =>
      simp only [hsc] at h
      cases hk : skipUnknown d i with
      | error e => simp [hk] at h
      | ok r =>
        obtain ⟨u', j'⟩ := r
        simp only [hk, Except.ok.injEq, Prod.mk.injEq, Payload.unknown.injEq] at h
        obtain ⟨rfl, rfl, rfl⟩ := h
        obtain ⟨hi, k, hskip, hj, hjl, hu⟩ := skipUnknown_inv hk hlen
        have hdl : (d.drop i).length < 2 ^ 63 := by simp; omega
        have hkl : k ≤ (d.drop i).length := by simp; omega
        have hk1 : (1 : Int) ≤ k := by
          have := skipFuel_ne_zero hskip
          omega
        have htag := decodeVarint_drop hd
        have hge := skipFuel_ge_tag hskip hdl htag hk1
        have hul : u'.length = k := by rw [hu]; simp; omega
        have htag' : decodeVarint u' 0 = .ok (wire, i1 - i) := by
          rw [hu]
          exact decodeVarint_take htag (by omega)
        have hskip' : skipMppProcessor u' = .ok (u'.length : Int) := by
          rw [hul, hu]
          exact skipMppProcessor_take hskip hdl hkl
        refine ⟨hbnd.1, hbnd.2, by omega, hs, ?_⟩
        rw [hn] at hs ⊢
        exact readField_unknown name schema htag' hpos hs hw4 hskip' (by omega)

theorem readField_bytes_size {name : MsgName} {schema : Schema} {d : List Byte} {i j : Nat}
    {n : Int} {s : List Byte} (h : readField name schema d i = .ok (n, .bytes s, j)) :
    i < j ∧ j ≤ d.length ∧ 1 + s.length + sovMppProcessor (s.length % 2 ^ 64) ≤ j - i := by
  unfold readField at h
  simp only at h
  cases ht : readTag name d i with
  | error e => simp [ht] at h
  | ok r =>
    obtain ⟨fieldNum, wireType, i1⟩ := r
    have hb := readTag_bounds ht
    simp only [ht] at h
    cases hsc : schema fieldNum with
    | none =>
      simp only [hsc] at h
      cases hk : skipUnknown d i with
      | error e => simp [hk] at h
      | ok r => simp [hk] at h
    | some fk =>
      obtain ⟨f, kind⟩ := fk
      cases kind with
      | bytes =>
        simp only [hsc] at h
        split at h
        · simp at h
        · cases hl : readLengthDelimited d i1 with
          | error e => simp [hl] at h
          | ok r =>
            obtain ⟨s', j'⟩ := r
            simp only [hl, Except.ok.injEq, Prod.mk.injEq, Payload.bytes.injEq] at h
            obtain ⟨-, rfl, rfl⟩ := h
            obtain ⟨raw, i', hd, hraw, hj, hjl, -, rfl⟩ := readLengthDelimited_inv hl
            have hb2 := decodeVarint_bounds hd
            have hsz := decodeVarint_size hd
            have hsl : ((d.drop i').take raw).length = raw := by simp; omega
            rw [hsl, Nat.mod_eq_of_lt (by omega : raw < 2 ^ 64)]
            omega
      | varint =>
        simp only [hsc] at h
        split at h
        · simp at h
        · cases hl : decodeVarint d i1 with
          | error e => simp [hl] at h
          | ok r => simp [hl] at h

/-! ## Re-encoding a decoded `KeyRange` -/

theorem getLast?_getD_cons {α : Type} (a : α) (l : List α) (x : α) :
    ((a :: l).getLast?).getD x = (l.getLast?).getD a := by
  rw [List.getLast?_cons]
  rfl

theorem bytesField_length_le (tag : Byte) (s : List Byte) :
    (bytesField tag s).length ≤ 1 + s.length + sovMppProcessor (s.length % 2 ^ 64) := by
  rw [bytesField_length]
  split <;> omega

theorem bytesField_nil (tag : Byte) : bytesField tag [] = [] := rfl

/-- The known fields that a fresh `KeyRange` ends with and the unknown fields of the input
take no more room in the re-encoding than the fields of the input they come from. -/
theorem KeyRange_readFields_weight (d : List Byte) (hlen : d.length < 2 ^ 63) :
    ∀ (f i : Nat), i ≤ d.length →
    (bytesField 0xa ((bytesOf 1 (readFields .KeyRange KeyRange.schema d f i)).getLast?.getD
        [])).length +
      (bytesField 0x12 ((bytesOf 2 (readFields .KeyRange KeyRange.schema d f i)).getLast?.getD
        [])).length +
      (unknownOf (readFields .KeyRange KeyRange.schema d f i)).length ≤ d.length - i := by
  intro f
  induction f with
  | zero => intro i _; simp [readFields, bytesOf, unknownOf, bytesField_nil]
  | succ f ih =>
    intro i hi
    rw [readFields]
    by_cases hil : i < d.length
    · simp only [hil, if_true]
      cases hr : readField .KeyRange KeyRange.schema d i with
      | error e => simp [bytesOf, unknownOf, bytesField_nil]
      | ok r =>
        obtain ⟨n, p, j⟩ := r
        have hb := readField_bounds hr hlen
        have hrest := ih j hb.2
        simp only
        generalize readFields .KeyRange KeyRange.schema d f j = rest at hrest ⊢
        cases p with
        | bytes s =>
          have hsz := (readField_bytes_size hr).2.2
          have h1 := bytesField_length_le 0xa s
          have h2 := bytesField_length_le 0x12 s
          by_cases hn1 : n = 1
          · subst hn1
            simp only [bytesOf, if_true, show ¬ ((1 : Int) = 2) by decide, if_false,
              getLast?_getD_cons, unknownOf]
            cases hlast : (bytesOf 1 rest).getLast? with
            | none =>
              rw [hlast] at hrest
              simp only [Option.getD_none, bytesField_nil, List.length_nil] at hrest ⊢
              omega
            | some t =>
              rw [hlast] at hrest
              simp only [Option.getD_some] at hrest ⊢
              omega
          · by_cases hn2 : n = 2
            · subst hn2
              simp only [bytesOf, if_true, show ¬ ((2 : Int) = 1) by decide, if_false,
                getLast?_getD_cons, unknownOf]
              cases hlast : (bytesOf 2 rest).getLast? with
              | none =>
                rw [hlast] at hrest
                simp only [Option.getD_none, bytesField_nil, List.length_nil] at hrest ⊢
                omega
              | some t =>
                rw [hlast] at hrest
                simp only [Option.getD_some] at hrest ⊢
                omega
            · simp only [bytesOf, hn1, hn2, if_false, unknownOf]
              omega
        | varint v =>
          simp only [bytesOf, unknownOf]
          omega
        | unknown u =>
          have hu := (readField_unknown_inv hr hlen).2.2.1
          simp only [bytesOf, unknownOf, List.length_append]
          omega
    · simp [hil, bytesOf, unknownOf, bytesField_nil]

theorem unknownOf_length_le (fs : List (Int × Payload)) (a b : Nat) (n : Nat)
    (h : a + b + (unknownOf fs).length ≤ n) : (unknownOf fs).length ≤ n := by
  omega

/-- The unknown fields of an input, one after the other, decode as themselves. -/
theorem KeyRange_readFields_tail (d : List Byte) (hlen : d.length < 2 ^ 63) :
    ∀ (f i : Nat), i ≤ d.length → ∀ m : KeyRange,
    decodeWith .KeyRange KeyRange.schema KeyRange.store m
        (unknownOf (readFields .KeyRange KeyRange.schema d f i)) =
      .ok { m with XXX_unrecognized :=
        (m.XXX_unrecognized ++ unknownOf (readFields .KeyRange KeyRange.schema d f i)) } := by
  intro f
  induction f with
  | zero =>
    intro i _ m
    simp only [readFields, unknownOf, List.append_nil]
    exact decodeWith_nil _ _ _ m
  | succ f ih =>
    intro i hi m
    have hw := KeyRange_readFields_weight d hlen (f + 1) i hi
    have hul := unknownOf_length_le _ _ _ _ hw
    rw [readFields] at hul ⊢
    by_cases hil : i < d.length
    · simp only [hil, if_true] at hul ⊢
      cases hr : readField .KeyRange KeyRange.schema d i with
      | error e =>
        simp only [unknownOf, List.append_nil]
        exact decodeWith_nil _ _ _ m
      | ok r =>
        obtain ⟨n, p, j⟩ := r
        have hb := readField_bounds hr hlen
        simp only [hr] at hul ⊢
        cases p with
        | bytes s => exact ih j hb.2 m
        | varint v => exact ih j hb.2 m
        | unknown u =>
          obtain ⟨-, -, hulen, hs, hru⟩ := readField_unknown_inv hr hlen
          simp only [unknownOf] at hul ⊢
          have hune : u ≠ [] := by
            intro hc
            rw [hc] at hulen
            simp at hulen
            omega
          have h1 : decodeWith .KeyRange KeyRange.schema KeyRange.store m u =
              .ok { m with XXX_unrecognized := m.XXX_unrecognized ++ u } := by
            apply decodeWith_single _ _ _ hune
            unfold fieldStep
            rw [hru]
            rfl
          have h2 := ih j hb.2 { m with XXX_unrecognized := m.XXX_unrecognized ++ u }
          rw [decodeWith_append _ _ _ h1 h2 (by omega)]
          simp [List.append_assoc]
    · simp only [hil, if_false, unknownOf, List.append_nil]
      exact decodeWith_nil _ _ _ m

theorem KeyRange_reencode {b : List Byte} {m : KeyRange} (hlen : b.length < 2 ^ 63)
    (h : KeyRange.Unmarshal KeyRange.zero b = .ok m) :
    m.wire.length ≤ b.length ∧ KeyRange.Unmarshal KeyRange.zero m.wire = .ok m := by
  obtain ⟨hs, he, ht⟩ := KeyRange_Unmarshal_fields h
  have hw : (bytesField 0xa ((bytesOf 1 (fieldsOf .KeyRange KeyRange.schema b)).getLast?.getD
        [])).length +
      (bytesField 0x12 ((bytesOf 2 (fieldsOf .KeyRange KeyRange.schema b)).getLast?.getD
        [])).length +
      (unknownOf (fieldsOf .KeyRange KeyRange.schema b)).length ≤ b.length - 0 :=
    KeyRange_readFields_weight b hlen b.length 0 (Nat.zero_le _)
  have htail : decodeWith .KeyRange KeyRange.schema KeyRange.store ⟨m.Start, m.End, []⟩
        (unknownOf (fieldsOf .KeyRange KeyRange.schema b)) =
      .ok ⟨m.Start, m.End, [] ++ unknownOf (fieldsOf .KeyRange KeyRange.schema b)⟩ :=
    KeyRange_readFields_tail b hlen b.length 0 (Nat.zero_le _) ⟨m.Start, m.End, []⟩
  simp only [KeyRange.zero, List.nil_append] at hs he ht
  rw [← hs, ← he, ← ht] at hw
  rw [← ht] at htail
  have hwl : m.wire.length =
      (bytesField 0xa m.Start).length + (bytesField 0x12 m.End).length +
        m.XXX_unrecognized.length := by
    simp only [KeyRange.wire, KeyRange.knownWire, List.length_append]
  refine ⟨by omega, ?_⟩
  have hk := KeyRange_decode_known m.Start m.End (by
    simp only [KeyRange.knownWire, List.length_append]
    omega)
  rw [KeyRange_Unmarshal_eq] at hk ⊢
  have hsplit : m.wire = KeyRange.knownWire ⟨m.Start, m.End, []⟩ ++ m.XXX_unrecognized := rfl
  rw [hsplit, decodeWith_append _ _ _ hk htail (by rw [← hsplit]; omega)]
  cases m
  rfl

/-! ## The claim on re-encoding -/

/-- C23: for an input `b` that fits a slice and that `KeyRange.Unmarshal` accepts into a fresh
`KeyRange`, giving `m`: `Marshal(m)` returns an encoding no longer than `b`, `Unmarshal` of it
into a fresh `KeyRange` gives `m` again, with the same start, end and tail, and marshalling
that result gives the same encoding.  Nothing is asked of `b` beyond being accepted: it may
repeat fields, hold empty fields, over-long varints, and unknown fields between known ones. -/
theorem KeyRange_reencoding_canonical (b : List Byte) (m : KeyRange) (hlen : b.length < 2 ^ 63)
    (h : KeyRange.Unmarshal KeyRange.zero b = .ok m) :
    ∃ bs, KeyRange.Marshal m = .ok bs ∧ KeyRange.Unmarshal KeyRange.zero bs = .ok m ∧
      bs.length ≤ b.length ∧
      (match KeyRange.Unmarshal KeyRange.zero bs with
        | .ok m' => KeyRange.Marshal m'
        | .error e => .error e) = .ok bs := by
  obtain ⟨h1, h2⟩ := KeyRange_reencode hlen h
  refine ⟨m.wire, KeyRange_Marshal_eq m, h2, h1, ?_⟩
  rw [h2]
  exact KeyRange_Marshal_eq m

theorem KeyRange_reencoding_canonical_witness :
    (([0x0a, 0x01, 0x41, 0x98, 0x80, 0x00, 0x81, 0x00, 0x0a, 0x00, 0x12, 0x81, 0x00, 0x42,
        0x25, 1, 2, 3, 4] : List Byte).length < 2 ^ 63 ∧
      KeyRange.Unmarshal KeyRange.zero
        [0x0a, 0x01, 0x41, 0x98, 0x80, 0x00, 0x81, 0x00, 0x0a, 0x00, 0x12, 0x81, 0x00, 0x42,
          0x25, 1, 2, 3, 4] =
        .ok ⟨[], [0x42], [0x98, 0x80, 0x00, 0x81, 0x00, 0x25, 1, 2, 3, 4]⟩) ∧
    ∃ bs, KeyRange.Marshal ⟨[], [0x42], [0x98, 0x80, 0x00, 0x81, 0x00, 0x25, 1, 2, 3, 4]⟩ =
        .ok bs ∧
      KeyRange.Unmarshal KeyRange.zero bs =
        .ok ⟨[], [0x42], [0x98, 0x80, 0x00, 0x81, 0x00, 0x25, 1, 2, 3, 4]⟩ ∧
      bs.length ≤ ([0x0a, 0x01, 0x41, 0x98, 0x80, 0x00, 0x81, 0x00, 0x0a, 0x00, 0x12, 0x81,
        0x00, 0x42, 0x25, 1, 2, 3, 4] : List Byte).length ∧
      (match KeyRange.Unmarshal KeyRange.zero bs with
        | .ok m' => KeyRange.Marshal m'
        | .error e => .error e) = .ok bs :=
  ⟨⟨by decide, by decide⟩,
    KeyRange_reencoding_canonical
      [0x0a, 0x01, 0x41, 0x98, 0x80, 0x00, 0x81, 0x00, 0x0a, 0x00, 0x12, 0x81, 0x00, 0x42,
        0x25, 1, 2, 3, 4]
      ⟨[], [0x42], [0x98, 0x80, 0x00, 0x81, 0x00, 0x25, 1, 2, 3, 4]⟩ (by decide) (by decide)⟩



/-! ## Arrays: reading, writing, allocating -/

theorem Mem_array_old {mem : Mem} (x : List Byte) {a : Nat} (h : a < mem.length) :
    Mem.array (mem ++ [x]) (some a) = Mem.array mem (some a) := by
  simp [Mem.array, List.getD_eq_getElem?_getD, List.getElem?_append_left h]

theorem Mem_array_new (mem : Mem) (x : List Byte) :
    Mem.array (mem ++ [x]) (some mem.length) = x := by
  simp [Mem.array, List.getD_eq_getElem?_getD]

theorem Mem_array_beyond {mem : Mem} {a : Nat} (h : mem.length ≤ a) :
    Mem.array mem (some a) = [] := by
  simp [Mem.array, List.getD_eq_getElem?_getD, List.getElem?_eq_none h]

theorem Mem_read_length {mem : Mem} {s : GoSlice} (h : s.Valid mem) :
    (Mem.read mem s).length = s.len := by
  obtain ⟨h1, h2⟩ := h
  simp only [Mem.read, List.length_take, List.length_drop]
  omega

theorem Mem_read_congr {mem mem1 : Mem} {t : GoSlice}
    (h : Mem.array mem1 t.arr = Mem.array mem t.arr) : Mem.read mem1 t = Mem.read mem t := by
  simp only [Mem.read, h]

theorem Mem_read_empty (mem : Mem) {t : GoSlice} (h : t.len = 0) : Mem.read mem t = [] := by
  simp [Mem.read, h]

/-- A slice with capacity points into an array that exists. -/
theorem GoSlice_valid_arr {mem : Mem} {t : GoSlice} (h : t.Valid mem) (hc : 0 < t.cap) :
    ∃ a, t.arr = some a ∧ a < mem.length := by
  obtain ⟨h1, h2⟩ := h
  cases ha : t.arr with
  | none =>
    rw [ha] at h2
    simp [Mem.array] at h2
    omega
  | some a =>
    refine ⟨a, rfl, ?_⟩
    by_contra hlt
    rw [ha, Mem_array_beyond (by omega)] at h2
    simp at h2
    omega

/-- An allocation leaves the slices of the arrays as they are. -/
theorem Mem_alloc_frame {mem : Mem} (x : List Byte) {t : GoSlice} (h : t.Valid mem) :
    t.Valid (mem ++ [x]) ∧ Mem.read (mem ++ [x]) t = Mem.read mem t ∧
      (t.cap = 0 ∨ t.arr ≠ some mem.length) := by
  by_cases hc : t.cap = 0
  · have hl : t.len = 0 := by have := h.1; omega
    refine ⟨⟨h.1, ?_⟩, ?_, Or.inl hc⟩
    · have h2 := h.2
      cases ha : t.arr with
      | none => rw [ha] at h2; simpa [Mem.array] using h2
      | some a =>
        rw [ha] at h2
        by_cases hlt : a < mem.length
        · rw [Mem_array_old x hlt]; exact h2
        · rw [Mem_array_beyond (by omega)] at h2
          simp at h2
          omega
    · rw [Mem_read_empty _ hl, Mem_read_empty _ hl]
  · obtain ⟨a, ha, hlt⟩ := GoSlice_valid_arr h (by omega)
    have harr : Mem.array (mem ++ [x]) t.arr = Mem.array mem t.arr := by
      rw [ha]; exact Mem_array_old x hlt
    refine ⟨⟨h.1, ?_⟩, Mem_read_congr harr, Or.inr ?_⟩
    · rw [harr]; exact h.2
    · rw [ha]
      intro hc2
      injection hc2 with hc2
      omega

theorem Mem_array_write_other {mem : Mem} {arr o : Option Nat} (i : Nat) (data : List Byte)
    (h : o ≠ arr) : Mem.array (Mem.write mem arr i data) o = Mem.array mem o := by
  cases arr with
  | none => rfl
  | some a =>
    cases o with
    | none => rfl
    | some b =>
      have hne : a ≠ b := fun hc => h (by rw [hc])
      simp [Mem.array, Mem.write, List.getD_eq_getElem?_getD, List.getElem?_set_ne hne]

theorem Mem_array_write_same {mem : Mem} {arr : Option Nat} {i : Nat} {data : List Byte}
    (h : i + data.length ≤ (Mem.array mem arr).length) :
    Mem.array (Mem.write mem arr i data) arr =
      (Mem.array mem arr).take i ++ data ++ (Mem.array mem arr).drop (i + data.length) := by
  cases arr with
  | none =>
    simp only [Mem.array, List.length_nil, Nat.le_zero, Nat.add_eq_zero, List.length_eq_zero]
      at h
    simp [Mem.array, h.2]
  | some a =>
    by_cases hlt : a < mem.length
    · simp [Mem.array, Mem.write, List.getD_eq_getElem?_getD, hlt]
    · have hw : Mem.write mem (some a) i data = mem := by
        simp only [Mem.write]
        exact List.set_eq_of_length_le (by omega)
      rw [hw]
      rw [Mem_array_beyond (by omega)] at h ⊢
      simp only [List.length_nil, Nat.le_zero, Nat.add_eq_zero, List.length_eq_zero] at h
      simp [h.2]

theorem Mem_array_write_length {mem : Mem} {arr : Option Nat} {i : Nat} {data : List Byte}
    (h : i + data.length ≤ (Mem.array mem arr).length) (o : Option Nat) :
    (Mem.array (Mem.write mem arr i data) o).length = (Mem.array mem o).length := by
  by_cases ho : o = arr
  · subst ho
    rw [Mem_array_write_same h]
    simp only [List.length_append, List.length_take, List.length_drop]
    omega
  · rw [Mem_array_write_other i data ho]

/-- A write of no bytes changes nothing. -/
theorem Mem_write_nil {mem : Mem} {arr : Option Nat} {i : Nat}
    (h : i ≤ (Mem.array mem arr).length) (o : Option Nat) :
    Mem.array (Mem.write mem arr i []) o = Mem.array mem o := by
  by_cases ho : o = arr
  · subst ho
    rw [Mem_array_write_same (by simpa using h)]
    simp
  · rw [Mem_array_write_other i [] ho]

/-! ## `append` and the assignment of a byte field -/

theorem splice_read (A data : List Byte) (off len : Nat)
    (h : off + len + data.length ≤ A.length) :
    ((A.take (off + len) ++ data ++ A.drop (off + len + data.length)).drop off).take
        (len + data.length) = (A.drop off).take len ++ data := by
  have h1 : A.take (off + len) = A.take off ++ (A.drop off).take len := List.take_add A off len
  rw [h1, List.append_assoc, List.append_assoc,
    List.drop_left' (by simp only [List.length_take]; omega), ← List.append_assoc]
  exact List.take_left' (by
    simp only [List.length_append, List.length_take, List.length_drop]; omega)

theorem splice_read_before (A data : List Byte) (i o n : Nat) (hi : i ≤ A.length)
    (h : o + n ≤ i) :
    ((A.take i ++ data ++ A.drop (i + data.length)).drop o).take n = (A.drop o).take n := by
  rw [List.append_assoc, List.take_drop, List.take_drop,
    List.take_append_of_le_length (by simp only [List.length_take]; omega), List.take_take,
    Nat.min_eq_left h]

theorem splice_read_after (A data : List Byte) (i o : Nat) (hi : i + data.length ≤ A.length)
    (h : i + data.length ≤ o) :
    (A.take i ++ data ++ A.drop (i + data.length)).drop o = A.drop o := by
  have hl : (A.take i ++ data).length = i + data.length := by
    simp only [List.length_append, List.length_take]
    omega
  have ho : o = (A.take i ++ data).length + (o - (i + data.length)) := by omega
  rw [ho, List.drop_append, List.drop_drop, hl]

theorem Mem_append_stores (spare : Nat → Nat → Nat) {mem : Mem} {s : GoSlice}
    (data : List Byte) (h : s.Valid mem) :
    Mem.Stores mem s (Mem.read mem s ++ data) (Mem.append spare mem s data) := by
  obtain ⟨h1, h2⟩ := h
  unfold Mem.append
  by_cases hin : s.len + data.length ≤ s.cap
  · simp only [hin, if_true]
    have hb : s.off + s.len + data.length ≤ (Mem.array mem s.arr).length := by omega
    refine ⟨⟨hin, ?_⟩, ?_, ?_⟩
    · show s.off + s.cap ≤ (Mem.array (Mem.write mem s.arr (s.off + s.len) data) s.arr).length
      rw [Mem_array_write_length hb]
      exact h2
    · show ((Mem.array (Mem.write mem s.arr (s.off + s.len) data) s.arr).drop s.off).take
        (s.len + data.length) = _
      rw [Mem_array_write_same hb]
      exact splice_read _ _ _ _ hb
    · intro t ht hap
      refine ⟨⟨ht.1, ?_⟩, ?_, hap⟩
      · rw [Mem_array_write_length hb]
        exact ht.2
      · rcases hap with hc | hc | hc | hc | hc
        · have hd : data = [] := List.length_eq_zero.mp (by omega)
          subst hd
          exact Mem_read_congr (Mem_write_nil (by omega) _)
        · have hl : t.len = 0 := by have := ht.1; omega
          rw [Mem_read_empty _ hl, Mem_read_empty _ hl]
        · exact Mem_read_congr (Mem_array_write_other _ _ (fun hc2 => hc hc2.symm))
        · by_cases ha : t.arr = s.arr
          · show ((Mem.array (Mem.write mem s.arr (s.off + s.len) data) t.arr).drop t.off).take
              t.len = ((Mem.array mem t.arr).drop t.off).take t.len
            rw [ha, Mem_array_write_same hb, splice_read_after _ _ _ _ hb (by omega)]
          · exact Mem_read_congr (Mem_array_write_other _ _ ha)
        · by_cases ha : t.arr = s.arr
          · show ((Mem.array (Mem.write mem s.arr (s.off + s.len) data) t.arr).drop t.off).take
              t.len = ((Mem.array mem t.arr).drop t.off).take t.len
            rw [ha, Mem_array_write_same hb,
              splice_read_before _ _ _ _ _ (by omega) (by have := ht.1; omega)]
          · exact Mem_read_congr (Mem_array_write_other _ _ ha)
  · simp only [hin, if_false]
    have hlen := Mem_read_length (⟨h1, h2⟩ : s.Valid mem)
    refine ⟨⟨?_, ?_⟩, ?_, ?_⟩
    · show s.len + data.length ≤ s.len + data.length + spare s.cap (s.len + data.length)
      omega
    · show 0 + (s.len + data.length + spare s.cap (s.len + data.length)) ≤
        (Mem.array (mem ++ [_]) (some mem.length)).length
      rw [Mem_array_new]
      simp only [List.length_append, List.length_replicate, hlen]
      omega
    · show ((Mem.array (mem ++ [_]) (some mem.length)).drop 0).take (s.len + data.length) = _
      rw [Mem_array_new, List.drop_zero]
      exact List.take_left' (by simp only [List.length_append, hlen])
    · intro t ht _
      obtain ⟨a, b, c⟩ := Mem_alloc_frame
        (Mem.read mem s ++ data ++ List.replicate (spare s.cap (s.len + data.length)) 0) ht
      refine ⟨a, b, ?_⟩
      rcases c with c | c
      · exact Or.inr (Or.inl c)
      · exact Or.inr (Or.inr (Or.inl (fun hc => c hc.symm)))

theorem Mem_assign_eq (spare : Nat → Nat → Nat) (mem : Mem) (s : GoSlice) (data : List Byte) :
    Mem.assign spare mem s data =
      if (Mem.append spare mem { s with len := 0 } data).2.arr = none then
        ((Mem.append spare mem { s with len := 0 } data).1 ++ [[]],
          ⟨some (Mem.append spare mem { s with len := 0 } data).1.length, 0, 0, 0⟩)
      else Mem.append spare mem { s with len := 0 } data := rfl

theorem Mem_assign_stores (spare : Nat → Nat → Nat) {mem : Mem} {s : GoSlice}
    (data : List Byte) (h : s.Valid mem) :
    Mem.Stores mem s data (Mem.assign spare mem s data) := by
  have h0 : ({ s with len := 0 } : GoSlice).Valid mem := ⟨Nat.zero_le _, h.2⟩
  have hst := Mem_append_stores spare data h0
  rw [Mem_read_empty mem (rfl : ({ s with len := 0 } : GoSlice).len = 0), List.nil_append]
    at hst
  rw [Mem_assign_eq]
  generalize Mem.append spare mem { s with len := 0 } data = r at hst
  obtain ⟨hv, hr, hf⟩ := hst
  by_cases hn : r.2.arr = none
  · simp only [hn, if_true]
    have hd : data = [] := by
      rw [← hr]
      simp [Mem.read, hn, Mem.array]
    refine ⟨⟨Nat.le_refl _, Nat.zero_le _⟩, ?_, ?_⟩
    · rw [hd]
      exact Mem_read_empty _ rfl
    · intro t ht hap
      obtain ⟨a, b, -⟩ := hf t ht hap
      obtain ⟨a2, b2, -⟩ := Mem_alloc_frame [] a
      exact ⟨a2, b2.trans b, Or.inl rfl⟩
  · simp only [hn, if_false]
    exact ⟨hv, hr, hf⟩

/-! ## The decoder of `KeyRange` on slices that do not overlap -/

theorem GoSlice_apart_symm {s t : GoSlice} (h : s.Apart t) : t.Apart s := by
  rcases h with h | h | h | h | h
  · exact Or.inr (Or.inl h)
  · exact Or.inl h
  · exact Or.inr (Or.inr (Or.inl (fun hc => h hc.symm)))
  · exact Or.inr (Or.inr (Or.inr (Or.inr h)))
  · exact Or.inr (Or.inr (Or.inr (Or.inl h)))

theorem Mem_frame_refl (mem : Mem) (own : List GoSlice) : Mem.Frame mem own mem own :=
  fun _ hv hap => ⟨hv, rfl, hap⟩

theorem Mem_frame_trans {mem0 mem1 mem2 : Mem} {own0 own1 own2 : List GoSlice}
    (h1 : Mem.Frame mem0 own0 mem1 own1) (h2 : Mem.Frame mem1 own1 mem2 own2) :
    Mem.Frame mem0 own0 mem2 own2 := by
  intro t hv hap
  obtain ⟨a, b, c⟩ := h1 t hv hap
  obtain ⟨a2, b2, c2⟩ := h2 t a c
  exact ⟨a2, b2.trans b, c2⟩

theorem StoredKeyRange_store_start {mem : Mem} {m : StoredKeyRange} (hk : m.Kept mem)
    {content : List Byte} {r : Mem × GoSlice} (hst : Mem.Stores mem m.Start content r) :
    StoredKeyRange.val r.1 { m with Start := r.2 } = { m.val mem with Start := content } ∧
    StoredKeyRange.Kept r.1 { m with Start := r.2 } ∧
    Mem.Frame mem m.slices r.1 (StoredKeyRange.slices { m with Start := r.2 }) := by
  obtain ⟨⟨v1, v2, v3⟩, a12, a13, a23⟩ := hk
  obtain ⟨hv, hr, hf⟩ := hst
  obtain ⟨e1, e2, e3⟩ := hf _ v2 a12
  obtain ⟨t1, t2, t3⟩ := hf _ v3 a13
  refine ⟨?_, ⟨⟨hv, e1, t1⟩, e3, t3, a23⟩, ?_⟩
  · simp only [StoredKeyRange.val, hr, e2, t2]
  · intro t ht hap
    simp only [StoredKeyRange.slices, List.mem_cons, List.mem_singleton, List.not_mem_nil,
      or_false, forall_eq_or_imp, forall_eq] at hap ⊢
    obtain ⟨x1, x2, x3⟩ := hf t ht hap.1
    exact ⟨x1, x2, x3, hap.2.1, hap.2.2⟩

theorem StoredKeyRange_store_end {mem : Mem} {m : StoredKeyRange} (hk : m.Kept mem)
    {content : List Byte} {r : Mem × GoSlice} (hst : Mem.Stores mem m.End content r) :
    StoredKeyRange.val r.1 { m with End := r.2 } = { m.val mem with End := content } ∧
    StoredKeyRange.Kept r.1 { m with End := r.2 } ∧
    Mem.Frame mem m.slices r.1 (StoredKeyRange.slices { m with End := r.2 }) := by
  obtain ⟨⟨v1, v2, v3⟩, a12, a13, a23⟩ := hk
  obtain ⟨hv, hr, hf⟩ := hst
  obtain ⟨s1, s2, s3⟩ := hf _ v1 (GoSlice_apart_symm a12)
  obtain ⟨t1, t2, t3⟩ := hf _ v3 a23
  refine ⟨?_, ⟨⟨s1, hv, t1⟩, GoSlice_apart_symm s3, a13, t3⟩, ?_⟩
  · simp only [StoredKeyRange.val, hr, s2, t2]
  · intro t ht hap
    simp only [StoredKeyRange.slices, List.mem_cons, List.mem_singleton, List.not_mem_nil,
      or_false, forall_eq_or_imp, forall_eq] at hap ⊢
    obtain ⟨x1, x2, x3⟩ := hf t ht hap.2.1
    exact ⟨x1, x2, hap.1, x3, hap.2.2⟩

theorem StoredKeyRange_store_tail {mem : Mem} {m : StoredKeyRange} (hk : m.Kept mem)
    {content : List Byte} {r : Mem × GoSlice}
    (hst : Mem.Stores mem m.XXX_unrecognized content r) :
    StoredKeyRange.val r.1 { m with XXX_unrecognized := r.2 } =
      { m.val mem with XXX_unrecognized := content } ∧
    StoredKeyRange.Kept r.1 { m with XXX_unrecognized := r.2 } ∧
    Mem.Frame mem m.slices r.1 (StoredKeyRange.slices { m with XXX_unrecognized := r.2 }) := by
  obtain ⟨⟨v1, v2, v3⟩, a12, a13, a23⟩ := hk
  obtain ⟨hv, hr, hf⟩ := hst
  obtain ⟨s1, s2, s3⟩ := hf _ v1 (GoSlice_apart_symm a13)
  obtain ⟨e1, e2, e3⟩ := hf _ v2 (GoSlice_apart_symm a23)
  refine ⟨?_, ⟨⟨s1, e1, hv⟩, a12, GoSlice_apart_symm s3, GoSlice_apart_symm e3⟩, ?_⟩
  · simp only [StoredKeyRange.val, hr, s2, e2]
  · intro t ht hap
    simp only [StoredKeyRange.slices, List.mem_cons, List.mem_singleton, List.not_mem_nil,
      or_false, forall_eq_or_imp, forall_eq] at hap ⊢
    obtain ⟨x1, x2, x3⟩ := hf t ht hap.2.2
    exact ⟨x1, x2, hap.1, hap.2.1, x3⟩

theorem Res_error_cast {α β : Type} {e0 e : Error} (h : (Except.error e0 : Res α) = .error e) :
    (Except.error e0 : Res β) = .error e := by
  cases h
  rfl

/-- One turn of the loop on slices that do not overlap does what `KeyRange.unmarshalField`
does on the values. -/
theorem StoredKeyRange_unmarshalField_val (spare : Nat → Nat → Nat) (dAtA : GoSlice)
    {mem : Mem} {m : StoredKeyRange} (hk : m.Kept mem) (i : Nat) :
    (∀ mem1 m1 j, StoredKeyRange.unmarshalField spare dAtA (mem, m) i = .ok ((mem1, m1), j) →
      KeyRange.unmarshalField (Mem.read mem dAtA) (m.val mem) i = .ok (m1.val mem1, j) ∧
      m1.Kept mem1 ∧ Mem.Frame mem m.slices mem1 m1.slices) ∧
    (∀ e, StoredKeyRange.unmarshalField spare dAtA (mem, m) i = .error e →
      KeyRange.unmarshalField (Mem.read mem dAtA) (m.val mem) i = .error e) := by
  unfold StoredKeyRange.unmarshalField KeyRange.unmarshalField
  simp only
  cases readTag .KeyRange (Mem.read mem dAtA) i with
  | error e0 =>
    simp only
    exact ⟨fun _ _ _ h => (by cases h), fun e h => Res_error_cast h⟩
  | ok r =>
    obtain ⟨fieldNum, wireType, j0⟩ := r
    simp only
    by_cases h1 : fieldNum = 1
    · simp only [if_pos h1]
      by_cases hw : wireType ≠ 2
      · simp only [if_pos hw]
        exact ⟨fun _ _ _ h => (by cases h), fun e h => Res_error_cast h⟩
      · simp only [if_neg hw]
        cases readLengthDelimited (Mem.read mem dAtA) j0 with
        | error e0 =>
          simp only
          exact ⟨fun _ _ _ h => (by cases h), fun e h => Res_error_cast h⟩
        | ok r =>
          obtain ⟨s, post⟩ := r
          simp only
          obtain ⟨a, b, c⟩ := StoredKeyRange_store_start hk (Mem_assign_stores spare s hk.1.1)
          refine ⟨fun mem1 m1 j h => ?_, fun e h => (by cases h)⟩
          cases h
          exact ⟨by rw [a], b, c⟩
    · simp only [if_neg h1]
      by_cases h2 : fieldNum = 2
      · simp only [if_pos h2]
        by_cases hw : wireType ≠ 2
        · simp only [if_pos hw]
          exact ⟨fun _ _ _ h => (by cases h), fun e h => Res_error_cast h⟩
        · simp only [if_neg hw]
          cases readLengthDelimited (Mem.read mem dAtA) j0 with
          | error e0 =>
            simp only
            exact ⟨fun _ _ _ h => (by cases h), fun e h => Res_error_cast h⟩
          | ok r =>
            obtain ⟨s, post⟩ := r
            simp only
            obtain ⟨a, b, c⟩ := StoredKeyRange_store_end hk (Mem_assign_stores spare s hk.1.2.1)
            refine ⟨fun mem1 m1 j h => ?_, fun e h => (by cases h)⟩
            cases h
            exact ⟨by rw [a], b, c⟩
      · simp only [if_neg h2]
        cases skipUnknown (Mem.read mem dAtA) i with
        | error e0 =>
          simp only
          exact ⟨fun _ _ _ h => (by cases h), fun e h => Res_error_cast h⟩
        | ok r =>
          obtain ⟨s, j⟩ := r
          simp only
          obtain ⟨a, b, c⟩ :=
            StoredKeyRange_store_tail hk (Mem_append_stores spare s hk.1.2.2)
          refine ⟨fun mem1 m1 j h => ?_, fun e h => (by cases h)⟩
          cases h
          exact ⟨by rw [a]; rfl, b, c⟩

theorem StoredKeyRange_loop_val (spare : Nat → Nat → Nat) (dAtA : GoSlice) (d : List Byte)
    (l : Nat) : ∀ (fuel : Nat) (mem : Mem) (m : StoredKeyRange) (i : Nat),
    m.Kept mem → dAtA.Valid mem → (∀ s ∈ m.slices, s.Apart dAtA) → Mem.read mem dAtA = d →
    (∀ mem1 m1,
      unmarshalLoop (StoredKeyRange.unmarshalField spare dAtA) l fuel (mem, m) i =
        .ok (mem1, m1) →
      unmarshalLoop (KeyRange.unmarshalField d) l fuel (m.val mem) i = .ok (m1.val mem1) ∧
      m1.Kept mem1 ∧ Mem.Frame mem m.slices mem1 m1.slices) ∧
    (∀ e,
      unmarshalLoop (StoredKeyRange.unmarshalField spare dAtA) l fuel (mem, m) i = .error e →
      unmarshalLoop (KeyRange.unmarshalField d) l fuel (m.val mem) i = .error e) := by
  intro fuel
  induction fuel with
  | zero =>
    intro mem m i hk _ _ _
    simp only [unmarshalLoop]
    by_cases h1 : i < l
    · simp only [if_pos h1]
      exact ⟨fun _ _ h => (by cases h), fun e h => Res_error_cast h⟩
    · simp only [if_neg h1]
      by_cases h2 : i > l
      · simp only [if_pos h2]
        exact ⟨fun _ _ h => (by cases h), fun e h => Res_error_cast h⟩
      · simp only [if_neg h2]
        refine ⟨fun mem1 m1 h => ?_, fun e h => (by cases h)⟩
        cases h
        exact ⟨rfl, hk, Mem_frame_refl _ _⟩
  | succ fuel ih =>
    intro mem m i hk hd hap hr
    simp only [unmarshalLoop]
    by_cases h1 : i < l
    · simp only [if_pos h1]
      obtain ⟨sok, serr⟩ := StoredKeyRange_unmarshalField_val spare dAtA hk i
      rw [hr] at sok serr
      cases hs : StoredKeyRange.unmarshalField spare dAtA (mem, m) i with
      | error e0 =>
        rw [serr e0 hs]
        simp only
        exact ⟨fun _ _ h => (by cases h), fun e h => Res_error_cast h⟩
      | ok r =>
        obtain ⟨⟨mem2, m2⟩, j⟩ := r
        obtain ⟨a, b, c⟩ := sok mem2 m2 j hs
        rw [a]
        simp only
        obtain ⟨d1, d2, d3⟩ := c dAtA hd hap
        obtain ⟨lok, lerr⟩ := ih mem2 m2 j b d1 d3 (d2.trans hr)
        refine ⟨fun mem1 m1 h => ?_, lerr⟩
        obtain ⟨x, y, z⟩ := lok mem1 m1 h
        exact ⟨x, y, Mem_frame_trans c z⟩
    · simp only [if_neg h1]
      by_cases h2 : i > l
      · simp only [if_pos h2]
        exact ⟨fun _ _ h => (by cases h), fun e h => Res_error_cast h⟩
      · simp only [if_neg h2]
        refine ⟨fun mem1 m1 h => ?_, fun e h => (by cases h)⟩
        cases h
        exact ⟨rfl, hk, Mem_frame_refl _ _⟩

theorem StoredKeyRange_owned_kept {mem : Mem} {m : StoredKeyRange} {dAtA : GoSlice}
    (h : m.Owned mem dAtA) :
    m.Kept mem ∧ dAtA.Valid mem ∧ ∀ s ∈ m.slices, s.Apart dAtA := by
  obtain ⟨⟨v1, v2, v3, v4⟩, a, b1, b2, b3⟩ := h
  refine ⟨⟨⟨v1, v2, v3⟩, a⟩, v4, ?_⟩
  simp only [StoredKeyRange.slices, List.mem_cons, List.mem_singleton, List.not_mem_nil,
    or_false, forall_eq_or_imp, forall_eq]
  exact ⟨b1, b2, b3⟩

/-- On a receiver and an input that do not overlap, `(m *KeyRange) Unmarshal` does on the
values of the byte fields what `KeyRange.Unmarshal` says: the same result, the same error;
and it leaves what is apart from the receiver as it was. -/
theorem StoredKeyRange_Unmarshal_val (spare : Nat → Nat → Nat) {mem : Mem}
    {m : StoredKeyRange} {dAtA : GoSlice} (hk : m.Kept mem) (hd : dAtA.Valid mem)
    (hap : ∀ s ∈ m.slices, s.Apart dAtA) :
    (∀ mem1 m1, StoredKeyRange.Unmarshal spare dAtA (mem, m) = .ok (mem1, m1) →
      KeyRange.Unmarshal (m.val mem) (Mem.read mem dAtA) = .ok (m1.val mem1) ∧
      m1.Kept mem1 ∧ Mem.Frame mem m.slices mem1 m1.slices) ∧
    (∀ e, StoredKeyRange.Unmarshal spare dAtA (mem, m) = .error e →
      KeyRange.Unmarshal (m.val mem) (Mem.read mem dAtA) = .error e) := by
  have hl := Mem_read_length hd
  unfold StoredKeyRange.Unmarshal KeyRange.Unmarshal
  rw [hl]
  exact StoredKeyRange_loop_val spare dAtA _ dAtA.len dAtA.len mem m 0 hk hd hap rfl

/-! ## The decoder of `Request` on slices that do not overlap -/

theorem Mem_read_sub {mem : Mem} {dAtA : GoSlice} (hd : dAtA.Valid mem) {lo hi : Nat}
    (h : lo ≤ hi) (hh : hi ≤ dAtA.len) :
    (dAtA.sub lo hi).Valid mem ∧
      Mem.read mem (dAtA.sub lo hi) = ((Mem.read mem dAtA).drop lo).take (hi - lo) := by
  obtain ⟨h1, h2⟩ := hd
  refine ⟨⟨?_, ?_⟩, ?_⟩
  · show hi - lo ≤ dAtA.cap - lo
    omega
  · show dAtA.off + lo + (dAtA.cap - lo) ≤ (Mem.array mem dAtA.arr).length
    omega
  · show ((Mem.array mem dAtA.arr).drop (dAtA.off + lo)).take (hi - lo) = _
    simp only [Mem.read, List.drop_take, List.drop_drop, List.take_take]
    rw [Nat.min_eq_left (by omega), Nat.add_comm]

theorem StoredKeyRange_zero_kept (mem : Mem) : StoredKeyRange.zero.Kept mem :=
  ⟨⟨⟨Nat.le_refl _, Nat.zero_le _⟩, ⟨Nat.le_refl _, Nat.zero_le _⟩,
      ⟨Nat.le_refl _, Nat.zero_le _⟩⟩, Or.inl rfl, Or.inl rfl, Or.inl rfl⟩

theorem StoredKeyRange_zero_apart (t : GoSlice) : ∀ s ∈ StoredKeyRange.zero.slices, s.Apart t := by
  intro s hs
  simp only [StoredKeyRange.slices, StoredKeyRange.zero, List.mem_cons, List.mem_singleton,
    List.not_mem_nil, or_false, or_self] at hs
  rw [hs]
  exact Or.inl rfl

theorem StoredKeyRange_zero_val (mem : Mem) : StoredKeyRange.zero.val mem = KeyRange.zero := rfl

theorem StoredKeyRange_val_congr {mem mem1 : Mem} {r : StoredKeyRange}
    (h : ∀ t ∈ r.slices, Mem.read mem1 t = Mem.read mem t) : r.val mem1 = r.val mem := by
  simp only [StoredKeyRange.slices, List.mem_cons, List.mem_singleton, List.not_mem_nil,
    or_false, forall_eq_or_imp, forall_eq] at h
  simp only [StoredKeyRange.val, h.1, h.2.1, h.2.2]

section StoredRequestDecode

variable {Ctx : Type} (ctx : Collaborator Ctx)

theorem StoredRequest_store_data {mem : Mem} {m : StoredRequest Ctx} (hk : m.Kept mem)
    {content : List Byte} {r : Mem × GoSlice} (hst : Mem.Stores mem m.Data content r) :
    StoredRequest.val r.1 { m with Data := r.2 } = { m.val mem with Data := content } ∧
    StoredRequest.Kept r.1 { m with Data := r.2 } ∧
    Mem.Frame mem m.slices r.1 (StoredRequest.slices { m with Data := r.2 }) := by
  obtain ⟨⟨v1, v2⟩, a12, hrs⟩ := hk
  obtain ⟨hv, hr, hf⟩ := hst
  obtain ⟨t1, t2, t3⟩ := hf _ v2 a12
  refine ⟨?_, ⟨⟨hv, t1⟩, t3, ?_⟩, ?_⟩
  · simp only [StoredRequest.val, hr, t2, Request.mk.injEq, true_and, and_true]
    apply List.map_congr_left
    intro x hx
    exact StoredKeyRange_val_congr (fun t ht => (hf t (hrs x hx t ht).1 (hrs x hx t ht).2.1).2.1)
  · intro x hx t ht
    obtain ⟨y1, y2, y3⟩ := hrs x hx t ht
    obtain ⟨z1, -, z3⟩ := hf t y1 y2
    exact ⟨z1, z3, y3⟩
  · intro t ht hap
    simp only [StoredRequest.slices, List.mem_cons, List.mem_singleton, List.not_mem_nil,
      or_false, forall_eq_or_imp, forall_eq] at hap ⊢
    obtain ⟨x1, x2, x3⟩ := hf t ht hap.1
    exact ⟨x1, x2, x3, hap.2⟩

theorem StoredRequest_store_tail {mem : Mem} {m : StoredRequest Ctx} (hk : m.Kept mem)
    {content : List Byte} {r : Mem × GoSlice}
    (hst : Mem.Stores mem m.XXX_unrecognized content r) :
    StoredRequest.val r.1 { m with XXX_unrecognized := r.2 } =
      { m.val mem with XXX_unrecognized := content } ∧
    StoredRequest.Kept r.1 { m with XXX_unrecognized := r.2 } ∧
    Mem.Frame mem m.slices r.1 (StoredRequest.slices { m with XXX_unrecognized := r.2 }) := by
  obtain ⟨⟨v1, v2⟩, a12, hrs⟩ := hk
  obtain ⟨hv, hr, hf⟩ := hst
  obtain ⟨s1, s2, s3⟩ := hf _ v1 (GoSlice_apart_symm a12)
  refine ⟨?_, ⟨⟨s1, hv⟩, GoSlice_apart_symm s3, ?_⟩, ?_⟩
  · simp only [StoredRequest.val, hr, s2, Request.mk.injEq, true_and, and_true]
    apply List.map_congr_left
    intro x hx
    exact StoredKeyRange_val_congr
      (fun t ht => (hf t (hrs x hx t ht).1 (hrs x hx t ht).2.2).2.1)
  · intro x hx t ht
    obtain ⟨y1, y2, y3⟩ := hrs x hx t ht
    obtain ⟨z1, -, z3⟩ := hf t y1 y3
    exact ⟨z1, y2, z3⟩
  · intro t ht hap
    simp only [StoredRequest.slices, List.mem_cons, List.mem_singleton, List.not_mem_nil,
      or_false, forall_eq_or_imp, forall_eq] at hap ⊢
    obtain ⟨x1, x2, x3⟩ := hf t ht hap.2
    exact ⟨x1, x2, hap.1, x3⟩

/-- An element decoded into a fresh `KeyRange` and appended to `ranges`. -/
theorem StoredRequest_store_range {mem : Mem} {m : StoredRequest Ctx} (hk : m.Kept mem)
    {mem1 : Mem} {r : StoredKeyRange} (hr : r.Kept mem1)
    (hf : Mem.Frame mem StoredKeyRange.zero.slices mem1 r.slices) :
    StoredRequest.val mem1 { m with Ranges := m.Ranges ++ [r] } =
      { m.val mem with Ranges := (m.val mem).Ranges ++ [r.val mem1] } ∧
    StoredRequest.Kept mem1 { m with Ranges := m.Ranges ++ [r] } ∧
    Mem.Frame mem m.slices mem1 (StoredRequest.slices { m with Ranges := m.Ranges ++ [r] }) := by
  obtain ⟨⟨v1, v2⟩, a12, hrs⟩ := hk
  obtain ⟨d1, d2, d3⟩ := hf _ v1 (StoredKeyRange_zero_apart _)
  obtain ⟨t1, t2, t3⟩ := hf _ v2 (StoredKeyRange_zero_apart _)
  refine ⟨?_, ⟨⟨d1, t1⟩, a12, ?_⟩, ?_⟩
  · simp only [StoredRequest.val, d2, t2, List.map_append, List.map_cons, List.map_nil,
      Request.mk.injEq, true_and, and_true, List.append_cancel_right_eq]
    apply List.map_congr_left
    intro x hx
    exact StoredKeyRange_val_congr
      (fun t ht => (hf t (hrs x hx t ht).1 (StoredKeyRange_zero_apart _)).2.1)
  · intro x hx t ht
    rcases List.mem_append.mp hx with hx | hx
    · obtain ⟨y1, y2, y3⟩ := hrs x hx t ht
      exact ⟨(hf t y1 (StoredKeyRange_zero_apart _)).1, y2, y3⟩
    · rw [List.mem_singleton] at hx
      subst hx
      have hvt : t.Valid mem1 := by
        obtain ⟨⟨w1, w2, w3⟩, -⟩ := hr
        simp only [StoredKeyRange.slices, List.mem_cons, List.mem_singleton,
          List.not_mem_nil, or_false] at ht
        rcases ht with ht | ht | ht <;> rw [ht] <;> assumption
      exact ⟨hvt, GoSlice_apart_symm (d3 t ht), GoSlice_apart_symm (t3 t ht)⟩
  · intro t ht hap
    obtain ⟨x1, x2, -⟩ := hf t ht (StoredKeyRange_zero_apart _)
    exact ⟨x1, x2, hap⟩

/-- The payload of a length-delimited field is the slice `dAtA[postIndex - len(s):postIndex]`
of the input. -/
theorem readLengthDelimited_sub {mem : Mem} {dAtA : GoSlice} (hd : dAtA.Valid mem) {i post : Nat}
    {s : List Byte} (h : readLengthDelimited (Mem.read mem dAtA) i = .ok (s, post)) :
    (dAtA.sub (post - s.length) post).Valid mem ∧
      Mem.read mem (dAtA.sub (post - s.length) post) = s := by
  obtain ⟨raw, i', -, -, hp, hle, -, hs⟩ := readLengthDelimited_inv h
  have hl := Mem_read_length hd
  have hsl : s.length = raw := by
    rw [hs]
    simp only [List.length_take, List.length_drop]
    omega
  have hlo : post - s.length = i' := by omega
  obtain ⟨a, b⟩ := Mem_read_sub hd (show post - s.length ≤ post by omega) (by omega)
  refine ⟨a, ?_⟩
  rw [b, hlo, hs, show post - i' = raw by omega]

/-- One turn of the loop on slices that do not overlap does what `Request.unmarshalField`
does on the values. -/
theorem StoredRequest_unmarshalField_val (spare : Nat → Nat → Nat) {dAtA : GoSlice}
    {mem : Mem} {m : StoredRequest Ctx} (hk : m.Kept mem) (hd : dAtA.Valid mem) (i : Nat) :
    (∀ mem1 m1 j,
      StoredRequest.unmarshalField ctx spare dAtA (mem, m) i = .ok ((mem1, m1), j) →
      Request.unmarshalField ctx (Mem.read mem dAtA) (m.val mem) i = .ok (m1.val mem1, j) ∧
      m1.Kept mem1 ∧ Mem.Frame mem m.slices mem1 m1.slices) ∧
    (∀ e, StoredRequest.unmarshalField ctx spare dAtA (mem, m) i = .error e →
      Request.unmarshalField ctx (Mem.read mem dAtA) (m.val mem) i = .error e) := by
  unfold StoredRequest.unmarshalField Request.unmarshalField
  simp only
  cases readTag .Request (Mem.read mem dAtA) i with
  | error e0 =>
    simp only
    exact ⟨fun _ _ _ h => (by cases h), fun e h => Res_error_cast h⟩
  | ok r =>
    obtain ⟨fieldNum, wireType, j0⟩ := r
    simp only
    by_cases h1 : fieldNum = 1
    · simp only [if_pos h1]
      by_cases hw : wireType ≠ 2
      · simp only [if_pos hw]
        exact ⟨fun _ _ _ h => (by cases h), fun e h => Res_error_cast h⟩
      · simp only [if_neg hw]
        cases readLengthDelimited (Mem.read mem dAtA) j0 with
        | error e0 =>
          simp only
          exact ⟨fun _ _ _ h => (by cases h), fun e h => Res_error_cast h⟩
        | ok r =>
          obtain ⟨s, post⟩ := r
          simp only
          have hc : (m.val mem).Context = m.Context := rfl
          rw [hc]
          cases ctx.Unmarshal (m.Context.getD ctx.zero) s with
          | error e0 =>
            simp only
            exact ⟨fun _ _ _ h => (by cases h), fun e h => Res_error_cast h⟩
          | ok c =>
            simp only
            refine ⟨fun mem1 m1 j h => ?_, fun e h => (by cases h)⟩
            cases h
            exact ⟨rfl, hk, Mem_frame_refl _ _⟩
    · simp only [if_neg h1]
      by_cases h2 : fieldNum = 2
      · simp only [if_pos h2]
        by_cases hw : wireType ≠ 0
        · simp only [if_pos hw]
          exact ⟨fun _ _ _ h => (by cases h), fun e h => Res_error_cast h⟩
        · simp only [if_neg hw]
          cases decodeVarint (Mem.read mem dAtA) j0 with
          | error e0 =>
            simp only
            exact ⟨fun _ _ _ h => (by cases h), fun e h => Res_error_cast h⟩
          | ok r =>
            obtain ⟨raw, j⟩ := r
            simp only
            refine ⟨fun mem1 m1 j h => ?_, fun e h => (by cases h)⟩
            cases h
            exact ⟨rfl, hk, Mem_frame_refl _ _⟩
      · simp only [if_neg h2]
        by_cases h3 : fieldNum = 3
        · simp only [if_pos h3]
          by_cases hw : wireType ≠ 2
          · simp only [if_pos hw]
            exact ⟨fun _ _ _ h => (by cases h), fun e h => Res_error_cast h⟩
          · simp only [if_neg hw]
            cases readLengthDelimited (Mem.read mem dAtA) j0 with
            | error e0 =>
              simp only
              exact ⟨fun _ _ _ h => (by cases h), fun e h => Res_error_cast h⟩
            | ok r =>
              obtain ⟨s, post⟩ := r
              simp only
              obtain ⟨a, b, c⟩ :=
                StoredRequest_store_data hk (Mem_assign_stores spare s hk.1.1)
              refine ⟨fun mem1 m1 j h => ?_, fun e h => (by cases h)⟩
              cases h
              exact ⟨by rw [a], b, c⟩
        · simp only [if_neg h3]
          by_cases h4 : fieldNum = 4
          · simp only [if_pos h4]
            by_cases hw : wireType ≠ 2
            · simp only [if_pos hw]
              exact ⟨fun _ _ _ h => (by cases h), fun e h => Res_error_cast h⟩
            · simp only [if_neg hw]
              cases hrl : readLengthDelimited (Mem.read mem dAtA) j0 with
              | error e0 =>
                simp only
                exact ⟨fun _ _ _ h => (by cases h), fun e h => Res_error_cast h⟩
              | ok r =>
                obtain ⟨s, post⟩ := r
                simp only
                obtain ⟨sv, sr⟩ := readLengthDelimited_sub hd hrl
                obtain ⟨nok, nerr⟩ := StoredKeyRange_Unmarshal_val spare
                  (StoredKeyRange_zero_kept mem) sv (StoredKeyRange_zero_apart _)
                rw [sr, StoredKeyRange_zero_val] at nok nerr
                cases hn : StoredKeyRange.Unmarshal spare (dAtA.sub (post - s.length) post)
                    (mem, StoredKeyRange.zero) with
                | error e0 =>
                  rw [nerr e0 hn]
                  simp only
                  exact ⟨fun _ _ _ h => (by cases h), fun e h => Res_error_cast h⟩
                | ok q =>
                  obtain ⟨mem2, r2⟩ := q
                  obtain ⟨n1, n2, n3⟩ := nok mem2 r2 hn
                  rw [n1]
                  simp only
                  obtain ⟨a, b, c⟩ := StoredRequest_store_range hk n2 n3
                  refine ⟨fun mem1 m1 j h => ?_, fun e h => (by cases h)⟩
                  cases h
                  exact ⟨by rw [a], b, c⟩
          · simp only [if_neg h4]
            cases skipUnknown (Mem.read mem dAtA) i with
            | error e0 =>
              simp only
              exact ⟨fun _ _ _ h => (by cases h), fun e h => Res_error_cast h⟩
            | ok r =>
              obtain ⟨s, j⟩ := r
              simp only
              obtain ⟨a, b, c⟩ :=
                StoredRequest_store_tail hk (Mem_append_stores spare s hk.1.2)
              refine ⟨fun mem1 m1 j h => ?_, fun e h => (by cases h)⟩
              cases h
              exact ⟨by rw [a]; rfl, b, c⟩

theorem StoredRequest_loop_val (spare : Nat → Nat → Nat) (dAtA : GoSlice) (d : List Byte)
    (l : Nat) : ∀ (fuel : Nat) (mem : Mem) (m : StoredRequest Ctx) (i : Nat),
    m.Kept mem → dAtA.Valid mem → (∀ s ∈ m.slices, s.Apart dAtA) → Mem.read mem dAtA = d →
    (∀ mem1 m1,
      unmarshalLoop (StoredRequest.unmarshalField ctx spare dAtA) l fuel (mem, m) i =
        .ok (mem1, m1) →
      unmarshalLoop (Request.unmarshalField ctx d) l fuel (m.val mem) i = .ok (m1.val mem1) ∧
      m1.Kept mem1 ∧ Mem.Frame mem m.slices mem1 m1.slices) ∧
    (∀ e,
      unmarshalLoop (StoredRequest.unmarshalField ctx spare dAtA) l fuel (mem, m) i =
        .error e →
      unmarshalLoop (Request.unmarshalField ctx d) l fuel (m.val mem) i = .error e) := by
  intro fuel
  induction fuel with
  | zero =>
    intro mem m i hk _ _ _
    simp only [unmarshalLoop]
    by_cases h1 : i < l
    · simp only [if_pos h1]
      exact ⟨fun _ _ h => (by cases h), fun e h => Res_error_cast h⟩
    · simp only [if_neg h1]
      by_cases h2 : i > l
      · simp only [if_pos h2]
        exact ⟨fun _ _ h => (by cases h), fun e h => Res_error_cast h⟩
      · simp only [if_neg h2]
        refine ⟨fun mem1 m1 h => ?_, fun e h => (by cases h)⟩
        cases h
        exact ⟨rfl, hk, Mem_frame_refl _ _⟩
  | succ fuel ih =>
    intro mem m i hk hd hap hr
    simp only [unmarshalLoop]
    by_cases h1 : i < l
    · simp only [if_pos h1]
      obtain ⟨sok, serr⟩ := StoredRequest_unmarshalField_val ctx spare hk hd i
      rw [hr] at sok serr
      cases hs : StoredRequest.unmarshalField ctx spare dAtA (mem, m) i with
      | error e0 =>
        rw [serr e0 hs]
        simp only
        exact ⟨fun _ _ h => (by cases h), fun e h => Res_error_cast h⟩
      | ok r =>
        obtain ⟨⟨mem2, m2⟩, j⟩ := r
        obtain ⟨a, b, c⟩ := sok mem2 m2 j hs
        rw [a]
        simp only
        obtain ⟨d1, d2, d3⟩ := c dAtA hd hap
        obtain ⟨lok, lerr⟩ := ih mem2 m2 j b d1 d3 (d2.trans hr)
        refine ⟨fun mem1 m1 h => ?_, lerr⟩
        obtain ⟨x, y, z⟩ := lok mem1 m1 h
        exact ⟨x, y, Mem_frame_trans c z⟩
    · simp only [if_neg h1]
      by_cases h2 : i > l
      · simp only [if_pos h2]
        exact ⟨fun _ _ h => (by cases h), fun e h => Res_error_cast h⟩
      · simp only [if_neg h2]
        refine ⟨fun mem1 m1 h => ?_, fun e h => (by cases h)⟩
        cases h
        exact ⟨rfl, hk, Mem_frame_refl _ _⟩

theorem StoredRequest_owned_kept {mem : Mem} {m : StoredRequest Ctx} {dAtA : GoSlice}
    (h : m.Owned mem dAtA) :
    m.Kept mem ∧ dAtA.Valid mem ∧ ∀ s ∈ m.slices, s.Apart dAtA := by
  obtain ⟨⟨v1, v2, v3⟩, ⟨a, b1, b2⟩, hrs⟩ := h
  refine ⟨⟨⟨v1, v2⟩, a, hrs⟩, v3, ?_⟩
  simp only [StoredRequest.slices, List.mem_cons, List.mem_singleton, List.not_mem_nil,
    or_false, forall_eq_or_imp, forall_eq]
  exact ⟨b1, b2⟩

/-- On a receiver and an input that do not overlap, `(m *Request) Unmarshal` does on the
values of the byte fields what `Request.Unmarshal` says: the same result, the same error. -/
theorem StoredRequest_Unmarshal_val (spare : Nat → Nat → Nat) {mem : Mem}
    {m : StoredRequest Ctx} {dAtA : GoSlice} (hk : m.Kept mem) (hd : dAtA.Valid mem)
    (hap : ∀ s ∈ m.slices, s.Apart dAtA) :
    (∀ mem1 m1, StoredRequest.Unmarshal ctx spare dAtA (mem, m) = .ok (mem1, m1) →
      Request.Unmarshal ctx (m.val mem) (Mem.read mem dAtA) = .ok (m1.val mem1) ∧
      m1.Kept mem1 ∧ Mem.Frame mem m.slices mem1 m1.slices) ∧
    (∀ e, StoredRequest.Unmarshal ctx spare dAtA (mem, m) = .error e →
      Request.Unmarshal ctx (m.val mem) (Mem.read mem dAtA) = .error e) := by
  have hl := Mem_read_length hd
  unfold StoredRequest.Unmarshal Request.Unmarshal
  rw [hl]
  exact StoredRequest_loop_val ctx spare dAtA _ dAtA.len dAtA.len mem m 0 hk hd hap rfl

end StoredRequestDecode

/-! ## The claim on the receiver -/

/-- The claim C22 fails for a receiver whose fields share an array.  With `buf = {09, 08}`,
`Start = buf[:1]` and `End = buf[:2]`, the input `0a 01 41` has no field 2 and is accepted,
and `End`, which read `09 08` before the call, reads `41 08` after it: the assignment of
`Start` wrote into the array of `End`.  In a `Request` with `Data = buf[:1]` and the tail
`buf[:2]`, the input `1a 01 41` has no unknown field, and the tail reads `41 08` after the
call. -/
theorem shared_receiver_counterexample :
    (StoredKeyRange.Unmarshal (fun _ _ => 0) ⟨some 1, 0, 3, 3⟩
        ([[0x09, 0x08], [0x0a, 0x01, 0x41]],
          ⟨⟨some 0, 0, 1, 2⟩, ⟨some 0, 0, 2, 2⟩, GoSlice.nil⟩) =
      .ok ([[0x41, 0x08], [0x0a, 0x01, 0x41]],
          ⟨⟨some 0, 0, 1, 2⟩, ⟨some 0, 0, 2, 2⟩, GoSlice.nil⟩) ∧
      2 ∉ (fieldsOf .KeyRange KeyRange.schema
        (Mem.read [[0x09, 0x08], [0x0a, 0x01, 0x41]] ⟨some 1, 0, 3, 3⟩)).map Prod.fst ∧
      Mem.read [[0x09, 0x08], [0x0a, 0x01, 0x41]] ⟨some 0, 0, 2, 2⟩ = [0x09, 0x08] ∧
      Mem.read [[0x41, 0x08], [0x0a, 0x01, 0x41]] ⟨some 0, 0, 2, 2⟩ = [0x41, 0x08]) ∧
    (StoredRequest.Unmarshal emptyCollaborator (fun _ _ => 0) ⟨some 1, 0, 3, 3⟩
        ([[0x09, 0x08], [0x1a, 0x01, 0x41]],
          ⟨none, 0, ⟨some 0, 0, 1, 2⟩, [], ⟨some 0, 0, 2, 2⟩⟩) =
      .ok ([[0x41, 0x08], [0x1a, 0x01, 0x41]],
          ⟨none, 0, ⟨some 0, 0, 1, 2⟩, [], ⟨some 0, 0, 2, 2⟩⟩) ∧
      unknownOf (fieldsOf .Request Request.schema
        (Mem.read [[0x09, 0x08], [0x1a, 0x01, 0x41]] ⟨some 1, 0, 3, 3⟩)) = [] ∧
      Mem.read [[0x09, 0x08], [0x1a, 0x01, 0x41]] ⟨some 0, 0, 2, 2⟩ = [0x09, 0x08] ∧
      Mem.read [[0x41, 0x08], [0x1a, 0x01, 0x41]] ⟨some 0, 0, 2, 2⟩ = [0x41, 0x08]) := by
  decide

/-- C22, for a receiver whose slices do not overlap: `Unmarshal` adds to its receiver.  Take
a `KeyRange` or `Request` receiver `m0` whose byte fields, spare capacity included, overlap
neither one another, nor the input, nor (for a `Request`) the byte fields of the elements of
`ranges`, and an input that the call accepts.  After the call, a singular field
whose number does not occur among the fields of the input reads as it did in `m0`; the ranges
read as those of `m0` followed by one element per occurrence of field 4, decoded into a fresh
`KeyRange`; the tail reads as that of `m0` followed by the raw bytes of the unknown fields of
the input, in order.  A fresh message is such a receiver, with every field at its zero value.
The empty input is accepted and changes neither the receiver nor the arrays, whatever the
receiver shares. -/
theorem Unmarshal_keeps_owned_receiver :
    (∀ (spare : Nat → Nat → Nat) (mem : Mem) (m0 : StoredKeyRange) (dAtA : GoSlice) (mem1 : Mem)
        (m1 : StoredKeyRange),
      m0.Owned mem dAtA → StoredKeyRange.Unmarshal spare dAtA (mem, m0) = .ok (mem1, m1) →
      (1 ∉ (fieldsOf .KeyRange KeyRange.schema (Mem.read mem dAtA)).map Prod.fst →
        Mem.read mem1 m1.Start = Mem.read mem m0.Start) ∧
      (2 ∉ (fieldsOf .KeyRange KeyRange.schema (Mem.read mem dAtA)).map Prod.fst →
        Mem.read mem1 m1.End = Mem.read mem m0.End) ∧
      Mem.read mem1 m1.XXX_unrecognized =
        Mem.read mem m0.XXX_unrecognized ++
          unknownOf (fieldsOf .KeyRange KeyRange.schema (Mem.read mem dAtA))) ∧
    (∀ (Ctx : Type) (ctx : Collaborator Ctx) (spare : Nat → Nat → Nat) (mem : Mem)
        (m0 : StoredRequest Ctx) (dAtA : GoSlice) (mem1 : Mem) (m1 : StoredRequest Ctx),
      m0.Owned mem dAtA → StoredRequest.Unmarshal ctx spare dAtA (mem, m0) = .ok (mem1, m1) →
      (1 ∉ (fieldsOf .Request Request.schema (Mem.read mem dAtA)).map Prod.fst →
        m1.Context = m0.Context) ∧
      (2 ∉ (fieldsOf .Request Request.schema (Mem.read mem dAtA)).map Prod.fst →
        m1.Tp = m0.Tp) ∧
      (3 ∉ (fieldsOf .Request Request.schema (Mem.read mem dAtA)).map Prod.fst →
        Mem.read mem1 m1.Data = Mem.read mem m0.Data) ∧
      (∃ rs, List.Forall₂ (fun s r => KeyRange.Unmarshal KeyRange.zero s = .ok r)
          (bytesOf 4 (fieldsOf .Request Request.schema (Mem.read mem dAtA))) rs ∧
        m1.Ranges.map (StoredKeyRange.val mem1) =
          m0.Ranges.map (StoredKeyRange.val mem) ++ rs) ∧
      Mem.read mem1 m1.XXX_unrecognized =
        Mem.read mem m0.XXX_unrecognized ++
          unknownOf (fieldsOf .Request Request.schema (Mem.read mem dAtA))) ∧
    (∀ (mem : Mem) (dAtA : GoSlice), dAtA.Valid mem →
      StoredKeyRange.zero.Owned mem dAtA ∧ StoredKeyRange.zero.val mem = KeyRange.zero) ∧
    (∀ (Ctx : Type) (mem : Mem) (dAtA : GoSlice), dAtA.Valid mem →
      (StoredRequest.zero : StoredRequest Ctx).Owned mem dAtA ∧
        (StoredRequest.zero : StoredRequest Ctx).val mem = Request.zero) ∧
    (∀ (spare : Nat → Nat → Nat) (mem : Mem) (m : StoredKeyRange) (dAtA : GoSlice),
      dAtA.len = 0 → StoredKeyRange.Unmarshal spare dAtA (mem, m) = .ok (mem, m)) ∧
    (∀ (Ctx : Type) (ctx : Collaborator Ctx) (spare : Nat → Nat → Nat) (mem : Mem)
        (m : StoredRequest Ctx) (dAtA : GoSlice),
      dAtA.len = 0 → StoredRequest.Unmarshal ctx spare dAtA (mem, m) = .ok (mem, m)) := by
  refine ⟨?_, ?_, ?_, ?_, ?_, ?_⟩
  · intro spare mem m0 dAtA mem1 m1 hown h
    obtain ⟨hk, hd, hap⟩ := StoredKeyRange_owned_kept hown
    obtain ⟨hv, -, -⟩ := (StoredKeyRange_Unmarshal_val spare hk hd hap).1 mem1 m1 h
    exact Unmarshal_keeps_values.1 (m0.val mem) (m1.val mem1) (Mem.read mem dAtA) hv
  · intro Ctx ctx spare mem m0 dAtA mem1 m1 hown h
    obtain ⟨hk, hd, hap⟩ := StoredRequest_owned_kept hown
    obtain ⟨hv, -, -⟩ := (StoredRequest_Unmarshal_val ctx spare hk hd hap).1 mem1 m1 h
    exact Unmarshal_keeps_values.2.1 Ctx ctx (m0.val mem) (m1.val mem1) (Mem.read mem dAtA) hv
  · intro mem dAtA hd
    have hz : (GoSlice.nil).Valid mem := ⟨Nat.le_refl _, Nat.zero_le _⟩
    exact ⟨⟨⟨hz, hz, hz, hd⟩, ⟨Or.inl rfl, Or.inl rfl, Or.inl rfl⟩,
      ⟨Or.inl rfl, Or.inl rfl, Or.inl rfl⟩⟩, rfl⟩
  · intro Ctx mem dAtA hd
    have hz : (GoSlice.nil).Valid mem := ⟨Nat.le_refl _, Nat.zero_le _⟩
    refine ⟨⟨⟨hz, hz, hd⟩, ⟨Or.inl rfl, Or.inl rfl, Or.inl rfl⟩, ?_⟩, rfl⟩
    intro r hr
    cases hr
  · intro spare mem m dAtA hl
    unfold StoredKeyRange.Unmarshal
    rw [hl]
    rfl
  · intro Ctx ctx spare mem m dAtA hl
    unfold StoredRequest.Unmarshal
    rw [hl]
    rfl

theorem Unmarshal_keeps_owned_receiver_witness :
    (StoredKeyRange.Owned [[0x09, 0x00, 0x08], [0x12, 0x01, 0x42, 0x18, 0x05]]
        ⟨⟨some 0, 0, 1, 2⟩, ⟨some 0, 2, 1, 1⟩, GoSlice.nil⟩ ⟨some 1, 0, 5, 5⟩ ∧
      StoredKeyRange.Unmarshal (fun _ n => n) ⟨some 1, 0, 5, 5⟩
          ([[0x09, 0x00, 0x08], [0x12, 0x01, 0x42, 0x18, 0x05]],
            ⟨⟨some 0, 0, 1, 2⟩, ⟨some 0, 2, 1, 1⟩, GoSlice.nil⟩) =
        .ok ([[0x09, 0x00, 0x42], [0x12, 0x01, 0x42, 0x18, 0x05], [0x18, 0x05, 0, 0]],
          ⟨⟨some 0, 0, 1, 2⟩, ⟨some 0, 2, 1, 1⟩, ⟨some 2, 0, 2, 4⟩⟩)) ∧
    ((1 ∉ (fieldsOf .KeyRange KeyRange.schema
          (Mem.read [[0x09, 0x00, 0x08], [0x12, 0x01, 0x42, 0x18, 0x05]]
            ⟨some 1, 0, 5, 5⟩)).map Prod.fst →
        Mem.read [[0x09, 0x00, 0x42], [0x12, 0x01, 0x42, 0x18, 0x05], [0x18, 0x05, 0, 0]]
            ⟨some 0, 0, 1, 2⟩ =
          Mem.read [[0x09, 0x00, 0x08], [0x12, 0x01, 0x42, 0x18, 0x05]] ⟨some 0, 0, 1, 2⟩) ∧
      (2 ∉ (fieldsOf .KeyRange KeyRange.schema
          (Mem.read [[0x09, 0x00, 0x08], [0x12, 0x01, 0x42, 0x18, 0x05]]
            ⟨some 1, 0, 5, 5⟩)).map Prod.fst →
        Mem.read [[0x09, 0x00, 0x42], [0x12, 0x01, 0x42, 0x18, 0x05], [0x18, 0x05, 0, 0]]
            ⟨some 0, 2, 1, 1⟩ =
          Mem.read [[0x09, 0x00, 0x08], [0x12, 0x01, 0x42, 0x18, 0x05]] ⟨some 0, 2, 1, 1⟩) ∧
      Mem.read [[0x09, 0x00, 0x42], [0x12, 0x01, 0x42, 0x18, 0x05], [0x18, 0x05, 0, 0]]
          ⟨some 2, 0, 2, 4⟩ =
        Mem.read [[0x09, 0x00, 0x08], [0x12, 0x01, 0x42, 0x18, 0x05]] GoSlice.nil ++
          unknownOf (fieldsOf .KeyRange KeyRange.schema
            (Mem.read [[0x09, 0x00, 0x08], [0x12, 0x01, 0x42, 0x18, 0x05]]
              ⟨some 1, 0, 5, 5⟩))) :=
  ⟨⟨by decide, by decide⟩,
    Unmarshal_keeps_owned_receiver.1 (fun _ n => n)
      [[0x09, 0x00, 0x08], [0x12, 0x01, 0x42, 0x18, 0x05]]
      ⟨⟨some 0, 0, 1, 2⟩, ⟨some 0, 2, 1, 1⟩, GoSlice.nil⟩ ⟨some 1, 0, 5, 5⟩
      [[0x09, 0x00, 0x42], [0x12, 0x01, 0x42, 0x18, 0x05], [0x18, 0x05, 0, 0]]
      ⟨⟨some 0, 0, 1, 2⟩, ⟨some 0, 2, 1, 1⟩, ⟨some 2, 0, 2, 4⟩⟩ (by decide) (by decide)⟩

end MppProcessor
